import Mathlib

/-!
# FAT file-system manager (`vfs.c`): shallow embedding

The image is one mapping `[superblock | FAT | data blocks]`.  The embedding keeps
the three regions apart:

* `superblock` : the six `int` fields of `struct superblock_entry`;
* `fat`        : the table `fat[i]`, a function from index to `int`;
* `blocks`     : the data region as bytes, a function from byte offset to the
                 value of the `unsigned char` stored there.

An access outside `fat[0 .. FAT_ENTRIES)` or outside the data region is undefined
behaviour in C; the embedding returns `none` for it.  A `while` loop that follows
the FAT runs on fuel `FAT_ENTRIES + 1`: a walk that stays inside the table and
takes more steps than the table has entries has entered a cycle, so the C loop
does not terminate, and the embedding returns `none` as well.

`struct directory_entry` is laid out as on the usual ABIs (4-byte `int`, aligned
to 4, little endian): `type` at offset 0, `name` at 1..20, `day`, `month`, `year`
at 21, 22, 23, `size` at 24..27, `first_block` at 28..31; `sizeof` is 32.

Strings (`char *` arguments) are given as the list of their characters, without
the terminating NUL.
-/

namespace VFS

/-! ## Constants and macros -/

def CHECK_NUMBER : Int := 9999
def TYPE_DIR : Int := 68
def TYPE_FILE : Int := 70
def MAX_NAME_LENGHT : Int := 20

/-- The macro `FAT_ENTRIES(TYPE)`. -/
def FAT_ENTRIES (t : Int) : Int :=
  if t = 7 then 128 else if t = 8 then 256 else if t = 9 then 512 else 1024

/-- The value of `sizeof(dir_entry)`. -/
def sizeof_dir_entry : Int := 32

/-- Conversion of an `int` to `unsigned long` (`size_t`). -/
def toU64 (x : Int) : Int := x % 18446744073709551616

/-- Conversion of an `int` to `unsigned int`. -/
def toU32 (x : Int) : Int := x % 4294967296

/-- Conversion to `int` (two's complement, 32 bits). -/
def toI32 (x : Int) : Int :=
  if x % 4294967296 < 2147483648 then x % 4294967296 else x % 4294967296 - 4294967296

structure superblock where
  check_number : Int
  block_size : Int
  fat_type : Int
  root_block : Int
  free_block : Int
  n_free_blocks : Int
deriving DecidableEq

/-- The mapped image together with the global `current_dir`. -/
structure FS where
  sb : superblock
  fat : Int → Int
  blocks : Int → Int
  current_dir : Int

/-- The fields of `struct tm` that `init_dir_entry` reads from `localtime`. -/
structure tm where
  tm_mday : Int
  tm_mon : Int
  tm_year : Int
deriving DecidableEq

/-- The lines the program prints, one constructor per `printf` of a command. -/
inductive Msg
  | mkdir_name_too_long | mkdir_disk_full | mkdir_entry_exists
  | cd_no_entry
  | rmdir_not_a_directory | rmdir_not_empty | rmdir_no_entry
  | get_exists | get_not_found | get_not_regular | get_disk_full
  | put_not_a_file | put_not_found
  | cat_not_a_file | cat_not_found
  | cp_not_found | cp_overwriting | cp_disk_full
  | mv_not_found
  | rm_not_found
deriving DecidableEq, Repr

/-- A host path as `stat` and `open` see it. -/
inductive HostFile
  | missing
  | not_regular
  | regular (bytes : List Int)

/-! ## Memory -/

/-- The assignment `m[a] = v`. -/
def store (m : Int → Int) (a v : Int) : Int → Int :=
  fun x => if x = a then v else m x

/-- Writes `len` bytes taken from `src` (indexed from 0) at `dst`. -/
def store_bytes (m : Int → Int) (dst len : Int) (src : Int → Int) : Int → Int :=
  fun x => if dst ≤ x ∧ x < dst + len then src (x - dst) else m x

/-- Reads an `int` stored at byte offset `a`. -/
def load_int (m : Int → Int) (a : Int) : Int :=
  toI32 (m a + 256 * m (a + 1) + 65536 * m (a + 2) + 16777216 * m (a + 3))

/-- Writes an `int` at byte offset `a`. -/
def store_int (m : Int → Int) (a v : Int) : Int → Int :=
  store (store (store (store m a (toU32 v % 256)) (a + 1) (toU32 v / 256 % 256))
    (a + 2) (toU32 v / 65536 % 256)) (a + 3) (toU32 v / 16777216 % 256)

/-- The macro `DIR_ENTRIES_PER_BLOCK`, an `unsigned long`. -/
def DIR_ENTRIES_PER_BLOCK (s : FS) : Int := toU64 s.sb.block_size / sizeof_dir_entry

/-- The value of `x % DIR_ENTRIES_PER_BLOCK` for an `int` or `unsigned long` `x`; division by
zero traps. -/
def umod (s : FS) (x : Int) : Option Int :=
  if DIR_ENTRIES_PER_BLOCK s = 0 then none else some (toU64 x % DIR_ENTRIES_PER_BLOCK s)

/-- Whether `b` indexes the FAT (and so names a data block). -/
def valid_block (s : FS) (b : Int) : Prop := 0 ≤ b ∧ b < FAT_ENTRIES s.sb.fat_type

instance (s : FS) (b : Int) : Decidable (valid_block s b) := by
  unfold valid_block; infer_instance

/-- The macro `BLOCK(N)` as a byte offset into the data region. -/
def BLOCK (s : FS) (n : Int) : Int := n * s.sb.block_size

/-- Size in bytes of the data region. -/
def data_size (s : FS) : Int := FAT_ENTRIES s.sb.fat_type * s.sb.block_size

/-- Address of `((dir_entry *) BLOCK(b))[slot]`. -/
def entry_addr (s : FS) (b slot : Int) : Int := BLOCK s b + sizeof_dir_entry * slot

def e_type (s : FS) (a : Int) : Int := s.blocks a
def e_day (s : FS) (a : Int) : Int := s.blocks (a + 21)
def e_month (s : FS) (a : Int) : Int := s.blocks (a + 22)
def e_year (s : FS) (a : Int) : Int := s.blocks (a + 23)
def e_size (s : FS) (a : Int) : Int := load_int s.blocks (a + 24)
def e_first_block (s : FS) (a : Int) : Int := load_int s.blocks (a + 28)

/-! ## Allocator -/

/-- The function `get_free_block`: the state after the call and the value returned. -/
def get_free_block (s : FS) : Option (FS × Int) :=
  if s.sb.n_free_blocks = 0 then some (s, -1)
  else
    let free_block := s.sb.free_block
    if valid_block s free_block then
      some ({ s with
                sb := { s.sb with free_block := s.fat free_block,
                                  n_free_blocks := s.sb.n_free_blocks - 1 },
                fat := store s.fat free_block (-1) }, free_block)
    else none

/-- The function `free_block`. -/
def free_block (s : FS) (block : Int) : Option FS :=
  if valid_block s block then
    some { s with
             fat := store s.fat block s.sb.free_block,
             sb := { s.sb with free_block := block, n_free_blocks := s.sb.n_free_blocks + 1 } }
  else none

/-- The loop `while(fat[b] != -1) b = fat[b];`. -/
def last_of_chain (s : FS) : Nat → Int → Option Int
  | 0, _ => none
  | fuel + 1, b =>
    if valid_block s b then
      if s.fat b = -1 then some b else last_of_chain s fuel (s.fat b)
    else none

/-- Fuel for a loop that follows the FAT. -/
def fat_fuel (s : FS) : Nat := (FAT_ENTRIES s.sb.fat_type).toNat + 1

/-- The blocks met from `b` along the FAT up to the end mark `-1`. -/
def chain_from (s : FS) : Nat → Int → Option (List Int)
  | 0, _ => none
  | fuel + 1, b =>
    if b = -1 then some []
    else if valid_block s b then (chain_from s fuel (s.fat b)).map (fun l => b :: l)
    else none

/-- The chain that starts at `b`. -/
def chain (s : FS) (b : Int) : Option (List Int) := chain_from s (fat_fuel s) b

/-- The free list: the chain that starts at `sb->free_block`. -/
def free_list (s : FS) : Option (List Int) := chain s s.sb.free_block

/-! ## Strings and directory entries -/

/-- Whether `strcmp(p, name) == 0` for the string stored at byte offset `p` of the data
region: the bytes at `p` are the characters of `name` followed by NUL.  The comparison
stops at the first difference. -/
def strcmp_eq (s : FS) : Int → List Int → Option Bool
  | p, [] => if 0 ≤ p ∧ p < data_size s then some (decide (s.blocks p = 0)) else none
  | p, c :: cs =>
    if 0 ≤ p ∧ p < data_size s then
      if s.blocks p = c then strcmp_eq s (p + 1) cs else some false
    else none

/-- Index of the first NUL of the buffer `buf` at or after `i`, looking at `fuel` bytes. -/
def strlen_from (buf : Int → Int) : Nat → Int → Option Int
  | 0, _ => none
  | fuel + 1, i => if buf i = 0 then some i else strlen_from buf fuel (i + 1)

/-- The call `strcpy(dst, src)` into the data region, the source being the characters of
`src` followed by NUL. -/
def strcpy_lit (s : FS) (dst : Int) (src : List Int) : Option FS :=
  if 0 ≤ dst ∧ dst + src.length < data_size s then
    some { s with blocks := store_bytes s.blocks dst (src.length + 1)
                              (fun i => (src ++ [0]).getD i.toNat 0) }
  else none

/-- The function `init_dir_entry` applied to the entry at byte offset `a`. -/
def init_dir_entry (s : FS) (now : tm) (a : Int) (type : Int) (name : List Int)
    (size first_block : Int) : Option FS :=
  if 0 ≤ a ∧ a + sizeof_dir_entry ≤ data_size s then
    let s1 := { s with blocks := store s.blocks a type }
    match strcpy_lit s1 (a + 1) name with
    | none => none
    | some s2 =>
      let b1 := store s2.blocks (a + 21) (now.tm_mday % 256)
      let b2 := store b1 (a + 22) ((now.tm_mon + 1) % 256)
      let b3 := store b2 (a + 23) (now.tm_year % 256)
      let b4 := store_int b3 (a + 24) size
      let b5 := store_int b4 (a + 28) first_block
      some { s2 with blocks := b5 }
  else none

/-- The function `init_dir_block`. -/
def init_dir_block (s : FS) (now : tm) (block parent_block : Int) : Option FS :=
  if valid_block s block then
    match init_dir_entry s now (entry_addr s block 0) TYPE_DIR [46] 2 block with
    | none => none
    | some s1 => init_dir_entry s1 now (entry_addr s block 1) TYPE_DIR [46, 46] 0 parent_block
  else none

/-- The `for` loop of `find_dir_entry` over the entries of one block: `k` entries of the
block are left, `p` is `aux_dir_entry`, `cnt` is `aux_counter`.  Gives the entry found, if
any, and the counter. -/
def find_dir_entry_for (s : FS) (name : List Int) (size : Int) :
    Nat → Int → Int → Option (Option Int × Int)
  | 0, _, cnt => some (none, cnt)
  | k + 1, p, cnt =>
    if cnt < toU32 size then
      match strcmp_eq s (p + 1) name with
      | none => none
      | some true => some (some p, cnt)
      | some false => find_dir_entry_for s name size k (p + sizeof_dir_entry) (cnt + 1)
    else some (none, cnt)

/-- The `while(aux_dir != -1)` loop of `find_dir_entry`. -/
def find_dir_entry_while (s : FS) (name : List Int) (size : Int) :
    Nat → Int → Int → Option (Option Int)
  | 0, _, _ => none
  | fuel + 1, aux_dir, cnt =>
    if aux_dir = -1 then some none
    else if valid_block s aux_dir then
      match find_dir_entry_for s name size (toU32 (DIR_ENTRIES_PER_BLOCK s)).toNat
              (BLOCK s aux_dir) cnt with
      | none => none
      | some (some p, _) => some (some p)
      | some (none, cnt1) => find_dir_entry_while s name size fuel (s.fat aux_dir) cnt1
    else none

/-- The function `find_dir_entry`; `base` is the byte offset of `base_dir_entry`.  The result
is the byte offset of the entry found, `some none` standing for `NULL`. -/
def find_dir_entry (s : FS) (base : Int) (name : List Int) : Option (Option Int) :=
  if 0 ≤ base ∧ base + sizeof_dir_entry ≤ data_size s then
    find_dir_entry_while s name (e_size s base) (fat_fuel s) (e_first_block s base) 0
  else none

/-! ## Formatting -/

/-- The function `init_superblock`. -/
def init_superblock (block_size fat_type : Int) : superblock :=
  { check_number := CHECK_NUMBER, block_size := block_size, fat_type := fat_type,
    root_block := 0, free_block := 1, n_free_blocks := FAT_ENTRIES fat_type - 1 }

/-- The loop `for (i = ..; i < n; i++) fat[i] = i + 1;` of `init_fat`, `k` rounds left. -/
def init_fat_loop (fat : Int → Int) : Nat → Int → Int → Int
  | 0, _ => fat
  | k + 1, i => init_fat_loop (store fat i (i + 1)) k (i + 1)

/-- The function `init_fat`. -/
def init_fat (sb : superblock) (fat : Int → Int) : Int → Int :=
  store (init_fat_loop (store fat 0 (-1)) (sb.n_free_blocks - 1).toNat 1) sb.n_free_blocks (-1)

/-- The branch of `init_filesystem` that formats a new image: the file is created with
every byte zero, then the superblock, the FAT and the root directory are written and
`current_dir` is set to the root block. -/
def format (now : tm) (block_size fat_type : Int) : Option FS :=
  let sb := init_superblock block_size fat_type
  let s0 : FS := { sb := sb, fat := init_fat sb (fun _ => 0), blocks := fun _ => 0,
                   current_dir := 0 }
  match init_dir_block s0 now sb.root_block sb.root_block with
  | none => none
  | some s1 => some { s1 with current_dir := s1.sb.root_block }

/-! ## Directory commands -/

/-- The tail of `vfs_mkdir`, `vfs_get`, `vfs_cp` and `vfs_mv`: walk from `dir_block` to the
last block of the directory, take a new block when `n_entries % DIR_ENTRIES_PER_BLOCK == 0`
and write the new entry in slot `n_entries % DIR_ENTRIES_PER_BLOCK` of the tail. -/
def append_entry (s : FS) (now : tm) (dir_block n_entries : Int) (type : Int)
    (name : List Int) (size first_block : Int) : Option FS :=
  match last_of_chain s (fat_fuel s) dir_block, umod s n_entries with
  | some cur_block, some r =>
    if r = 0 then
      match get_free_block s with
      | none => none
      | some (s1, next_block) =>
        if valid_block s1 next_block then
          init_dir_entry { s1 with fat := store s1.fat cur_block next_block } now
            (entry_addr s1 next_block r) type name size first_block
        else none
    else init_dir_entry s now (entry_addr s cur_block r) type name size first_block
  | _, _ => none

/-- The statement `dir[0].size++` (or `--`) on the directory whose first block is `b`. -/
def add_dir_size (s : FS) (b : Int) (d : Int) : FS :=
  { s with blocks := store_int s.blocks (entry_addr s b 0 + 24)
                       (e_size s (entry_addr s b 0) + d) }

/-- The function `vfs_mkdir`. -/
def vfs_mkdir (s : FS) (now : tm) (nome_dir : List Int) : Option (FS × List Msg) :=
  if (nome_dir.length : Int) > MAX_NAME_LENGHT then some (s, [Msg.mkdir_name_too_long])
  else if valid_block s s.current_dir then
    let dir := entry_addr s s.current_dir 0
    let n_entries := e_size s dir
    match umod s n_entries with
    | none => none
    | some r =>
      if (if r = 0 then 1 else 0) + 1 > s.sb.n_free_blocks then some (s, [Msg.mkdir_disk_full])
      else
        match find_dir_entry s dir nome_dir with
        | none => none
        | some (some _) => some (s, [Msg.mkdir_entry_exists])
        | some none =>
          let s1 := add_dir_size s s.current_dir 1
          match get_free_block s1 with
          | none => none
          | some (s2, new_block) =>
            match init_dir_block s2 now new_block s2.current_dir with
            | none => none
            | some s3 =>
              match append_entry s3 now s3.current_dir n_entries TYPE_DIR nome_dir 0 new_block with
              | none => none
              | some s4 => some (s4, [])
  else none

/-- Where the entry loop stopped: the values of `i`, `cur_block`, `before_last_block` (kept
by `vfs_rmdir` only) and `block_i` at the `break` or `return`. -/
structure Hit where
  i : Int
  cur_block : Int
  before_last_block : Int
  block_i : Int
deriving DecidableEq

/-- The entry loop shared by the commands,
`for(i = 0; i < n_entries; i++) { if(i % DIR_ENTRIES_PER_BLOCK == 0 && i) { cur_block =
fat[cur_block]; dir = BLOCK(cur_block); } block_i = i % DIR_ENTRIES_PER_BLOCK; ... }`,
with `k` rounds left; `test` is the condition under which the body leaves the loop, given
the byte offset of `dir[block_i]`. -/
def scan_dir (s : FS) (test : Int → Option Bool) : Nat → Int → Int → Int → Option (Option Hit)
  | 0, _, _, _ => some none
  | k + 1, i, cur_block, before =>
    match umod s i with
    | none => none
    | some block_i =>
      let adv : Option (Int × Int) :=
        if block_i = 0 ∧ i ≠ 0 then
          if valid_block s cur_block then some (s.fat cur_block, cur_block) else none
        else some (cur_block, before)
      match adv with
      | none => none
      | some (cur, bef) =>
        if valid_block s cur then
          match test (entry_addr s cur block_i) with
          | none => none
          | some true => some (some ⟨i, cur, bef, block_i⟩)
          | some false => scan_dir s test k (i + 1) cur bef
        else none

/-- The test `strcmp(dir[block_i].name, name) == 0`. -/
def name_is (s : FS) (name : List Int) (a : Int) : Option Bool := strcmp_eq s (a + 1) name

/-- The test `dir[block_i].type == TYPE_FILE && strcmp(dir[block_i].name, name) == 0`. -/
def file_name_is (s : FS) (name : List Int) (a : Int) : Option Bool :=
  if e_type s a = TYPE_FILE then strcmp_eq s (a + 1) name else some false

/-- The entry loop run over the current directory from its first entry. -/
def scan_current (s : FS) (test : Int → Option Bool) (n_entries : Int) : Option (Option Hit) :=
  scan_dir s test n_entries.toNat 0 s.current_dir s.current_dir

/-- The value of `(n_entries - 1 + DIR_ENTRIES_PER_BLOCK) % DIR_ENTRIES_PER_BLOCK`, computed
in `unsigned long`. -/
def last_slot (s : FS) (n_entries : Int) : Option Int :=
  umod s (toU64 (n_entries - 1) + DIR_ENTRIES_PER_BLOCK s)

/-- The copy `dir_entry last_dir = last_dir_block[...]` of the entry at byte offset `a`:
the 32 bytes of the structure, indexed from 0. -/
def entry_copy (s : FS) (a : Int) : Int → Int := fun i => s.blocks (a + i)

/-- The seven assignments `dir[block_i].type = last_dir.type; strcpy(dir[block_i].name,
last_dir.name); ...; dir[block_i].first_block = last_dir.first_block;` on the entry at byte
offset `dst`.  The `strcpy` reads `last_dir.name` up to the first NUL; none inside the
structure is a read past the local variable. -/
def copy_entry (s : FS) (dst : Int) (last_dir : Int → Int) : Option FS :=
  match strlen_from last_dir 31 1 with
  | none => none
  | some z =>
    let b0 := store s.blocks dst (last_dir 0)
    let b1 := store_bytes b0 (dst + 1) z (fun i => last_dir (1 + i))
    let b2 := store b1 (dst + 21) (last_dir 21)
    let b3 := store b2 (dst + 22) (last_dir 22)
    let b4 := store b3 (dst + 23) (last_dir 23)
    let b5 := store_int b4 (dst + 24) (load_int last_dir 24)
    let b6 := store_int b5 (dst + 28) (load_int last_dir 28)
    some { s with blocks := b6 }

/-- The function `vfs_cd`. -/
def vfs_cd (s : FS) (nome_dir : List Int) : Option (FS × List Msg) :=
  match find_dir_entry s (entry_addr s s.current_dir 0) nome_dir with
  | none => none
  | some none => some (s, [Msg.cd_no_entry])
  | some (some p) => some ({ s with current_dir := e_first_block s p }, [])

/-- The function `vfs_rmdir`. -/
def vfs_rmdir (s : FS) (nome_dir : List Int) : Option (FS × List Msg) :=
  if valid_block s s.current_dir then
    let n_entries := e_size s (entry_addr s s.current_dir 0)
    match scan_current s (name_is s nome_dir) n_entries with
    | none => none
    | some none => some (s, [Msg.rmdir_no_entry])
    | some (some h) =>
      let e := entry_addr s h.cur_block h.block_i
      if e_type s e ≠ TYPE_DIR then some (s, [Msg.rmdir_not_a_directory])
      else if valid_block s (e_first_block s e) then
        if e_size s (entry_addr s (e_first_block s e) 0) ≠ 2 then
          some (s, [Msg.rmdir_not_empty])
        else
          match last_of_chain s (fat_fuel s) h.cur_block, last_slot s n_entries,
                umod s (n_entries - 1) with
          | some last_block, some slot, some r =>
            let last_dir := entry_copy s (entry_addr s last_block slot)
            let freed : Option FS :=
              if r = 0 then
                (free_block s last_block).map
                  (fun t => { t with fat := store t.fat h.before_last_block (-1) })
              else some s
            match freed with
            | none => none
            | some s1 =>
              match free_block s1 (e_first_block s1 e) with
              | none => none
              | some s2 =>
                match copy_entry s2 e last_dir with
                | none => none
                | some s3 => some (add_dir_size s3 s3.current_dir (-1), [])
          | _, _, _ => none
      else none
  else none

/-! ## File commands -/

/-- The loop `while(fat[next_block] != -1) { next_block = fat[next_block]; count++; }` of
`vfs_rm`: the last block of the chain and the number of blocks counted. -/
def count_chain (s : FS) : Nat → Int → Int → Option (Int × Int)
  | 0, _, _ => none
  | fuel + 1, next_block, count =>
    if valid_block s next_block then
      if s.fat next_block = -1 then some (next_block, count)
      else count_chain s fuel (s.fat next_block) (count + 1)
    else none

/-- The statements `sb->n_free_blocks += count; fat[next_block] = sb->free_block;
sb->free_block = dir[block_i].first_block;` of `vfs_rm`, which put the chain from `first` to
`last` in front of the free list. -/
def splice_free (s : FS) (first last count : Int) : FS :=
  { s with
      sb := { s.sb with n_free_blocks := s.sb.n_free_blocks + count, free_block := first },
      fat := store s.fat last s.sb.free_block }

/-- The function `vfs_rm`. -/
def vfs_rm (s : FS) (nome_fich : List Int) : Option (FS × List Msg) :=
  if valid_block s s.current_dir then
    let n_entries := e_size s (entry_addr s s.current_dir 0)
    match scan_current s (file_name_is s nome_fich) n_entries with
    | none => none
    | some none => some (s, [Msg.rm_not_found])
    | some (some h) =>
      let e := entry_addr s h.cur_block h.block_i
      match count_chain s (fat_fuel s) (e_first_block s e) 1 with
      | none => none
      | some (next_block, count) =>
        let s1 : FS := splice_free s (e_first_block s e) next_block count
        match last_of_chain s1 (fat_fuel s1) h.cur_block, last_slot s1 n_entries with
        | some last_block, some slot =>
          let last_dir := entry_copy s1 (entry_addr s1 last_block slot)
          let freed : Option FS := if slot = 0 then free_block s1 last_block else some s1
          match freed with
          | none => none
          | some s2 =>
            match copy_entry s2 e last_dir with
            | none => none
            | some s3 => some (add_dir_size s3 s3.current_dir (-1), [])
        | _, _ => none
  else none

/-- The statement `if(count_block != req_blocks) { count_block++; new_block =
get_free_block(); fat[next_block] = new_block; }` of `vfs_get` and `vfs_cp`: the state,
`count_block` and `new_block` after it.  `new_block` and `next_block` are `none` while they
hold no value. -/
def link_new_block (s : FS) (req_blocks count_block : Int) (new_block next_block : Option Int) :
    Option (FS × Int × Option Int) :=
  if count_block ≠ req_blocks then
    match get_free_block s, next_block with
    | some (s1, nb), some nx =>
      if valid_block s1 nx then
        some ({ s1 with fat := store s1.fat nx nb }, count_block + 1, some nb)
      else none
    | _, _ => none
  else some (s, count_block, new_block)

/-- The call `read(f_input, msg, sb->block_size)` on a regular file of which `rest` is still
unread: the number of bytes read. -/
def read_count (s : FS) (rest : List Int) : Int := min (rest.length : Int) (toU64 s.sb.block_size)

/-- The loop `while((n = read(f_input, msg, sb->block_size)) > 0) { ... }` of `vfs_get`.
`msg` is the buffer `char msg[4096]`; `new_block` and `next_block` are `none` while they
hold no value (`new_block` is declared without one). -/
def vfs_get_loop (s : FS) (req_blocks : Int) :
    Nat → List Int → (Int → Int) → Int → Option Int → Option Int → Option FS
  | 0, _, _, _, _, _ => none
  | fuel + 1, rest, msg, count_block, new_block, next_block =>
    let n := read_count s rest
    if n > 4096 then none
    else if n ≤ 0 then some s
    else
      let msg1 := store_bytes msg 0 n (fun i => rest.getD i.toNat 0)
      match link_new_block s req_blocks count_block new_block next_block, next_block,
            strlen_from msg1 4096 0 with
      | some (s1, count1, new1), some nx, some z =>
        if valid_block s1 nx ∧ BLOCK s1 nx + z < data_size s1 then
          vfs_get_loop
            { s1 with blocks := store_bytes s1.blocks (BLOCK s1 nx) (z + 1) msg1 }
            req_blocks fuel (rest.drop n.toNat) msg1 count1 new1 new1
        else none
      | _, _, _ => none

/-- The function `vfs_get`.  `host` is what the path `nome_orig` names on the host and `msg`
the content of the local buffer `msg` on entry. -/
def vfs_get (s : FS) (now : tm) (msg : Int → Int) (host : HostFile) (nome_dest : List Int) :
    Option (FS × List Msg) :=
  if valid_block s s.current_dir then
    let dir := entry_addr s s.current_dir 0
    let n_entries := e_size s dir
    match find_dir_entry s dir nome_dest with
    | none => none
    | some (some _) => some (s, [Msg.get_exists])
    | some none =>
      match host with
      | HostFile.missing => some (s, [Msg.get_not_found])
      | HostFile.not_regular => some (s, [Msg.get_not_regular])
      | HostFile.regular bytes =>
        let req_size := toI32 bytes.length
        match umod s n_entries with
        | none => none
        | some r =>
          if s.sb.block_size = 0 then none
          else
            let grow : Int := if r = 0 then 1 else 0
            let req_blocks := grow + (req_size + s.sb.block_size - 1).tdiv s.sb.block_size
            if s.sb.n_free_blocks < req_blocks then some (s, [Msg.get_disk_full])
            else
              let s1 := add_dir_size s s.current_dir 1
              match get_free_block s1 with
              | none => none
              | some (s2, first_block) =>
                match vfs_get_loop s2 (req_blocks - grow) (bytes.length + 1) bytes msg 1 none
                        (some first_block) with
                | none => none
                | some s3 =>
                  match append_entry s3 now s3.current_dir n_entries TYPE_FILE nome_dest
                          req_size first_block with
                  | none => none
                  | some s4 => some (s4, [])
  else none

/-- The call `write(fd, BLOCK(b), count)`: the bytes written. -/
def write_block (s : FS) (b count : Int) : Option (List Int) :=
  if valid_block s b ∧ 0 ≤ count ∧ BLOCK s b + count ≤ data_size s then
    some ((List.range count.toNat).map (fun i => s.blocks (BLOCK s b + (i : Int))))
  else none

/-- The loop `while(fat[cur] != -1) { ... }` of `vfs_put`; `out` is what has been written to
the host file so far. -/
def vfs_put_loop (s : FS) : Nat → Int → Int → List Int → Option (List Int)
  | 0, _, _, _ => none
  | fuel + 1, cur, size, out =>
    if valid_block s cur then
      if s.fat cur = -1 then some out
      else
        match write_block s (s.fat cur)
                (if size ≥ s.sb.block_size then s.sb.block_size else size) with
        | none => none
        | some w => vfs_put_loop s fuel (s.fat cur) (size - s.sb.block_size) (out ++ w)
    else none

/-- The function `vfs_put`: the lines printed and, when the host file `nome_dest` is opened
(created or truncated), the bytes written to it.  The image is not changed. -/
def vfs_put (s : FS) (nome_orig : List Int) : Option (List Msg × Option (List Int)) :=
  if valid_block s s.current_dir then
    let n_entries := e_size s (entry_addr s s.current_dir 0)
    match scan_current s (name_is s nome_orig) n_entries with
    | none => none
    | some none => some ([Msg.put_not_found], none)
    | some (some h) =>
      let e := entry_addr s h.cur_block h.block_i
      if e_type s e ≠ TYPE_FILE then some ([Msg.put_not_a_file], none)
      else
        match write_block s (e_first_block s e) s.sb.block_size with
        | none => none
        | some w =>
          match vfs_put_loop s (fat_fuel s) (e_first_block s e) (e_size s e - s.sb.block_size) w
          with
          | none => none
          | some out => some ([], some out)
  else none

/-- Number of characters before the first NUL among the `k` bytes at `p` of the data
region, `k` when there is none. -/
def strnlen_at (m : Int → Int) : Nat → Int → Int
  | 0, _ => 0
  | k + 1, p => if m p = 0 then 0 else 1 + strnlen_at m k (p + 1)

/-- The call `strncpy(BLOCK(dst), BLOCK(src), n)`: the characters of the source up to its
first NUL, then NUL bytes, `n` bytes in all.  `n` is converted to `size_t`, so a negative `n`
asks for more bytes than the image holds.  `dst` is `none` when the variable holds no
value. -/
def strncpy_block (s : FS) (dst : Option Int) (src n : Int) : Option FS :=
  if n = 0 then some s
  else
    match dst with
    | none => none
    | some d =>
      if 0 < n ∧ valid_block s d ∧ valid_block s src ∧ BLOCK s d + n ≤ data_size s
          ∧ BLOCK s src + n ≤ data_size s then
        let m := s.blocks
        let z := strnlen_at m n.toNat (BLOCK s src)
        some { s with blocks := store_bytes m (BLOCK s d) n
                                  (fun i => if i < z then m (BLOCK s src + i) else 0) }
      else none

/-- The number of bytes `vfs_cp` asks `strncpy` for. -/
def cp_len (s : FS) (tmp_req_size : Int) : Int :=
  if tmp_req_size ≥ s.sb.block_size then s.sb.block_size else tmp_req_size

/-- The loop `while(fat[cur] != -1) { ... }` of `vfs_cp`. -/
def vfs_cp_loop (s : FS) (req_blocks : Int) :
    Nat → Int → Int → Int → Option Int → Option Int → Option FS
  | 0, _, _, _, _, _ => none
  | fuel + 1, cur, tmp_req_size, count_block, new_block, next_block =>
    if valid_block s cur then
      if s.fat cur = -1 then some s
      else
        let tmp := tmp_req_size - s.sb.block_size
        match link_new_block s req_blocks count_block new_block next_block with
        | none => none
        | some (s1, count1, new1) =>
          if valid_block s1 cur then
            match strncpy_block s1 new1 (s1.fat cur) (cp_len s1 tmp) with
            | none => none
            | some s2 => vfs_cp_loop s2 req_blocks fuel (s1.fat cur) tmp count1 new1 new1
          else none
    else none

/-- The second entry loop of `vfs_cp` and `vfs_mv` and what follows its match: the target
directory `exp_dir`, the name the new entry gets, the state (changed by `vfs_rm` when the
name is an entry that is not a directory) and the lines printed. -/
def resolve_dest (s : FS) (n_entries : Int) (nome_orig nome_dest : List Int)
    (note : List Msg) : Option (FS × Int × List Int × List Msg) :=
  match scan_current s (name_is s nome_dest) n_entries with
  | none => none
  | some none => some (s, s.current_dir, nome_dest, [])
  | some (some h) =>
    let e := entry_addr s h.cur_block h.block_i
    if e_type s e = TYPE_DIR then some (s, e_first_block s e, nome_orig, [])
    else
      match vfs_rm s nome_dest with
      | none => none
      | some (s1, out) => some (s1, s1.current_dir, nome_dest, note ++ out)

/-- The function `vfs_cp`. -/
def vfs_cp (s : FS) (now : tm) (nome_orig nome_dest : List Int) : Option (FS × List Msg) :=
  if valid_block s s.current_dir then
    let n_entries := e_size s (entry_addr s s.current_dir 0)
    match scan_current s (name_is s nome_orig) n_entries with
    | none => none
    | some none => some (s, [Msg.cp_not_found])
    | some (some h) =>
      let input_block := e_first_block s (entry_addr s h.cur_block h.block_i)
      if input_block = -1 then some (s, [Msg.cp_not_found])
      else
        let req_size := e_size s (entry_addr s h.cur_block h.block_i)
        match resolve_dest s n_entries nome_orig nome_dest [Msg.cp_overwriting] with
        | none => none
        | some (t, exp_dir, dest, out) =>
          if valid_block t exp_dir ∧ t.sb.block_size ≠ 0 then
            let n := e_size t (entry_addr t exp_dir 0)
            match umod t n with
            | none => none
            | some r =>
              let grow : Int := if r = 0 then 1 else 0
              let req_blocks := grow + (req_size + t.sb.block_size - 1).tdiv t.sb.block_size
              if t.sb.n_free_blocks < req_blocks then some (t, out ++ [Msg.cp_disk_full])
              else
                let t1 := add_dir_size t exp_dir 1
                match get_free_block t1 with
                | none => none
                | some (t2, first_block) =>
                  match strncpy_block t2 (some first_block) input_block (cp_len t2 req_size) with
                  | none => none
                  | some t3 =>
                    match vfs_cp_loop t3 (req_blocks - grow) (fat_fuel t3) input_block req_size 1
                            none (some first_block) with
                    | none => none
                    | some t4 =>
                      match append_entry t4 now exp_dir n TYPE_FILE dest req_size first_block with
                      | none => none
                      | some t5 => some (t5, out)
          else none
  else none

/-- The function `vfs_mv`. -/
def vfs_mv (s : FS) (now : tm) (nome_orig nome_dest : List Int) : Option (FS × List Msg) :=
  if valid_block s s.current_dir then
    let n_entries := e_size s (entry_addr s s.current_dir 0)
    match scan_current s (name_is s nome_orig) n_entries with
    | none => none
    | some none => some (s, [Msg.mv_not_found])
    | some (some h) =>
      let e := entry_addr s h.cur_block h.block_i
      match last_of_chain s (fat_fuel s) h.cur_block, last_slot s n_entries with
      | some last_block, some slot =>
        let last_dir := entry_copy s (entry_addr s last_block slot)
        let freed : Option FS := if slot = 0 then free_block s last_block else some s
        match freed with
        | none => none
        | some s1 =>
          let req_size := e_size s1 e
          match copy_entry s1 e last_dir with
          | none => none
          | some s2 =>
            let s3 := add_dir_size s2 s2.current_dir (-1)
            let inp_block := e_first_block s3 (entry_addr s3 s3.current_dir h.block_i)
            if inp_block = -1 then some (s3, [Msg.mv_not_found])
            else
              match resolve_dest s3 n_entries nome_orig nome_dest [] with
              | none => none
              | some (t, exp_dir, dest, out) =>
                if valid_block t exp_dir then
                  let n := e_size t (entry_addr t exp_dir 0)
                  match append_entry (add_dir_size t exp_dir 1) now exp_dir n TYPE_FILE dest
                          req_size inp_block with
                  | none => none
                  | some t1 => some (t1, out)
                else none
      | _, _ => none
  else none

/-! ## Observations and command sequences -/

/-- The fields `type`, `size` and `first_block` of a directory entry. -/
structure Info where
  type : Int
  size : Int
  first_block : Int
deriving DecidableEq

/-- The entry `find_dir_entry` resolves `name` to in the current directory; `some none` when
the name does not resolve. -/
def lookup (s : FS) (name : List Int) : Option (Option Info) :=
  (find_dir_entry s (entry_addr s s.current_dir 0) name).map
    (fun r => r.map (fun p => ⟨e_type s p, e_size s p, e_first_block s p⟩))

/-- What a session has printed. -/
def printed (o : Option (FS × List Msg)) : Option (List Msg) := o.map Prod.snd

/-- An observation of the state a session has reached. -/
def observe {α : Type} (o : Option (FS × List Msg)) (f : FS → α) : Option α :=
  o.map (fun r => f r.1)

/-- The live-entry count of the current directory, the field `size` of its `.` entry. -/
def live_count (s : FS) : Int := e_size s (entry_addr s s.current_dir 0)

/-- The characters of a string literal. -/
def cstr (s : String) : List Int := s.toList.map (fun c => (c.toNat : Int))

/-- Runs the next command of a session, keeping the lines printed so far. -/
def andThen (o : Option (FS × List Msg)) (f : FS → Option (FS × List Msg)) :
    Option (FS × List Msg) :=
  o.bind (fun r => (f r.1).map (fun q => (q.1, r.2 ++ q.2)))

/-- The date used in the sessions below: 30 October 2026. -/
def today : tm := { tm_mday := 30, tm_mon := 9, tm_year := 126 }

/-- The bytes found in the buffer `msg` of `vfs_get` on entry in the sessions below. -/
def stack_bytes : Int → Int := fun _ => 170

/-- A session on a new image formatted with `-b128 -f7` (128 blocks of 128 bytes, 4 entries
to a block). -/
def start : Option (FS × List Msg) := (format today 128 7).map (fun s => (s, []))

/-- Session: `get F a` for the 3-byte host file `41 00 42`. -/
def session_get_nul : Option (FS × List Msg) :=
  andThen start (fun s => vfs_get s today stack_bytes (HostFile.regular [65, 0, 66]) (cstr "a"))

/-- Session: `get F1 a`, `get F2 c` with a 2-byte and a 4-byte host file. -/
def session_two_files : Option (FS × List Msg) :=
  andThen (andThen start
    (fun s => vfs_get s today stack_bytes (HostFile.regular [65, 0]) (cstr "a")))
    (fun s => vfs_get s today stack_bytes (HostFile.regular [67, 67, 67, 0]) (cstr "c"))

/-- Session: `get F1 x`, `rm x`, `get F2 a`; the block of `x` is taken again for `a` and keeps
the bytes of `x` that `get` does not overwrite. -/
def session_reused_block : Option (FS × List Msg) :=
  andThen (andThen (andThen start
    (fun s => vfs_get s today stack_bytes (HostFile.regular [65, 66, 67, 0]) (cstr "x")))
    (fun s => vfs_rm s (cstr "x")))
    (fun s => vfs_get s today stack_bytes (HostFile.regular [68, 0, 69, 70]) (cstr "a"))

/-- A name of 20 characters. -/
def name20 : List Int := List.replicate 20 97

/-- Session: `mkdir d0`, `mkdir d1`, `get F a`; the root then has 5 live entries and `a` is
the only entry of its second block. -/
def session_five_entries : Option (FS × List Msg) :=
  andThen (andThen (andThen start
    (fun s => vfs_mkdir s today (cstr "d0")))
    (fun s => vfs_mkdir s today (cstr "d1")))
    (fun s => vfs_get s today stack_bytes (HostFile.regular [104, 0]) (cstr "a"))

/-- Session: `get F big` with a host file of 127 blocks of NUL bytes, which takes every free
block of the image. -/
def session_full : Option (FS × List Msg) :=
  andThen start (fun s => vfs_get s today stack_bytes
    (HostFile.regular (List.replicate 16256 0)) (cstr "big"))

/-- The image `start` begins with. -/
def new_image : FS :=
  (format today 128 7).getD
    { sb := init_superblock 128 7, fat := fun _ => 0, blocks := fun _ => 0, current_dir := 0 }

/-- The FAT `init_fat` leaves when `n` blocks are free, in closed form: index 0 and index
`n` hold the end mark and the indices between them are linked to the next one. -/
def fat_new (n : Int) : Int → Int :=
  fun j => if j = n then -1 else if 1 ≤ j ∧ j < n then j + 1 else if j = 0 then -1 else 0

/-- The data region `init_dir_block` leaves when it writes the root directory into block 0
of a region of NUL bytes: the assignments of the two calls of `init_dir_entry`, in their
order. -/
def root_blocks (now : tm) : Int → Int :=
  store_int (store_int (store (store (store
    (store_bytes (store
  (store_int (store_int (store (store (store
    (store_bytes (store (fun _ => 0) 0 TYPE_DIR) (0 + 1) (([46] : List Int).length + 1)
      (fun i => (([46] : List Int) ++ [0]).getD i.toNat 0))
    (0 + 21) (now.tm_mday % 256)) (0 + 22) ((now.tm_mon + 1) % 256)) (0 + 23)
    (now.tm_year % 256)) (0 + 24) 2) (0 + 28) 0)
      32 TYPE_DIR) (32 + 1) (([46, 46] : List Int).length + 1)
      (fun i => (([46, 46] : List Int) ++ [0]).getD i.toNat 0))
    (32 + 21) (now.tm_mday % 256)) (32 + 22) ((now.tm_mon + 1) % 256)) (32 + 23)
    (now.tm_year % 256)) (32 + 24) 0) (32 + 28) 0

/-- The image `format` makes, with the FAT in closed form. -/
def fresh_image (now : tm) (bs ft : Int) : FS :=
  { sb := init_superblock bs ft, fat := fat_new (FAT_ENTRIES ft - 1),
    blocks := root_blocks now, current_dir := 0 }

/-! ## Invariants -/

/-- The list `l` is the chain from `b`: it starts at `b`, each block is a FAT index linked to
the next one, and the last one holds the end mark. -/
def path (s : FS) : Int → List Int → Prop
  | b, [] => b = -1
  | b, x :: l => b = x ∧ valid_block s x ∧ path s (s.fat x) l

/-- Entries per block as a natural number. -/
def epb (s : FS) : Nat := (DIR_ENTRIES_PER_BLOCK s).toNat

/-- Byte offset of entry number `i` of a directory whose block chain is `dl`. -/
def slot (s : FS) (dl : List Int) (i : Nat) : Int :=
  entry_addr s (dl.getD (i / epb s) (-1)) ((i % epb s : Nat) : Int)

/-- The block sizes and FAT types the program formats with. -/
def legal (s : FS) : Prop :=
  (s.sb.block_size = 128 ∨ s.sb.block_size = 256 ∨ s.sb.block_size = 512
      ∨ s.sb.block_size = 1024)
    ∧ (s.sb.fat_type = 7 ∨ s.sb.fat_type = 8 ∨ s.sb.fat_type = 9 ∨ s.sb.fat_type = 10)

instance (s : FS) : Decidable (legal s) := by unfold legal; infer_instance

/-- The characters of a C string: none is NUL. -/
def CStr (name : List Int) : Prop := ∀ c ∈ name, c ≠ 0

instance (name : List Int) : Decidable (CStr name) := by unfold CStr; infer_instance

/-- The name stored in the entry at byte offset `a` ends inside the field `name[20]`. -/
def name_ends (s : FS) (a : Int) : Prop :=
  ∃ z ∈ List.range 20, s.blocks (a + 1 + (z : Int)) = 0

instance (s : FS) (a : Int) : Decidable (name_ends s a) := by unfold name_ends; infer_instance

/-- The bytes at offset `p` of the data region are the characters of `name` followed by
NUL. -/
def stored (s : FS) (p : Int) (name : List Int) : Prop :=
  (∀ i : Nat, i < name.length → s.blocks (p + (i : Int)) = name.getD i 0)
    ∧ s.blocks (p + (name.length : Int)) = 0

/-- A name that fits the field `name[20]` with its terminating NUL. -/
def IsName (name : List Int) : Prop := CStr name ∧ name.length ≤ 19

instance (name : List Int) : Decidable (IsName name) := by unfold IsName; infer_instance

/-- The block chain of the current directory (empty when the chain does not end). -/
def dir_chain (s : FS) : List Int := (chain s s.current_dir).getD []

/-- The blocks of the free list (none when the list does not end). -/
def free_blocks (s : FS) : List Int := (free_list s).getD []

/-- The live-entry count of the current directory as a natural number. -/
def live (s : FS) : Nat := (live_count s).toNat

/-- The invariants of the data model (sections 3 and 8 of the specification) for the current
directory, as far as the theorems below use them:
* the geometry is one the program formats with;
* the chain of the current directory and the free list end, visit no block twice, have no
  block in common and together fit in the FAT; the free list has `n_free_blocks` blocks;
* the directory has at least two live entries and its chain has exactly the blocks they
  need, `ceil(size / DIR_ENTRIES_PER_BLOCK)`;
* entry 0 is a directory entry whose first block is the directory's own first block;
* the name of every live entry ends inside its field;
* the chain of every live file entry ends, is not empty and has no block in common with the
  free list or with the chain of the directory. -/
def Inv (s : FS) : Prop :=
  legal s ∧ valid_block s s.current_dir
    ∧ (chain s s.current_dir).isSome ∧ (free_list s).isSome
    ∧ ((free_blocks s).length : Int) = s.sb.n_free_blocks
    ∧ (free_blocks s).Nodup ∧ (dir_chain s).Nodup
    ∧ (((dir_chain s).length + (free_blocks s).length : Nat) : Int) ≤ FAT_ENTRIES s.sb.fat_type
    ∧ 2 ≤ live_count s
    ∧ ((dir_chain s).length - 1) * epb s < live s ∧ live s ≤ (dir_chain s).length * epb s
    ∧ (∀ x ∈ dir_chain s, x ∉ free_blocks s)
    ∧ e_type s (entry_addr s s.current_dir 0) = TYPE_DIR
    ∧ e_first_block s (entry_addr s s.current_dir 0) = s.current_dir
    ∧ (∀ i ∈ List.range (live s), name_ends s (slot s (dir_chain s) i))
    ∧ (∀ i ∈ List.range (live s), e_type s (slot s (dir_chain s) i) = TYPE_FILE →
        (chain s (e_first_block s (slot s (dir_chain s) i))).isSome
          ∧ e_first_block s (slot s (dir_chain s) i) ≠ -1
          ∧ ∀ x ∈ (chain s (e_first_block s (slot s (dir_chain s) i))).getD [],
              x ∉ free_blocks s ∧ x ∉ dir_chain s)

instance (s : FS) : Decidable (Inv s) := by unfold Inv; infer_instance

/-- The image after `get F a` on a new image, `F` being the 2-byte host file `41 00`. -/
def image_one_file : FS :=
  ((vfs_get new_image today stack_bytes (HostFile.regular [65, 0]) (cstr "a")).map Prod.fst).getD
    new_image

/-- The first `k` blocks of the list `fl` are linked in the order of the list and the last of
them holds the end mark. -/
def linked (s : FS) (fl : List Int) (k : Nat) : Prop :=
  ∀ j, j < k → s.fat (fl.getD j (-1)) = if j + 1 < k then fl.getD (j + 1) (-1) else -1

/-- The state `s` comes from `s0` by taking the first `k` blocks of the free list `fl` of
`s0`, linking them among themselves and writing into them only. -/
structure Alloc (s0 s : FS) (fl : List Int) (k : Nat) : Prop where
  bs : s.sb.block_size = s0.sb.block_size
  ft : s.sb.fat_type = s0.sb.fat_type
  cd : s.current_dir = s0.current_dir
  k_le : k ≤ fl.length
  nfree : s.sb.n_free_blocks = s0.sb.n_free_blocks - (k : Int)
  head : s.sb.free_block = fl.getD k (-1)
  fat_out : ∀ y, y ∉ fl.take k → s.fat y = s0.fat y
  fat_in : ∀ y ∈ fl.take k, s.fat y = -1 ∨ s.fat y ∈ fl.take k
  mem : ∀ x, (∀ y ∈ fl.take k, x < BLOCK s0 y ∨ BLOCK s0 y + s0.sb.block_size ≤ x) →
    s.blocks x = s0.blocks x

/-- What `vfs_cp` with an absent target name `b` leaves, in terms of the state `s0` it was
called on: it has taken the first `k'` blocks of the free list, the first `k` for the content
of `b` and one more (`k' = k + 1`) when the directory needed a new last block; `dl1` is the
chain of the current directory afterwards. -/
structure AfterCp (s0 s1 : FS) (b : List Int) (k k' : Nat) (dl1 : List Int) : Prop where
  bs : s1.sb.block_size = s0.sb.block_size
  ft : s1.sb.fat_type = s0.sb.fat_type
  cd : s1.current_dir = s0.current_dir
  size : e_size s1 (entry_addr s0 s0.current_dir 0) = live_count s0 + 1
  dpath : path s1 s0.current_dir dl1
  dnodup : dl1.Nodup
  dlen : dl1.length < fat_fuel s0
  dgrow : (dl1 = dir_chain s0 ∧ k' = k)
    ∨ (dl1 = dir_chain s0 ++ [(free_blocks s0).getD k (-1)] ∧ k' = k + 1
        ∧ k < (free_blocks s0).length)
  dlast : live s0 / epb s0 + 1 = dl1.length
  old : ∀ i, i < live s0 → ∀ x, slot s0 (dir_chain s0) i ≤ x → x < slot s0 (dir_chain s0) i + 32 →
    (x < entry_addr s0 s0.current_dir 0 + 24 ∨ entry_addr s0 s0.current_dir 0 + 28 ≤ x) →
    s1.blocks x = s0.blocks x
  new_type : e_type s1 (slot s0 dl1 (live s0)) = TYPE_FILE
  new_name : stored s1 (slot s0 dl1 (live s0) + 1) b
  new_fb : e_first_block s1 (slot s0 dl1 (live s0)) = -1
    ∨ e_first_block s1 (slot s0 dl1 (live s0)) ∈ (free_blocks s0).take k
  new_chain : path s1 (e_first_block s1 (slot s0 dl1 (live s0))) ((free_blocks s0).take k)
  kle : k' ≤ (free_blocks s0).length
  closed : ∀ y ∈ (free_blocks s0).take k, s1.fat y = -1 ∨ s1.fat y ∈ (free_blocks s0).take k
  fat_old : ∀ y, y ∉ free_blocks s0 → y ∉ dir_chain s0 → s1.fat y = s0.fat y
  fat_free : ∀ j, k' ≤ j → j < (free_blocks s0).length →
    s1.fat ((free_blocks s0).getD j (-1)) = (free_blocks s0).getD (j + 1) (-1)
  head : s1.sb.free_block = (free_blocks s0).getD k' (-1)

/-- The content of `Inv` in the form the proofs use: chains as `path`s. -/
structure InvFacts (s : FS) : Prop where
  legal : legal s
  cdv : valid_block s s.current_dir
  dpath : path s s.current_dir (dir_chain s)
  dlen : (dir_chain s).length < fat_fuel s
  fpath : path s s.sb.free_block (free_blocks s)
  flen : ((free_blocks s).length : Int) = s.sb.n_free_blocks
  fnd : (free_blocks s).Nodup
  dnd : (dir_chain s).Nodup
  sum : (((dir_chain s).length + (free_blocks s).length : Nat) : Int)
    ≤ FAT_ENTRIES s.sb.fat_type
  n2 : 2 ≤ live s
  live_eq : live_count s = ((live s : Nat) : Int)
  lt : live s < 2147483648
  lo : ((dir_chain s).length - 1) * epb s < live s
  hi : live s ≤ (dir_chain s).length * epb s
  disj : ∀ x ∈ dir_chain s, x ∉ free_blocks s
  type0 : e_type s (entry_addr s s.current_dir 0) = TYPE_DIR
  fb0 : e_first_block s (entry_addr s s.current_dir 0) = s.current_dir
  names : ∀ i, i < live s → name_ends s (slot s (dir_chain s) i)
  files : ∀ i, i < live s → e_type s (slot s (dir_chain s) i) = TYPE_FILE →
    ∃ fc, path s (e_first_block s (slot s (dir_chain s) i)) fc ∧ fc ≠ []
      ∧ fc.length < fat_fuel s ∧ ∀ x ∈ fc, x ∉ free_blocks s ∧ x ∉ dir_chain s

/-- What `vfs_rm` leaves when it removes the entry at byte offset `e` of a directory whose
entry 0 is at `A0` and whose last live entry, at `last`, stores the name `b`: the chain of
the removed file starts at `first` and ends at `x`, and `T1` is the last block of the
directory. -/
structure AfterRm (s1 s2 : FS) (b : List Int) (e A0 last x T1 first : Int) : Prop where
  bs : s2.sb.block_size = s1.sb.block_size
  ft : s2.sb.fat_type = s1.sb.fat_type
  cd : s2.current_dir = s1.current_dir
  fat_other : ∀ y, y ≠ x → y ≠ T1 → s2.fat y = s1.fat y
  fat_last : s2.fat x = s1.sb.free_block
  head : (s2.sb.free_block = T1 ∧ s2.fat T1 = first)
    ∨ (s2.sb.free_block = first ∧ s2.fat T1 = s1.fat T1)
  mem : ∀ z, (z < e ∨ e + 32 ≤ z) → (z < A0 + 24 ∨ A0 + 28 ≤ z) → s2.blocks z = s1.blocks z
  name : stored s2 (e + 1) b
  type : e_type s2 e = e_type s1 last
  size : e_size s2 e = e_size s1 last
  fb : e_first_block s2 e = e_first_block s1 last
  count : e_size s2 A0 = toI32 (e_size s1 A0 - 1)

/-! ## Commands that print -/

/-- The loop `while(fat[next_block] != -1) { ... }` of `vfs_cat`: `size` is
`dir[block_i].size` and `out` what has been written to standard output so far.  The count
of the last block is `size % block_size`, the remainder of the C division, which is
undefined for a divisor 0 and for `INT_MIN % -1`. -/
def vfs_cat_loop (s : FS) (size : Int) : Nat → Int → List Int → Option (List Int)
  | 0, _, _ => none
  | fuel + 1, next_block, out =>
    if valid_block s next_block then
      if s.fat next_block = -1 then some out
      else
        let nb := s.fat next_block
        if valid_block s nb then
          let write_size : Option Int :=
            if s.fat nb = -1 then
              if s.sb.block_size = 0 ∨ (size = -2147483648 ∧ s.sb.block_size = -1) then none
              else some (size.tmod s.sb.block_size)
            else some s.sb.block_size
          match write_size with
          | none => none
          | some n =>
            match write_block s nb n with
            | none => none
            | some w => vfs_cat_loop s size fuel nb (out ++ w)
        else none
    else none

/-- The function `vfs_cat`: the lines printed and the bytes written to standard output.  The
image is not changed. -/
def vfs_cat (s : FS) (nome_fich : List Int) : Option (List Msg × List Int) :=
  if valid_block s s.current_dir then
    let n_entries := e_size s (entry_addr s s.current_dir 0)
    match scan_current s (name_is s nome_fich) n_entries with
    | none => none
    | some none => some ([Msg.cat_not_found], [])
    | some (some h) =>
      let e := entry_addr s h.cur_block h.block_i
      if e_type s e ≠ TYPE_FILE then some ([Msg.cat_not_a_file], [])
      else
        match write_block s (e_first_block s e) s.sb.block_size with
        | none => none
        | some w =>
          match vfs_cat_loop s (e_size s e) (fat_fuel s) (e_first_block s e) w with
          | none => none
          | some out => some ([], out)
  else none

/-- A host file of 256 bytes, two blocks of 127 letters `A` and one NUL. -/
def two_blocks : List Int := List.replicate 127 65 ++ [0] ++ List.replicate 127 65 ++ [0]

/-- Session: `get F c` for the host file `two_blocks`. -/
def session_two_blocks : Option (FS × List Msg) :=
  andThen start (fun s => vfs_get s today stack_bytes (HostFile.regular two_blocks) (cstr "c"))

/-- Session: `get A a` with a host file of 64 blocks of NUL bytes, then `get B b` with the
2-byte host file `42 00`. -/
def session_big_and_small : Option (FS × List Msg) :=
  andThen (andThen start
    (fun s => vfs_get s today stack_bytes (HostFile.regular (List.replicate 8192 0)) (cstr "a")))
    (fun s => vfs_get s today stack_bytes (HostFile.regular [66, 0]) (cstr "b"))

/-- A session on a new image formatted with the default values `-b256 -f8`. -/
def start_default : Option (FS × List Msg) := (format today 256 8).map (fun s => (s, []))

/-- Session: `mkdir d0`, ..., `mkdir d8` on a new default image. -/
def session_nine_dirs : Option (FS × List Msg) :=
  (List.range 9).foldl
    (fun o i => andThen o (fun s => vfs_mkdir s today (cstr "d" ++ [48 + (i : Int)])))
    start_default

/-- The string stored at byte offset `p` of the data region, read as `strcpy` reads it: the
characters before the first NUL.  `fuel` bounds the characters read. -/
def read_string (s : FS) : Nat → Int → Option (List Int)
  | 0, _ => none
  | fuel + 1, p =>
    if 0 ≤ p ∧ p < data_size s then
      if s.blocks p = 0 then some []
      else (read_string s fuel (p + 1)).map (fun l => s.blocks p :: l)
    else none

/-- The statements `strcpy(tmp, dir[block_i].name); strcat(tmp, name); strcpy(name, tmp);
strcpy(tmp, "/"); strcat(tmp, name); strcpy(name, tmp);` of `vfs_pwd` on the buffers
`char name[1024], tmp[1024]`: the string left in `name`.  The longest string written is the
last one, with its NUL. -/
def pwd_prepend (entry_name name : List Int) : Option (List Int) :=
  if 1 + entry_name.length + name.length + 1 ≤ 1024 then some (47 :: (entry_name ++ name))
  else none

/-- The loop `while(tmp_dir != 0) { ... }` of `vfs_pwd`. -/
def vfs_pwd_loop (s : FS) : Nat → Int → List Int → Option (List Int)
  | 0, _, _ => none
  | fuel + 1, tmp_dir, name =>
    if tmp_dir = 0 then some name
    else if valid_block s tmp_dir ∧ entry_addr s tmp_dir 1 + sizeof_dir_entry ≤ data_size s then
      let prev_dir := e_first_block s (entry_addr s tmp_dir 1)
      if valid_block s prev_dir then
        let n_entries := e_size s (entry_addr s prev_dir 0)
        match scan_dir s (fun a => some (decide (e_first_block s a = tmp_dir))) n_entries.toNat 0
                prev_dir prev_dir with
        | none => none
        | some none => vfs_pwd_loop s fuel prev_dir name
        | some (some h) =>
          match read_string s 1024 (entry_addr s h.cur_block h.block_i + 1) with
          | none => none
          | some entry_name =>
            match pwd_prepend entry_name name with
            | none => none
            | some name1 => vfs_pwd_loop s fuel prev_dir name1
      else none
    else none

/-- The function `vfs_pwd`: the string printed, without the newline that ends it. -/
def vfs_pwd (s : FS) : Option (List Int) := vfs_pwd_loop s (fat_fuel s) s.current_dir [47]

/-- A name of 19 characters. -/
def name19 : List Int := List.replicate 19 100

/-- Session: `mkdir N`, `cd N` repeated `k` times on a new image, `N` being the name of 19
characters `name19`. -/
def session_nested (k : Nat) : Option (FS × List Msg) :=
  (List.range k).foldl
    (fun o _ => andThen (andThen o (fun s => vfs_mkdir s today name19))
      (fun s => vfs_cd s name19))
    start

/-- The 32 bytes of a directory entry as `init_dir_entry` writes them on the date `today`
into memory that holds NUL bytes, indexed from 0. -/
def entry_bytes (type : Int) (name : List Int) (size first_block : Int) : Int → Int :=
  store_int (store_int (store (store (store
    (store_bytes (store (fun _ => 0) 0 type) 1 (name.length + 1)
      (fun i => (name ++ [0]).getD i.toNat 0))
    21 30) 22 10) 23 126) 24 size) 28 first_block

/-- The image made with `-b128 -f7` in which `k` directories named `name19` are nested in
one another, as `mkdir`, `cd` repeated `k` times leave it: block 0 is the root, block `j` the
directory at depth `j`, and the blocks after `k` are free.  `current_dir` is the root. -/
def nested_image (k : Nat) : FS :=
  { sb := { check_number := CHECK_NUMBER, block_size := 128, fat_type := 7, root_block := 0,
            free_block := (k : Int) + 1, n_free_blocks := 127 - (k : Int) },
    fat := fun j => if j ≤ (k : Int) ∨ j = 127 then -1 else j + 1,
    blocks := fun x =>
      let b := x / 128
      let e := x % 128 / 32
      let f := x % 32
      if 0 ≤ b ∧ b ≤ (k : Int) then
        if e = 0 then entry_bytes TYPE_DIR [46] (if b < (k : Int) then 3 else 2) b f
        else if e = 1 then entry_bytes TYPE_DIR [46, 46] 0 (if b = 0 then 0 else b - 1) f
        else if e = 2 ∧ b < (k : Int) then entry_bytes TYPE_DIR name19 0 (b + 1) f
        else 0
      else 0,
    current_dir := 0 }

/-- The command `cd N` repeated `k` times, `N` being `name19`. -/
def cd_nested (o : Option (FS × List Msg)) (k : Nat) : Option (FS × List Msg) :=
  (List.range k).foldl (fun o _ => andThen o (fun s => vfs_cd s name19)) o

/-- The image `nested_image k` with the directory at depth `c` as the current directory. -/
def nested_cd (k : Nat) (c : Int) : FS := { nested_image k with current_dir := c }

/-- The string `vfs_pwd` has in `name` after going up `n` directories named `name19` from
the string `name`; none when one of the copies leaves the buffers. -/
def pwd_iter : Nat → List Int → Option (List Int)
  | 0, name => some name
  | n + 1, name => (pwd_prepend name19 name).bind (pwd_iter n)

/-- The branch of `init_filesystem` for a host file that exists already: `true` when the
image is accepted (the function goes on), `false` when the program exits.  `st_size` is the
size `stat` reports for the file and `sb` the superblock read at its start.

* `filesystem_size = buf.st_size` converts the size to `int`;
* `mmap` is given `filesystem_size` as a `size_t` length and fails for the length 0 and for
  a negative `int` (a length beyond the address space); the program then exits;
* the test `sb->check_number != CHECK_NUMBER || filesystem_size != sb->block_size +
  FAT_SIZE(sb->fat_type) + FAT_ENTRIES(sb->fat_type) * sb->block_size` is computed in
  `unsigned long`, `FAT_SIZE` being a `size_t`; the product `FAT_ENTRIES * block_size` is a
  product of two `int`, whose overflow is undefined (`none`). -/
def open_image (st_size : Int) (sb : superblock) : Option Bool :=
  let filesystem_size := toI32 st_size
  if filesystem_size ≤ 0 then some false
  else if sb.check_number ≠ CHECK_NUMBER then some false
  else
    let prod := FAT_ENTRIES sb.fat_type * sb.block_size
    if prod < -2147483648 ∨ 2147483647 < prod then none
    else
      some (decide (toU64 filesystem_size
        = toU64 (toU64 (toU64 sb.block_size + toU64 (FAT_ENTRIES sb.fat_type) * 4)
            + toU64 prod)))

/-- The block numbers `i, i + 1, ..., i + m - 1`. -/
def block_numbers (i m : Nat) : List Int := (List.range' i m).map Int.ofNat

/-- Entry `i` of the current directory stores the name `x`. -/
def named (s : FS) (i : Nat) (x : List Int) : Prop :=
  stored s (slot s (dir_chain s) i + 1) x

/-- The cases in which `rmdir x` is to fail: no live entry of the current directory is
named `x`, or the first one that is named `x` is not of type `D`, or the `.` entry of the
directory it refers to has a size other than 2. -/
def rmdir_refused (s : FS) (x : List Int) : Prop :=
  (∀ i, i < live s → ¬ named s i x)
    ∨ ∃ i, i < live s ∧ named s i x ∧ (∀ j, j < i → ¬ named s j x)
        ∧ (e_type s (slot s (dir_chain s) i) ≠ TYPE_DIR
            ∨ e_size s (entry_addr s (e_first_block s (slot s (dir_chain s) i)) 0) ≠ 2)

/-- Every live entry of type `D` of the current directory refers to a block of the image. -/
def DirsValid (s : FS) : Prop :=
  ∀ i ∈ List.range (live s), e_type s (slot s (dir_chain s) i) = TYPE_DIR →
    valid_block s (e_first_block s (slot s (dir_chain s) i))

instance (s : FS) : Decidable (DirsValid s) := by unfold DirsValid; infer_instance

/-- The invariants `Inv` other than that the free list visits no block twice. -/
def InvRest (s : FS) : Prop :=
  legal s ∧ valid_block s s.current_dir
    ∧ (chain s s.current_dir).isSome ∧ (free_list s).isSome
    ∧ ((free_blocks s).length : Int) = s.sb.n_free_blocks
    ∧ (dir_chain s).Nodup
    ∧ (((dir_chain s).length + (free_blocks s).length : Nat) : Int) ≤ FAT_ENTRIES s.sb.fat_type
    ∧ 2 ≤ live_count s
    ∧ ((dir_chain s).length - 1) * epb s < live s ∧ live s ≤ (dir_chain s).length * epb s
    ∧ (∀ x ∈ dir_chain s, x ∉ free_blocks s)
    ∧ e_type s (entry_addr s s.current_dir 0) = TYPE_DIR
    ∧ e_first_block s (entry_addr s s.current_dir 0) = s.current_dir
    ∧ (∀ i ∈ List.range (live s), name_ends s (slot s (dir_chain s) i))
    ∧ (∀ i ∈ List.range (live s), e_type s (slot s (dir_chain s) i) = TYPE_FILE →
        (chain s (e_first_block s (slot s (dir_chain s) i))).isSome
          ∧ e_first_block s (slot s (dir_chain s) i) ≠ -1
          ∧ ∀ x ∈ (chain s (e_first_block s (slot s (dir_chain s) i))).getD [],
              x ∉ free_blocks s ∧ x ∉ dir_chain s)

instance (s : FS) : Decidable (InvRest s) := by unfold InvRest; infer_instance

/-- Session: `mkdir d0` on a new image. -/
def image_one_dir : FS :=
  ((vfs_mkdir new_image today (cstr "d0")).map Prod.fst).getD new_image

/-- What `vfs_ls` prints: the error line, or the lines of the listing in the order
printed, each without the newline that ends it. -/
inductive LsOutput
  | type_not_recognized
  | lines (content : List (List Int))
deriving DecidableEq

/-- The function `getMonthName`. -/
def getMonthName (month : Int) : List Int :=
  if month = 1 then cstr "Jan"
  else if month = 2 then cstr "Feb"
  else if month = 3 then cstr "Mar"
  else if month = 4 then cstr "Apr"
  else if month = 5 then cstr "May"
  else if month = 6 then cstr "Jun"
  else if month = 7 then cstr "Jul"
  else if month = 8 then cstr "Aug"
  else if month = 9 then cstr "Sep"
  else if month = 10 then cstr "Oct"
  else if month = 11 then cstr "Nov"
  else if month = 12 then cstr "Dec"
  else cstr "Undefined"

/-- The decimal digits of `n`, at most `fuel` of them. -/
def dec_digits : Nat → Nat → List Int
  | 0, _ => []
  | fuel + 1, n =>
    if n < 10 then [48 + (n : Int)] else dec_digits fuel (n / 10) ++ [48 + ((n % 10 : Nat) : Int)]

/-- The conversion `%0wd` of `printf` applied to the `int` `x` (`%d` for `w = 0`): the sign,
then the digits filled with zeros up to the width `w`.  An `int` has at most ten digits. -/
def fmt_d (w : Nat) (x : Int) : List Int :=
  let d := dec_digits 10 x.natAbs
  if x < 0 then 45 :: (List.replicate (w - 1 - d.length) 48 ++ d)
  else List.replicate (w - d.length) 48 ++ d

/-- The call `sprintf(content[i], "%*s\t%02d-%s-%04d\t%s", -MAX_NAME_LENGHT, dir[block_i].name,
dir[block_i].day, getMonthName(dir[block_i].month), 1900 + dir[block_i].year, type_str)` for
the entry at byte offset `a`: the string left in `content[i]`, a buffer of
`1024 * sizeof(char * )` bytes.  The name is read up to its NUL and filled with blanks on the
right up to 20 characters; `day`, `month` and `year` are `unsigned char`. -/
def ls_line (s : FS) (a : Int) (type_str : List Int) : Option (List Int) :=
  match read_string s 8192 (a + 1) with
  | none => none
  | some name =>
    let line := name ++ List.replicate (MAX_NAME_LENGHT.toNat - name.length) 32 ++ [9]
      ++ fmt_d 2 (e_day s a % 256) ++ [45] ++ getMonthName (e_month s a % 256) ++ [45]
      ++ fmt_d 4 (1900 + e_year s a % 256) ++ [9] ++ type_str
    if line.length < 8192 then some line else none

/-- The body of the first loop of `vfs_ls` for the entry at byte offset `a`: `some none` when
the type of the entry is neither `D` nor `F`, the rendered line otherwise. -/
def entry_line (s : FS) (a : Int) : Option (Option (List Int)) :=
  if e_type s a = TYPE_DIR then (ls_line s a (cstr "DIR")).map some
  else if e_type s a = TYPE_FILE then (ls_line s a (fmt_d 0 (e_size s a))).map some
  else some none

/-- The loop `for(int i = 0; i < n_entries; i++) { ... sprintf(content[i], ...); }` of
`vfs_ls` with `k` rounds left: the strings `content[i], ..., content[n_entries - 1]`, or
`some none` when the loop leaves the function with the error line. -/
def ls_render (s : FS) : Nat → Int → Int → Option (Option (List (List Int)))
  | 0, _, _ => some (some [])
  | k + 1, i, cur_block =>
    match umod s i with
    | none => none
    | some block_i =>
      let adv : Option Int :=
        if block_i = 0 ∧ i ≠ 0 then
          if valid_block s cur_block then some (s.fat cur_block) else none
        else some cur_block
      match adv with
      | none => none
      | some cur =>
        if valid_block s cur then
          match entry_line s (entry_addr s cur block_i) with
          | none => none
          | some none => some none
          | some (some line) =>
            match ls_render s k (i + 1) cur with
            | none => none
            | some none => some none
            | some (some rest) => some (some (line :: rest))
        else none

/-- Whether `strcmp(a, b) <= 0`: the strings are compared byte by byte as `unsigned char`, a
string that ends first being the smaller one. -/
def strcmp_le : List Int → List Int → Bool
  | [], _ => true
  | _ :: _, [] => false
  | a :: as, b :: bs =>
    if a % 256 < b % 256 then true
    else if b % 256 < a % 256 then false
    else strcmp_le as bs

/-- The call `qsort(content, n_entries, sizeof(char * ), cstr_cmp)`: the strings in
ascending order of `strcmp`. -/
def qsort (content : List (List Int)) : List (List Int) :=
  List.insertionSort (fun a b => strcmp_le a b = true) content

/-- The function `vfs_ls`.  The allocations of `content` are taken to succeed; a negative
`n_entries` makes `qsort` run over an array that was not allocated. -/
def vfs_ls (s : FS) : Option LsOutput :=
  if valid_block s s.current_dir then
    let n_entries := e_size s (entry_addr s s.current_dir 0)
    if n_entries < 0 then none
    else
      match ls_render s n_entries.toNat 0 s.current_dir with
      | none => none
      | some none => some LsOutput.type_not_recognized
      | some (some content) => some (LsOutput.lines (qsort content))
  else none

/-- The current directory is well formed: the geometry is one the program formats with, the
chain of the directory ends, the directory has at least two live entries, its chain has
blocks for all of them, and the name of every live entry ends inside its field. -/
def DirWellFormed (s : FS) : Prop :=
  legal s ∧ valid_block s s.current_dir ∧ (chain s s.current_dir).isSome
    ∧ 2 ≤ live_count s ∧ live s ≤ (dir_chain s).length * epb s
    ∧ (∀ i ∈ List.range (live s), name_ends s (slot s (dir_chain s) i))

instance (s : FS) : Decidable (DirWellFormed s) := by unfold DirWellFormed; infer_instance

/-- All live entries of the current directory have type `D` or `F`. -/
def TypesKnown (s : FS) : Prop :=
  ∀ i ∈ List.range (live s), e_type s (slot s (dir_chain s) i) = TYPE_DIR
    ∨ e_type s (slot s (dir_chain s) i) = TYPE_FILE

instance (s : FS) : Decidable (TypesKnown s) := by unfold TypesKnown; infer_instance

/-! ## Entries added and removed -/

/-- Session: `mkdir d0`, ..., `mkdir d6` on a new image; the root then has 9 live entries in
three blocks. -/
def session_seven_dirs : Option (FS × List Msg) :=
  (List.range 7).foldl
    (fun o i => andThen o (fun s => vfs_mkdir s today (cstr "d" ++ [48 + (i : Int)])))
    start

/-- The names of the live entries of the current directory, in the order of the entries:
for each one the string in its field `name`, read up to the NUL. -/
def live_names (s : FS) : List (Option (List Int)) :=
  (List.range (live s)).map (fun i => read_string s 21 (slot s (dir_chain s) i + 1))

/-- Session: `get F a`, `mkdir d`, `cp a d` on a new image, `F` being the 2-byte host file
`41 00`. -/
def session_copy_in_dir : Option (FS × List Msg) :=
  andThen (andThen (andThen start
    (fun s => vfs_get s today stack_bytes (HostFile.regular [65, 0]) (cstr "a")))
    (fun s => vfs_mkdir s today (cstr "d")))
    (fun s => vfs_cp s today (cstr "a") (cstr "d"))

instance (s : FS) (p : Int) (name : List Int) : Decidable (stored s p name) := by
  unfold stored; infer_instance

instance (s : FS) (i : Nat) (x : List Int) : Decidable (named s i x) := by
  unfold named; infer_instance

/-- The entry at byte offset `a2` of the state `s2` is a copy of the entry at byte offset
`a1` of the state `s1`: the same type, the same name, the same date, size and first block. -/
def same_entry (s1 : FS) (a1 : Int) (s2 : FS) (a2 : Int) : Prop :=
  e_type s2 a2 = e_type s1 a1
    ∧ (∃ name, IsName name ∧ stored s1 (a1 + 1) name ∧ stored s2 (a2 + 1) name)
    ∧ e_day s2 a2 = e_day s1 a1 ∧ e_month s2 a2 = e_month s1 a1 ∧ e_year s2 a2 = e_year s1 a1
    ∧ e_size s2 a2 = e_size s1 a1 ∧ e_first_block s2 a2 = e_first_block s1 a1

/-- What the tail shared by `vfs_mkdir`, `vfs_get`, `vfs_cp` and `vfs_mv` leaves (the state
`s1`) when it appends an entry of type `ty`, name `b`, size `sz` and first block `fb` to the
current directory of the state `s0`, `t4` being the state it starts from, in which the first
`k` blocks of the free list of `s0` are taken: one more block is taken (`k' = k + 1`) when
the live count of `s0` is a multiple of `DIR_ENTRIES_PER_BLOCK`; `dl1` is the chain of the
directory afterwards. -/
structure AfterAdd (s0 t4 s1 : FS) (ty : Int) (b : List Int) (sz fb : Int) (k k' : Nat)
    (dl1 : List Int) : Prop where
  bs : s1.sb.block_size = s0.sb.block_size
  ft : s1.sb.fat_type = s0.sb.fat_type
  cd : s1.current_dir = s0.current_dir
  size : e_size s1 (entry_addr s0 s0.current_dir 0) = live_count s0 + 1
  dpath : path s1 s0.current_dir dl1
  dgrow : (live s0 % epb s0 ≠ 0 ∧ dl1 = dir_chain s0 ∧ k' = k)
    ∨ (live s0 % epb s0 = 0 ∧ dl1 = dir_chain s0 ++ [(free_blocks s0).getD k (-1)]
        ∧ k' = k + 1 ∧ k < (free_blocks s0).length)
  dlast : live s0 / epb s0 + 1 = dl1.length
  new_type : e_type s1 (slot s0 dl1 (live s0)) = ty
  new_name : stored s1 (slot s0 dl1 (live s0) + 1) b
  new_size : e_size s1 (slot s0 dl1 (live s0)) = toI32 sz
  new_fb : e_first_block s1 (slot s0 dl1 (live s0)) = fb
  new_chain : path s1 fb ((free_blocks s0).take k)
  nfree : s1.sb.n_free_blocks = s0.sb.n_free_blocks - (k' : Int)
  mem : ∀ x, (x < slot s0 dl1 (live s0) ∨ slot s0 dl1 (live s0) + 32 ≤ x) →
    s1.blocks x = t4.blocks x

/-- What the tail shared by `vfs_mkdir`, `vfs_get`, `vfs_cp` and `vfs_mv` leaves in the
superblock, the FAT and the new entry, whatever the data blocks held before: the part of
`AfterAdd` that does not depend on them. -/
structure AfterAddF (s0 s1 : FS) (ty : Int) (b : List Int) (sz fb : Int) (k : Nat)
    (dl1 : List Int) : Prop where
  bs : s1.sb.block_size = s0.sb.block_size
  ft : s1.sb.fat_type = s0.sb.fat_type
  cd : s1.current_dir = s0.current_dir
  dpath : path s1 s0.current_dir dl1
  dlast : live s0 / epb s0 + 1 = dl1.length
  new_type : e_type s1 (slot s0 dl1 (live s0)) = ty
  new_name : stored s1 (slot s0 dl1 (live s0) + 1) b
  new_size : e_size s1 (slot s0 dl1 (live s0)) = toI32 sz
  new_fb : e_first_block s1 (slot s0 dl1 (live s0)) = fb
  new_chain : path s1 fb ((free_blocks s0).take k)

/-- Whether every `strcpy(BLOCK(next_block), msg)` of `vfs_get` called in the state `s` has
defined behaviour.  The loop reads the host file in pieces of up to `block_size` bytes into
the start of the buffer `char msg[4096]` and copies the buffer as a string to the start of
the next block of the file, which for piece number `j` is block number `j` of the free list
of `s`: the buffer must hold a NUL, at some index `z`, and the `z + 1` bytes copied must end
inside the data region.  `rest` is the part of the file not yet read, `msg` the content of
the buffer and `fuel` bounds the number of pieces. -/
def copies_defined (s : FS) : Nat → Nat → List Int → (Int → Int) → Bool
  | 0, _, _, _ => true
  | fuel + 1, j, rest, msg =>
    let n := read_count s rest
    if n ≤ 0 then true
    else
      let msg1 := store_bytes msg 0 n (fun i => rest.getD i.toNat 0)
      match strlen_from msg1 4096 0 with
      | none => false
      | some z =>
        decide (BLOCK s ((free_blocks s).getD j (-1)) + z < data_size s)
          && copies_defined s fuel (j + 1) (rest.drop n.toNat) msg1

/-- A host file of 256 letters `A`, two blocks of 128, with no NUL byte. -/
def full_blocks : List Int := List.replicate 256 65

/-- A buffer `msg` of `vfs_get` that holds NUL bytes on entry. -/
def zero_bytes : Int → Int := fun _ => 0

/-- The image after `mkdir d0`, `mkdir d1` on a new image: the root has 4 live entries, which
fill its block. -/
def image_two_dirs : FS :=
  ((andThen (andThen start (fun s => vfs_mkdir s today (cstr "d0")))
    (fun s => vfs_mkdir s today (cstr "d1"))).map Prod.fst).getD new_image

/-- The image after `get F a`, `get G c` on a new image. -/
def image_two_files : FS := (session_two_files.map Prod.fst).getD new_image

/-! ## Lemmas -/

theorem toI32_of_range {v : Int} (h1 : -2147483648 ≤ v) (h2 : v < 2147483648) : toI32 v = v := by
  unfold toI32; split_ifs <;> omega

theorem toI32_range (x : Int) : -2147483648 ≤ toI32 x ∧ toI32 x < 2147483648 := by
  unfold toI32; split_ifs <;> omega

theorem load_int_range (m : Int → Int) (a : Int) :
    -2147483648 ≤ load_int m a ∧ load_int m a < 2147483648 := toI32_range _

theorem toU64_of_range {v : Int} (h1 : 0 ≤ v) (h2 : v < 18446744073709551616) : toU64 v = v := by
  unfold toU64; omega

theorem toU32_of_range {v : Int} (h1 : 0 ≤ v) (h2 : v < 4294967296) : toU32 v = v := by
  unfold toU32; omega

theorem store_same (m : Int → Int) (a v : Int) : store m a v a = v := by simp [store]

theorem store_other (m : Int → Int) (a v x : Int) (h : x ≠ a) : store m a v x = m x := by
  simp [store, h]

theorem store_int_other (m : Int → Int) (a v x : Int) (h : x < a ∨ a + 4 ≤ x) :
    store_int m a v x = m x := by
  unfold store_int store
  have h0 : x ≠ a := by omega
  have h1 : x ≠ a + 1 := by omega
  have h2 : x ≠ a + 2 := by omega
  have h3 : x ≠ a + 3 := by omega
  simp [h0, h1, h2, h3]

theorem load_int_store_int (m : Int → Int) (a v : Int) :
    load_int (store_int m a v) a = toI32 v := by
  unfold load_int store_int store toU32
  have e1 : (a = a + 1) = False := by simp
  have e2 : (a = a + 2) = False := by simp
  have e3 : (a = a + 3) = False := by simp
  have e4 : (a + 1 = a + 2) = False := by simp
  have e5 : (a + 1 = a + 3) = False := by simp
  have e6 : (a + 2 = a + 3) = False := by simp
  simp only [e1, e2, e3, e4, e5, e6, if_true, if_false]
  unfold toI32
  have : v % 4294967296 % 256 + 256 * (v % 4294967296 / 256 % 256)
      + 65536 * (v % 4294967296 / 65536 % 256)
      + 16777216 * (v % 4294967296 / 16777216 % 256) = v % 4294967296 := by omega
  rw [this]
  have : v % 4294967296 % 4294967296 = v % 4294967296 := by omega
  rw [this]

theorem load_int_congr (m m' : Int → Int) (a : Int)
    (h : ∀ x, a ≤ x → x < a + 4 → m' x = m x) : load_int m' a = load_int m a := by
  unfold load_int
  rw [h a (by omega) (by omega), h (a + 1) (by omega) (by omega),
    h (a + 2) (by omega) (by omega), h (a + 3) (by omega) (by omega)]

theorem load_int_store_int_other (m : Int → Int) (a v b : Int) (h : b + 4 ≤ a ∨ a + 4 ≤ b) :
    load_int (store_int m a v) b = load_int m b := by
  apply load_int_congr
  intro x h1 h2
  apply store_int_other
  omega

theorem store_bytes_other (m : Int → Int) (dst len : Int) (src : Int → Int) (x : Int)
    (h : x < dst ∨ dst + len ≤ x) : store_bytes m dst len src x = m x := by
  unfold store_bytes
  rw [if_neg]
  omega

theorem store_bytes_inside (m : Int → Int) (dst len : Int) (src : Int → Int) (x : Int)
    (h1 : dst ≤ x) (h2 : x < dst + len) : store_bytes m dst len src x = src (x - dst) := by
  unfold store_bytes
  rw [if_pos ⟨h1, h2⟩]

theorem chain_from_path (s : FS) : ∀ (fuel : Nat) (b : Int) (l : List Int),
    chain_from s fuel b = some l → path s b l ∧ l.length < fuel := by
  intro fuel
  induction fuel with
  | zero => intro b l h; simp [chain_from] at h
  | succ f ih =>
    intro b l h
    unfold chain_from at h
    by_cases hb : b = -1
    · simp [hb] at h; subst h; simp [path, hb]
    · rw [if_neg hb] at h
      by_cases hv : valid_block s b
      · rw [if_pos hv] at h
        cases hc : chain_from s f (s.fat b) with
        | none => simp [hc] at h
        | some r =>
          simp [hc] at h
          subst h
          have := ih _ _ hc
          exact ⟨⟨rfl, hv, this.1⟩, by simp; omega⟩
      · rw [if_neg hv] at h; simp at h

theorem path_chain_from (s : FS) : ∀ (l : List Int) (b : Int) (fuel : Nat),
    path s b l → l.length < fuel → chain_from s fuel b = some l := by
  intro l
  induction l with
  | nil =>
    intro b fuel h hl
    cases fuel with
    | zero => simp at hl
    | succ f => simp [path] at h; simp [chain_from, h]
  | cons x r ih =>
    intro b fuel h hl
    cases fuel with
    | zero => simp at hl
    | succ f =>
      obtain ⟨hbx, hv, hp⟩ := h
      subst hbx
      have hne : b ≠ -1 := by
        intro h1; unfold valid_block at hv; omega
      unfold chain_from
      rw [if_neg hne, if_pos hv, ih _ _ hp (by simp at hl; omega)]
      rfl

theorem path_valid (s : FS) : ∀ (l : List Int) (b : Int), path s b l → ∀ x ∈ l, valid_block s x := by
  intro l
  induction l with
  | nil => intro b _ x hx; simp at hx
  | cons y r ih =>
    intro b h x hx
    obtain ⟨_, hv, hp⟩ := h
    rcases List.mem_cons.1 hx with h1 | h1
    · subst h1; exact hv
    · exact ih _ hp x h1

theorem path_head (s : FS) (l : List Int) (b : Int) (h : path s b l) : l.headD (-1) = b := by
  cases l with
  | nil => simp [path] at h; simp [h]
  | cons x r => simp [path] at h; simp [h.1]

/-- Along a chain, the FAT entry of block number `t` is block number `t + 1`, or the end mark
after the last block. -/
theorem path_next (s : FS) : ∀ (l : List Int) (b : Int), path s b l →
    ∀ t : Nat, t < l.length → s.fat (l.getD t (-1)) = l.getD (t + 1) (-1) := by
  intro l
  induction l with
  | nil => intro b _ t ht; simp at ht
  | cons x r ih =>
    intro b h t ht
    obtain ⟨_, _, hp⟩ := h
    cases t with
    | zero =>
      have := path_head s r _ hp
      simp only [List.getD_cons_zero, List.getD_cons_succ]
      cases r with
      | nil => simp [path] at hp; simp [hp]
      | cons y r2 => simp [path] at hp; simp [hp.1]
    | succ t2 =>
      simp only [List.getD_cons_succ]
      exact ih _ hp t2 (by simp at ht; omega)

/-- A chain depends on the FAT entries of its own blocks only. -/
theorem path_congr (s s' : FS) (hN : s'.sb.fat_type = s.sb.fat_type) :
    ∀ (l : List Int) (b : Int), (∀ x ∈ l, s'.fat x = s.fat x) → path s b l → path s' b l := by
  intro l
  induction l with
  | nil => intro b _ h; exact h
  | cons x r ih =>
    intro b hf h
    obtain ⟨h1, hv, hp⟩ := h
    refine ⟨h1, ?_, ?_⟩
    · unfold valid_block at hv ⊢; rw [hN]; exact hv
    · rw [hf x (by simp)]
      exact ih _ (fun y hy => hf y (by simp [hy])) hp

theorem path_drop (s : FS) : ∀ (l : List Int) (b : Int), path s b l →
    ∀ t : Nat, t < l.length → path s (l.getD t (-1)) (l.drop t) := by
  intro l
  induction l with
  | nil => intro b _ t ht; simp at ht
  | cons x r ih =>
    intro b h t ht
    cases t with
    | zero =>
      obtain ⟨_, hv, hp⟩ := h
      exact ⟨rfl, hv, hp⟩
    | succ t2 =>
      obtain ⟨_, _, hp⟩ := h
      simp only [List.getD_cons_succ, List.drop_succ_cons]
      exact ih _ hp t2 (by simp at ht; omega)

theorem last_of_chain_path (s : FS) : ∀ (l : List Int) (b : Int) (fuel : Nat),
    path s b l → l ≠ [] → l.length ≤ fuel →
      last_of_chain s fuel b = some (l.getD (l.length - 1) (-1)) := by
  intro l
  induction l with
  | nil => intro b fuel _ h; exact absurd rfl h
  | cons x r ih =>
    intro b fuel h _ hl
    obtain ⟨hbx, hv, hp⟩ := h
    subst hbx
    cases fuel with
    | zero => simp at hl
    | succ f =>
      unfold last_of_chain
      rw [if_pos hv]
      cases r with
      | nil =>
        simp [path] at hp
        simp [hp]
      | cons y r2 =>
        have hy : s.fat b = y := hp.1
        have hyv : valid_block s y := hp.2.1
        have hne : s.fat b ≠ -1 := by
          rw [hy]; intro h1; unfold valid_block at hyv; omega
        rw [if_neg hne]
        rw [ih (s.fat b) f hp (by simp) (by simp at hl ⊢; omega)]
        simp

theorem count_chain_path (s : FS) : ∀ (l : List Int) (b : Int) (fuel : Nat) (c : Int),
    path s b l → l ≠ [] → l.length ≤ fuel →
      count_chain s fuel b c = some (l.getD (l.length - 1) (-1), c + l.length - 1) := by
  intro l
  induction l with
  | nil => intro b fuel c _ h; exact absurd rfl h
  | cons x r ih =>
    intro b fuel c h _ hl
    obtain ⟨hbx, hv, hp⟩ := h
    subst hbx
    cases fuel with
    | zero => simp at hl
    | succ f =>
      unfold count_chain
      rw [if_pos hv]
      cases r with
      | nil =>
        simp [path] at hp
        simp [hp]
      | cons y r2 =>
        have hy : s.fat b = y := hp.1
        have hyv : valid_block s y := hp.2.1
        have hne : s.fat b ≠ -1 := by
          rw [hy]; intro h1; unfold valid_block at hyv; omega
        rw [if_neg hne]
        rw [ih (s.fat b) f (c + 1) hp (by simp) (by simp at hl ⊢; omega)]
        simp
        omega

theorem legal_geom (s : FS) (h : legal s) :
    DIR_ENTRIES_PER_BLOCK s = (epb s : Int) ∧ 4 ≤ epb s ∧ epb s ≤ 32
      ∧ s.sb.block_size = 32 * (epb s : Int)
      ∧ 128 ≤ FAT_ENTRIES s.sb.fat_type ∧ FAT_ENTRIES s.sb.fat_type ≤ 1024 := by
  obtain ⟨hb, hf⟩ := h
  have hN : 128 ≤ FAT_ENTRIES s.sb.fat_type ∧ FAT_ENTRIES s.sb.fat_type ≤ 1024 := by
    unfold FAT_ENTRIES
    rcases hf with h | h | h | h <;> rw [h] <;> decide
  unfold epb DIR_ENTRIES_PER_BLOCK toU64 sizeof_dir_entry
  rcases hb with h | h | h | h <;> rw [h] <;> refine ⟨by decide, by decide, by decide, by decide, hN⟩

theorem legal_congr (s s' : FS) (h1 : s'.sb.block_size = s.sb.block_size)
    (h2 : s'.sb.fat_type = s.sb.fat_type) (h : legal s) : legal s' := by
  unfold legal at h ⊢; rw [h1, h2]; exact h

theorem epb_congr (s s' : FS) (h1 : s'.sb.block_size = s.sb.block_size) : epb s' = epb s := by
  unfold epb DIR_ENTRIES_PER_BLOCK; rw [h1]

theorem umod_legal (s : FS) (h : legal s) (x : Nat) (hx : (x : Int) < 18446744073709551616) :
    umod s (x : Int) = some ((x % epb s : Nat) : Int) := by
  obtain ⟨h1, h2, _, _, _, _⟩ := legal_geom s h
  unfold umod
  rw [h1]
  have : ((epb s : Nat) : Int) ≠ 0 := by omega
  rw [if_neg this, toU64_of_range (by omega) hx]
  simp

/-- A valid block lies inside the data region. -/
theorem block_range (s : FS) (h : legal s) (b : Int) (hv : valid_block s b) :
    0 ≤ BLOCK s b ∧ BLOCK s b + s.sb.block_size ≤ data_size s := by
  obtain ⟨_, h2, _, h4, _, _⟩ := legal_geom s h
  unfold valid_block at hv
  unfold BLOCK data_size
  have hbs : 0 < s.sb.block_size := by omega
  constructor
  · exact Int.mul_nonneg hv.1 (le_of_lt hbs)
  · have : (b + 1) * s.sb.block_size ≤ FAT_ENTRIES s.sb.fat_type * s.sb.block_size :=
      Int.mul_le_mul_of_nonneg_right (by omega) (le_of_lt hbs)
    linarith

/-- Two different blocks do not overlap. -/
theorem block_disjoint (s : FS) (h : legal s) (b c : Int) (hne : b ≠ c) :
    BLOCK s b + s.sb.block_size ≤ BLOCK s c ∨ BLOCK s c + s.sb.block_size ≤ BLOCK s b := by
  obtain ⟨_, h2, _, h4, _, _⟩ := legal_geom s h
  have hbs : 0 < s.sb.block_size := by omega
  unfold BLOCK
  rcases lt_or_gt_of_ne hne with h1 | h1
  · left
    have : (b + 1) * s.sb.block_size ≤ c * s.sb.block_size :=
      Int.mul_le_mul_of_nonneg_right (by omega) (le_of_lt hbs)
    linarith
  · right
    have : (c + 1) * s.sb.block_size ≤ b * s.sb.block_size :=
      Int.mul_le_mul_of_nonneg_right (by omega) (le_of_lt hbs)
    linarith

/-- An entry of a valid block lies inside the block. -/
theorem entry_range (s : FS) (h : legal s) (b : Int) (j : Nat) (hj : j < epb s) :
    BLOCK s b ≤ entry_addr s b (j : Int)
      ∧ entry_addr s b (j : Int) + 32 ≤ BLOCK s b + s.sb.block_size := by
  obtain ⟨_, h2, _, h4, _, _⟩ := legal_geom s h
  unfold entry_addr sizeof_dir_entry
  constructor <;> omega

theorem slot_range (s : FS) (h : legal s) (dl : List Int) (hv : ∀ x ∈ dl, valid_block s x)
    (i : Nat) (hi : i / epb s < dl.length) :
    BLOCK s (dl.getD (i / epb s) (-1)) ≤ slot s dl i
      ∧ slot s dl i + 32 ≤ BLOCK s (dl.getD (i / epb s) (-1)) + s.sb.block_size
      ∧ 0 ≤ slot s dl i ∧ slot s dl i + 32 ≤ data_size s := by
  obtain ⟨_, h2, _, h4, _, _⟩ := legal_geom s h
  have hm : i % epb s < epb s := Nat.mod_lt _ (by omega)
  have hr := entry_range s h (dl.getD (i / epb s) (-1)) (i % epb s) hm
  have hb : valid_block s (dl.getD (i / epb s) (-1)) := by
    apply hv
    rw [List.getD_eq_getElem _ _ hi]
    exact List.getElem_mem _
  have hbr := block_range s h _ hb
  unfold slot
  refine ⟨hr.1, hr.2, ?_, ?_⟩ <;> omega

/-- Different entries of a directory do not overlap. -/
theorem slot_disjoint (s : FS) (h : legal s) (dl : List Int) (hnd : dl.Nodup)
    (i j : Nat) (hi : i / epb s < dl.length) (hj : j / epb s < dl.length) (hne : i ≠ j) :
    slot s dl i + 32 ≤ slot s dl j ∨ slot s dl j + 32 ≤ slot s dl i := by
  obtain ⟨_, h2, _, h4, _, _⟩ := legal_geom s h
  have hE : 0 < epb s := by omega
  have hmi : i % epb s < epb s := Nat.mod_lt _ hE
  have hmj : j % epb s < epb s := Nat.mod_lt _ hE
  have hri := entry_range s h (dl.getD (i / epb s) (-1)) (i % epb s) hmi
  have hrj := entry_range s h (dl.getD (j / epb s) (-1)) (j % epb s) hmj
  by_cases hq : i / epb s = j / epb s
  · have hm : i % epb s ≠ j % epb s := by
      intro hm
      apply hne
      rw [← Nat.div_add_mod i (epb s), ← Nat.div_add_mod j (epb s), hq, hm]
    unfold slot entry_addr sizeof_dir_entry
    rw [hq]
    omega
  · have hb : dl.getD (i / epb s) (-1) ≠ dl.getD (j / epb s) (-1) := by
      rw [List.getD_eq_getElem _ _ hi, List.getD_eq_getElem _ _ hj]
      intro hb
      exact hq ((List.Nodup.getElem_inj_iff hnd).1 hb)
    have := block_disjoint s h _ _ hb
    unfold slot
    omega

theorem strcmp_eq_congr (s s' : FS) (hd : data_size s' = data_size s) :
    ∀ (name : List Int) (p : Int),
      (∀ x, p ≤ x → x ≤ p + (name.length : Int) → s'.blocks x = s.blocks x) →
      strcmp_eq s' p name = strcmp_eq s p name := by
  intro name
  induction name with
  | nil =>
    intro p h
    unfold strcmp_eq
    rw [hd, h p (le_refl _) (by simp)]
  | cons c cs ih =>
    intro p h
    unfold strcmp_eq
    rw [hd, h p (le_refl _) (by simp; omega)]
    rw [ih (p + 1) (fun x h1 h2 => h x (by omega) (by simp at h2 ⊢; omega))]

theorem strcmp_eq_true_stored (s : FS) : ∀ (name : List Int) (p : Int),
    strcmp_eq s p name = some true → stored s p name := by
  intro name
  induction name with
  | nil =>
    intro p h
    unfold strcmp_eq at h
    split_ifs at h with h1
    simp at h
    exact ⟨fun i hi => by simp at hi, by simpa using h⟩
  | cons c cs ih =>
    intro p h
    unfold strcmp_eq at h
    split_ifs at h with h1 h2
    · have := ih (p + 1) h
      constructor
      · intro i hi
        cases i with
        | zero => simpa using h2
        | succ j =>
          have := this.1 j (by simp at hi; omega)
          simp only [List.getD_cons_succ]
          rw [← this]
          congr 1
          push_cast
          ring
      · have := this.2
        rw [← this]
        congr 1
        simp
        ring
    · simp at h

theorem strcmp_eq_stored (s : FS) : ∀ (name : List Int) (p : Int),
    stored s p name → 0 ≤ p → p + (name.length : Int) < data_size s →
    strcmp_eq s p name = some true := by
  intro name
  induction name with
  | nil =>
    intro p h h0 h1
    unfold strcmp_eq
    have := h.2
    simp at this h1
    rw [if_pos ⟨h0, h1⟩, this]
    rfl
  | cons c cs ih =>
    intro p h h0 h1
    unfold strcmp_eq
    simp at h1
    rw [if_pos ⟨h0, by omega⟩]
    have hc := h.1 0 (by simp)
    simp at hc
    rw [if_pos hc]
    apply ih
    · constructor
      · intro i hi
        have := h.1 (i + 1) (by simp; omega)
        simp only [List.getD_cons_succ] at this
        rw [← this]
        congr 1
        push_cast
        ring
      · have := h.2
        rw [← this]
        congr 1
        simp
        ring
    · omega
    · omega

theorem strcmp_eq_some (s : FS) : ∀ (name : List Int) (p : Int) (z : Nat),
    CStr name → 0 ≤ p → s.blocks (p + (z : Int)) = 0 → p + (z : Int) < data_size s →
    ∃ r, strcmp_eq s p name = some r := by
  intro name
  induction name with
  | nil =>
    intro p z _ h0 _ h2
    unfold strcmp_eq
    rw [if_pos ⟨h0, by omega⟩]
    exact ⟨_, rfl⟩
  | cons c cs ih =>
    intro p z hc h0 h1 h2
    unfold strcmp_eq
    rw [if_pos ⟨h0, by omega⟩]
    by_cases h3 : s.blocks p = c
    · rw [if_pos h3]
      have hc0 : c ≠ 0 := hc c (by simp)
      cases z with
      | zero => simp at h1; rw [h1] at h3; exact absurd h3.symm hc0
      | succ z2 =>
        apply ih (p + 1) z2 (fun x hx => hc x (by simp [hx])) (by omega)
        · rw [← h1]; congr 1; push_cast; ring
        · push_cast at h2; omega
    · rw [if_neg h3]
      exact ⟨_, rfl⟩

theorem stored_inj (s : FS) (p : Int) : ∀ (a b : List Int), stored s p a → stored s p b →
    CStr a → CStr b → a = b := by
  intro a b ha hb ca cb
  have key : ∀ (a b : List Int), stored s p a → stored s p b → CStr a → CStr b →
      ¬ a.length < b.length := by
    intro a b ha hb _ cb hlt
    have h1 := ha.2
    have h2 := hb.1 a.length hlt
    rw [h1] at h2
    have : b.getD a.length 0 ∈ b := by
      rw [List.getD_eq_getElem _ _ hlt]
      exact List.getElem_mem _
    exact cb _ this h2.symm
  have hlen : a.length = b.length := by
    have h1 := key a b ha hb ca cb
    have h2 := key b a hb ha cb ca
    omega
  apply List.ext_getElem hlen
  intro i h1 h2
  have e1 := ha.1 i h1
  have e2 := hb.1 i h2
  rw [List.getD_eq_getElem _ _ h1] at e1
  rw [List.getD_eq_getElem _ _ h2] at e2
  rw [← e1, ← e2]

theorem strcmp_eq_other (s : FS) (p : Int) (a b : List Int) (hs : stored s p b)
    (ca : CStr a) (cb : CStr b) (hne : a ≠ b) (h0 : 0 ≤ p)
    (h1 : p + (b.length : Int) < data_size s) : strcmp_eq s p a = some false := by
  obtain ⟨r, hr⟩ := strcmp_eq_some s a p b.length ca h0 hs.2 h1
  cases r with
  | false => exact hr
  | true => exact absurd (stored_inj s p a b (strcmp_eq_true_stored s a p hr) hs ca cb) hne

theorem div_pred_of_dvd (E i : Nat) (hi : 0 < i) (hd : i % E = 0) :
    (i - 1) / E + 1 = i / E := by
  obtain ⟨j, rfl⟩ : ∃ j, i = j + 1 := ⟨i - 1, by omega⟩
  rw [Nat.succ_div]
  simp [Nat.dvd_of_mod_eq_zero hd]

theorem div_pred_of_not_dvd (E i : Nat) (hd : i % E ≠ 0) : (i - 1) / E = i / E := by
  cases i with
  | zero => rfl
  | succ j =>
    rw [Nat.succ_div]
    have : ¬ E ∣ j + 1 := fun h => hd (Nat.mod_eq_zero_of_dvd h)
    simp [this]

/-- What the entry loop returns on a directory whose chain is `dl`, in terms of the test on
the successive entries. -/
theorem scan_dir_spec (s : FS) (hl : legal s) (test : Int → Option Bool) (dl : List Int)
    (hv : ∀ x ∈ dl, valid_block s x)
    (hnext : ∀ t : Nat, t + 1 < dl.length → s.fat (dl.getD t (-1)) = dl.getD (t + 1) (-1)) :
    ∀ (k i : Nat) (cur before : Int),
      i + k ≤ dl.length * epb s → i + k < 2147483648 →
      cur = dl.getD ((i - 1) / epb s) (-1) →
      (∀ j, i ≤ j → j < i + k → ∃ r, test (slot s dl j) = some r) →
      (scan_dir s test k (i : Int) cur before = some none
          ∧ ∀ j, i ≤ j → j < i + k → test (slot s dl j) = some false)
        ∨ ∃ (p : Nat) (bef : Int), i ≤ p ∧ p < i + k
            ∧ scan_dir s test k (i : Int) cur before
                = some (some ⟨(p : Int), dl.getD (p / epb s) (-1), bef, ((p % epb s : Nat) : Int)⟩)
            ∧ test (slot s dl p) = some true
            ∧ ∀ j, i ≤ j → j < p → test (slot s dl j) = some false := by
  obtain ⟨_, hE4, _, _, _, _⟩ := legal_geom s hl
  have hE : 0 < epb s := by omega
  intro k
  induction k with
  | zero =>
    intro i cur before _ _ _ _
    left
    exact ⟨rfl, fun j h1 h2 => by omega⟩
  | succ k ih =>
    intro i cur before hcap hbig hcur htest
    have hidx : i / epb s < dl.length := by
      apply Nat.div_lt_of_lt_mul
      rw [Nat.mul_comm]
      omega
    unfold scan_dir
    rw [umod_legal s hl i (by omega)]
    simp only
    -- the block of entry `i`
    have hadv : (if ((i % epb s : Nat) : Int) = 0 ∧ (i : Int) ≠ 0 then
          if valid_block s cur then some (s.fat cur, cur) else none
        else some (cur, before))
        = some (dl.getD (i / epb s) (-1),
            if ((i % epb s : Nat) : Int) = 0 ∧ (i : Int) ≠ 0 then cur else before) := by
      by_cases hc : ((i % epb s : Nat) : Int) = 0 ∧ (i : Int) ≠ 0
      · rw [if_pos hc, if_pos hc]
        have h0 : i % epb s = 0 := by exact_mod_cast hc.1
        have hi0 : 0 < i := by have := hc.2; omega
        have hd := div_pred_of_dvd (epb s) i hi0 h0
        have hcv : valid_block s cur := by
          rw [hcur]
          apply hv
          rw [List.getD_eq_getElem _ _ (by omega)]
          exact List.getElem_mem _
        rw [if_pos hcv, hcur, hnext ((i - 1) / epb s) (by omega), hd]
      · rw [if_neg hc, if_neg hc]
        have : (i - 1) / epb s = i / epb s := by
          by_cases h0 : i % epb s = 0
          · have : i = 0 := by
              by_contra h1
              apply hc
              exact ⟨by exact_mod_cast h0, by exact_mod_cast h1⟩
            subst this
            rfl
          · exact div_pred_of_not_dvd _ _ h0
        rw [hcur, this]
    rw [hadv]
    simp only
    have hbv : valid_block s (dl.getD (i / epb s) (-1)) := by
      apply hv
      rw [List.getD_eq_getElem _ _ hidx]
      exact List.getElem_mem _
    rw [if_pos hbv]
    have hslot : entry_addr s (dl.getD (i / epb s) (-1)) ((i % epb s : Nat) : Int)
        = slot s dl i := rfl
    rw [hslot]
    obtain ⟨r, hr⟩ := htest i (le_refl _) (by omega)
    rw [hr]
    cases r with
    | true =>
      right
      exact ⟨i, _, le_refl _, by omega, rfl, hr, fun j h1 h2 => by omega⟩
    | false =>
      simp only
      have hcast : ((i : Int) + 1) = ((i + 1 : Nat) : Int) := by push_cast; rfl
      rw [hcast]
      have := ih (i + 1) (dl.getD (i / epb s) (-1))
        (if ((i % epb s : Nat) : Int) = 0 ∧ (i : Int) ≠ 0 then cur else before)
        (by omega) (by omega) (by simp) (fun j h1 h2 => htest j (by omega) (by omega))
      rcases this with ⟨h1, h2⟩ | ⟨p, bef, h1, h2, h3, h4, h5⟩
      · left
        refine ⟨h1, fun j h3 h4 => ?_⟩
        by_cases hj : j = i
        · subst hj; exact hr
        · exact h2 j (by omega) (by omega)
      · right
        refine ⟨p, bef, by omega, by omega, h3, h4, fun j h6 h7 => ?_⟩
        by_cases hj : j = i
        · subst hj; exact hr
        · exact h5 j (by omega) h7

theorem slot_in_block (s : FS) (dl : List Int) (t j : Nat) (hj : j < epb s) :
    slot s dl (t * epb s + j) = BLOCK s (dl.getD t (-1)) + 32 * (j : Int) := by
  unfold slot entry_addr sizeof_dir_entry
  have h1 : (t * epb s + j) / epb s = t := by
    rw [Nat.mul_comm, Nat.mul_add_div (by omega), Nat.div_eq_of_lt hj]; simp
  have h2 : (t * epb s + j) % epb s = j := by
    rw [Nat.mul_comm, Nat.mul_add_mod, Nat.mod_eq_of_lt hj]
  rw [h1, h2]

/-- The `for` loop of `find_dir_entry` on block number `t` of the directory, from its entry
`j`. -/
theorem find_for_spec (s : FS) (name : List Int) (n : Nat) (hn : n < 2147483648)
    (dl : List Int) (t : Nat) :
    ∀ (k j : Nat), j + k = epb s →
      (∀ g, t * epb s + j ≤ g → g < t * epb s + epb s → g < n →
        (∀ g2, t * epb s + j ≤ g2 → g2 < g → strcmp_eq s (slot s dl g2 + 1) name = some false) →
        ∃ r, strcmp_eq s (slot s dl g + 1) name = some r) →
      (find_dir_entry_for s name (n : Int) k (BLOCK s (dl.getD t (-1)) + 32 * (j : Int))
            ((t * epb s + j : Nat) : Int)
          = some (none, ((max (t * epb s + j) (min (t * epb s + epb s) n) : Nat) : Int))
        ∧ ∀ g, t * epb s + j ≤ g → g < t * epb s + epb s → g < n →
            strcmp_eq s (slot s dl g + 1) name = some false)
      ∨ ∃ p : Nat, t * epb s + j ≤ p ∧ p < t * epb s + epb s ∧ p < n
          ∧ find_dir_entry_for s name (n : Int) k (BLOCK s (dl.getD t (-1)) + 32 * (j : Int))
              ((t * epb s + j : Nat) : Int) = some (some (slot s dl p), (p : Int))
          ∧ strcmp_eq s (slot s dl p + 1) name = some true
          ∧ ∀ g, t * epb s + j ≤ g → g < p → strcmp_eq s (slot s dl g + 1) name = some false := by
  intro k
  induction k with
  | zero =>
    intro j hj _
    left
    refine ⟨?_, fun g h1 h2 _ => by omega⟩
    unfold find_dir_entry_for
    have : max (t * epb s + j) (min (t * epb s + epb s) n) = t * epb s + j := by omega
    rw [this]
  | succ k ih =>
    intro j hj htest
    have hjE : j < epb s := by omega
    unfold find_dir_entry_for
    have hU : toU32 (n : Int) = (n : Int) := toU32_of_range (by omega) (by omega)
    rw [hU]
    by_cases hc : ((t * epb s + j : Nat) : Int) < (n : Int)
    · rw [if_pos hc]
      have hc2 : t * epb s + j < n := by exact_mod_cast hc
      have hs := slot_in_block s dl t j hjE
      rw [← hs]
      obtain ⟨r, hr⟩ := htest (t * epb s + j) (le_refl _) (by omega) hc2
        (fun g2 h1 h2 => by omega)
      rw [hr]
      cases r with
      | true =>
        right
        exact ⟨t * epb s + j, le_refl _, by omega, hc2, rfl, hr, fun g h1 h2 => by omega⟩
      | false =>
        simp only
        have ha : slot s dl (t * epb s + j) + sizeof_dir_entry
            = BLOCK s (dl.getD t (-1)) + 32 * ((j + 1 : Nat) : Int) := by
          rw [hs]; unfold sizeof_dir_entry; push_cast; ring
        have hb : ((t * epb s + j : Nat) : Int) + 1 = ((t * epb s + (j + 1) : Nat) : Int) := by
          push_cast; ring
        rw [ha, hb]
        have := ih (j + 1) (by omega) (fun g h1 h2 h3 h4 => htest g (by omega) h2 h3
          (fun g2 h5 h6 => by
            by_cases hg : g2 = t * epb s + j
            · subst hg; exact hr
            · exact h4 g2 (by omega) h6))
        rcases this with ⟨h1, h2⟩ | ⟨p, h1, h2, h3, h4, h5, h6⟩
        · left
          constructor
          · rw [h1]
            have : max (t * epb s + (j + 1)) (min (t * epb s + epb s) n)
                = max (t * epb s + j) (min (t * epb s + epb s) n) := by omega
            rw [this]
          · intro g h3 h4 h5
            by_cases hg : g = t * epb s + j
            · subst hg; exact hr
            · exact h2 g (by omega) h4 h5
        · right
          refine ⟨p, by omega, h2, h3, h4, h5, fun g h7 h8 => ?_⟩
          by_cases hg : g = t * epb s + j
          · subst hg; exact hr
          · exact h6 g (by omega) h8
    · rw [if_neg hc]
      have hc2 : n ≤ t * epb s + j := by
        by_contra h; apply hc; exact_mod_cast (by omega : t * epb s + j < n)
      left
      refine ⟨?_, fun g h1 _ h3 => by omega⟩
      have : max (t * epb s + j) (min (t * epb s + epb s) n) = t * epb s + j := by omega
      rw [this]

theorem epb_toU32 (s : FS) (hl : legal s) :
    (toU32 (DIR_ENTRIES_PER_BLOCK s)).toNat = epb s := by
  obtain ⟨h1, _, h3, _, _, _⟩ := legal_geom s hl
  rw [h1, toU32_of_range (by omega) (by omega)]
  simp

/-- The `while` loop of `find_dir_entry` finds entry `p` when the entries before it do not
bear the name and entry `p` does. -/
theorem find_while_hit (s : FS) (hl : legal s) (name : List Int) (n : Nat) (hn : n < 2147483648)
    (dl : List Int) (hv : ∀ x ∈ dl, valid_block s x)
    (hnext : ∀ t : Nat, t + 1 < dl.length → s.fat (dl.getD t (-1)) = dl.getD (t + 1) (-1))
    (p : Nat) (hp : p < n) (hpl : p / epb s < dl.length)
    (htrue : strcmp_eq s (slot s dl p + 1) name = some true) :
    ∀ (m t fuel : Nat), t + m = p / epb s → m < fuel →
      (∀ g, t * epb s ≤ g → g < p → strcmp_eq s (slot s dl g + 1) name = some false) →
      find_dir_entry_while s name (n : Int) fuel (dl.getD t (-1)) ((t * epb s : Nat) : Int)
        = some (some (slot s dl p)) := by
  obtain ⟨_, hE4, _, _, _, _⟩ := legal_geom s hl
  have hE : 0 < epb s := by omega
  have hplo : p / epb s * epb s ≤ p := Nat.div_mul_le_self p (epb s)
  have hphi : p < p / epb s * epb s + epb s := by
    have := Nat.lt_div_mul_add (a := p) hE
    omega
  intro m
  induction m with
  | zero =>
    intro t fuel ht hf hfalse
    have ht' : p / epb s = t := by omega
    rw [ht'] at hplo hphi hpl
    cases fuel with
    | zero => omega
    | succ f =>
      unfold find_dir_entry_while
      have hbv : valid_block s (dl.getD t (-1)) := by
        apply hv
        rw [List.getD_eq_getElem _ _ (by omega)]
        exact List.getElem_mem _
      have hne : dl.getD t (-1) ≠ -1 := by
        intro h; unfold valid_block at hbv; omega
      rw [if_neg hne, if_pos hbv, epb_toU32 s hl]
      have := find_for_spec s name n hn dl t (epb s) 0 (by omega) (fun g h1 h2 h3 h4 => by
        by_cases hg : g < p
        · exact ⟨_, hfalse g (by omega) hg⟩
        · by_cases hg2 : g = p
          · subst hg2; exact ⟨_, htrue⟩
          · exfalso
            have := h4 p (by omega) (by omega)
            rw [htrue] at this
            simp at this)
      simp only [Nat.add_zero, Nat.cast_zero, mul_zero, add_zero] at this
      rcases this with ⟨_, h2⟩ | ⟨q, h1, h2, h3, h4, h5, h6⟩
      · have := h2 p (by omega) (by omega) hp
        rw [htrue] at this
        simp at this
      · rw [h4]
        have hq : q = p := by
          rcases Nat.lt_trichotomy q p with h | h | h
          · have := hfalse q h1 h
            rw [h5] at this; simp at this
          · exact h
          · have := h6 p (by omega) h
            rw [htrue] at this; simp at this
        rw [hq]
  | succ m ih =>
    intro t fuel ht hf hfalse
    cases fuel with
    | zero => omega
    | succ f =>
      unfold find_dir_entry_while
      have hbv : valid_block s (dl.getD t (-1)) := by
        apply hv
        rw [List.getD_eq_getElem _ _ (by omega)]
        exact List.getElem_mem _
      have hne : dl.getD t (-1) ≠ -1 := by
        intro h; unfold valid_block at hbv; omega
      rw [if_neg hne, if_pos hbv, epb_toU32 s hl]
      have hblk : t * epb s + epb s ≤ p := by
        have : (t + 1) * epb s ≤ p / epb s * epb s := Nat.mul_le_mul_right _ (by omega)
        have h2 : (t + 1) * epb s = t * epb s + epb s := by ring
        omega
      have := find_for_spec s name n hn dl t (epb s) 0 (by omega) (fun g h1 h2 h3 _ =>
        ⟨_, hfalse g (by omega) (by omega)⟩)
      simp only [Nat.add_zero, Nat.cast_zero, mul_zero, add_zero] at this
      rcases this with ⟨h1, _⟩ | ⟨q, h1, h2, h3, h4, h5, h6⟩
      · rw [h1]
        simp only
        have hmx : max (t * epb s) (min (t * epb s + epb s) n) = (t + 1) * epb s := by
          have h2 : (t + 1) * epb s = t * epb s + epb s := by ring
          omega
        rw [hmx, hnext t (by omega)]
        apply ih (t + 1) f (by omega) (by omega)
        intro g h3 h4
        apply hfalse g _ h4
        have h2 : (t + 1) * epb s = t * epb s + epb s := by ring
        omega
      · have := hfalse q h1 (by omega)
        rw [h5] at this
        simp at this

/-- The `while` loop of `find_dir_entry` on a directory whose chain `dl` has as many blocks as
its `n` entries need. -/
theorem find_while_spec (s : FS) (hl : legal s) (name : List Int) (n : Nat) (hn : n < 2147483648)
    (dl : List Int) (hv : ∀ x ∈ dl, valid_block s x)
    (hnext : ∀ t : Nat, t < dl.length → s.fat (dl.getD t (-1)) = dl.getD (t + 1) (-1))
    (hlo : (dl.length - 1) * epb s < n) (hhi : n ≤ dl.length * epb s) :
    ∀ (m t fuel : Nat) (cnt : Int), t + m = dl.length → m < fuel →
      (t < dl.length → cnt = ((t * epb s : Nat) : Int)) →
      (∀ g, t * epb s ≤ g → g < n → ∃ r, strcmp_eq s (slot s dl g + 1) name = some r) →
      (find_dir_entry_while s name (n : Int) fuel (dl.getD t (-1)) cnt = some none
          ∧ ∀ g, t * epb s ≤ g → g < n → strcmp_eq s (slot s dl g + 1) name = some false)
        ∨ ∃ p : Nat, t * epb s ≤ p ∧ p < n
            ∧ find_dir_entry_while s name (n : Int) fuel (dl.getD t (-1)) cnt
                = some (some (slot s dl p))
            ∧ strcmp_eq s (slot s dl p + 1) name = some true
            ∧ ∀ g, t * epb s ≤ g → g < p → strcmp_eq s (slot s dl g + 1) name = some false := by
  obtain ⟨_, hE4, _, _, _, _⟩ := legal_geom s hl
  have hE : 0 < epb s := by omega
  intro m
  induction m with
  | zero =>
    intro t fuel cnt ht hf _ _
    cases fuel with
    | zero => omega
    | succ f =>
      left
      have : dl.getD t (-1) = -1 := by
        rw [List.getD_eq_default]; omega
      unfold find_dir_entry_while
      rw [if_pos this]
      refine ⟨rfl, fun g h1 h2 => ?_⟩
      exfalso
      rw [← ht, Nat.add_zero] at hhi
      omega
  | succ m ih =>
    intro t fuel cnt ht hf hcnt htest
    cases fuel with
    | zero => omega
    | succ f =>
      have htl : t < dl.length := by omega
      rw [hcnt htl]
      unfold find_dir_entry_while
      have hbv : valid_block s (dl.getD t (-1)) := by
        apply hv
        rw [List.getD_eq_getElem _ _ htl]
        exact List.getElem_mem _
      have hne : dl.getD t (-1) ≠ -1 := by
        intro h; unfold valid_block at hbv; omega
      rw [if_neg hne, if_pos hbv, epb_toU32 s hl]
      have := find_for_spec s name n hn dl t (epb s) 0 (by omega) (fun g h1 _ h3 _ =>
        htest g (by omega) h3)
      simp only [Nat.add_zero, Nat.cast_zero, mul_zero, add_zero] at this
      rcases this with ⟨h1, h2⟩ | ⟨q, h1, h2, h3, h4, h5, h6⟩
      · rw [h1]
        simp only
        rw [hnext t htl]
        have h2' : (t + 1) * epb s = t * epb s + epb s := by ring
        have := ih (t + 1) f ((max (t * epb s) (min (t * epb s + epb s) n) : Nat) : Int)
          (by omega) (by omega) (fun h => by
            have : (t + 1) * epb s ≤ (dl.length - 1) * epb s :=
              Nat.mul_le_mul_right _ (by omega)
            have : max (t * epb s) (min (t * epb s + epb s) n) = (t + 1) * epb s := by omega
            rw [this])
          (fun g h3 h4 => htest g (by omega) h4)
        rcases this with ⟨h3, h4⟩ | ⟨p, h3, h4, h5, h6, h7⟩
        · left
          refine ⟨h3, fun g h5 h6 => ?_⟩
          by_cases hg : g < t * epb s + epb s
          · exact h2 g h5 hg h6
          · exact h4 g (by omega) h6
        · right
          refine ⟨p, by omega, h4, h5, h6, fun g h8 h9 => ?_⟩
          by_cases hg : g < t * epb s + epb s
          · exact h2 g h8 hg (by omega)
          · exact h7 g (by omega) h9
      · right
        exact ⟨q, h1, h3, by rw [h4], h5, h6⟩

theorem chain_getD (s : FS) (b : Int) (h : (chain s b).isSome) :
    chain s b = some ((chain s b).getD []) := by
  cases hc : chain s b with
  | none => rw [hc] at h; simp at h
  | some l => simp

theorem chain_isSome_path (s : FS) (b : Int) (h : (chain s b).isSome) :
    path s b ((chain s b).getD []) ∧ ((chain s b).getD []).length < fat_fuel s := by
  have := chain_getD s b h
  unfold chain at this
  exact chain_from_path s _ _ _ this

theorem path_chain (s : FS) (b : Int) (l : List Int) (h : path s b l)
    (hl : l.length < fat_fuel s) : chain s b = some l :=
  path_chain_from s l b _ h hl

theorem fat_fuel_congr (s s' : FS) (h : s'.sb.fat_type = s.sb.fat_type) :
    fat_fuel s' = fat_fuel s := by unfold fat_fuel; rw [h]

theorem valid_block_congr (s s' : FS) (h : s'.sb.fat_type = s.sb.fat_type) (b : Int) :
    valid_block s' b ↔ valid_block s b := by unfold valid_block; rw [h]

theorem data_size_congr (s s' : FS) (h1 : s'.sb.block_size = s.sb.block_size)
    (h2 : s'.sb.fat_type = s.sb.fat_type) : data_size s' = data_size s := by
  unfold data_size; rw [h1, h2]

theorem BLOCK_congr (s s' : FS) (h1 : s'.sb.block_size = s.sb.block_size) (b : Int) :
    BLOCK s' b = BLOCK s b := by unfold BLOCK; rw [h1]

theorem entry_addr_congr (s s' : FS) (h1 : s'.sb.block_size = s.sb.block_size) (b j : Int) :
    entry_addr s' b j = entry_addr s b j := by unfold entry_addr BLOCK; rw [h1]

theorem slot_congr (s s' : FS) (h1 : s'.sb.block_size = s.sb.block_size) (dl : List Int)
    (i : Nat) : slot s' dl i = slot s dl i := by
  unfold slot; rw [epb_congr s s' h1, entry_addr_congr s s' h1]

theorem getD_mem {l : List Int} {t : Nat} (h : t < l.length) : l.getD t (-1) ∈ l := by
  rw [List.getD_eq_getElem _ _ h]; exact List.getElem_mem _

theorem slot_zero (s : FS) (hl : legal s) (dl : List Int) (b : Int) (h : dl.headD (-1) = b) :
    slot s dl 0 = entry_addr s b 0 := by
  obtain ⟨_, hE4, _, _, _, _⟩ := legal_geom s hl
  unfold slot
  have : 0 / epb s = 0 := Nat.zero_div _
  have h2 : 0 % epb s = 0 := Nat.zero_mod _
  rw [this, h2]
  cases dl with
  | nil => simp at h; subst h; rfl
  | cons x r => simp at h; subst h; rfl

/-- A slot of the prefix `dl` of a longer chain. -/
theorem slot_append (s : FS) (dl ex : List Int) (i : Nat) (h : i / epb s < dl.length) :
    slot s (dl ++ ex) i = slot s dl i := by
  unfold slot
  rw [List.getD_append _ _ _ _ h]

theorem name_ends_strcmp (s : FS) (_hl : legal s) (a : Int) (h0 : 0 ≤ a)
    (h1 : a + 32 ≤ data_size s) (he : name_ends s a) (name : List Int) (hc : CStr name) :
    ∃ r, strcmp_eq s (a + 1) name = some r := by
  obtain ⟨z, hz, hz0⟩ := he
  simp at hz
  exact strcmp_eq_some s name (a + 1) z hc (by omega) hz0 (by omega)

theorem init_dir_entry_spec (s s' : FS) (now : tm) (a ty : Int) (name : List Int) (sz fb : Int)
    (hn : name.length ≤ 19) (h : init_dir_entry s now a ty name sz fb = some s') :
    s'.sb = s.sb ∧ s'.fat = s.fat ∧ s'.current_dir = s.current_dir
      ∧ (∀ x, x < a ∨ a + 32 ≤ x → s'.blocks x = s.blocks x)
      ∧ e_type s' a = ty ∧ stored s' (a + 1) name
      ∧ e_size s' a = toI32 sz ∧ e_first_block s' a = toI32 fb := by
  unfold init_dir_entry at h
  split_ifs at h with h1
  unfold strcpy_lit at h
  simp only at h
  split_ifs at h with h2
  simp only [Option.some.injEq] at h
  subst h
  refine ⟨rfl, rfl, rfl, ?_, ?_, ?_, ?_, ?_⟩
  · intro x hx
    simp only
    rw [store_int_other _ _ _ _ (by omega), store_int_other _ _ _ _ (by omega),
      store_other _ _ _ _ (by omega), store_other _ _ _ _ (by omega),
      store_other _ _ _ _ (by omega), store_bytes_other _ _ _ _ _ (by omega),
      store_other _ _ _ _ (by omega)]
  · unfold e_type
    simp only
    rw [store_int_other _ _ _ _ (by omega), store_int_other _ _ _ _ (by omega),
      store_other _ _ _ _ (by omega), store_other _ _ _ _ (by omega),
      store_other _ _ _ _ (by omega), store_bytes_other _ _ _ _ _ (by omega),
      store_same]
  · constructor
    · intro i hi
      simp only
      rw [store_int_other _ _ _ _ (by omega), store_int_other _ _ _ _ (by omega),
        store_other _ _ _ _ (by omega), store_other _ _ _ _ (by omega),
        store_other _ _ _ _ (by omega),
        store_bytes_inside _ _ _ _ _ (by omega) (by omega)]
      have : a + 1 + (i : Int) - (a + 1) = (i : Int) := by ring
      rw [this]
      simp only [Int.toNat_ofNat]
      rw [List.getD_append _ _ _ _ hi]
    · simp only
      rw [store_int_other _ _ _ _ (by omega), store_int_other _ _ _ _ (by omega),
        store_other _ _ _ _ (by omega), store_other _ _ _ _ (by omega),
        store_other _ _ _ _ (by omega),
        store_bytes_inside _ _ _ _ _ (by omega) (by omega)]
      have : a + 1 + (name.length : Int) - (a + 1) = (name.length : Int) := by ring
      rw [this]
      simp only [Int.toNat_ofNat]
      rw [List.getD_append_right _ _ _ _ (le_refl _)]
      simp
  · unfold e_size
    simp only
    rw [load_int_store_int_other _ _ _ _ (by omega), load_int_store_int]
  · unfold e_first_block
    simp only
    rw [load_int_store_int]

theorem add_dir_size_spec (s : FS) (b d : Int) :
    (add_dir_size s b d).sb = s.sb ∧ (add_dir_size s b d).fat = s.fat
      ∧ (add_dir_size s b d).current_dir = s.current_dir
      ∧ (∀ x, x < entry_addr s b 0 + 24 ∨ entry_addr s b 0 + 28 ≤ x →
          (add_dir_size s b d).blocks x = s.blocks x)
      ∧ e_size (add_dir_size s b d) (entry_addr s b 0) = toI32 (e_size s (entry_addr s b 0) + d) := by
  unfold add_dir_size
  refine ⟨rfl, rfl, rfl, ?_, ?_⟩
  · intro x hx
    simp only
    rw [store_int_other _ _ _ _ (by omega)]
  · unfold e_size
    simp only
    rw [load_int_store_int]

theorem strlen_from_spec (buf : Int → Int) : ∀ (fuel : Nat) (i z : Int),
    strlen_from buf fuel i = some z →
      i ≤ z ∧ z < i + fuel ∧ buf z = 0 ∧ ∀ j, i ≤ j → j < z → buf j ≠ 0 := by
  intro fuel
  induction fuel with
  | zero => intro i z h; simp [strlen_from] at h
  | succ f ih =>
    intro i z h
    unfold strlen_from at h
    split_ifs at h with h0
    · simp at h; subst h
      exact ⟨le_refl _, by push_cast; omega, h0, fun j h1 h2 => by omega⟩
    · obtain ⟨h1, h2, h3, h4⟩ := ih _ _ h
      refine ⟨by omega, by push_cast; omega, h3, fun j h5 h6 => ?_⟩
      by_cases hj : j = i
      · subst hj; exact h0
      · exact h4 j (by omega) h6

theorem strlen_from_some (buf : Int → Int) : ∀ (fuel : Nat) (i : Int) (z : Nat),
    buf (i + z) = 0 → z < fuel → ∃ r, strlen_from buf fuel i = some r := by
  intro fuel
  induction fuel with
  | zero => intro i z _ h; omega
  | succ f ih =>
    intro i z hz hf
    unfold strlen_from
    by_cases h0 : buf i = 0
    · rw [if_pos h0]; exact ⟨_, rfl⟩
    · rw [if_neg h0]
      cases z with
      | zero => simp at hz; exact absurd hz h0
      | succ z2 =>
        apply ih (i + 1) z2 _ (by omega)
        rw [← hz]; congr 1; push_cast; ring

theorem load_int_entry_copy (s : FS) (a k : Int) :
    load_int (entry_copy s a) k = load_int s.blocks (a + k) := by
  unfold load_int entry_copy
  simp only [add_assoc]

/-- The seven assignments that overwrite the entry at `dst` with the copy `last_dir` of an
entry whose name is `name`. -/
theorem copy_entry_spec (s : FS) (dst : Int) (last_dir : Int → Int) (name : List Int)
    (hc : CStr name) (hn : name.length ≤ 19)
    (hst : ∀ i : Nat, i < name.length → last_dir (1 + (i : Int)) = name.getD i 0)
    (hz : last_dir (1 + (name.length : Int)) = 0) :
    ∃ s', copy_entry s dst last_dir = some s'
      ∧ s'.sb = s.sb ∧ s'.fat = s.fat ∧ s'.current_dir = s.current_dir
      ∧ (∀ x, x < dst ∨ dst + 32 ≤ x → s'.blocks x = s.blocks x)
      ∧ e_type s' dst = last_dir 0 ∧ stored s' (dst + 1) name
      ∧ e_size s' dst = load_int last_dir 24
      ∧ e_first_block s' dst = load_int last_dir 28 := by
  obtain ⟨z, hzz⟩ := strlen_from_some last_dir 31 1 name.length hz (by omega)
  obtain ⟨h1, h2, h3, h4⟩ := strlen_from_spec _ _ _ _ hzz
  have hzeq : z = 1 + (name.length : Int) := by
    rcases lt_trichotomy z (1 + (name.length : Int)) with h | h | h
    · exfalso
      have hi : (z - 1).toNat < name.length := by omega
      have := hst (z - 1).toNat hi
      have e : 1 + (((z - 1).toNat : Nat) : Int) = z := by omega
      rw [e, h3] at this
      have hm : name.getD (z - 1).toNat 0 ∈ name := by
        rw [List.getD_eq_getElem _ _ hi]; exact List.getElem_mem _
      exact hc _ hm this.symm
    · exact h
    · exact absurd hz (h4 _ (by omega) h)
  unfold copy_entry
  rw [hzz]
  refine ⟨_, rfl, rfl, rfl, rfl, ?_, ?_, ?_, ?_, ?_⟩
  · intro x hx
    simp only
    rw [store_int_other _ _ _ _ (by omega), store_int_other _ _ _ _ (by omega),
      store_other _ _ _ _ (by omega), store_other _ _ _ _ (by omega),
      store_other _ _ _ _ (by omega), store_bytes_other _ _ _ _ _ (by omega),
      store_other _ _ _ _ (by omega)]
  · unfold e_type
    simp only
    rw [store_int_other _ _ _ _ (by omega), store_int_other _ _ _ _ (by omega),
      store_other _ _ _ _ (by omega), store_other _ _ _ _ (by omega),
      store_other _ _ _ _ (by omega), store_bytes_other _ _ _ _ _ (by omega),
      store_same]
  · constructor
    · intro i hi
      simp only
      rw [store_int_other _ _ _ _ (by omega), store_int_other _ _ _ _ (by omega),
        store_other _ _ _ _ (by omega), store_other _ _ _ _ (by omega),
        store_other _ _ _ _ (by omega),
        store_bytes_inside _ _ _ _ _ (by omega) (by omega)]
      have : dst + 1 + (i : Int) - (dst + 1) = (i : Int) := by ring
      rw [this]
      exact hst i hi
    · simp only
      rw [store_int_other _ _ _ _ (by omega), store_int_other _ _ _ _ (by omega),
        store_other _ _ _ _ (by omega), store_other _ _ _ _ (by omega),
        store_other _ _ _ _ (by omega),
        store_bytes_inside _ _ _ _ _ (by omega) (by omega)]
      have : dst + 1 + (name.length : Int) - (dst + 1) = (name.length : Int) := by ring
      rw [this]
      exact hz
  · unfold e_size
    simp only
    rw [load_int_store_int_other _ _ _ _ (by omega), load_int_store_int]
    exact toI32_of_range (load_int_range _ _).1 (load_int_range _ _).2
  · unfold e_first_block
    simp only
    rw [load_int_store_int]
    exact toI32_of_range (load_int_range _ _).1 (load_int_range _ _).2

theorem mem_take_succ (l : List Int) (k : Nat) (hk : k < l.length) (y : Int) :
    y ∈ l.take (k + 1) ↔ y ∈ l.take k ∨ y = l.getD k (-1) := by
  rw [List.getD_eq_getElem _ _ hk, List.mem_take_iff_getElem, List.mem_take_iff_getElem]
  constructor
  · rintro ⟨i, hi, he⟩
    by_cases hik : i = k
    · subst hik; right; exact he.symm
    · left; exact ⟨i, by omega, he⟩
  · rintro (⟨i, hi, he⟩ | he)
    · exact ⟨i, by omega, he⟩
    · exact ⟨k, by omega, he.symm⟩

theorem mem_take_mem (l : List Int) (k : Nat) (y : Int) (h : y ∈ l.take k) : y ∈ l :=
  List.mem_of_mem_take h

theorem getD_not_mem_take (l : List Int) (hnd : l.Nodup) (k j : Nat) (hj : j < l.length)
    (hkj : k ≤ j) : l.getD j (-1) ∉ l.take k := by
  intro h
  rw [List.getD_eq_getElem _ _ hj, List.mem_take_iff_getElem] at h
  obtain ⟨i, hi, he⟩ := h
  have := (List.Nodup.getElem_inj_iff hnd).1 he
  omega

theorem getD_mem_take (l : List Int) (k j : Nat) (hj : j < l.length) (hjk : j < k) :
    l.getD j (-1) ∈ l.take k := by
  rw [List.getD_eq_getElem _ _ hj]
  rw [List.mem_take_iff_getElem]
  exact ⟨j, by omega, rfl⟩

theorem alloc_refl (s : FS) (fl : List Int) (hp : path s s.sb.free_block fl) :
    Alloc s s fl 0 where
  bs := rfl
  ft := rfl
  cd := rfl
  k_le := Nat.zero_le _
  nfree := by simp
  head := by
    have := path_head s fl _ hp
    rw [← this]
    cases fl <;> simp
  fat_out := fun _ _ => rfl
  fat_in := fun y hy => by simp at hy
  mem := fun _ _ => rfl

/-- The call `get_free_block` in a state that has taken `k` blocks of the free list: it takes
block number `k`, or returns -1 when the list is used up. -/
theorem alloc_pop (s0 s : FS) (fl : List Int) (k : Nat)
    (hp : path s0 s0.sb.free_block fl) (hnd : fl.Nodup)
    (hlen : (fl.length : Int) = s0.sb.n_free_blocks)
    (ha : Alloc s0 s fl k) (s' : FS) (r : Int) (h : get_free_block s = some (s', r)) :
    (s' = s ∧ r = -1 ∧ k = fl.length)
      ∨ (k < fl.length ∧ r = fl.getD k (-1) ∧ valid_block s0 r ∧ Alloc s0 s' fl (k + 1)) := by
  unfold get_free_block at h
  by_cases h0 : s.sb.n_free_blocks = 0
  · rw [if_pos h0] at h
    simp at h
    left
    have := ha.nfree
    have := ha.k_le
    exact ⟨h.1.symm, h.2.symm, by omega⟩
  · rw [if_neg h0] at h
    simp only at h
    split_ifs at h with hv
    simp only [Option.some.injEq, Prod.mk.injEq] at h
    obtain ⟨h1, h2⟩ := h
    have hk : k < fl.length := by
      have := ha.nfree
      have := ha.k_le
      omega
    right
    have hr : r = fl.getD k (-1) := by rw [← h2, ha.head]
    have hnot : fl.getD k (-1) ∉ fl.take k := getD_not_mem_take fl hnd k k hk (le_refl _)
    refine ⟨hk, hr, path_valid s0 fl _ hp _ (by rw [hr]; exact getD_mem hk), ?_⟩
    subst h1
    refine ⟨ha.bs, ha.ft, ha.cd, hk, ?_, ?_, ?_, ?_, ?_⟩
    · simp only; rw [ha.nfree]; push_cast; ring
    · simp only
      rw [ha.head, ha.fat_out _ hnot]
      exact path_next s0 fl _ hp k hk
    · intro y hy
      simp only
      rw [mem_take_succ fl k hk] at hy
      push_neg at hy
      rw [store_other _ _ _ _ (by rw [ha.head]; exact hy.2)]
      exact ha.fat_out y hy.1
    · intro y hy
      simp only
      rw [mem_take_succ fl k hk] at hy
      rcases hy with hy | hy
      · have hne : y ≠ s.sb.free_block := by
          rw [ha.head]; intro he; rw [he] at hy; exact hnot hy
        rw [store_other _ _ _ _ hne]
        rcases ha.fat_in y hy with h3 | h3
        · left; exact h3
        · right; rw [mem_take_succ fl k hk]; left; exact h3
      · left
        rw [hy, ← ha.head, store_same]
    · intro x hx
      simp only
      apply ha.mem
      intro y hy
      exact hx y ((mem_take_succ fl k hk y).2 (Or.inl hy))

/-- Linking a taken block to a taken block keeps the relation. -/
theorem alloc_link (s0 s : FS) (fl : List Int) (k : Nat) (ha : Alloc s0 s fl k) (nx nb : Int)
    (hnx : nx ∈ fl.take k) (hnb : nb = -1 ∨ nb ∈ fl.take k) :
    Alloc s0 { s with fat := store s.fat nx nb } fl k := by
  refine ⟨ha.bs, ha.ft, ha.cd, ha.k_le, ha.nfree, ha.head, ?_, ?_, ha.mem⟩
  · intro y hy
    simp only
    have : y ≠ nx := by intro he; rw [he] at hy; exact hy hnx
    rw [store_other _ _ _ _ this]
    exact ha.fat_out y hy
  · intro y hy
    simp only
    by_cases he : y = nx
    · rw [he, store_same]; exact hnb
    · rw [store_other _ _ _ _ he]; exact ha.fat_in y hy

/-- Writing inside a taken block keeps the relation. -/
theorem alloc_write (s0 s : FS) (fl : List Int) (k : Nat) (ha : Alloc s0 s fl k) (d : Int)
    (hd : d ∈ fl.take k) (m : Int → Int)
    (hm : ∀ x, x < BLOCK s0 d ∨ BLOCK s0 d + s0.sb.block_size ≤ x → m x = s.blocks x) :
    Alloc s0 { s with blocks := m } fl k := by
  refine ⟨ha.bs, ha.ft, ha.cd, ha.k_le, ha.nfree, ha.head, ha.fat_out, ha.fat_in, ?_⟩
  intro x hx
  simp only
  rw [hm x (hx d hd)]
  exact ha.mem x hx

theorem take_mono (fl : List Int) (k : Nat) (y : Int) (h : y ∈ fl.take k)
    (k' : Nat) (hk : k ≤ k') : y ∈ fl.take k' := by
  rw [List.mem_take_iff_getElem] at h ⊢
  obtain ⟨i, hi, he⟩ := h
  exact ⟨i, by omega, he⟩

theorem nodup_getD_inj (l : List Int) (hnd : l.Nodup) (i j : Nat) (hi : i < l.length)
    (hj : j < l.length) (h : l.getD i (-1) = l.getD j (-1)) : i = j := by
  rw [List.getD_eq_getElem _ _ hi, List.getD_eq_getElem _ _ hj] at h
  exact (List.Nodup.getElem_inj_iff hnd).1 h

/-- The call `strncpy` of `vfs_cp` into a taken block keeps the relation. -/
theorem strncpy_block_alloc (s0 s : FS) (fl : List Int) (k : Nat) (ha : Alloc s0 s fl k)
    (dst : Option Int) (hdst : ∀ d, dst = some d → d = -1 ∨ d ∈ fl.take k)
    (src n : Int) (hn : n ≤ s.sb.block_size) (s' : FS)
    (h : strncpy_block s dst src n = some s') : Alloc s0 s' fl k := by
  unfold strncpy_block at h
  by_cases h0 : n = 0
  · rw [if_pos h0] at h; simp at h; subst h; exact ha
  · rw [if_neg h0] at h
    cases hd : dst with
    | none => rw [hd] at h; simp at h
    | some d =>
      rw [hd] at h
      simp only at h
      split_ifs at h with hv
      simp only [Option.some.injEq] at h
      subst h
      have hd2 : d ∈ fl.take k := by
        rcases hdst d hd with h4 | h4
        · exfalso; have := hv.2.1; unfold valid_block at this; omega
        · exact h4
      apply alloc_write s0 s fl k ha d hd2
      intro x hx
      apply store_bytes_other
      have e1 : BLOCK s d = BLOCK s0 d := BLOCK_congr s0 s ha.bs d
      have e2 := ha.bs
      omega

theorem cp_len_le (s : FS) (tmp : Int) : cp_len s tmp ≤ s.sb.block_size := by
  unfold cp_len; split_ifs <;> omega

theorem get_free_block_spec (s s' : FS) (r : Int) (h : get_free_block s = some (s', r)) :
    (s' = s ∧ r = -1)
      ∨ (valid_block s r ∧ r = s.sb.free_block ∧ s'.fat = store s.fat r (-1)
          ∧ s'.blocks = s.blocks ∧ s'.current_dir = s.current_dir
          ∧ s'.sb.block_size = s.sb.block_size ∧ s'.sb.fat_type = s.sb.fat_type) := by
  unfold get_free_block at h
  by_cases h0 : s.sb.n_free_blocks = 0
  · rw [if_pos h0] at h
    simp at h; left; exact ⟨h.1.symm, h.2.symm⟩
  · rw [if_neg h0] at h
    simp only at h
    split_ifs at h with hv
    simp only [Option.some.injEq, Prod.mk.injEq] at h
    obtain ⟨h1, h2⟩ := h
    right
    subst h1
    subst h2
    exact ⟨hv, rfl, rfl, rfl, rfl, rfl, rfl⟩

/-- Appending a block `T` to a chain: the last block is linked to `T` and `T` holds the end
mark. -/
theorem path_snoc (s s' : FS) (hN : s'.sb.fat_type = s.sb.fat_type) (T : Int)
    (hT : valid_block s' T) (hTe : s'.fat T = -1) :
    ∀ (l : List Int) (b : Int), path s b l → l ≠ [] →
      (∀ t : Nat, t + 1 < l.length → s'.fat (l.getD t (-1)) = s.fat (l.getD t (-1))) →
      s'.fat (l.getD (l.length - 1) (-1)) = T → path s' b (l ++ [T]) := by
  intro l
  induction l with
  | nil => intro b _ h; exact absurd rfl h
  | cons x r ih =>
    intro b hp _ hsame hlast
    obtain ⟨hbx, hv, hpr⟩ := hp
    cases r with
    | nil =>
      simp at hlast
      refine ⟨hbx, (valid_block_congr s s' hN x).2 hv, ?_⟩
      rw [hlast]
      exact ⟨rfl, hT, hTe⟩
    | cons y r2 =>
      refine ⟨hbx, (valid_block_congr s s' hN x).2 hv, ?_⟩
      have h0 := hsame 0 (by simp)
      simp only [List.getD_cons_zero] at h0
      show path s' (s'.fat x) ((y :: r2) ++ [T])
      rw [h0]
      apply ih (s.fat x) hpr (by simp)
      · intro t ht
        have := hsame (t + 1) (by simp at ht ⊢; omega)
        simpa using this
      · simpa using hlast

/-- In a state that satisfies the invariants, a name that `find_dir_entry` does not resolve
is the name of no live entry. -/
theorem absent_all (s : FS) (hinv : Inv s) (b : List Int) (hc : CStr b)
    (habs : lookup s b = some none) :
    ∀ g, g < live s → strcmp_eq s (slot s (dir_chain s) g + 1) b = some false := by
  obtain ⟨hl, hcd, hdc, _, _, _, _, hsum, hn2, hlo, hhi, _, _, hfb, hne, _⟩ := hinv
  have hp := chain_isSome_path s _ hdc
  have hpath : path s s.current_dir (dir_chain s) := hp.1
  have hlen : (dir_chain s).length < fat_fuel s := hp.2
  have hvd := path_valid s _ _ hpath
  obtain ⟨_, hE4, hE32, _, hN1, hN2⟩ := legal_geom s hl
  have hbr := block_range s hl _ hcd
  unfold lookup find_dir_entry at habs
  have hbase : 0 ≤ entry_addr s s.current_dir 0
      ∧ entry_addr s s.current_dir 0 + sizeof_dir_entry ≤ data_size s := by
    have := entry_range s hl s.current_dir 0 (by omega)
    unfold sizeof_dir_entry
    simp only [Nat.cast_zero] at this
    omega
  rw [if_pos hbase, hfb] at habs
  have hlive : e_size s (entry_addr s s.current_dir 0) = ((live s : Nat) : Int) := by
    unfold live live_count
    unfold live_count at hn2
    omega
  rw [hlive] at habs
  have hlt : live s < 2147483648 := by
    have := (load_int_range s.blocks (entry_addr s s.current_dir 0 + 24)).2
    unfold e_size at hlive
    omega
  have hhead := path_head s _ _ hpath
  have hd0 : (dir_chain s).getD 0 (-1) = s.current_dir := by
    rw [← hhead]; cases dir_chain s <;> simp
  have hspec := find_while_spec s hl b (live s) hlt (dir_chain s) hvd
    (path_next s _ _ hpath) hlo hhi (dir_chain s).length 0 (fat_fuel s) 0 (by omega) hlen
    (fun _ => by simp)
    (fun g _ hg => by
      have hidx : g / epb s < (dir_chain s).length := by
        apply Nat.div_lt_of_lt_mul; rw [Nat.mul_comm]; omega
      have hr := slot_range s hl _ hvd g hidx
      exact name_ends_strcmp s hl _ hr.2.2.1 hr.2.2.2
        (hne g (List.mem_range.2 hg)) b hc)
  rw [hd0] at hspec
  simp only [Nat.zero_mul, Nat.cast_zero] at hspec
  rcases hspec with ⟨_, h2⟩ | ⟨p, _, _, h3, _, _⟩
  · intro g hg; exact h2 g (Nat.zero_le _) hg
  · rw [h3] at habs; simp at habs

/-- Blocks linked in the order of a list form the chain from the first of them. -/
theorem linked_path (s : FS) (fl : List Int) (k : Nat) (hk : k ≤ fl.length)
    (hv : ∀ x ∈ fl, valid_block s x) (h : linked s fl k) :
    ∀ (m j : Nat), j + m = k →
      path s (if m = 0 then -1 else fl.getD j (-1)) ((fl.drop j).take m) := by
  intro m
  induction m with
  | zero =>
    intro j _
    simp [path]
  | succ m ih =>
    intro j hj
    have hjl : j < fl.length := by omega
    rw [if_neg (Nat.succ_ne_zero _), List.drop_eq_getElem_cons hjl, List.take_succ_cons]
    refine ⟨List.getD_eq_getElem _ _ hjl, hv _ (List.getElem_mem hjl), ?_⟩
    have h1 := ih (j + 1) (by omega)
    have h2 := h j (by omega)
    rw [List.getD_eq_getElem _ _ hjl] at h2
    rw [h2]
    by_cases hm : m = 0
    · rw [if_pos hm] at h1
      rw [if_neg (by omega)]
      exact h1
    · rw [if_neg hm] at h1
      rw [if_pos (by omega)]
      exact h1

/-- The chain of the first `k` blocks of a list linked in order. -/
theorem linked_chain (s : FS) (fl : List Int) (k : Nat) (hk : k ≤ fl.length)
    (hv : ∀ x ∈ fl, valid_block s x) (h : linked s fl k) :
    path s (if k = 0 then -1 else fl.getD 0 (-1)) (fl.take k) := by
  have := linked_path s fl k hk hv h k 0 (by omega)
  simpa using this

/-- The statement that links a new block keeps the taken blocks linked in order. -/
theorem link_new_block_linked (s0 s : FS) (fl : List Int) (k : Nat)
    (hp : path s0 s0.sb.free_block fl) (hnd : fl.Nodup)
    (hlen : (fl.length : Int) = s0.sb.n_free_blocks) (ha : Alloc s0 s fl k)
    (hl : linked s fl k) (req count : Int) (new next : Option Int)
    (hnext : ∀ nx, next = some nx → nx = -1 ∨ (0 < k ∧ nx = fl.getD (k - 1) (-1)))
    (hnew : ∀ nb, new = some nb → nb = -1 ∨ (0 < k ∧ nb = fl.getD (k - 1) (-1)))
    (s1 : FS) (count1 : Int) (new1 : Option Int)
    (h : link_new_block s req count new next = some (s1, count1, new1)) :
    ∃ k', k ≤ k' ∧ Alloc s0 s1 fl k' ∧ linked s1 fl k'
      ∧ (∀ nb, new1 = some nb → nb = -1 ∨ (0 < k' ∧ nb = fl.getD (k' - 1) (-1))) := by
  unfold link_new_block at h
  by_cases hc : count ≠ req
  · rw [if_pos hc] at h
    cases hg : get_free_block s with
    | none => rw [hg] at h; simp at h
    | some r =>
      obtain ⟨t, nb⟩ := r
      cases hx : next with
      | none => rw [hg, hx] at h; simp at h
      | some nx =>
        rw [hg, hx] at h
        simp only at h
        split_ifs at h with hv
        simp only [Option.some.injEq, Prod.mk.injEq] at h
        obtain ⟨h1, _, h3⟩ := h
        have hnx : 0 < k ∧ nx = fl.getD (k - 1) (-1) := by
          rcases hnext nx hx with h4 | h4
          · exfalso; unfold valid_block at hv; omega
          · exact h4
        have hkl := ha.k_le
        have hnxm : nx ∈ fl.take k := by
          rw [hnx.2]
          exact getD_mem_take fl k (k - 1) (by omega) (by omega)
        rcases alloc_pop s0 s fl k hp hnd hlen ha t nb hg with ⟨e1, e2, _⟩ | ⟨hk, e2, hvb, ha2⟩
        · subst e1
          refine ⟨k, le_refl _, ?_, ?_, ?_⟩
          · rw [← h1]; exact alloc_link s0 t fl k ha nx nb hnxm (Or.inl e2)
          · intro j hj
            rw [← h1]
            simp only
            by_cases hjk : j = k - 1
            · rw [hjk, ← hnx.2, store_same, e2, if_neg (by omega)]
            · rw [store_other _ _ _ _ (by
                rw [hnx.2]
                intro he
                exact hjk (nodup_getD_inj fl hnd j (k - 1) (by omega) (by omega) he))]
              exact hl j hj
          · intro b hb
            rw [← h3] at hb
            simp at hb
            left
            rw [← hb]
            exact e2
        · rcases get_free_block_spec s t nb hg with ⟨_, e⟩ | ⟨_, _, g3, _⟩
          · exfalso; unfold valid_block at hvb; omega
          refine ⟨k + 1, by omega, ?_, ?_, ?_⟩
          · rw [← h1]
            exact alloc_link s0 t fl (k + 1) ha2 nx nb (take_mono fl k nx hnxm _ (by omega))
              (Or.inr (by rw [e2]; exact getD_mem_take fl (k + 1) k hk (by omega)))
          · intro j hj
            rw [← h1]
            simp only
            rw [g3]
            by_cases hjk : j = k - 1
            · rw [hjk, ← hnx.2, store_same, e2, if_pos (by omega)]
              congr 1
              omega
            · rw [store_other _ _ _ _ (by
                rw [hnx.2]
                intro he
                exact hjk (nodup_getD_inj fl hnd j (k - 1) (by omega) (by omega) he))]
              by_cases hjk2 : j = k
              · rw [hjk2, ← e2, store_same, if_neg (by omega)]
              · rw [store_other _ _ _ _ (by
                  rw [e2]
                  intro he
                  exact hjk2 (nodup_getD_inj fl hnd j k (by omega) hk he))]
                rw [hl j (by omega), if_pos (by omega), if_pos (by omega)]
          · intro b hb
            rw [← h3] at hb
            simp at hb
            right
            refine ⟨by omega, ?_⟩
            rw [← hb, e2]
            rfl
  · rw [if_neg hc] at h
    simp only [Option.some.injEq, Prod.mk.injEq] at h
    obtain ⟨h1, _, h3⟩ := h
    subst h1; subst h3
    exact ⟨k, le_refl _, ha, hl, hnew⟩

/-- The call `strncpy` of `vfs_cp` leaves the FAT as it is. -/
theorem strncpy_block_fat (s : FS) (dst : Option Int) (src n : Int) (s' : FS)
    (h : strncpy_block s dst src n = some s') : s'.fat = s.fat := by
  unfold strncpy_block at h
  by_cases h0 : n = 0
  · rw [if_pos h0] at h; simp at h; subst h; rfl
  · rw [if_neg h0] at h
    cases hd : dst with
    | none => rw [hd] at h; simp at h
    | some d =>
      rw [hd] at h
      simp only at h
      split_ifs at h with hv
      simp only [Option.some.injEq] at h
      subst h
      rfl

/-- The call `strncpy` of `vfs_cp` into the last block taken (or into no block, when it is
asked for no byte) keeps the relation. -/
theorem strncpy_block_last (s0 s : FS) (fl : List Int) (k : Nat) (ha : Alloc s0 s fl k)
    (dst : Option Int) (hdst : ∀ d, dst = some d → d = -1 ∨ (0 < k ∧ d = fl.getD (k - 1) (-1)))
    (src n : Int) (hn : n ≤ s.sb.block_size) (s' : FS)
    (h : strncpy_block s dst src n = some s') : Alloc s0 s' fl k := by
  apply strncpy_block_alloc s0 s fl k ha dst _ src n hn s' h
  intro d hd
  rcases hdst d hd with h1 | ⟨h1, h2⟩
  · left; exact h1
  · right
    rw [h2]
    have := ha.k_le
    exact getD_mem_take fl k (k - 1) (by omega) (by omega)

/-- The copy loop of `vfs_cp` takes blocks of the free list in order, links them in that
order and writes into them only. -/
theorem vfs_cp_loop_linked (s0 : FS) (fl : List Int)
    (hp : path s0 s0.sb.free_block fl) (hnd : fl.Nodup)
    (hlen : (fl.length : Int) = s0.sb.n_free_blocks) (req : Int) :
    ∀ (fuel : Nat) (s : FS) (k : Nat) (cur tmp count : Int) (new next : Option Int) (s' : FS),
      Alloc s0 s fl k → linked s fl k →
      (∀ nx, next = some nx → nx = -1 ∨ (0 < k ∧ nx = fl.getD (k - 1) (-1))) →
      (∀ nb, new = some nb → nb = -1 ∨ (0 < k ∧ nb = fl.getD (k - 1) (-1))) →
      vfs_cp_loop s req fuel cur tmp count new next = some s' →
      ∃ k', k ≤ k' ∧ Alloc s0 s' fl k' ∧ linked s' fl k' := by
  intro fuel
  induction fuel with
  | zero => intro s k cur tmp count new next s' _ _ _ _ h; simp [vfs_cp_loop] at h
  | succ f ih =>
    intro s k cur tmp count new next s' ha hl hnext hnew h
    unfold vfs_cp_loop at h
    split_ifs at h with hv hend
    · simp at h; subst h; exact ⟨k, le_refl _, ha, hl⟩
    · simp only at h
      cases hlk : link_new_block s req count new next with
      | none => rw [hlk] at h; simp at h
      | some r =>
        obtain ⟨s1, count1, new1⟩ := r
        rw [hlk] at h
        simp only at h
        obtain ⟨k1, hk1, ha1, hl1, hnew1⟩ :=
          link_new_block_linked s0 s fl k hp hnd hlen ha hl req count new next hnext hnew
            _ _ _ hlk
        split_ifs at h with hv1
        cases hcp : strncpy_block s1 new1 (s1.fat cur) (cp_len s1 (tmp - s.sb.block_size)) with
        | none => rw [hcp] at h; simp at h
        | some s2 =>
          rw [hcp] at h
          simp only at h
          have ha2 := strncpy_block_last s0 s1 fl k1 ha1 new1 hnew1 _ _ (cp_len_le _ _) s2 hcp
          have hl2 : linked s2 fl k1 := by
            intro j hj
            rw [strncpy_block_fat s1 _ _ _ s2 hcp]
            exact hl1 j hj
          obtain ⟨k2, hk2, ha3, hl3⟩ := ih s2 k1 _ _ _ new1 new1 s' ha2 hl2 hnew1 hnew1 h
          exact ⟨k2, by omega, ha3, hl3⟩

/-- The two ways `append_entry` goes on a directory whose chain is `dl` and that has `n`
entries: the entry is written in the last block, or a block is taken first. -/
theorem append_entry_cases (t s1 : FS) (now : tm) (hl : legal t) (dir_block : Int)
    (dl : List Int) (hp : path t dir_block dl) (hne : dl ≠ [])
    (hlen : dl.length ≤ fat_fuel t) (n : Nat) (hn : n < 2147483648)
    (ty : Int) (name : List Int) (sz fb : Int)
    (h : append_entry t now dir_block (n : Int) ty name sz fb = some s1) :
    (n % epb t ≠ 0
        ∧ init_dir_entry t now
            (entry_addr t (dl.getD (dl.length - 1) (-1)) ((n % epb t : Nat) : Int))
            ty name sz fb = some s1)
      ∨ (n % epb t = 0 ∧ ∃ t' T, get_free_block t = some (t', T) ∧ valid_block t' T
          ∧ init_dir_entry { t' with fat := store t'.fat (dl.getD (dl.length - 1) (-1)) T } now
              (entry_addr t' T 0) ty name sz fb = some s1) := by
  unfold append_entry at h
  rw [last_of_chain_path t dl dir_block _ hp hne hlen, umod_legal t hl n (by omega)] at h
  simp only at h
  by_cases hr : n % epb t = 0
  · right
    have : ((n % epb t : Nat) : Int) = 0 := by exact_mod_cast hr
    rw [if_pos this] at h
    refine ⟨hr, ?_⟩
    cases hg : get_free_block t with
    | none => rw [hg] at h; simp at h
    | some r =>
      obtain ⟨t', T⟩ := r
      rw [hg] at h
      simp only at h
      split_ifs at h with hv
      rw [this] at h
      exact ⟨t', T, rfl, hv, h⟩
  · left
    have : ¬ ((n % epb t : Nat) : Int) = 0 := by exact_mod_cast hr
    rw [if_neg this] at h
    exact ⟨hr, h⟩

/-- An address inside a block is outside every other block. -/
theorem outside_of_ne (s : FS) (hl : legal s) (B y x : Int) (hne : B ≠ y)
    (h1 : BLOCK s B ≤ x) (h2 : x < BLOCK s B + s.sb.block_size) :
    x < BLOCK s y ∨ BLOCK s y + s.sb.block_size ≤ x := by
  have := block_disjoint s hl B y hne
  omega

theorem getD_append_last (l : List Int) (T : Int) :
    (l ++ [T]).getD l.length (-1) = T := by
  rw [List.getD_append_right _ _ _ _ (le_refl _)]
  simp

theorem nodup_snoc (l : List Int) (T : Int) (h : l.Nodup) (hT : T ∉ l) : (l ++ [T]).Nodup := by
  rw [List.nodup_append]
  refine ⟨h, by simp, ?_⟩
  intro x hx hy
  simp at hy
  subst hy
  exact hT hx

theorem div_last_of_not_dvd (E n len : Nat) (hE : 0 < E) (hlo : (len - 1) * E < n)
    (hhi : n ≤ len * E) (hr : n % E ≠ 0) : n / E = len - 1 ∧ 0 < len := by
  have hlen : 0 < len := by
    rcases Nat.eq_zero_or_pos len with h | h
    · subst h; simp at hhi; subst hhi; simp at hr
    · exact h
  have hne : n ≠ len * E := by
    intro h; apply hr; rw [h]; exact Nat.mul_mod_left _ _
  have h1 : n / E < len := by
    apply Nat.div_lt_of_lt_mul; rw [Nat.mul_comm]; omega
  have h2 : len - 1 ≤ n / E := by
    rw [Nat.le_div_iff_mul_le hE]; omega
  exact ⟨by omega, hlen⟩

theorem div_last_of_dvd (E n len : Nat) (_hE : 0 < E) (hn : 0 < n) (hlo : (len - 1) * E < n)
    (hhi : n ≤ len * E) (hr : n % E = 0) : n / E = len ∧ 0 < len := by
  have hlen : 0 < len := by
    rcases Nat.eq_zero_or_pos len with h | h
    · subst h; simp at hhi; omega
    · exact h
  have h1 : n / E ≤ len := by
    apply Nat.div_le_of_le_mul; rw [Nat.mul_comm]; exact hhi
  have h2 : len - 1 < n / E := by
    have hd : n / E * E = n := Nat.div_mul_cancel (Nat.dvd_of_mod_eq_zero hr)
    by_contra hc
    have : n / E * E ≤ (len - 1) * E := Nat.mul_le_mul_right _ (by omega)
    omega
  exact ⟨by omega, hlen⟩

/-- The bytes of an entry of a directory are outside the blocks that do not belong to its
chain. -/
theorem slot_outside (s : FS) (hl : legal s) (dl : List Int) (hv : ∀ x ∈ dl, valid_block s x)
    (i : Nat) (hi : i / epb s < dl.length) (y : Int) (hy : y ∉ dl) (x : Int)
    (h1 : slot s dl i ≤ x) (h2 : x < slot s dl i + 32) :
    x < BLOCK s y ∨ BLOCK s y + s.sb.block_size ≤ x := by
  have hr := slot_range s hl dl hv i hi
  have hm : dl.getD (i / epb s) (-1) ∈ dl := getD_mem hi
  have hne : dl.getD (i / epb s) (-1) ≠ y := by
    intro he; rw [he] at hm; exact hy hm
  exact outside_of_ne s hl _ y x hne (by omega) (by omega)

theorem inv_facts (s : FS) (h : Inv s) : InvFacts s := by
  obtain ⟨hl, hcd, hdc, hfc, hflen, hfnd, hdnd, hsum, hn2, hlo, hhi, hdisj, ht0, hfb0, hnames,
    hfiles⟩ := h
  have hd := chain_isSome_path s _ hdc
  have hf := chain_isSome_path s _ hfc
  have hlive : live_count s = ((live s : Nat) : Int) := by unfold live; omega
  refine ⟨hl, hcd, hd.1, hd.2, hf.1, hflen, hfnd, hdnd, hsum, by unfold live; omega, hlive, ?_,
    hlo, hhi, hdisj, ht0, hfb0, fun i hi => hnames i (List.mem_range.2 hi), ?_⟩
  · have := (load_int_range s.blocks (entry_addr s s.current_dir 0 + 24)).2
    unfold live_count e_size at hlive
    omega
  · intro i hi hty
    obtain ⟨h1, h2, h3⟩ := hfiles i (List.mem_range.2 hi) hty
    have hp := chain_isSome_path s _ h1
    refine ⟨_, hp.1, ?_, hp.2, h3⟩
    intro he
    have := hp.1
    rw [he] at this
    exact h2 this

theorem facts_dl_ne (s : FS) (f : InvFacts s) : dir_chain s ≠ [] := by
  intro h
  have h1 := f.hi
  have h2 := f.n2
  rw [h] at h1
  simp at h1
  omega

theorem facts_idx (s : FS) (f : InvFacts s) (i : Nat) (hi : i < live s) :
    i / epb s < (dir_chain s).length := by
  apply Nat.div_lt_of_lt_mul
  rw [Nat.mul_comm]
  have := f.hi
  omega

theorem facts_small (s : FS) (f : InvFacts s) : live s ≤ 32768 := by
  obtain ⟨_, _, hEle, _, _, hN2⟩ := legal_geom s f.legal
  have h1 := f.hi
  have h2 := f.sum
  have h3 : (dir_chain s).length ≤ 1024 := by
    push_cast at h2; omega
  have : (dir_chain s).length * epb s ≤ 1024 * 32 := Nat.mul_le_mul h3 hEle
  omega

theorem toI32_block (s : FS) (hl : legal s) (fb : Int) (h : fb = -1 ∨ valid_block s fb) :
    toI32 fb = fb := by
  obtain ⟨_, _, _, _, _, hN2⟩ := legal_geom s hl
  apply toI32_of_range
  · rcases h with h | h
    · omega
    · unfold valid_block at h; omega
  · rcases h with h | h
    · omega
    · unfold valid_block at h; omega

theorem facts_slot0 (s : FS) (f : InvFacts s) :
    slot s (dir_chain s) 0 = entry_addr s s.current_dir 0 :=
  slot_zero s f.legal _ _ (path_head s _ _ f.dpath)

theorem append_after (s0 t4 s1 : FS) (now : tm) (b : List Int) (f : InvFacts s0) (hb : IsName b)
    (k : Nat) (ha : Alloc (add_dir_size s0 s0.current_dir 1) t4 (free_blocks s0) k)
    (sz fb : Int) (hfb : fb = -1 ∨ fb ∈ (free_blocks s0).take k)
    (hch : path t4 fb ((free_blocks s0).take k))
    (h : append_entry t4 now s0.current_dir (live_count s0) TYPE_FILE b sz fb = some s1) :
    ∃ k' dl1, AfterCp s0 s1 b k k' dl1 := by
  obtain ⟨hsb1, hfat1, hcd1, hmem1, hsize1⟩ := add_dir_size_spec s0 s0.current_dir 1
  have hbs4 : t4.sb.block_size = s0.sb.block_size := by rw [ha.bs, hsb1]
  have hft4 : t4.sb.fat_type = s0.sb.fat_type := by rw [ha.ft, hsb1]
  have hcd4 : t4.current_dir = s0.current_dir := by rw [ha.cd, hcd1]
  have hl4 : legal t4 := legal_congr s0 t4 hbs4 hft4 f.legal
  have hE4 : epb t4 = epb s0 := epb_congr s0 t4 hbs4
  obtain ⟨_, hEge, hEle, hbsE, hN1, hN2⟩ := legal_geom s0 f.legal
  have hvd := path_valid s0 _ _ f.dpath
  have hvf := path_valid s0 _ _ f.fpath
  have hfat4 : ∀ y, y ∉ free_blocks s0 → t4.fat y = s0.fat y := fun y hy => by
    rw [ha.fat_out y (fun h => hy (mem_take_mem _ _ _ h)), hfat1]
  have hp4 : path t4 s0.current_dir (dir_chain s0) :=
    path_congr s0 t4 hft4 _ _ (fun x hx => hfat4 x (f.disj x hx)) f.dpath
  have hmem4 : ∀ x, (∀ y ∈ (free_blocks s0).take k,
        x < BLOCK s0 y ∨ BLOCK s0 y + s0.sb.block_size ≤ x) →
      t4.blocks x = (add_dir_size s0 s0.current_dir 1).blocks x := by
    intro x hx
    apply ha.mem
    intro y hy
    rw [BLOCK_congr s0 _ (by rw [hsb1]) y, hsb1]
    exact hx y hy
  rw [f.live_eq] at h
  rcases append_entry_cases t4 s1 now hl4 _ _ hp4 (facts_dl_ne s0 f)
      (by rw [fat_fuel_congr s0 t4 hft4]; exact le_of_lt f.dlen) (live s0) f.lt _ _ _ _ h
    with ⟨hr, hi⟩ | ⟨hr, t', T, hg, hvT, hi⟩
  · -- the entry goes into the last block
    rw [hE4] at hr hi
    obtain ⟨hq, hlen0⟩ := div_last_of_not_dvd (epb s0) (live s0) _ (by omega) f.lo f.hi hr
    have haddr : entry_addr t4 ((dir_chain s0).getD ((dir_chain s0).length - 1) (-1))
        ((live s0 % epb s0 : Nat) : Int) = slot s0 (dir_chain s0) (live s0) := by
      unfold slot; rw [hq, entry_addr_congr s0 t4 hbs4]
    rw [haddr] at hi
    obtain ⟨e1, e2, e3, e4, e5, e6, e7, e8⟩ := init_dir_entry_spec t4 s1 now _ _ b _ _ hb.2 hi
    have hidxn : live s0 / epb s0 < (dir_chain s0).length := by omega
    have hold : ∀ i, i < live s0 → ∀ x, slot s0 (dir_chain s0) i ≤ x →
        x < slot s0 (dir_chain s0) i + 32 →
        s1.blocks x = (add_dir_size s0 s0.current_dir 1).blocks x := by
      intro i hi x h1 h2
      have hdj := slot_disjoint s0 f.legal _ f.dnd i (live s0) (facts_idx s0 f i hi) hidxn
        (by omega)
      rw [e4 x (by omega)]
      apply hmem4
      intro y hy
      exact slot_outside s0 f.legal _ hvd i (facts_idx s0 f i hi) y
        (fun hm => f.disj y hm (mem_take_mem _ _ _ hy)) x h1 h2
    refine ⟨k, dir_chain s0, ?_⟩
    exact
      { bs := by rw [e1, hbs4]
        ft := by rw [e1, hft4]
        cd := by rw [e3, hcd4]
        size := by
          have h0 := facts_slot0 s0 f
          have : e_size s1 (entry_addr s0 s0.current_dir 0)
              = e_size (add_dir_size s0 s0.current_dir 1) (entry_addr s0 s0.current_dir 0) := by
            unfold e_size
            apply load_int_congr
            intro x h1 h2
            exact hold 0 (by have := f.n2; omega) x (by rw [h0]; omega) (by rw [h0]; omega)
          rw [this, hsize1]
          have := facts_small s0 f
          have hle : e_size s0 (entry_addr s0 s0.current_dir 0) = ((live s0 : Nat) : Int) :=
            f.live_eq
          rw [hle, f.live_eq]
          exact toI32_of_range (by omega) (by omega)
        dpath := path_congr t4 s1 (by rw [e1]) _ _ (fun x _ => by rw [e2]) hp4
        dnodup := f.dnd
        dlen := f.dlen
        dgrow := Or.inl ⟨rfl, rfl⟩
        dlast := by omega
        old := fun i hi x h1 h2 h3 => by rw [hold i hi x h1 h2]; exact hmem1 x h3
        new_type := e5
        new_name := e6
        new_fb := by
          rw [e8, toI32_block s0 f.legal fb
            (hfb.imp id (fun h => hvf _ (mem_take_mem _ _ _ h)))]
          exact hfb
        new_chain := by
          rw [e8, toI32_block s0 f.legal fb
            (hfb.imp id (fun h => hvf _ (mem_take_mem _ _ _ h)))]
          exact path_congr t4 s1 (by rw [e1]) _ _ (fun x _ => by rw [e2]) hch
        kle := ha.k_le
        closed := fun y hy => by rw [e2]; exact ha.fat_in y hy
        fat_old := fun y h1 _ => by rw [e2]; exact hfat4 y h1
        fat_free := fun j h1 h2 => by
          rw [e2, ha.fat_out _ (getD_not_mem_take _ f.fnd k j h2 h1), hfat1]
          exact path_next s0 _ _ f.fpath j h2
        head := by rw [e1]; exact ha.head }
  · -- a block is taken for the entry
    rw [hE4] at hr
    obtain ⟨hq, hlen0⟩ := div_last_of_dvd (epb s0) (live s0) _ (by omega)
      (by have := f.n2; omega) f.lo f.hi hr
    have hfp1 : path (add_dir_size s0 s0.current_dir 1)
        (add_dir_size s0 s0.current_dir 1).sb.free_block (free_blocks s0) := by
      rw [hsb1]
      exact path_congr s0 _ (by rw [hsb1]) _ _ (fun x _ => by rw [hfat1]) f.fpath
    have hflen1 : ((free_blocks s0).length : Int)
        = (add_dir_size s0 s0.current_dir 1).sb.n_free_blocks := by rw [hsb1]; exact f.flen
    rcases alloc_pop _ t4 _ k hfp1 f.fnd hflen1 ha t' T hg with ⟨_, e, _⟩ | ⟨hk, hT, _, ha'⟩
    · exfalso; unfold valid_block at hvT; omega
    rcases get_free_block_spec t4 t' T hg with ⟨_, e⟩ | ⟨_, _, g3, g4, g5, g6, g7⟩
    · exfalso; unfold valid_block at hvT; omega
    have hcur : (dir_chain s0).getD ((dir_chain s0).length - 1) (-1) ∈ dir_chain s0 :=
      getD_mem (by omega)
    have hTfl : T ∈ free_blocks s0 := by rw [hT]; exact getD_mem hk
    have hTdl : T ∉ dir_chain s0 := fun h => f.disj T h hTfl
    have hTk : T ∉ (free_blocks s0).take k := by
      rw [hT]; exact getD_not_mem_take _ f.fnd k k hk (le_refl _)
    have hTcur : T ≠ (dir_chain s0).getD ((dir_chain s0).length - 1) (-1) :=
      fun he => hTdl (he ▸ hcur)
    have hslot : slot s0 (dir_chain s0 ++ [T]) (live s0) = BLOCK s0 T := by
      unfold slot entry_addr
      rw [hq, getD_append_last, hr]
      simp
    have haddr : entry_addr t' T 0 = slot s0 (dir_chain s0 ++ [T]) (live s0) := by
      rw [hslot]
      unfold entry_addr
      rw [BLOCK_congr s0 t' (by rw [g6, hbs4])]
      simp
    rw [haddr] at hi
    obtain ⟨e1, e2, e3, e4, e5, e6, e7, e8⟩ := init_dir_entry_spec _ s1 now _ _ b _ _ hb.2 hi
    have e1' : s1.sb = t'.sb := e1
    have e2' : s1.fat = store t'.fat ((dir_chain s0).getD ((dir_chain s0).length - 1) (-1)) T :=
      e2
    have e3' : s1.current_dir = t'.current_dir := e3
    have e4' : ∀ x, x < BLOCK s0 T ∨ BLOCK s0 T + 32 ≤ x → s1.blocks x = t4.blocks x := by
      intro x hx
      rw [← hslot] at hx
      rw [e4 x hx]
      show t'.blocks x = t4.blocks x
      rw [g4]
    have hfatT : ∀ y, y ≠ T → y ≠ (dir_chain s0).getD ((dir_chain s0).length - 1) (-1) →
        s1.fat y = t4.fat y := by
      intro y h1 h2
      rw [e2', store_other _ _ _ _ h2, g3, store_other _ _ _ _ h1]
    have hold : ∀ i, i < live s0 → ∀ x, slot s0 (dir_chain s0) i ≤ x →
        x < slot s0 (dir_chain s0) i + 32 →
        s1.blocks x = (add_dir_size s0 s0.current_dir 1).blocks x := by
      intro i hi x h1 h2
      have hout := slot_outside s0 f.legal _ hvd i (facts_idx s0 f i hi) T hTdl x h1 h2
      rw [e4' x (by omega)]
      apply hmem4
      intro y hy
      exact slot_outside s0 f.legal _ hvd i (facts_idx s0 f i hi) y
        (fun hm => f.disj y hm (mem_take_mem _ _ _ hy)) x h1 h2
    have hvT1 : valid_block s1 T := by
      unfold valid_block at hvT ⊢; rw [e1']; exact hvT
    refine ⟨k + 1, dir_chain s0 ++ [T], ?_⟩
    exact
      { bs := by rw [e1', g6, hbs4]
        ft := by rw [e1', g7, hft4]
        cd := by rw [e3', g5, hcd4]
        size := by
          have h0 := facts_slot0 s0 f
          have : e_size s1 (entry_addr s0 s0.current_dir 0)
              = e_size (add_dir_size s0 s0.current_dir 1) (entry_addr s0 s0.current_dir 0) := by
            unfold e_size
            apply load_int_congr
            intro x h1 h2
            exact hold 0 (by have := f.n2; omega) x (by rw [h0]; omega) (by rw [h0]; omega)
          rw [this, hsize1]
          have := facts_small s0 f
          have hle : e_size s0 (entry_addr s0 s0.current_dir 0) = ((live s0 : Nat) : Int) :=
            f.live_eq
          rw [hle, f.live_eq]
          exact toI32_of_range (by omega) (by omega)
        dpath := by
          apply path_snoc t4 s1 (by rw [e1', g7]) T hvT1 _ _ _ hp4 (facts_dl_ne s0 f)
          · intro t ht
            apply hfatT
            · intro he; exact hTdl (he ▸ getD_mem (by omega))
            · intro he
              have := nodup_getD_inj _ f.dnd _ _ (by omega) (by omega) he
              omega
          · rw [e2', store_same]
          · rw [e2', store_other _ _ _ _ hTcur, g3, store_same]
        dnodup := nodup_snoc _ _ f.dnd hTdl
        dlen := by
          have := f.sum
          unfold fat_fuel
          simp only [List.length_append, List.length_singleton]
          push_cast at this
          omega
        dgrow := Or.inr ⟨by rw [hT], rfl, hk⟩
        dlast := by simp; omega
        old := fun i hi x h1 h2 h3 => by rw [hold i hi x h1 h2]; exact hmem1 x h3
        new_type := e5
        new_name := e6
        new_fb := by
          rw [e8, toI32_block s0 f.legal fb
            (hfb.imp id (fun h => hvf _ (mem_take_mem _ _ _ h)))]
          exact hfb
        new_chain := by
          rw [e8, toI32_block s0 f.legal fb
            (hfb.imp id (fun h => hvf _ (mem_take_mem _ _ _ h)))]
          exact path_congr t4 s1 (by rw [e1', g7]) _ _
            (fun y hy => hfatT y (fun he => hTk (he ▸ hy))
              (fun he => f.disj _ hcur (he ▸ mem_take_mem _ _ _ hy))) hch
        kle := by omega
        closed := fun y hy => by
          rw [hfatT y (fun he => hTk (he ▸ hy))
            (fun he => f.disj _ hcur (he ▸ mem_take_mem _ _ _ hy))]
          exact ha.fat_in y hy
        fat_old := fun y h1 h2 => by
          rw [hfatT y (fun he => h1 (he ▸ hTfl)) (fun he => h2 (he ▸ hcur))]
          exact hfat4 y h1
        fat_free := fun j h1 h2 => by
          have hj : (free_blocks s0).getD j (-1) ∈ free_blocks s0 := getD_mem h2
          rw [hfatT _ (fun he => by
              rw [hT] at he
              have := nodup_getD_inj _ f.fnd _ _ h2 hk he
              omega)
            (fun he => f.disj _ hcur (he ▸ hj)),
            ha.fat_out _ (getD_not_mem_take _ f.fnd k j h2 (by omega)), hfat1]
          exact path_next s0 _ _ f.fpath j h2
        head := by rw [e1']; exact ha'.head }

theorem scan_absent (s : FS) (f : InvFacts s) (test : Int → Option Bool)
    (hfalse : ∀ g, g < live s → test (slot s (dir_chain s) g) = some false) :
    scan_current s test (live_count s) = some none := by
  unfold scan_current
  rw [f.live_eq]
  simp only [Int.toNat_ofNat]
  have hd0 : s.current_dir = (dir_chain s).getD ((0 - 1) / epb s) (-1) := by
    have := path_head s _ _ f.dpath
    rw [← this]
    simp
    cases dir_chain s <;> simp
  have := scan_dir_spec s f.legal test (dir_chain s) (path_valid s _ _ f.dpath)
    (fun t ht => path_next s _ _ f.dpath t (by omega)) (live s) 0 s.current_dir s.current_dir
    (by have := f.hi; omega) (by have := f.lt; omega) hd0
    (fun j _ hj => ⟨_, hfalse j (by omega)⟩)
  simp only [Nat.cast_zero] at this
  rcases this with ⟨h1, _⟩ | ⟨p, _, _, hp, _, h4, _⟩
  · exact h1
  · rw [hfalse p (by omega)] at h4
    simp at h4

/-- The state `vfs_cp` leaves when the target name is absent and nothing is printed. -/
theorem cp_after (s0 : FS) (now : tm) (a b : List Int) (hinv : Inv s0) (hb : IsName b)
    (habs : lookup s0 b = some none)
    (hcp : (vfs_cp s0 now a b).map Prod.snd = some []) :
    ∃ s1 k k' dl1, vfs_cp s0 now a b = some (s1, []) ∧ a ≠ b ∧ AfterCp s0 s1 b k k' dl1 := by
  have f := inv_facts s0 hinv
  have hfalse := absent_all s0 hinv b hb.1 habs
  have hscanb : scan_current s0 (name_is s0 b) (e_size s0 (entry_addr s0 s0.current_dir 0))
      = some none := scan_absent s0 f (name_is s0 b) hfalse
  obtain ⟨_, hEge, hEle, hbsE, hN1, hN2⟩ := legal_geom s0 f.legal
  unfold vfs_cp at hcp ⊢
  rw [if_pos f.cdv] at hcp ⊢
  simp only at hcp ⊢
  cases hsa : scan_current s0 (name_is s0 a) (e_size s0 (entry_addr s0 s0.current_dir 0)) with
  | none => rw [hsa] at hcp; simp at hcp
  | some o =>
    cases o with
    | none => rw [hsa] at hcp; simp at hcp
    | some h =>
      have hne : a ≠ b := by
        intro he
        rw [he, hscanb] at hsa
        simp at hsa
      rw [hsa] at hcp
      simp only at hcp ⊢
      by_cases hib : e_first_block s0 (entry_addr s0 h.cur_block h.block_i) = -1
      · rw [if_pos hib] at hcp; simp at hcp
      · rw [if_neg hib] at hcp ⊢
        unfold resolve_dest at hcp ⊢
        rw [hscanb] at hcp ⊢
        simp only at hcp ⊢
        have hvb : valid_block s0 s0.current_dir ∧ s0.sb.block_size ≠ 0 := ⟨f.cdv, by omega⟩
        rw [if_pos hvb] at hcp ⊢
        have hle : e_size s0 (entry_addr s0 s0.current_dir 0) = ((live s0 : Nat) : Int) :=
          f.live_eq
        rw [hle, umod_legal s0 f.legal (live s0) (by have := f.lt; omega)] at hcp ⊢
        simp only at hcp ⊢
        generalize e_first_block s0 (entry_addr s0 h.cur_block h.block_i) = src at hcp hib ⊢
        generalize e_size s0 (entry_addr s0 h.cur_block h.block_i) = sz at hcp ⊢
        by_cases hfull : s0.sb.n_free_blocks
            < (if ((live s0 % epb s0 : Nat) : Int) = 0 then 1 else 0)
              + (sz + s0.sb.block_size - 1).tdiv s0.sb.block_size
        · rw [if_pos hfull] at hcp; simp at hcp
        · rw [if_neg hfull] at hcp ⊢
          generalize (if ((live s0 % epb s0 : Nat) : Int) = 0 then (1 : Int) else 0)
              + (sz + s0.sb.block_size - 1).tdiv s0.sb.block_size
              - (if ((live s0 % epb s0 : Nat) : Int) = 0 then 1 else 0) = req at hcp ⊢
          obtain ⟨hsb1, hfat1, hcd1, hmem1, hsize1⟩ := add_dir_size_spec s0 s0.current_dir 1
          have hfp1 : path (add_dir_size s0 s0.current_dir 1)
              (add_dir_size s0 s0.current_dir 1).sb.free_block (free_blocks s0) := by
            rw [hsb1]
            exact path_congr s0 _ (by rw [hsb1]) _ _ (fun x _ => by rw [hfat1]) f.fpath
          have hflen1 : ((free_blocks s0).length : Int)
              = (add_dir_size s0 s0.current_dir 1).sb.n_free_blocks := by
            rw [hsb1]; exact f.flen
          have ha0 := alloc_refl (add_dir_size s0 s0.current_dir 1) (free_blocks s0) hfp1
          cases hg : get_free_block (add_dir_size s0 s0.current_dir 1) with
          | none => rw [hg] at hcp; simp at hcp
          | some r =>
            obtain ⟨t2, fb⟩ := r
            rw [hg] at hcp
            simp only at hcp ⊢
            have hk1 : ∃ k1, Alloc (add_dir_size s0 s0.current_dir 1) t2 (free_blocks s0) k1
                ∧ linked t2 (free_blocks s0) k1
                ∧ ((fb = -1 ∧ (free_blocks s0).length = 0 ∧ k1 = 0)
                    ∨ (k1 = 1 ∧ fb = (free_blocks s0).getD 0 (-1)
                        ∧ 0 < (free_blocks s0).length)) := by
              rcases alloc_pop _ _ _ 0 hfp1 f.fnd hflen1 ha0 t2 fb hg with
                ⟨e1, e2, e3⟩ | ⟨h1, h2, h3, h4⟩
              · exact ⟨0, by rw [e1]; exact ha0, fun j hj => absurd hj (by omega),
                  Or.inl ⟨e2, e3.symm, rfl⟩⟩
              · refine ⟨1, h4, ?_, Or.inr ⟨rfl, h2, h1⟩⟩
                rcases get_free_block_spec _ t2 fb hg with ⟨_, e⟩ | ⟨_, _, g3, _⟩
                · exfalso; unfold valid_block at h3; omega
                · intro j hj
                  have hj0 : j = 0 := by omega
                  rw [hj0, ← h2, g3, store_same, if_neg (by omega)]
            obtain ⟨k1, ha1, hl1, hfbk⟩ := hk1
            have hfb1 : fb = -1 ∨ fb ∈ (free_blocks s0).take k1 := by
              rcases hfbk with ⟨h1, _, _⟩ | ⟨h1, h2, h3⟩
              · left; exact h1
              · right; rw [h1, h2]; exact getD_mem_take _ 1 0 h3 (by omega)
            have hfb2 : fb = -1 ∨ (0 < k1 ∧ fb = (free_blocks s0).getD (k1 - 1) (-1)) := by
              rcases hfbk with ⟨h1, _, _⟩ | ⟨h1, h2, h3⟩
              · left; exact h1
              · right; rw [h1]; exact ⟨by omega, h2⟩
            cases hs : strncpy_block t2 (some fb) src (cp_len t2 sz) with
            | none => rw [hs] at hcp; simp at hcp
            | some t3 =>
              rw [hs] at hcp
              simp only at hcp ⊢
              have ha3 := strncpy_block_alloc _ t2 _ k1 ha1 (some fb)
                (fun d hd => by simp at hd; rw [← hd]; exact hfb1) src _ (cp_len_le _ _) t3 hs
              cases hlp : vfs_cp_loop t3 req (fat_fuel t3) src sz 1 none (some fb) with
              | none => rw [hlp] at hcp; simp at hcp
              | some t4 =>
                rw [hlp] at hcp
                simp only at hcp ⊢
                have hl3 : linked t3 (free_blocks s0) k1 := by
                  intro j hj
                  rw [strncpy_block_fat t2 _ _ _ t3 hs]
                  exact hl1 j hj
                obtain ⟨k, hkk, ha4, hl4⟩ := vfs_cp_loop_linked _ _ hfp1 f.fnd hflen1 req _ t3
                  k1 _ _ _ none (some fb) t4 ha3 hl3
                  (fun d hd => by simp at hd; rw [← hd]; exact hfb2)
                  (fun d hd => by simp at hd) hlp
                have hch : path t4 fb ((free_blocks s0).take k) := by
                  have hv4 : ∀ x ∈ free_blocks s0, valid_block t4 x := fun x hx =>
                    (valid_block_congr s0 t4 (by rw [ha4.ft, hsb1]) x).2
                      (path_valid s0 _ _ f.fpath x hx)
                  have hc := linked_chain t4 (free_blocks s0) k ha4.k_le hv4 hl4
                  rcases hfbk with ⟨h1, h2, _⟩ | ⟨h1, h2, _⟩
                  · have hk0 : k = 0 := by have := ha4.k_le; omega
                    rw [hk0] at hc ⊢
                    rw [h1]
                    simpa using hc
                  · rw [if_neg (by omega)] at hc
                    rw [h2]
                    exact hc
                cases hap : append_entry t4 now s0.current_dir (↑(live s0)) TYPE_FILE b sz fb with
                | none => rw [hap] at hcp; simp at hcp
                | some t5 =>
                  simp only
                  rw [← f.live_eq] at hap
                  obtain ⟨k', dl1, hafter⟩ := append_after s0 t4 t5 now b f hb k ha4 sz fb
                    (hfb1.imp id (fun h => take_mono _ _ _ h _ hkk)) hch hap
                  exact ⟨t5, k, k', dl1, rfl, hne, hafter⟩

/-- The comparison reads the stored string up to its NUL only. -/
theorem strcmp_eq_congr_ends (s s' : FS) (hd : data_size s' = data_size s) :
    ∀ (name : List Int) (p : Int) (z : Nat), CStr name → s.blocks (p + (z : Int)) = 0 →
      (∀ x, p ≤ x → x ≤ p + (z : Int) → s'.blocks x = s.blocks x) →
      strcmp_eq s' p name = strcmp_eq s p name := by
  intro name
  induction name with
  | nil =>
    intro p z _ _ hag
    unfold strcmp_eq
    rw [hd, hag p (le_refl _) (by omega)]
  | cons c cs ih =>
    intro p z hc hz hag
    unfold strcmp_eq
    rw [hd, hag p (le_refl _) (by omega)]
    by_cases hr : 0 ≤ p ∧ p < data_size s
    · rw [if_pos hr, if_pos hr]
      by_cases hpc : s.blocks p = c
      · rw [if_pos hpc, if_pos hpc]
        have hc0 : c ≠ 0 := hc c (by simp)
        have hz0 : z ≠ 0 := by
          intro h0
          subst h0
          simp at hz
          omega
        obtain ⟨z', rfl⟩ := Nat.exists_eq_succ_of_ne_zero hz0
        apply ih (p + 1) z' (fun d hd' => hc d (by simp [hd']))
        · rw [← hz]
          congr 1
          push_cast
          ring
        · intro x h1 h2
          apply hag x (by omega) (by push_cast; omega)
      · rw [if_neg hpc, if_neg hpc]
    · rw [if_neg hr, if_neg hr]

theorem getD_drop_last (l : List Int) (t : Nat) (ht : t < l.length) :
    (l.drop t).getD ((l.drop t).length - 1) (-1) = l.getD (l.length - 1) (-1) := by
  rw [List.getD_eq_getElem _ _ (by simp; omega), List.getD_eq_getElem _ _ (by omega)]
  simp only [List.getElem_drop, List.length_drop]
  congr 1
  omega

/-- The function `vfs_rm` when no live file entry has the name. -/
theorem vfs_rm_none (s : FS) (name : List Int) (hv : valid_block s s.current_dir)
    (hscan : scan_current s (file_name_is s name) (e_size s (entry_addr s s.current_dir 0))
      = some none) :
    vfs_rm s name = some (s, [Msg.rm_not_found]) := by
  unfold vfs_rm
  rw [if_pos hv]
  simp only [hscan]

/-- The function `vfs_rm` when the entry loop stops at an entry. -/
theorem vfs_rm_hit (s : FS) (name : List Int) (h : Hit) (hv : valid_block s s.current_dir)
    (hscan : scan_current s (file_name_is s name) (e_size s (entry_addr s s.current_dir 0))
      = some (some h))
    (x cnt : Int)
    (hcount : count_chain s (fat_fuel s)
      (e_first_block s (entry_addr s h.cur_block h.block_i)) 1 = some (x, cnt))
    (sA : FS)
    (hsA : sA = splice_free s (e_first_block s (entry_addr s h.cur_block h.block_i)) x cnt)
    (T1 sl : Int) (hlast : last_of_chain sA (fat_fuel sA) h.cur_block = some T1)
    (hslot : last_slot sA (e_size s (entry_addr s s.current_dir 0)) = some sl)
    (sB : FS) (hfreed : (if sl = 0 then free_block sA T1 else some sA) = some sB)
    (sC : FS) (hcopy : copy_entry sB (entry_addr s h.cur_block h.block_i)
        (entry_copy sA (entry_addr sA T1 sl)) = some sC) :
    vfs_rm s name = some (add_dir_size sC sC.current_dir (-1), []) := by
  subst hsA
  unfold vfs_rm
  rw [if_pos hv]
  simp only [hscan, hcount, hlast, hslot, hfreed, hcopy]

/-- Two chains from the same block are the same. -/
theorem path_unique (s : FS) : ∀ (l1 l2 : List Int) (b : Int),
    path s b l1 → path s b l2 → l1 = l2 := by
  intro l1
  induction l1 with
  | nil =>
    intro l2 b h1 h2
    cases l2 with
    | nil => rfl
    | cons x r =>
      obtain ⟨e, hv, _⟩ := h2
      have : b = -1 := h1
      unfold valid_block at hv
      omega
  | cons x r ih =>
    intro l2 b h1 h2
    obtain ⟨e1, hv1, hr1⟩ := h1
    cases l2 with
    | nil =>
      have : b = -1 := h2
      unfold valid_block at hv1
      omega
    | cons y r2 =>
      obtain ⟨e2, _, hr2⟩ := h2
      have : x = y := by omega
      subst this
      rw [ih r2 _ hr1 hr2]

/-- A chain visits no block twice. -/
theorem path_nodup (s : FS) : ∀ (l : List Int) (b : Int), path s b l → l.Nodup := by
  intro l
  induction l with
  | nil => intro b _; exact List.nodup_nil
  | cons x r ih =>
    intro b hp
    have hp' := hp
    obtain ⟨e, hv, hr⟩ := hp
    rw [List.nodup_cons]
    refine ⟨?_, ih _ hr⟩
    intro hx
    obtain ⟨i, hi, hxi⟩ := List.mem_iff_getElem.1 hx
    have hd := path_drop s r _ hr i hi
    rw [List.getD_eq_getElem _ _ hi, hxi] at hd
    have hfull : path s x (x :: r) := ⟨rfl, hv, hr⟩
    have := congrArg List.length (path_unique s _ _ _ hd hfull)
    simp at this
    omega

/-- A chain has at most as many blocks as the FAT has entries. -/
theorem path_length (s : FS) (l : List Int) (b : Int) (h : path s b l) :
    l.length < fat_fuel s := by
  have hnd := path_nodup s l b h
  have hv := path_valid s l b h
  have hsub : l.toFinset ⊆ Finset.Ico 0 (FAT_ENTRIES s.sb.fat_type) := by
    intro x hx
    rw [List.mem_toFinset] at hx
    have := hv x hx
    unfold valid_block at this
    rw [Finset.mem_Ico]
    exact this
  have := Finset.card_le_card hsub
  rw [List.toFinset_card_of_nodup hnd, Int.card_Ico] at this
  unfold fat_fuel
  simp only [sub_zero] at this
  omega

/-- A chain is what `chain` computes. -/
theorem path_chain_some (s : FS) (b : Int) (l : List Int) (h : path s b l) :
    chain s b = some l :=
  path_chain s b l h (path_length s l b h)

/-- Linking the last block of a chain to the first block of another chain. -/
theorem path_append (s s' : FS) (hN : s'.sb.fat_type = s.sb.fat_type) (l2 : List Int)
    (b2 : Int) (h2 : path s' b2 l2) :
    ∀ (l : List Int) (b : Int), path s b l → l ≠ [] →
      (∀ t : Nat, t + 1 < l.length → s'.fat (l.getD t (-1)) = s.fat (l.getD t (-1))) →
      s'.fat (l.getD (l.length - 1) (-1)) = b2 → path s' b (l ++ l2) := by
  intro l
  induction l with
  | nil => intro b _ h; exact absurd rfl h
  | cons x r ih =>
    intro b hp _ hsame hlast
    obtain ⟨hbx, hv, hpr⟩ := hp
    cases r with
    | nil =>
      simp at hlast
      refine ⟨hbx, (valid_block_congr s s' hN x).2 hv, ?_⟩
      rw [hlast]
      exact h2
    | cons y r2 =>
      refine ⟨hbx, (valid_block_congr s s' hN x).2 hv, ?_⟩
      have h0 := hsame 0 (by simp)
      simp only [List.getD_cons_zero] at h0
      show path s' (s'.fat x) ((y :: r2) ++ l2)
      rw [h0]
      apply ih (s.fat x) hpr (by simp)
      · intro t ht
        have := hsame (t + 1) (by simp at ht ⊢; omega)
        simpa using this
      · simpa using hlast

theorem after_legal (s0 s1 : FS) (b : List Int) (k k' : Nat) (dl1 : List Int)
    (f : InvFacts s0) (hA : AfterCp s0 s1 b k k' dl1) : legal s1 :=
  legal_congr s0 s1 hA.bs hA.ft f.legal

theorem after_mem (s0 s1 : FS) (b : List Int) (k k' : Nat) (dl1 : List Int)
    (hA : AfterCp s0 s1 b k k' dl1) :
    ∀ y ∈ dl1, y ∈ dir_chain s0
      ∨ (y = (free_blocks s0).getD k (-1) ∧ k < (free_blocks s0).length ∧ k' = k + 1) := by
  intro y hy
  rcases hA.dgrow with ⟨h1, _⟩ | ⟨h1, h2, h3⟩
  · left; rw [← h1]; exact hy
  · rw [h1] at hy
    rcases List.mem_append.1 hy with h | h
    · left; exact h
    · right
      rw [List.mem_singleton] at h
      exact ⟨h, h3, h2⟩

theorem after_idx (s0 s1 : FS) (b : List Int) (k k' : Nat) (dl1 : List Int)
    (hA : AfterCp s0 s1 b k k' dl1) (i : Nat) (hi : i ≤ live s0) :
    i / epb s0 < dl1.length := by
  have h1 : i / epb s0 ≤ live s0 / epb s0 := Nat.div_le_div_right hi
  have := hA.dlast
  omega

theorem after_slot (s0 s1 : FS) (b : List Int) (k k' : Nat) (dl1 : List Int)
    (f : InvFacts s0) (hA : AfterCp s0 s1 b k k' dl1) (i : Nat) (hi : i < live s0) :
    slot s0 dl1 i = slot s0 (dir_chain s0) i := by
  rcases hA.dgrow with ⟨h1, _⟩ | ⟨h1, _, _⟩
  · rw [h1]
  · rw [h1]
    exact slot_append s0 _ _ i (facts_idx s0 f i hi)

theorem after_bytes (s0 s1 : FS) (b : List Int) (k k' : Nat) (dl1 : List Int)
    (f : InvFacts s0) (hA : AfterCp s0 s1 b k k' dl1) (i : Nat) (hi : i < live s0) (x : Int)
    (h1 : slot s0 dl1 i ≤ x) (h2 : x < slot s0 dl1 i + 32)
    (h3 : x < slot s0 dl1 i + 24 ∨ slot s0 dl1 i + 28 ≤ x) : s1.blocks x = s0.blocks x := by
  rw [after_slot s0 s1 b k k' dl1 f hA i hi] at h1 h2 h3
  apply hA.old i hi x h1 h2
  by_cases h0 : i = 0
  · subst h0
    rw [facts_slot0 s0 f] at h3
    exact h3
  · have hn2 := f.n2
    have := slot_disjoint s0 f.legal (dir_chain s0) f.dnd i 0 (facts_idx s0 f i hi)
      (facts_idx s0 f 0 (by omega)) h0
    rw [facts_slot0 s0 f] at this
    omega

theorem after_names (s0 s1 : FS) (b : List Int) (k k' : Nat) (dl1 : List Int)
    (f : InvFacts s0) (hA : AfterCp s0 s1 b k k' dl1) (c : List Int) (hc : CStr c)
    (i : Nat) (hi : i < live s0) :
    strcmp_eq s1 (slot s0 dl1 i + 1) c = strcmp_eq s0 (slot s0 (dir_chain s0) i + 1) c
      ∧ ∃ r, strcmp_eq s0 (slot s0 (dir_chain s0) i + 1) c = some r := by
  have hsl := after_slot s0 s1 b k k' dl1 f hA i hi
  obtain ⟨z, hz, hz0⟩ := f.names i hi
  have hz20 : z < 20 := List.mem_range.1 hz
  obtain ⟨_, _, h0, h1⟩ := slot_range s0 f.legal (dir_chain s0) (path_valid s0 _ _ f.dpath) i
    (facts_idx s0 f i hi)
  constructor
  · rw [hsl]
    apply strcmp_eq_congr_ends s0 s1 (data_size_congr s0 s1 hA.bs hA.ft) c _ z hc hz0
    intro x hx1 hx2
    apply after_bytes s0 s1 b k k' dl1 f hA i hi x
    · rw [hsl]; omega
    · rw [hsl]; omega
    · rw [hsl]; left; omega
  · exact name_ends_strcmp s0 f.legal _ h0 h1 (f.names i hi) c hc

/-- The fields of entry 0 that `vfs_cp` leaves as they were. -/
theorem after_entry0 (s0 s1 : FS) (b : List Int) (k k' : Nat) (dl1 : List Int)
    (f : InvFacts s0) (hA : AfterCp s0 s1 b k k' dl1) :
    e_type s1 (entry_addr s0 s0.current_dir 0) = TYPE_DIR
      ∧ e_first_block s1 (entry_addr s0 s0.current_dir 0) = s0.current_dir
      ∧ slot s0 dl1 0 = entry_addr s0 s0.current_dir 0 := by
  have hn2 := f.n2
  have hs0 : slot s0 dl1 0 = entry_addr s0 s0.current_dir 0 := by
    rw [after_slot s0 s1 b k k' dl1 f hA 0 (by omega), facts_slot0 s0 f]
  refine ⟨?_, ?_, hs0⟩
  · refine Eq.trans ?_ f.type0
    unfold e_type
    apply after_bytes s0 s1 b k k' dl1 f hA 0 (by omega)
    · rw [hs0]
    · rw [hs0]; omega
    · rw [hs0]; left; omega
  · refine Eq.trans ?_ f.fb0
    unfold e_first_block
    apply load_int_congr
    intro x hx1 hx2
    apply after_bytes s0 s1 b k k' dl1 f hA 0 (by omega)
    · rw [hs0]; omega
    · rw [hs0]; omega
    · rw [hs0]; right; omega

/-- After the copy the name `b` resolves to the new entry. -/
theorem after_lookup (s0 s1 : FS) (b : List Int) (k k' : Nat) (dl1 : List Int)
    (f : InvFacts s0) (hA : AfterCp s0 s1 b k k' dl1) (hb : IsName b)
    (hfalse : ∀ g, g < live s0 → strcmp_eq s0 (slot s0 (dir_chain s0) g + 1) b = some false) :
    lookup s1 b = some (some ⟨TYPE_FILE, e_size s1 (slot s0 dl1 (live s0)),
      e_first_block s1 (slot s0 dl1 (live s0))⟩) := by
  have hl1 := after_legal s0 s1 b k k' dl1 f hA
  have hE : epb s1 = epb s0 := epb_congr s0 s1 hA.bs
  have hds : data_size s1 = data_size s0 := data_size_congr s0 s1 hA.bs hA.ft
  obtain ⟨ht0, hfb0, hs0⟩ := after_entry0 s0 s1 b k k' dl1 f hA
  have hv1 := path_valid s1 _ _ hA.dpath
  have hidx := after_idx s0 s1 b k k' dl1 hA
  have hn2 := f.n2
  obtain ⟨_, _, hr0, hr1⟩ := slot_range s1 hl1 dl1 hv1 0 (by rw [hE]; exact hidx 0 (by omega))
  obtain ⟨_, _, hn0, hn1⟩ := slot_range s1 hl1 dl1 hv1 (live s0)
    (by rw [hE]; exact hidx _ (le_refl _))
  have hsl : ∀ i, slot s1 dl1 i = slot s0 dl1 i := fun i => slot_congr s0 s1 hA.bs dl1 i
  rw [hsl, hds] at hr1 hn1
  rw [hsl] at hr0 hn0
  rw [hs0] at hr0 hr1
  have hA0 : entry_addr s1 s1.current_dir 0 = entry_addr s0 s0.current_dir 0 := by
    rw [hA.cd, entry_addr_congr s0 s1 hA.bs]
  have hsz : e_size s1 (entry_addr s0 s0.current_dir 0) = ((live s0 + 1 : Nat) : Int) := by
    rw [hA.size, f.live_eq]; push_cast; ring
  have htrue : strcmp_eq s1 (slot s1 dl1 (live s0) + 1) b = some true := by
    rw [hsl]
    apply strcmp_eq_stored s1 b _ hA.new_name (by omega)
    have := hb.2
    omega
  have hhit := find_while_hit s1 hl1 b (live s0 + 1) (by have := facts_small s0 f; omega) dl1 hv1
    (fun t ht => path_next s1 _ _ hA.dpath t (by omega)) (live s0) (by omega)
    (by rw [hE]; exact hidx _ (le_refl _)) htrue (live s0 / epb s1) 0 (fat_fuel s1) (by simp)
    (by rw [hE, fat_fuel_congr s0 s1 hA.ft]; have := hA.dlast; have := hA.dlen; omega)
    (fun g _ hg => by
      rw [hsl, (after_names s0 s1 b k k' dl1 f hA b hb.1 g hg).1]
      exact hfalse g hg)
  have hhead : dl1.getD 0 (-1) = s0.current_dir := by
    have := path_head s1 _ _ hA.dpath
    rw [← this]
    cases dl1 <;> simp
  rw [hhead] at hhit
  simp only [Nat.zero_mul, Nat.cast_zero] at hhit
  unfold lookup find_dir_entry
  rw [hA0, hds, if_pos ⟨hr0, by unfold sizeof_dir_entry; exact hr1⟩, hsz, hfb0, hhit]
  simp only [Option.map_some', hsl]
  rw [show e_type s1 (slot s0 dl1 (live s0)) = TYPE_FILE from hA.new_type]

/-- The step `if(slot == 0) free_block(last_block)` of `vfs_rm` after the splice. -/
theorem rm_free_tail (s : FS) (first x cnt T1 sl : Int) (hv : valid_block s T1)
    (hxT : x ≠ T1) :
    ∃ sB, (if sl = 0 then free_block (splice_free s first x cnt) T1
            else some (splice_free s first x cnt)) = some sB
      ∧ sB.blocks = s.blocks ∧ sB.sb.block_size = s.sb.block_size
      ∧ sB.sb.fat_type = s.sb.fat_type ∧ sB.current_dir = s.current_dir
      ∧ (∀ y, y ≠ x → y ≠ T1 → sB.fat y = s.fat y) ∧ sB.fat x = s.sb.free_block
      ∧ ((sB.sb.free_block = T1 ∧ sB.fat T1 = first)
          ∨ (sB.sb.free_block = first ∧ sB.fat T1 = s.fat T1)) := by
  by_cases h0 : sl = 0
  · rw [if_pos h0]
    unfold free_block
    have hv' : valid_block (splice_free s first x cnt) T1 := hv
    rw [if_pos hv']
    refine ⟨_, rfl, rfl, rfl, rfl, rfl, ?_, ?_, ?_⟩
    · intro y hy1 hy2
      show store (store s.fat x s.sb.free_block) T1 first y = s.fat y
      rw [store_other _ _ _ _ hy2, store_other _ _ _ _ hy1]
    · show store (store s.fat x s.sb.free_block) T1 first x = s.sb.free_block
      rw [store_other _ _ _ _ hxT, store_same]
    · left
      refine ⟨rfl, ?_⟩
      show store (store s.fat x s.sb.free_block) T1 first T1 = first
      rw [store_same]
  · rw [if_neg h0]
    refine ⟨_, rfl, rfl, rfl, rfl, rfl, ?_, ?_, ?_⟩
    · intro y hy1 _
      show store s.fat x s.sb.free_block y = s.fat y
      rw [store_other _ _ _ _ hy1]
    · show store s.fat x s.sb.free_block x = s.sb.free_block
      rw [store_same]
    · right
      refine ⟨rfl, ?_⟩
      show store s.fat x s.sb.free_block T1 = s.fat T1
      rw [store_other _ _ _ _ (Ne.symm hxT)]

/-- The state `vfs_rm` leaves when the entry loop stops at an entry. -/
theorem rm_hit_state (s1 : FS) (a b : List Int) (hb : IsName b) (h : Hit)
    (hv : valid_block s1 s1.current_dir)
    (hscan : scan_current s1 (file_name_is s1 a) (e_size s1 (entry_addr s1 s1.current_dir 0))
      = some (some h))
    (fc : List Int)
    (hfc : path s1 (e_first_block s1 (entry_addr s1 h.cur_block h.block_i)) fc) (hfcne : fc ≠ [])
    (hfclen : fc.length ≤ fat_fuel s1) (T1 : Int) (hT : valid_block s1 T1)
    (hxT : fc.getD (fc.length - 1) (-1) ≠ T1)
    (hlast : last_of_chain
        (splice_free s1 (e_first_block s1 (entry_addr s1 h.cur_block h.block_i))
          (fc.getD (fc.length - 1) (-1)) (1 + (fc.length : Int) - 1))
        (fat_fuel s1) h.cur_block = some T1)
    (sl : Int) (hslot : last_slot s1 (e_size s1 (entry_addr s1 s1.current_dir 0)) = some sl)
    (hname : stored s1 (entry_addr s1 T1 sl + 1) b)
    (hdisj : entry_addr s1 h.cur_block h.block_i + 32 ≤ entry_addr s1 s1.current_dir 0
      ∨ entry_addr s1 s1.current_dir 0 + 32 ≤ entry_addr s1 h.cur_block h.block_i) :
    ∃ s2, vfs_rm s1 a = some (s2, [])
      ∧ AfterRm s1 s2 b (entry_addr s1 h.cur_block h.block_i) (entry_addr s1 s1.current_dir 0)
          (entry_addr s1 T1 sl) (fc.getD (fc.length - 1) (-1)) T1
          (e_first_block s1 (entry_addr s1 h.cur_block h.block_i)) := by
  have hcount := count_chain_path s1 fc _ (fat_fuel s1) 1 hfc hfcne hfclen
  obtain ⟨sB, hfreed, hBm, hBbs, hBft, hBcd, hBfat, hBx, hBhead⟩ :=
    rm_free_tail s1 (e_first_block s1 (entry_addr s1 h.cur_block h.block_i))
      (fc.getD (fc.length - 1) (-1)) (1 + (fc.length : Int) - 1) T1 sl hT hxT
  obtain ⟨sC, hcopy, hCsb, hCfat, hCcd, hCm, hCty, hCname, hCsz, hCfb⟩ :=
    copy_entry_spec sB (entry_addr s1 h.cur_block h.block_i)
      (entry_copy s1 (entry_addr s1 T1 sl)) b hb.1 hb.2
      (fun i hi => by
        have := hname.1 i hi
        unfold entry_copy
        rw [← this]
        congr 1
        ring)
      (by
        have := hname.2
        unfold entry_copy
        rw [← this]
        congr 1
        ring)
  have hrm := vfs_rm_hit s1 a h hv hscan _ _ hcount _ rfl T1 sl hlast hslot sB hfreed sC hcopy
  obtain ⟨hDsb, hDfat, hDcd, hDm, hDsz⟩ := add_dir_size_spec sC sC.current_dir (-1)
  have hA0 : entry_addr sC sC.current_dir 0 = entry_addr s1 s1.current_dir 0 := by
    rw [hCcd, hBcd]
    exact entry_addr_congr s1 sC (by rw [hCsb, hBbs]) _ _
  rw [hA0] at hDm hDsz
  refine ⟨_, hrm, ?_⟩
  constructor
  · rw [hDsb, hCsb, hBbs]
  · rw [hDsb, hCsb, hBft]
  · rw [hDcd, hCcd, hBcd]
  · intro y hy1 hy2
    rw [hDfat, hCfat]
    exact hBfat y hy1 hy2
  · rw [hDfat, hCfat]
    exact hBx
  · rw [hDsb, hDfat, hCsb, hCfat]
    exact hBhead
  · intro z hz1 hz2
    rw [hDm z hz2, hCm z hz1, hBm]
  · refine ⟨fun i hi => ?_, ?_⟩
    · rw [hDm _ (by have := hb.2; omega)]
      exact hCname.1 i hi
    · rw [hDm _ (by have := hb.2; omega)]
      exact hCname.2
  · unfold e_type at hCty ⊢
    rw [hDm _ (by omega), hCty]
    unfold entry_copy
    simp
  · unfold e_size at hCsz ⊢
    rw [load_int_congr _ _ _ (fun x h1 h2 => hDm x (by omega)), hCsz, load_int_entry_copy]
  · unfold e_first_block at hCfb ⊢
    rw [load_int_congr _ _ _ (fun x h1 h2 => hDm x (by omega)), hCfb, load_int_entry_copy]
  · rw [hDsz]
    congr 1
    have : e_size sC (entry_addr s1 s1.current_dir 0)
        = e_size s1 (entry_addr s1 s1.current_dir 0) := by
      unfold e_size
      apply load_int_congr
      intro x h1 h2
      rw [hCm x (by omega), hBm]
    rw [this]
    ring

/-- The entry loop of `vfs_rm a` after `cp a b`: it ends without an entry, or it stops at an
entry that was there before the copy and is not entry 0. -/
theorem after_scan (s0 s1 : FS) (a b : List Int) (k k' : Nat) (dl1 : List Int)
    (f : InvFacts s0) (hA : AfterCp s0 s1 b k k' dl1) (ha : CStr a) (hb : IsName b)
    (hne : a ≠ b) :
    scan_current s1 (file_name_is s1 a) (e_size s1 (entry_addr s1 s1.current_dir 0)) = some none
      ∨ ∃ (p : Nat) (bef : Int), 0 < p ∧ p < live s0
          ∧ scan_current s1 (file_name_is s1 a) (e_size s1 (entry_addr s1 s1.current_dir 0))
              = some (some ⟨(p : Int), dl1.getD (p / epb s1) (-1), bef,
                  ((p % epb s1 : Nat) : Int)⟩)
          ∧ e_type s1 (slot s1 dl1 p) = TYPE_FILE := by
  have hl1 := after_legal s0 s1 b k k' dl1 f hA
  have hE : epb s1 = epb s0 := epb_congr s0 s1 hA.bs
  have hds : data_size s1 = data_size s0 := data_size_congr s0 s1 hA.bs hA.ft
  obtain ⟨ht0, hfb0, hs0⟩ := after_entry0 s0 s1 b k k' dl1 f hA
  have hv1 := path_valid s1 _ _ hA.dpath
  have hidx := after_idx s0 s1 b k k' dl1 hA
  have hn2 := f.n2
  have hsmall := facts_small s0 f
  obtain ⟨_, hEge, _, _, _, _⟩ := legal_geom s0 f.legal
  obtain ⟨_, _, hn0, hn1⟩ := slot_range s1 hl1 dl1 hv1 (live s0)
    (by rw [hE]; exact hidx _ (le_refl _))
  have hsl : ∀ i, slot s1 dl1 i = slot s0 dl1 i := fun i => slot_congr s0 s1 hA.bs dl1 i
  rw [hsl] at hn0 hn1
  have hA0 : entry_addr s1 s1.current_dir 0 = entry_addr s0 s0.current_dir 0 := by
    rw [hA.cd, entry_addr_congr s0 s1 hA.bs]
  have hsz : e_size s1 (entry_addr s0 s0.current_dir 0) = ((live s0 + 1 : Nat) : Int) := by
    rw [hA.size, f.live_eq]; push_cast; ring
  have hd0 : s1.current_dir = dl1.getD ((0 - 1) / epb s1) (-1) := by
    rw [hA.cd]
    have := path_head s1 _ _ hA.dpath
    rw [← this]
    simp
    cases dl1 <;> simp
  have htestn : file_name_is s1 a (slot s1 dl1 (live s0)) = some false := by
    unfold file_name_is
    rw [hsl, if_pos hA.new_type]
    exact strcmp_eq_other s1 _ a b hA.new_name ha hb.1 hne (by omega)
      (by have := hb.2; omega)
  have htest0 : file_name_is s1 a (slot s1 dl1 0) = some false := by
    unfold file_name_is
    rw [hsl, hs0, ht0, if_neg (by decide)]
  have hlen : 0 + (live s0 + 1) ≤ dl1.length * epb s1 := by
    rw [hE, ← hA.dlast]
    have h1 := Nat.div_add_mod (live s0) (epb s0)
    have h2 := Nat.mod_lt (live s0) (show 0 < epb s0 by omega)
    have h3 : (live s0 / epb s0 + 1) * epb s0 = epb s0 * (live s0 / epb s0) + epb s0 := by ring
    omega
  have hscan := scan_dir_spec s1 hl1 (file_name_is s1 a) dl1 hv1
    (fun t ht => path_next s1 _ _ hA.dpath t (by omega)) (live s0 + 1) 0 s1.current_dir
    s1.current_dir hlen (by omega) hd0
    (fun j _ hj => by
      by_cases hjn : j = live s0
      · subst hjn
        exact ⟨_, htestn⟩
      · have hj' : j < live s0 := by omega
        unfold file_name_is
        by_cases hty : e_type s1 (slot s1 dl1 j) = TYPE_FILE
        · rw [if_pos hty, hsl, (after_names s0 s1 b k k' dl1 f hA a ha j hj').1]
          exact (after_names s0 s1 b k k' dl1 f hA a ha j hj').2
        · rw [if_neg hty]
          exact ⟨_, rfl⟩)
  unfold scan_current
  rw [hA0, hsz]
  simp only [Int.toNat_ofNat]
  simp only [Nat.cast_zero] at hscan
  rcases hscan with ⟨h1, _⟩ | ⟨p, bef, _, hp, hh, htrue, _⟩
  · left
    exact h1
  · right
    have hpn : p ≠ live s0 := by
      intro h
      subst h
      rw [htestn] at htrue
      simp at htrue
    have hp0 : p ≠ 0 := by
      intro h
      subst h
      rw [htest0] at htrue
      simp at htrue
    refine ⟨p, bef, by omega, by omega, hh, ?_⟩
    by_contra hty
    unfold file_name_is at htrue
    rw [if_neg hty] at htrue
    simp at htrue

/-- No block of the directory is among the blocks the copy took for the content. -/
theorem after_dir_not_take (s0 s1 : FS) (b : List Int) (k k' : Nat) (dl1 : List Int)
    (f : InvFacts s0) (hA : AfterCp s0 s1 b k k' dl1) :
    ∀ y ∈ dl1, y ∉ (free_blocks s0).take k := by
  intro y hy hyt
  rcases after_mem s0 s1 b k k' dl1 hA y hy with h | ⟨h1, h2, _⟩
  · exact f.disj y h (mem_take_mem _ _ _ hyt)
  · rw [h1] at hyt
    exact getD_not_mem_take _ f.fnd k k h2 (le_refl _) hyt

theorem after_k_le (s0 s1 : FS) (b : List Int) (k k' : Nat) (dl1 : List Int)
    (hA : AfterCp s0 s1 b k k' dl1) : k ≤ k' := by
  rcases hA.dgrow with ⟨_, h⟩ | ⟨_, h, _⟩ <;> omega

/-- After the copy the free list is what is left of the free list before it. -/
theorem after_free_path (s0 s1 : FS) (b : List Int) (k k' : Nat) (dl1 : List Int)
    (f : InvFacts s0) (hA : AfterCp s0 s1 b k k' dl1) :
    path s1 s1.sb.free_block ((free_blocks s0).drop k') := by
  rw [hA.head]
  by_cases h : k' < (free_blocks s0).length
  · refine path_congr s0 s1 hA.ft _ _ ?_ (path_drop s0 _ _ f.fpath k' h)
    intro y hy
    obtain ⟨i, hi, hyi⟩ := List.mem_drop_iff_getElem.1 hy
    have hj : k' + i < (free_blocks s0).length := by omega
    have h1 := hA.fat_free (k' + i) (by omega) hj
    have h2 := path_next s0 _ _ f.fpath (k' + i) hj
    have h3 : (free_blocks s0).getD (k' + i) (-1) = y := by
      rw [List.getD_eq_getElem _ _ hj, ← hyi]
    rw [h3] at h1 h2
    rw [h1, h2]
  · rw [List.getD_eq_default _ _ (by omega), List.drop_eq_nil_of_le (by omega)]
    rfl

/-- No block the copy took for the content is left on the free list. -/
theorem take_not_drop (fl : List Int) (hnd : fl.Nodup) (k k' : Nat) (hk : k ≤ k') :
    ∀ x ∈ fl.take k, x ∉ fl.drop k' := fun _ h1 h2 =>
  List.disjoint_take_drop hnd hk h1 h2

/-- After `cp a b` with `b` absent, `rm a` leaves the entry of `b`, its chain and its blocks
as they were, and no free block in the chain. -/
theorem rm_after_cp (s0 s1 : FS) (a b : List Int) (k k' : Nat) (dl1 : List Int)
    (f : InvFacts s0) (hA : AfterCp s0 s1 b k k' dl1) (ha : CStr a) (hb : IsName b)
    (hne : a ≠ b)
    (hfalse : ∀ g, g < live s0 → strcmp_eq s0 (slot s0 (dir_chain s0) g + 1) b = some false) :
    ∃ s2 out fl2, vfs_rm s1 a = some (s2, out)
      ∧ lookup s2 b = lookup s1 b
      ∧ chain s1 (e_first_block s1 (slot s0 dl1 (live s0))) = some ((free_blocks s0).take k)
      ∧ chain s2 (e_first_block s1 (slot s0 dl1 (live s0))) = some ((free_blocks s0).take k)
      ∧ (∀ x ∈ (free_blocks s0).take k, ∀ i, 0 ≤ i → i < s1.sb.block_size →
            s2.blocks (BLOCK s2 x + i) = s1.blocks (BLOCK s1 x + i))
      ∧ free_list s2 = some fl2 ∧ ∀ x ∈ (free_blocks s0).take k, x ∉ fl2 := by
  have hl1 := after_legal s0 s1 b k k' dl1 f hA
  have hE : epb s1 = epb s0 := epb_congr s0 s1 hA.bs
  have hds : data_size s1 = data_size s0 := data_size_congr s0 s1 hA.bs hA.ft
  obtain ⟨ht0, hfb0, hs0⟩ := after_entry0 s0 s1 b k k' dl1 f hA
  have hv1 := path_valid s1 _ _ hA.dpath
  have hidx := after_idx s0 s1 b k k' dl1 hA
  have hn2 := f.n2
  have hsmall := facts_small s0 f
  obtain ⟨hDE, hEge, hEle, hbsE, hN1, hN2⟩ := legal_geom s1 hl1
  have hsl : ∀ i, slot s1 dl1 i = slot s0 dl1 i := fun i => slot_congr s0 s1 hA.bs dl1 i
  have hA0 : entry_addr s1 s1.current_dir 0 = entry_addr s0 s0.current_dir 0 := by
    rw [hA.cd, entry_addr_congr s0 s1 hA.bs]
  have hsz : e_size s1 (entry_addr s0 s0.current_dir 0) = ((live s0 + 1 : Nat) : Int) := by
    rw [hA.size, f.live_eq]; push_cast; ring
  have hcdv : valid_block s1 s1.current_dir := by
    rw [hA.cd]
    exact (valid_block_congr s0 s1 hA.ft _).2 f.cdv
  have hkk := after_k_le s0 s1 b k k' dl1 hA
  have hdnt := after_dir_not_take s0 s1 b k k' dl1 f hA
  have hfree1 := after_free_path s0 s1 b k k' dl1 f hA
  have hnotdrop := take_not_drop (free_blocks s0) f.fnd k k' hkk
  have hchain1 := path_chain_some s1 _ _ hA.new_chain
  rcases after_scan s0 s1 a b k k' dl1 f hA ha hb hne with hnone | ⟨p, bef, hp0, hpn, hhit, hty⟩
  · -- no live file entry has the name
    exact ⟨s1, _, (free_blocks s0).drop k', vfs_rm_none s1 a hcdv hnone, rfl, hchain1, hchain1,
      fun x _ i _ _ => rfl, path_chain_some s1 _ _ hfree1, hnotdrop⟩
  · -- the entry loop stops at entry p
    have hpidx : p / epb s1 < dl1.length := by rw [hE]; exact hidx p (by omega)
    have hnidx : live s0 / epb s1 < dl1.length := by rw [hE]; exact hidx _ (le_refl _)
    have h0idx : 0 / epb s1 < dl1.length := by rw [hE]; exact hidx 0 (by omega)
    have he : entry_addr s1 (dl1.getD (p / epb s1) (-1)) ((p % epb s1 : Nat) : Int)
        = slot s1 dl1 p := rfl
    -- the entry was there before the copy
    have hty0 : e_type s0 (slot s0 (dir_chain s0) p) = TYPE_FILE := by
      rw [← hty, hsl, ← after_slot s0 s1 b k k' dl1 f hA p hpn]
      unfold e_type
      symm
      exact after_bytes s0 s1 b k k' dl1 f hA p hpn _ (le_refl _) (by omega) (by left; omega)
    have hfb : e_first_block s1 (slot s1 dl1 p) = e_first_block s0 (slot s0 (dir_chain s0) p) := by
      rw [hsl, ← after_slot s0 s1 b k k' dl1 f hA p hpn]
      unfold e_first_block
      apply load_int_congr
      intro x h1 h2
      exact after_bytes s0 s1 b k k' dl1 f hA p hpn x (by omega) (by omega) (by right; omega)
    obtain ⟨fc, hfc, hfcne, hfclen, hfcd⟩ := f.files p hpn hty0
    rw [← hfb] at hfc
    have hfc1 : path s1 (e_first_block s1 (slot s1 dl1 p)) fc :=
      path_congr s0 s1 hA.ft fc _ (fun x hx => hA.fat_old x (hfcd x hx).1 (hfcd x hx).2) hfc
    have hfcpos : 0 < fc.length := List.length_pos.2 hfcne
    have hfcdl1 : ∀ y ∈ fc, y ∉ dl1 := by
      intro y hy hy1
      rcases after_mem s0 s1 b k k' dl1 hA y hy1 with h | ⟨h1, h2, _⟩
      · exact (hfcd y hy).2 h
      · exact (hfcd y hy).1 (by rw [h1]; exact getD_mem h2)
    have hxfc : fc.getD (fc.length - 1) (-1) ∈ fc := getD_mem (by omega)
    -- the last block of the directory
    have hTmem : dl1.getD (live s0 / epb s1) (-1) ∈ dl1 := getD_mem hnidx
    have hTlast : dl1.getD (dl1.length - 1) (-1) = dl1.getD (live s0 / epb s1) (-1) := by
      have h : dl1.length - 1 = live s0 / epb s1 := by
        rw [hE]
        have := hA.dlast
        generalize live s0 / epb s0 = q at this ⊢
        omega
      rw [h]
    have hxT : fc.getD (fc.length - 1) (-1) ≠ dl1.getD (live s0 / epb s1) (-1) := by
      intro h
      exact hfcdl1 _ hxfc (by rw [h]; exact hTmem)
    have hpathA : path (splice_free s1 (e_first_block s1 (slot s1 dl1 p))
          (fc.getD (fc.length - 1) (-1)) (1 + (fc.length : Int) - 1))
        (dl1.getD (p / epb s1) (-1)) (dl1.drop (p / epb s1)) := by
      refine path_congr s1 (splice_free s1 _ _ _) rfl _ _ ?_
        (path_drop s1 dl1 _ hA.dpath _ hpidx)
      intro y hy
      show store s1.fat _ _ y = s1.fat y
      apply store_other
      intro h
      exact hfcdl1 _ hxfc (by rw [← h]; exact List.mem_of_mem_drop hy)
    have hlast := last_of_chain_path _ _ _ (fat_fuel s1) hpathA
      (by
        intro h
        have := congrArg List.length h
        simp only [List.length_drop, List.length_nil] at this
        generalize p / epb s1 = q at this hpidx
        omega)
      (by
        simp only [List.length_drop]
        rw [fat_fuel_congr s0 s1 hA.ft]
        have := hA.dlen
        generalize p / epb s1 = q
        omega)
    rw [getD_drop_last dl1 _ hpidx, hTlast] at hlast
    have hslot : last_slot s1 (e_size s1 (entry_addr s1 s1.current_dir 0))
        = some ((live s0 % epb s1 : Nat) : Int) := by
      unfold last_slot
      rw [hA0, hsz, hDE]
      have h1 : toU64 (((live s0 + 1 : Nat) : Int) - 1) = ((live s0 : Nat) : Int) := by
        have h : (((live s0 + 1 : Nat) : Int) - 1) = ((live s0 : Nat) : Int) := by
          push_cast
          ring
        rw [h]
        apply toU64_of_range <;> omega
      rw [h1]
      have h2 := umod_legal s1 hl1 (live s0 + epb s1) (by push_cast; omega)
      push_cast at h2
      rw [h2]
      congr 2
      exact_mod_cast Nat.add_mod_right (live s0) (epb s1)
    have hlastaddr : entry_addr s1 (dl1.getD (live s0 / epb s1) (-1))
        ((live s0 % epb s1 : Nat) : Int) = slot s0 dl1 (live s0) := by
      rw [← hsl]
      rfl
    obtain ⟨_, _, hp0', hp1'⟩ := slot_range s1 hl1 dl1 hv1 p hpidx
    have hd0 := slot_disjoint s1 hl1 dl1 hA.dnodup p 0 hpidx h0idx (by omega)
    rw [hsl 0, hs0, ← hA0] at hd0
    obtain ⟨s2, hrm, hR⟩ := rm_hit_state s1 a b hb
      ⟨(p : Int), dl1.getD (p / epb s1) (-1), bef, ((p % epb s1 : Nat) : Int)⟩ hcdv hhit fc
      hfc1 hfcne (by rw [fat_fuel_congr s0 s1 hA.ft]; omega) _ (hv1 _ hTmem) hxT hlast _ hslot
      (by rw [hlastaddr]; exact hA.new_name) hd0
    simp only [he] at hR
    rw [hlastaddr] at hR
    have hl2 : legal s2 := legal_congr s1 s2 hR.bs hR.ft hl1
    have hE2 : epb s2 = epb s1 := epb_congr s1 s2 hR.bs
    have hds2 : data_size s2 = data_size s1 := data_size_congr s1 s2 hR.bs hR.ft
    have hsl2 : ∀ i, slot s2 dl1 i = slot s1 dl1 i := fun i => slot_congr s1 s2 hR.bs dl1 i
    have hfat_take : ∀ y ∈ (free_blocks s0).take k, s2.fat y = s1.fat y := by
      intro y hy
      apply hR.fat_other
      · intro h
        exact (hfcd _ hxfc).1 (by rw [← h]; exact mem_take_mem _ _ _ hy)
      · intro h
        exact hdnt _ hTmem (by rw [← h]; exact hy)
    have hfcnd := path_nodup s1 fc _ hfc1
    have hxfl : fc.getD (fc.length - 1) (-1) ∉ free_blocks s0 := (hfcd _ hxfc).1
    have hTdrop : dl1.getD (live s0 / epb s1) (-1) ∉ (free_blocks s0).drop k' := by
      intro h
      rcases after_mem s0 s1 b k k' dl1 hA _ hTmem with h2 | ⟨h2, h3, h4⟩
      · exact f.disj _ h2 (List.mem_of_mem_drop h)
      · rw [h2] at h
        exact take_not_drop (free_blocks s0) f.fnd (k + 1) k' (by omega) _
          (getD_mem_take _ (k + 1) k h3 (by omega)) h
    have hdrop2 : path s2 s1.sb.free_block ((free_blocks s0).drop k') := by
      refine path_congr s1 s2 hR.ft _ _ ?_ hfree1
      intro y hy
      apply hR.fat_other
      · intro h
        exact hxfl (by rw [← h]; exact List.mem_of_mem_drop hy)
      · intro h
        exact hTdrop (by rw [← h]; exact hy)
    have hfc2 : path s2 (e_first_block s1 (slot s1 dl1 p)) (fc ++ (free_blocks s0).drop k') := by
      refine path_append s1 s2 hR.ft _ _ hdrop2 fc _ hfc1 hfcne ?_ hR.fat_last
      intro t ht
      apply hR.fat_other
      · intro h
        have := nodup_getD_inj fc hfcnd t (fc.length - 1) (by omega) (by omega) h
        omega
      · intro h
        exact hfcdl1 (fc.getD t (-1)) (getD_mem (by omega)) (by rw [h]; exact hTmem)
    have hfree2 : ∃ fl2, free_list s2 = some fl2
        ∧ ∀ x ∈ (free_blocks s0).take k, x ∉ fl2 := by
      have hnot : ∀ x ∈ (free_blocks s0).take k, x ∉ fc ++ (free_blocks s0).drop k' := by
        intro x hx hm
        rcases List.mem_append.1 hm with h | h
        · exact (hfcd x h).1 (mem_take_mem _ _ _ hx)
        · exact hnotdrop x hx h
      rcases hR.head with ⟨h1, h2⟩ | ⟨h1, _⟩
      · refine ⟨dl1.getD (live s0 / epb s1) (-1) :: (fc ++ (free_blocks s0).drop k'), ?_, ?_⟩
        · unfold free_list
          rw [h1]
          apply path_chain_some
          refine ⟨rfl, (valid_block_congr s1 s2 hR.ft _).2 (hv1 _ hTmem), ?_⟩
          rw [h2]
          exact hfc2
        · intro x hx hm
          rcases List.mem_cons.1 hm with h | h
          · exact hdnt _ hTmem (by rw [← h]; exact hx)
          · exact hnot x hx h
      · refine ⟨fc ++ (free_blocks s0).drop k', ?_, hnot⟩
        unfold free_list
        rw [h1]
        exact path_chain_some s2 _ _ hfc2
    obtain ⟨fl2, hfl2, hfl2not⟩ := hfree2
    refine ⟨s2, [], fl2, hrm, ?_, hchain1, ?_, ?_, hfl2, hfl2not⟩
    · -- the name resolves to the same entry
      rw [after_lookup s0 s1 b k k' dl1 f hA hb hfalse]
      have hv2 : ∀ x ∈ dl1, valid_block s2 x := fun x hx =>
        (valid_block_congr s1 s2 hR.ft x).2 (hv1 x hx)
      have hnext2 : ∀ t : Nat, t + 1 < dl1.length →
          s2.fat (dl1.getD t (-1)) = dl1.getD (t + 1) (-1) := by
        intro t ht
        rw [hR.fat_other]
        · exact path_next s1 _ _ hA.dpath t (by omega)
        · intro h
          exact hfcdl1 _ hxfc (by rw [← h]; exact getD_mem (by omega))
        · intro h
          have := nodup_getD_inj dl1 hA.dnodup t (live s0 / epb s1) (by omega) hnidx h
          have := hA.dlast
          rw [hE] at *
          omega
      have htrue2 : strcmp_eq s2 (slot s2 dl1 p + 1) b = some true := by
        rw [hsl2]
        apply strcmp_eq_stored s2 b _ hR.name (by omega)
        rw [hds2]
        have := hb.2
        omega
      have hfalse2 : ∀ g, 0 * epb s2 ≤ g → g < p →
          strcmp_eq s2 (slot s2 dl1 g + 1) b = some false := by
        intro g _ hg
        have hgn : g < live s0 := by omega
        rw [hsl2, strcmp_eq_congr s1 s2 hds2 b _ (fun x h1 h2 => ?_), hsl,
          (after_names s0 s1 b k k' dl1 f hA b hb.1 g hgn).1]
        · exact hfalse g hgn
        · have hgidx : g / epb s1 < dl1.length := by rw [hE]; exact hidx g (by omega)
          have hgp := slot_disjoint s1 hl1 dl1 hA.dnodup g p hgidx hpidx (by omega)
          have hb2 := hb.2
          apply hR.mem x (by omega)
          by_cases hg0 : g = 0
          · subst hg0
            rw [hsl 0, hs0, ← hA0] at h1 h2
            left
            omega
          · have := slot_disjoint s1 hl1 dl1 hA.dnodup g 0 hgidx h0idx hg0
            rw [hsl 0, hs0, ← hA0] at this
            omega
      have hhit2 := find_while_hit s2 hl2 b (live s0) f.lt dl1 hv2 hnext2 p hpn
        (by rw [hE2]; exact hpidx) htrue2 (p / epb s2) 0 (fat_fuel s2) (by simp)
        (by
          rw [hE2, fat_fuel_congr s1 s2 hR.ft, fat_fuel_congr s0 s1 hA.ft]
          have := hA.dlen
          omega)
        hfalse2
      have hhead : dl1.getD 0 (-1) = s0.current_dir := by
        have := path_head s1 _ _ hA.dpath
        rw [← this]
        cases dl1 <;> simp
      rw [hhead] at hhit2
      simp only [Nat.zero_mul, Nat.cast_zero] at hhit2
      have hA02 : entry_addr s2 s2.current_dir 0 = entry_addr s1 s1.current_dir 0 := by
        rw [hR.cd, entry_addr_congr s1 s2 hR.bs]
      have hcount2 : e_size s2 (entry_addr s1 s1.current_dir 0) = ((live s0 : Nat) : Int) := by
        rw [hR.count, hA0, hsz]
        have h : (((live s0 + 1 : Nat) : Int) - 1) = ((live s0 : Nat) : Int) := by
          push_cast
          ring
        rw [h]
        apply toI32_of_range <;> omega
      have hfb2 : e_first_block s2 (entry_addr s1 s1.current_dir 0) = s0.current_dir := by
        rw [← hfb0, ← hA0]
        unfold e_first_block
        apply load_int_congr
        intro x h1 h2
        exact hR.mem x (by omega) (by right; omega)
      obtain ⟨_, _, hr0, hr1⟩ := slot_range s1 hl1 dl1 hv1 0 h0idx
      rw [hsl 0, hs0, ← hA0] at hr0 hr1
      unfold lookup find_dir_entry
      rw [hA02, hds2, if_pos ⟨hr0, by unfold sizeof_dir_entry; exact hr1⟩, hcount2, hfb2, hhit2]
      simp only [Option.map_some', hsl2]
      rw [hR.type, hR.size, hR.fb, show e_type s1 (slot s0 dl1 (live s0)) = TYPE_FILE from
        hA.new_type]
    · -- the chain is the same
      exact path_chain_some s2 _ _ (path_congr s1 s2 hR.ft _ _ hfat_take hA.new_chain)
    · -- the bytes of the blocks are the same
      intro x hxt i hi0 hi1
      have hxdl1 : x ∉ dl1 := fun h => hdnt x h hxt
      rw [BLOCK_congr s1 s2 hR.bs]
      apply hR.mem
      · by_contra hc
        have := slot_outside s1 hl1 dl1 hv1 p hpidx x hxdl1 (BLOCK s1 x + i) (by omega)
          (by omega)
        omega
      · by_contra hc
        have := slot_outside s1 hl1 dl1 hv1 0 h0idx x hxdl1 (BLOCK s1 x + i)
          (by rw [hsl 0, hs0, ← hA0]; omega) (by rw [hsl 0, hs0, ← hA0]; omega)
        omega

/-! ## Copy independence -/

/-- Copy independence for a target name that fits the name field.  In a state that satisfies
the invariants, let `a` be a C string and `b` a name of at most 19 characters, absent from
the current directory.  When `cp a b` prints nothing, `rm a` returns, and afterwards `b`
still resolves to a file entry with the same size and the same first block as immediately
after the copy; the chain from that first block ends and is the same list of blocks; every
byte of every block of it is the same; the free list ends and none of these blocks is on
it. -/
theorem rm_after_cp_keeps_copy (s : FS) (now : tm) (a b : List Int)
    (hinv : Inv s) (ha : CStr a) (hb : IsName b)
    (habs : lookup s b = some none)
    (hcp : (vfs_cp s now a b).map Prod.snd = some []) :
    ∃ s1 s2 out info l fl2,
      vfs_cp s now a b = some (s1, []) ∧ vfs_rm s1 a = some (s2, out)
        ∧ lookup s1 b = some (some info) ∧ info.type = TYPE_FILE
        ∧ lookup s2 b = some (some info)
        ∧ chain s1 info.first_block = some l ∧ chain s2 info.first_block = some l
        ∧ (∀ x ∈ l, ∀ i, 0 ≤ i → i < s1.sb.block_size →
            s2.blocks (BLOCK s2 x + i) = s1.blocks (BLOCK s1 x + i))
        ∧ free_list s2 = some fl2 ∧ ∀ x ∈ l, x ∉ fl2 := by
  obtain ⟨s1, k, k', dl1, hs1, hne, hA⟩ := cp_after s now a b hinv hb habs hcp
  have f := inv_facts s hinv
  have hfalse := absent_all s hinv b hb.1 habs
  obtain ⟨s2, out, fl2, hrm, hlk, hc1, hc2, hbl, hfl, hnot⟩ :=
    rm_after_cp s s1 a b k k' dl1 f hA ha hb hne hfalse
  have hl1 := after_lookup s s1 b k k' dl1 f hA hb hfalse
  exact ⟨s1, s2, out, _, _, fl2, hs1, hrm, hl1, rfl, by rw [hlk, hl1], hc1, hc2, hbl, hfl, hnot⟩

/-! ## The formatted image in closed form -/

/-- The loop of `init_fat` links every index it visits to the next one. -/
theorem init_fat_loop_spec : ∀ (k : Nat) (fat : Int → Int) (i j : Int),
    init_fat_loop fat k i j = if i ≤ j ∧ j < i + (k : Int) then j + 1 else fat j := by
  intro k
  induction k with
  | zero =>
    intro fat i j
    unfold init_fat_loop
    rw [if_neg (by push_cast; omega)]
  | succ k ih =>
    intro fat i j
    unfold init_fat_loop
    rw [ih]
    by_cases h1 : i + 1 ≤ j ∧ j < i + 1 + (k : Int)
    · rw [if_pos h1, if_pos (by push_cast; omega)]
    · rw [if_neg h1]
      by_cases h2 : j = i
      · rw [h2, store_same, if_pos (by push_cast; omega)]
      · rw [store_other _ _ _ _ h2, if_neg (by push_cast; omega)]

/-- The FAT `init_fat` leaves, in closed form. -/
theorem init_fat_closed (sb : superblock) (h : 1 ≤ sb.n_free_blocks) :
    init_fat sb (fun _ => 0) = fat_new sb.n_free_blocks := by
  funext j
  unfold init_fat fat_new store
  rw [init_fat_loop_spec]
  have hk : (((sb.n_free_blocks - 1).toNat : Nat) : Int) = sb.n_free_blocks - 1 :=
    Int.toNat_of_nonneg (by omega)
  rw [hk]
  by_cases h1 : j = sb.n_free_blocks
  · rw [if_pos h1, if_pos h1]
  · rw [if_neg h1, if_neg h1]
    by_cases h2 : 1 ≤ j ∧ j < sb.n_free_blocks
    · rw [if_pos (by omega), if_pos h2]
    · rw [if_neg (by omega), if_neg h2]

/-- The image formatted with `-b128 -f7` is `fresh_image today 128 7`. -/
theorem format_closed : format today 128 7 = some (fresh_image today 128 7) := by
  have h : format today 128 7 = some (FS.mk (init_superblock 128 7)
      (init_fat (init_superblock 128 7) (fun _ => 0)) (root_blocks today) 0) := rfl
  rw [h, init_fat_closed _ (by decide)]
  rfl

/-- The sessions start on `fresh_image today 128 7`. -/
theorem start_closed : start = some (fresh_image today 128 7, []) := by
  unfold start
  rw [format_closed]
  rfl

/-- The image `new_image` is `fresh_image today 128 7`. -/
theorem new_image_closed : new_image = fresh_image today 128 7 := by
  unfold new_image
  rw [format_closed]
  rfl

/-- The sessions on the default geometry start on `fresh_image today 256 8`. -/
theorem start_default_closed : start_default = some (fresh_image today 256 8, []) := by
  have h : format today 256 8 = some (FS.mk (init_superblock 256 8)
      (init_fat (init_superblock 256 8) (fun _ => 0)) (root_blocks today) 0) := rfl
  unfold start_default
  rw [h, init_fat_closed _ (by decide)]
  rfl

/-- A run of consecutive block numbers has no number twice. -/
theorem block_numbers_nodup (i m : Nat) : (block_numbers i m).Nodup := by
  unfold block_numbers
  exact (List.nodup_range' i m).map (fun a b h => Int.ofNat.inj h)

/-- The invariants of a state whose free list is a run of consecutive block numbers. -/
theorem inv_of_range (s : FS) (i m : Nat)
    (h : InvRest s ∧ free_blocks s = block_numbers i m) : Inv s := by
  obtain ⟨⟨h1, h2, h3, h4, h5, h6, h7⟩, hf⟩ := h
  exact ⟨h1, h2, h3, h4, h5, by rw [hf]; exact block_numbers_nodup i m, h6, h7⟩

/-- The invariants of the state a session has reached, its free list being a run of
consecutive block numbers. -/
theorem observe_inv (o : Option (FS × List Msg)) (i m : Nat)
    (h : observe o (fun s => (decide (InvRest s), free_blocks s))
      = some (true, block_numbers i m)) :
    observe o (fun s => decide (Inv s)) = some true := by
  cases o with
  | none => simp [observe] at h
  | some r =>
    simp only [observe, Option.map_some', Option.some.injEq, Prod.mk.injEq,
      decide_eq_true_eq] at h ⊢
    exact inv_of_range r.1 i m h

/-- The same with the validity of the directories the entries refer to. -/
theorem observe_inv_dirs (o : Option (FS × List Msg)) (i m : Nat)
    (h : observe o (fun s => (decide (InvRest s), free_blocks s, decide (DirsValid s)))
      = some (true, block_numbers i m, true)) :
    observe o (fun s => (decide (Inv s), decide (DirsValid s))) = some (true, true) := by
  cases o with
  | none => simp [observe] at h
  | some r =>
    simp only [observe, Option.map_some', Option.some.injEq, Prod.mk.injEq,
      decide_eq_true_eq] at h ⊢
    exact ⟨inv_of_range r.1 i m ⟨h.1, h.2.1⟩, h.2.2⟩

/-- The image that holds the one file `a` satisfies the invariants. -/
theorem inv_image_one_file : Inv image_one_file := by
  apply inv_of_range _ 2 126
  unfold image_one_file
  rw [new_image_closed]
  decide!

/-- Copy independence at the image that holds the one file `a`: `cp a b`, then `rm a`. -/
theorem rm_after_cp_keeps_copy_one_file :
    Inv image_one_file ∧ CStr (cstr "a") ∧ IsName (cstr "b")
      ∧ lookup image_one_file (cstr "b") = some none
      ∧ (vfs_cp image_one_file today (cstr "a") (cstr "b")).map Prod.snd = some []
      ∧ ∃ s1 s2 out info l fl2,
          vfs_cp image_one_file today (cstr "a") (cstr "b") = some (s1, [])
            ∧ vfs_rm s1 (cstr "a") = some (s2, out)
            ∧ lookup s1 (cstr "b") = some (some info) ∧ info.type = TYPE_FILE
            ∧ lookup s2 (cstr "b") = some (some info)
            ∧ chain s1 info.first_block = some l ∧ chain s2 info.first_block = some l
            ∧ (∀ x ∈ l, ∀ i, 0 ≤ i → i < s1.sb.block_size →
                s2.blocks (BLOCK s2 x + i) = s1.blocks (BLOCK s1 x + i))
            ∧ free_list s2 = some fl2 ∧ ∀ x ∈ l, x ∉ fl2 := by
  have habs : lookup image_one_file (cstr "b") = some none := by
    unfold image_one_file
    rw [new_image_closed]
    decide!
  have hcp : (vfs_cp image_one_file today (cstr "a") (cstr "b")).map Prod.snd = some [] := by
    unfold image_one_file
    rw [new_image_closed]
    decide!
  exact ⟨inv_image_one_file, by decide, by decide, habs, hcp,
    rm_after_cp_keeps_copy image_one_file today (cstr "a") (cstr "b") inv_image_one_file
      (by decide) (by decide) habs hcp⟩

/-! ## Formatting, listing and removal of directories -/

theorem block_numbers_length (i m : Nat) : (block_numbers i m).length = m := by
  unfold block_numbers
  rw [List.length_map, List.length_range']

theorem block_numbers_getD (i m j : Nat) (hj : j < m) :
    (block_numbers i m).getD j (-1) = ((i + j : Nat) : Int) := by
  have hl := block_numbers_length i m
  rw [List.getD_eq_getElem _ _ (by omega)]
  unfold block_numbers
  rw [List.getElem_map, List.getElem_range']
  simp

/-- The function `init_dir_entry` returns when the entry lies inside the data region. -/
theorem init_dir_entry_some (s : FS) (now : tm) (a ty : Int) (name : List Int) (sz fb : Int)
    (hn : name.length ≤ 19) (h0 : 0 ≤ a) (h1 : a + 32 ≤ data_size s) :
    ∃ s', init_dir_entry s now a ty name sz fb = some s' := by
  unfold init_dir_entry
  rw [if_pos ⟨h0, by unfold sizeof_dir_entry; exact h1⟩]
  unfold strcpy_lit
  have h2 : 0 ≤ a + 1 ∧ a + 1 + (name.length : Int)
      < data_size { s with blocks := store s.blocks a ty } := by
    have : data_size { s with blocks := store s.blocks a ty } = data_size s := rfl
    rw [this]
    omega
  simp only [h2, and_self, if_true]
  exact ⟨_, rfl⟩

/-- The function `init_dir_block` on block 0 of an image with blocks of at least 64
bytes. -/
theorem init_dir_block_root (s0 : FS) (now : tm) (hN : 128 ≤ FAT_ENTRIES s0.sb.fat_type)
    (hbs : 64 ≤ s0.sb.block_size) :
    ∃ s2, init_dir_block s0 now 0 0 = some s2 ∧ s2.sb = s0.sb ∧ s2.fat = s0.fat
      ∧ e_type s2 0 = TYPE_DIR ∧ stored s2 1 [46] ∧ e_size s2 0 = 2 ∧ e_first_block s2 0 = 0
      ∧ e_type s2 32 = TYPE_DIR ∧ stored s2 33 [46, 46] ∧ e_size s2 32 = 0
      ∧ e_first_block s2 32 = 0 := by
  have hds : ∀ t : FS, t.sb = s0.sb → 128 * 64 ≤ data_size t := by
    intro t ht
    unfold data_size
    rw [ht]
    have := Int.mul_le_mul hN hbs (by omega) (by omega)
    omega
  obtain ⟨s1, h1⟩ := init_dir_entry_some s0 now 0 TYPE_DIR [46] 2 0 (by simp) (le_refl _)
    (by have := hds s0 rfl; omega)
  obtain ⟨a1, a2, a3, a4, a5, a6, a7, a8⟩ := init_dir_entry_spec _ s1 now _ _ _ _ _ (by simp) h1
  obtain ⟨s2, h2⟩ := init_dir_entry_some s1 now 32 TYPE_DIR [46, 46] 0 0 (by simp) (by omega)
    (by have := hds s1 a1; omega)
  obtain ⟨b1, b2, b3, b4, b5, b6, b7, b8⟩ := init_dir_entry_spec _ s2 now _ _ _ _ _ (by simp) h2
  have hblk : init_dir_block s0 now 0 0 = some s2 := by
    unfold init_dir_block
    have hv : valid_block s0 0 := by
      unfold valid_block
      omega
    simp only [hv, if_true]
    have e0 : entry_addr s0 0 0 = 0 := by
      unfold entry_addr BLOCK
      simp
    have e1 : entry_addr s0 0 1 = 32 := by
      unfold entry_addr BLOCK sizeof_dir_entry
      simp
    rw [e0, e1, h1]
    simp only
    rw [h2]
  refine ⟨s2, hblk, by rw [b1, a1], by rw [b2, a2], ?_, ?_, ?_, ?_, b5, b6, ?_, ?_⟩
  · unfold e_type at a5 ⊢
    rw [b4 0 (by omega), a5]
  · refine ⟨fun i hi => ?_, ?_⟩
    · have := a6.1 i hi
      simp only [List.length_singleton] at hi
      rw [b4 _ (by omega)]
      exact this
    · have := a6.2
      rw [b4 _ (by simp)]
      exact this
  · unfold e_size at a7 ⊢
    rw [load_int_congr _ _ _ (fun x h3 h4 => b4 x (by omega)), a7]
    rfl
  · unfold e_first_block at a8 ⊢
    rw [load_int_congr _ _ _ (fun x h3 h4 => b4 x (by omega)), a8]
    rfl
  · rw [b7]
    rfl
  · rw [b8]
    rfl

/-- What formatting leaves, for a block size of at least 64 bytes. -/
theorem format_spec (now : tm) (bs ft : Int) (hbs : 64 ≤ bs) :
    ∃ s, format now bs ft = some s ∧ s.sb = init_superblock bs ft
      ∧ s.fat = init_fat (init_superblock bs ft) (fun _ => 0) ∧ s.current_dir = 0
      ∧ e_type s 0 = TYPE_DIR ∧ stored s 1 [46] ∧ e_size s 0 = 2 ∧ e_first_block s 0 = 0
      ∧ e_type s 32 = TYPE_DIR ∧ stored s 33 [46, 46] ∧ e_size s 32 = 0
      ∧ e_first_block s 32 = 0 := by
  have hN : 128 ≤ FAT_ENTRIES ft := by unfold FAT_ENTRIES; split_ifs <;> omega
  obtain ⟨s2, h, c1, c2, c3, c4, c5, c6, c7, c8, c9, c10⟩ := init_dir_block_root
    { sb := init_superblock bs ft, fat := init_fat (init_superblock bs ft) (fun _ => 0),
      blocks := fun _ => 0, current_dir := 0 } now hN hbs
  have hfmt : format now bs ft = some { s2 with current_dir := s2.sb.root_block } := by
    unfold format
    have r0 : (init_superblock bs ft).root_block = 0 := rfl
    simp only [r0]
    rw [h]
  refine ⟨_, hfmt, c1, c2, ?_, c3, c4, c5, c6, c7, c8, c9, c10⟩
  show s2.sb.root_block = 0
  rw [c1]
  rfl

/-- A stored name is not longer than the distance to any NUL after its start. -/
theorem stored_length_le (s : FS) (p : Int) (x : List Int) (hs : stored s p x) (hc : CStr x)
    (z : Nat) (hz : s.blocks (p + (z : Int)) = 0) : x.length ≤ z := by
  by_contra h
  have hlt : z < x.length := by omega
  have h1 := hs.1 z hlt
  rw [hz, List.getD_eq_getElem _ _ hlt] at h1
  exact hc _ (List.getElem_mem hlt) h1.symm

/-- In a state that satisfies the invariants an entry is named `x` exactly when `strcmp`
finds its name equal to `x`. -/
theorem named_iff (s : FS) (f : InvFacts s) (x : List Int) (hc : CStr x) (i : Nat)
    (hi : i < live s) :
    (∃ r, name_is s x (slot s (dir_chain s) i) = some r)
      ∧ (named s i x ↔ name_is s x (slot s (dir_chain s) i) = some true) := by
  obtain ⟨_, _, h0, h1⟩ := slot_range s f.legal (dir_chain s) (path_valid s _ _ f.dpath) i
    (facts_idx s f i hi)
  unfold name_is named
  refine ⟨name_ends_strcmp s f.legal _ h0 h1 (f.names i hi) x hc, ?_, ?_⟩
  · intro hs
    obtain ⟨z, hz, hz0⟩ := f.names i hi
    have hz20 : z < 20 := List.mem_range.1 hz
    have := stored_length_le s _ x hs hc z hz0
    exact strcmp_eq_stored s x _ hs (by omega) (by omega)
  · exact strcmp_eq_true_stored s x _

/-- The entry loop over the current directory: it ends without an entry, every test being
false, or it stops at the first entry whose test is true. -/
theorem scan_current_spec (s : FS) (f : InvFacts s) (test : Int → Option Bool)
    (hsome : ∀ j, j < live s → ∃ r, test (slot s (dir_chain s) j) = some r) :
    (scan_current s test (live_count s) = some none
        ∧ ∀ j, j < live s → test (slot s (dir_chain s) j) = some false)
      ∨ ∃ (p : Nat) (bef : Int), p < live s
          ∧ scan_current s test (live_count s)
              = some (some ⟨(p : Int), (dir_chain s).getD (p / epb s) (-1), bef,
                  ((p % epb s : Nat) : Int)⟩)
          ∧ test (slot s (dir_chain s) p) = some true
          ∧ ∀ j, j < p → test (slot s (dir_chain s) j) = some false := by
  unfold scan_current
  rw [f.live_eq]
  simp only [Int.toNat_ofNat]
  have hd0 : s.current_dir = (dir_chain s).getD ((0 - 1) / epb s) (-1) := by
    have := path_head s _ _ f.dpath
    rw [← this]
    simp
    cases dir_chain s <;> simp
  have := scan_dir_spec s f.legal test (dir_chain s) (path_valid s _ _ f.dpath)
    (fun t ht => path_next s _ _ f.dpath t (by omega)) (live s) 0 s.current_dir s.current_dir
    (by have := f.hi; omega) (by have := f.lt; omega) hd0
    (fun j _ hj => hsome j (by omega))
  simp only [Nat.cast_zero] at this
  rcases this with ⟨h1, h2⟩ | ⟨p, bef, _, hp, h3, h4, h5⟩
  · left
    exact ⟨h1, fun j hj => h2 j (by omega) (by omega)⟩
  · right
    exact ⟨p, bef, by omega, h3, h4, fun j hj => h5 j (by omega) hj⟩

/-- The copy of a live entry over another returns: the name of the entry ends inside its
field. -/
theorem copy_entry_some (s t : FS) (dst a : Int) (he : name_ends s a) :
    ∃ t', copy_entry t dst (entry_copy s a) = some t' := by
  obtain ⟨z, hz, hz0⟩ := he
  have hz20 : z < 20 := List.mem_range.1 hz
  obtain ⟨r, hr⟩ := strlen_from_some (entry_copy s a) 31 1 z (by
    unfold entry_copy
    rw [← hz0]
    congr 1
    ring) (by omega)
  unfold copy_entry
  rw [hr]
  exact ⟨_, rfl⟩

/-- A string with a NUL at distance `z` from its start, inside the data region, is read
whole; it has at most `z` characters. -/
theorem read_string_some (s : FS) : ∀ (z fuel : Nat) (p : Int), z < fuel → 0 ≤ p →
    p + (z : Int) < data_size s → s.blocks (p + (z : Int)) = 0 →
    ∃ name, read_string s fuel p = some name ∧ name.length ≤ z := by
  intro z
  induction z with
  | zero =>
    intro fuel p hf h0 h1 hz
    obtain ⟨k, rfl⟩ : ∃ k, fuel = k + 1 := ⟨fuel - 1, by omega⟩
    unfold read_string
    simp only [Nat.cast_zero, add_zero] at h1 hz
    rw [if_pos ⟨h0, h1⟩, if_pos hz]
    exact ⟨[], rfl, le_refl _⟩
  | succ z ih =>
    intro fuel p hf h0 h1 hz
    obtain ⟨k, rfl⟩ : ∃ k, fuel = k + 1 := ⟨fuel - 1, by omega⟩
    unfold read_string
    push_cast at h1 hz
    rw [if_pos ⟨h0, by omega⟩]
    by_cases hp : s.blocks p = 0
    · rw [if_pos hp]
      exact ⟨[], rfl, Nat.zero_le _⟩
    · rw [if_neg hp]
      obtain ⟨name, hn, hl⟩ := ih k (p + 1) (by omega) (by omega) (by omega) (by
        rw [← hz]; congr 1; ring)
      rw [hn]
      exact ⟨_, rfl, by simp; omega⟩

theorem dec_digits_length : ∀ (fuel n : Nat), (dec_digits fuel n).length ≤ fuel := by
  intro fuel
  induction fuel with
  | zero => intro n; simp [dec_digits]
  | succ k ih =>
    intro n
    unfold dec_digits
    split
    · simp
    · have := ih (n / 10)
      simp
      omega

theorem fmt_d_length (w : Nat) (x : Int) : (fmt_d w x).length ≤ w + 11 := by
  unfold fmt_d
  have := dec_digits_length 10 x.natAbs
  simp only []
  split <;> simp <;> omega

theorem getMonthName_length (m : Int) : (getMonthName m).length ≤ 9 := by
  unfold getMonthName
  by_cases h1 : m = 1
  · rw [if_pos h1]; decide
  rw [if_neg h1]
  by_cases h2 : m = 2
  · rw [if_pos h2]; decide
  rw [if_neg h2]
  by_cases h3 : m = 3
  · rw [if_pos h3]; decide
  rw [if_neg h3]
  by_cases h4 : m = 4
  · rw [if_pos h4]; decide
  rw [if_neg h4]
  by_cases h5 : m = 5
  · rw [if_pos h5]; decide
  rw [if_neg h5]
  by_cases h6 : m = 6
  · rw [if_pos h6]; decide
  rw [if_neg h6]
  by_cases h7 : m = 7
  · rw [if_pos h7]; decide
  rw [if_neg h7]
  by_cases h8 : m = 8
  · rw [if_pos h8]; decide
  rw [if_neg h8]
  by_cases h9 : m = 9
  · rw [if_pos h9]; decide
  rw [if_neg h9]
  by_cases h10 : m = 10
  · rw [if_pos h10]; decide
  rw [if_neg h10]
  by_cases h11 : m = 11
  · rw [if_pos h11]; decide
  rw [if_neg h11]
  by_cases h12 : m = 12
  · rw [if_pos h12]; decide
  rw [if_neg h12]
  decide

/-- The line of an entry whose name ends inside its field is rendered. -/
theorem ls_line_some (s : FS) (a : Int) (t : List Int) (h0 : 0 ≤ a)
    (h1 : a + 32 ≤ data_size s) (he : name_ends s a) (ht : t.length ≤ 11) :
    ∃ l, ls_line s a t = some l := by
  obtain ⟨z, hz, hz0⟩ := he
  have hz20 : z < 20 := List.mem_range.1 hz
  obtain ⟨name, hn, hl⟩ := read_string_some s z 8192 (a + 1) (by omega) (by omega) (by omega) hz0
  unfold ls_line
  rw [hn]
  simp only []
  have hd := fmt_d_length 2 (e_day s a % 256)
  have hy := fmt_d_length 4 (1900 + e_year s a % 256)
  have hm := getMonthName_length (e_month s a % 256)
  have h20 : MAX_NAME_LENGHT.toNat = 20 := by decide
  rw [if_pos (by
    simp only [List.length_append, List.length_replicate, List.length_singleton, h20]
    omega)]
  exact ⟨_, rfl⟩

/-- The body of the loop of `vfs_ls` renders a line for an entry of type `D` or `F` whose name
ends inside its field. -/
theorem entry_line_some (s : FS) (a : Int) (h0 : 0 ≤ a) (h1 : a + 32 ≤ data_size s)
    (he : name_ends s a) (ht : e_type s a = TYPE_DIR ∨ e_type s a = TYPE_FILE) :
    ∃ l, entry_line s a = some (some l) := by
  unfold entry_line
  by_cases hd : e_type s a = TYPE_DIR
  · rw [if_pos hd]
    obtain ⟨l, hl⟩ := ls_line_some s a (cstr "DIR") h0 h1 he (by decide)
    rw [hl]
    exact ⟨l, rfl⟩
  · rw [if_neg hd, if_pos (ht.resolve_left hd)]
    obtain ⟨l, hl⟩ := ls_line_some s a (fmt_d 0 (e_size s a)) h0 h1 he
      (by have := fmt_d_length 0 (e_size s a); omega)
    rw [hl]
    exact ⟨l, rfl⟩

/-- The rendering loop of `vfs_ls` along the chain `dl` of a directory: when the body
renders the line `f j` for every entry `j` it visits, the loop leaves exactly these lines,
in the order of the entries. -/
theorem ls_render_spec (s : FS) (hl : legal s) (dl : List Int)
    (hv : ∀ x ∈ dl, valid_block s x)
    (hnext : ∀ t : Nat, t + 1 < dl.length → s.fat (dl.getD t (-1)) = dl.getD (t + 1) (-1))
    (f : Nat → List Int) :
    ∀ (k i : Nat) (cur : Int),
      i + k ≤ dl.length * epb s → i + k < 2147483648 →
      cur = dl.getD ((i - 1) / epb s) (-1) →
      (∀ j, i ≤ j → j < i + k → entry_line s (slot s dl j) = some (some (f j))) →
      ls_render s k (i : Int) cur = some (some ((List.range' i k).map f)) := by
  obtain ⟨_, hE4, _, _, _, _⟩ := legal_geom s hl
  have hE : 0 < epb s := by omega
  intro k
  induction k with
  | zero =>
    intro i cur _ _ _ _
    rfl
  | succ k ih =>
    intro i cur hcap hbig hcur hline
    have hidx : i / epb s < dl.length := by
      apply Nat.div_lt_of_lt_mul
      rw [Nat.mul_comm]
      omega
    unfold ls_render
    rw [umod_legal s hl i (by omega)]
    simp only
    have hadv : (if ((i % epb s : Nat) : Int) = 0 ∧ (i : Int) ≠ 0 then
          if valid_block s cur then some (s.fat cur) else none
        else some cur)
        = some (dl.getD (i / epb s) (-1)) := by
      by_cases hc : ((i % epb s : Nat) : Int) = 0 ∧ (i : Int) ≠ 0
      · rw [if_pos hc]
        have h0 : i % epb s = 0 := by exact_mod_cast hc.1
        have hi0 : 0 < i := by have := hc.2; omega
        have hd := div_pred_of_dvd (epb s) i hi0 h0
        have hcv : valid_block s cur := by
          rw [hcur]
          apply hv
          rw [List.getD_eq_getElem _ _ (by omega)]
          exact List.getElem_mem _
        rw [if_pos hcv, hcur, hnext ((i - 1) / epb s) (by omega), hd]
      · rw [if_neg hc]
        have : (i - 1) / epb s = i / epb s := by
          by_cases h0 : i % epb s = 0
          · have : i = 0 := by
              by_contra h1
              apply hc
              exact ⟨by exact_mod_cast h0, by exact_mod_cast h1⟩
            subst this
            rfl
          · exact div_pred_of_not_dvd _ _ h0
        rw [hcur, this]
    rw [hadv]
    simp only
    have hbv : valid_block s (dl.getD (i / epb s) (-1)) := by
      apply hv
      rw [List.getD_eq_getElem _ _ hidx]
      exact List.getElem_mem _
    rw [if_pos hbv]
    have hslot : entry_addr s (dl.getD (i / epb s) (-1)) ((i % epb s : Nat) : Int)
        = slot s dl i := rfl
    rw [hslot, hline i (le_refl _) (by omega)]
    simp only
    have hcast : ((i : Int) + 1) = ((i + 1 : Nat) : Int) := by push_cast; rfl
    rw [hcast, ih (i + 1) (dl.getD (i / epb s) (-1)) (by omega) (by omega) (by simp)
      (fun j h1 h2 => hline j (by omega) (by omega))]
    simp [List.range']

theorem strcmp_le_total : ∀ a b : List Int, strcmp_le a b = true ∨ strcmp_le b a = true := by
  intro a
  induction a with
  | nil => intro b; left; rfl
  | cons x xs ih =>
    intro b
    cases b with
    | nil => right; rfl
    | cons y ys =>
      unfold strcmp_le
      by_cases h1 : x % 256 < y % 256
      · left; rw [if_pos h1]
      · by_cases h2 : y % 256 < x % 256
        · right; rw [if_pos h2]
        · rw [if_neg h1, if_neg h2, if_neg h2, if_neg h1]
          exact ih ys

theorem strcmp_le_trans : ∀ a b c : List Int, strcmp_le a b = true → strcmp_le b c = true →
    strcmp_le a c = true := by
  intro a
  induction a with
  | nil => intro b c _ _; rfl
  | cons x xs ih =>
    intro b c hab hbc
    cases b with
    | nil => simp [strcmp_le] at hab
    | cons y ys =>
      cases c with
      | nil => simp [strcmp_le] at hbc
      | cons z zs =>
        unfold strcmp_le at hab hbc ⊢
        by_cases h1 : x % 256 < y % 256
        · by_cases h2 : y % 256 < z % 256
          · rw [if_pos (by omega)]
          · rw [if_neg h2] at hbc
            by_cases h3 : z % 256 < y % 256
            · rw [if_pos h3] at hbc; exact absurd hbc (by decide)
            · rw [if_pos (by omega)]
        · rw [if_neg h1] at hab
          by_cases h4 : y % 256 < x % 256
          · rw [if_pos h4] at hab; exact absurd hab (by decide)
          · rw [if_neg h4] at hab
            by_cases h2 : y % 256 < z % 256
            · rw [if_pos (by omega)]
            · rw [if_neg h2] at hbc
              by_cases h3 : z % 256 < y % 256
              · rw [if_pos h3] at hbc; exact absurd hbc (by decide)
              · rw [if_neg h3] at hbc
                rw [if_neg (by omega), if_neg (by omega)]
                exact ih ys zs hab hbc

/-- The array that `qsort` leaves holds the strings it was given, in ascending order. -/
theorem qsort_spec (content : List (List Int)) :
    List.Perm (qsort content) content
      ∧ List.Sorted (fun a b => strcmp_le a b = true) (qsort content) := by
  unfold qsort
  refine ⟨List.perm_insertionSort _ _, ?_⟩
  haveI : IsTotal (List Int) (fun a b => strcmp_le a b = true) := ⟨strcmp_le_total⟩
  haveI : IsTrans (List Int) (fun a b => strcmp_le a b = true) := ⟨strcmp_le_trans⟩
  exact List.sorted_insertionSort _ _

/-- The listing of a new image has exactly two lines, those of `.` and `..`: the name filled
with blanks up to 20 characters, a tab, the date, a tab, and `DIR`. -/
theorem ls_new_image :
    live new_image = 2
      ∧ vfs_ls new_image = some (LsOutput.lines
          [cstr ".                   " ++ [9] ++ cstr "30-Oct-2026" ++ [9] ++ cstr "DIR",
           cstr "..                  " ++ [9] ++ cstr "30-Oct-2026" ++ [9] ++ cstr "DIR"]) := by
  rw [new_image_closed]
  decide!

/-- A name of more than 20 characters is rejected by `vfs_mkdir`, which returns the state it
was given. -/
theorem mkdir_longer_than_20 (s : FS) (now : tm) (name : List Int) (h : 20 < name.length) :
    vfs_mkdir s now name = some (s, [Msg.mkdir_name_too_long]) := by
  unfold vfs_mkdir MAX_NAME_LENGHT
  rw [if_pos (by omega)]

/-- The image `nested_image k` is the one the commands leave: for `k = 1`, `mkdir N`, `cd N`
on a new image print no error and leave the superblock, the FAT and the bytes of the blocks
0 and 1 of `nested_image 1`, with `current_dir = 1`. -/
theorem nested_image_from_commands :
    printed (session_nested 1) = some []
      ∧ observe (session_nested 1) (fun s => s.current_dir) = some 1
      ∧ observe (session_nested 1) (fun s => s.sb) = some (nested_image 1).sb
      ∧ observe (session_nested 1) (fun s => (List.range 128).map (fun j => s.fat (j : Int)))
          = some ((List.range 128).map (fun j => (nested_image 1).fat (j : Int)))
      ∧ observe (session_nested 1) (fun s => (List.range 256).map (fun x => s.blocks (x : Int)))
          = some ((List.range 256).map (fun x => (nested_image 1).blocks (x : Int))) := by
  unfold session_nested
  rw [start_closed]
  decide!

/-- The path `vfs_pwd` prints for nested directories within the buffers: after `mkdir d0`,
`cd d0` on a new image it prints `/d0/`, and in the root `/`. -/
theorem pwd_small :
    vfs_pwd new_image = some (cstr "/")
      ∧ (vfs_cd image_one_dir (cstr "d0")).bind (fun r => vfs_pwd r.1) = some (cstr "/d0/") := by
  unfold image_one_dir
  rw [new_image_closed]
  decide!

/-! ## Appending an entry, removing a file, reading a host file -/

/-- The call of `get_free_block` in a state in which `k` blocks of the free list `fl` are
taken and more are left returns the next block of the list. -/
theorem alloc_pop_some (s0 s : FS) (fl : List Int) (k : Nat)
    (hp : path s0 s0.sb.free_block fl) (hlen : (fl.length : Int) = s0.sb.n_free_blocks)
    (ha : Alloc s0 s fl k) (hk : k < fl.length) :
    ∃ s', get_free_block s = some (s', fl.getD k (-1)) := by
  unfold get_free_block
  have h0 : s.sb.n_free_blocks ≠ 0 := by
    have := ha.nfree
    omega
  rw [if_neg h0]
  simp only
  have hv : valid_block s s.sb.free_block := by
    rw [ha.head]
    exact (valid_block_congr s0 s ha.ft _).2 (path_valid s0 fl _ hp _ (getD_mem hk))
  rw [if_pos hv, ha.head]
  exact ⟨_, rfl⟩

/-- The tail of the commands that add an entry returns when the name fits its field and,
the live count being a multiple of `DIR_ENTRIES_PER_BLOCK`, a free block is left. -/
theorem append_entry_some (s0 t4 : FS) (now : tm) (ty : Int) (b : List Int) (f : InvFacts s0)
    (hb : IsName b) (k : Nat)
    (ha : Alloc (add_dir_size s0 s0.current_dir 1) t4 (free_blocks s0) k)
    (sz fb : Int) (hroom : live s0 % epb s0 = 0 → k < (free_blocks s0).length) :
    ∃ s1, append_entry t4 now s0.current_dir (live_count s0) ty b sz fb = some s1 := by
  obtain ⟨hsb1, hfat1, hcd1, hmem1, hsize1⟩ := add_dir_size_spec s0 s0.current_dir 1
  have hbs4 : t4.sb.block_size = s0.sb.block_size := by rw [ha.bs, hsb1]
  have hft4 : t4.sb.fat_type = s0.sb.fat_type := by rw [ha.ft, hsb1]
  have hl4 : legal t4 := legal_congr s0 t4 hbs4 hft4 f.legal
  have hE4 : epb t4 = epb s0 := epb_congr s0 t4 hbs4
  obtain ⟨_, hEge, hEle, hbsE, hN1, hN2⟩ := legal_geom s0 f.legal
  have hvd := path_valid s0 _ _ f.dpath
  have hfat4 : ∀ y, y ∉ free_blocks s0 → t4.fat y = s0.fat y := fun y hy => by
    rw [ha.fat_out y (fun h => hy (mem_take_mem _ _ _ h)), hfat1]
  have hp4 : path t4 s0.current_dir (dir_chain s0) :=
    path_congr s0 t4 hft4 _ _ (fun x hx => hfat4 x (f.disj x hx)) f.dpath
  have hdne := facts_dl_ne s0 f
  have hlen0 : 0 < (dir_chain s0).length := List.length_pos.2 hdne
  have hlast := last_of_chain_path t4 _ _ (fat_fuel t4) hp4 hdne
    (by rw [fat_fuel_congr s0 t4 hft4]; exact le_of_lt f.dlen)
  have hT : (dir_chain s0).getD ((dir_chain s0).length - 1) (-1) ∈ dir_chain s0 :=
    getD_mem (by omega)
  unfold append_entry
  rw [hlast, f.live_eq, umod_legal t4 hl4 (live s0) (by have := f.lt; omega), hE4]
  simp only
  by_cases hr : ((live s0 % epb s0 : Nat) : Int) = 0
  · rw [if_pos hr]
    have hr' : live s0 % epb s0 = 0 := by exact_mod_cast hr
    have hfp1 : path (add_dir_size s0 s0.current_dir 1)
        (add_dir_size s0 s0.current_dir 1).sb.free_block (free_blocks s0) := by
      rw [hsb1]
      exact path_congr s0 _ (by rw [hsb1]) _ _ (fun x _ => by rw [hfat1]) f.fpath
    have hflen1 : ((free_blocks s0).length : Int)
        = (add_dir_size s0 s0.current_dir 1).sb.n_free_blocks := by rw [hsb1]; exact f.flen
    obtain ⟨t', hg⟩ := alloc_pop_some _ t4 _ k hfp1 hflen1 ha (hroom hr')
    rw [hg]
    simp only
    rcases get_free_block_spec t4 t' _ hg with ⟨_, e⟩ | ⟨gv, _, g3, g4, g5, g6, g7⟩
    · exfalso
      have := path_valid s0 _ _ f.fpath _ (getD_mem (hroom hr'))
      unfold valid_block at this
      omega
    have hvT : valid_block t' ((free_blocks s0).getD k (-1)) :=
      (valid_block_congr t4 t' g7 _).2 gv
    rw [if_pos hvT]
    have hl' : legal t' := legal_congr t4 t' g6 g7 hl4
    have hE' : epb t' = epb s0 := by rw [epb_congr t4 t' g6, hE4]
    have hrng := entry_range t' hl' ((free_blocks s0).getD k (-1)) 0 (by omega)
    have hbr := block_range t' hl' _ hvT
    simp only [Nat.cast_zero] at hrng
    rw [hr]
    exact init_dir_entry_some _ now _ ty b sz fb hb.2 (by omega) (by
      show _ ≤ data_size t'
      omega)
  · rw [if_neg hr]
    have hv4 := (valid_block_congr s0 t4 hft4 _).2 (hvd _ hT)
    have hrng := entry_range t4 hl4 ((dir_chain s0).getD ((dir_chain s0).length - 1) (-1))
      (live s0 % epb s0) (by rw [hE4]; exact Nat.mod_lt _ (by omega))
    have hbr := block_range t4 hl4 _ hv4
    exact init_dir_entry_some _ now _ ty b sz fb hb.2 (by omega) (by omega)

/-- The state that the tail of the commands that add an entry leaves. -/
theorem append_add (s0 t4 s1 : FS) (now : tm) (ty : Int) (b : List Int) (f : InvFacts s0)
    (hb : IsName b) (k : Nat)
    (ha : Alloc (add_dir_size s0 s0.current_dir 1) t4 (free_blocks s0) k)
    (sz fb : Int) (hfb : fb = -1 ∨ fb ∈ (free_blocks s0).take k)
    (hch : path t4 fb ((free_blocks s0).take k))
    (h : append_entry t4 now s0.current_dir (live_count s0) ty b sz fb = some s1) :
    ∃ k' dl1, AfterAdd s0 t4 s1 ty b sz fb k k' dl1 := by
  obtain ⟨hsb1, hfat1, hcd1, hmem1, hsize1⟩ := add_dir_size_spec s0 s0.current_dir 1
  have hbs4 : t4.sb.block_size = s0.sb.block_size := by rw [ha.bs, hsb1]
  have hft4 : t4.sb.fat_type = s0.sb.fat_type := by rw [ha.ft, hsb1]
  have hcd4 : t4.current_dir = s0.current_dir := by rw [ha.cd, hcd1]
  have hl4 : legal t4 := legal_congr s0 t4 hbs4 hft4 f.legal
  have hE4 : epb t4 = epb s0 := epb_congr s0 t4 hbs4
  obtain ⟨_, hEge, hEle, hbsE, hN1, hN2⟩ := legal_geom s0 f.legal
  have hvd := path_valid s0 _ _ f.dpath
  have hvf := path_valid s0 _ _ f.fpath
  have hfat4 : ∀ y, y ∉ free_blocks s0 → t4.fat y = s0.fat y := fun y hy => by
    rw [ha.fat_out y (fun h => hy (mem_take_mem _ _ _ h)), hfat1]
  have hp4 : path t4 s0.current_dir (dir_chain s0) :=
    path_congr s0 t4 hft4 _ _ (fun x hx => hfat4 x (f.disj x hx)) f.dpath
  have hmem4 : ∀ x, (∀ y ∈ (free_blocks s0).take k,
        x < BLOCK s0 y ∨ BLOCK s0 y + s0.sb.block_size ≤ x) →
      t4.blocks x = (add_dir_size s0 s0.current_dir 1).blocks x := by
    intro x hx
    apply ha.mem
    intro y hy
    rw [BLOCK_congr s0 _ (by rw [hsb1]) y, hsb1]
    exact hx y hy
  rw [f.live_eq] at h
  rcases append_entry_cases t4 s1 now hl4 _ _ hp4 (facts_dl_ne s0 f)
      (by rw [fat_fuel_congr s0 t4 hft4]; exact le_of_lt f.dlen) (live s0) f.lt _ _ _ _ h
    with ⟨hr, hi⟩ | ⟨hr, t', T, hg, hvT, hi⟩
  · -- the entry goes into the last block
    rw [hE4] at hr hi
    obtain ⟨hq, hlen0⟩ := div_last_of_not_dvd (epb s0) (live s0) _ (by omega) f.lo f.hi hr
    have haddr : entry_addr t4 ((dir_chain s0).getD ((dir_chain s0).length - 1) (-1))
        ((live s0 % epb s0 : Nat) : Int) = slot s0 (dir_chain s0) (live s0) := by
      unfold slot; rw [hq, entry_addr_congr s0 t4 hbs4]
    rw [haddr] at hi
    obtain ⟨e1, e2, e3, e4, e5, e6, e7, e8⟩ := init_dir_entry_spec t4 s1 now _ _ b _ _ hb.2 hi
    have hidxn : live s0 / epb s0 < (dir_chain s0).length := by omega
    have hold : ∀ i, i < live s0 → ∀ x, slot s0 (dir_chain s0) i ≤ x →
        x < slot s0 (dir_chain s0) i + 32 →
        s1.blocks x = (add_dir_size s0 s0.current_dir 1).blocks x := by
      intro i hi x h1 h2
      have hdj := slot_disjoint s0 f.legal _ f.dnd i (live s0) (facts_idx s0 f i hi) hidxn
        (by omega)
      rw [e4 x (by omega)]
      apply hmem4
      intro y hy
      exact slot_outside s0 f.legal _ hvd i (facts_idx s0 f i hi) y
        (fun hm => f.disj y hm (mem_take_mem _ _ _ hy)) x h1 h2
    refine ⟨k, dir_chain s0, ?_⟩
    exact
      { bs := by rw [e1, hbs4]
        ft := by rw [e1, hft4]
        cd := by rw [e3, hcd4]
        size := by
          have h0 := facts_slot0 s0 f
          have : e_size s1 (entry_addr s0 s0.current_dir 0)
              = e_size (add_dir_size s0 s0.current_dir 1) (entry_addr s0 s0.current_dir 0) := by
            unfold e_size
            apply load_int_congr
            intro x h1 h2
            exact hold 0 (by have := f.n2; omega) x (by rw [h0]; omega) (by rw [h0]; omega)
          rw [this, hsize1]
          have := facts_small s0 f
          have hle : e_size s0 (entry_addr s0 s0.current_dir 0) = ((live s0 : Nat) : Int) :=
            f.live_eq
          rw [hle, f.live_eq]
          exact toI32_of_range (by omega) (by omega)
        dpath := path_congr t4 s1 (by rw [e1]) _ _ (fun x _ => by rw [e2]) hp4
        dgrow := Or.inl ⟨hr, rfl, rfl⟩
        dlast := by omega
        new_type := e5
        new_name := e6
        new_size := e7
        new_fb := by
          rw [e8, toI32_block s0 f.legal fb
            (hfb.imp id (fun h => hvf _ (mem_take_mem _ _ _ h)))]
        new_chain := path_congr t4 s1 (by rw [e1]) _ _ (fun x _ => by rw [e2]) hch
        nfree := by rw [e1, ha.nfree, hsb1]
        mem := fun x hx => e4 x hx }
  · -- a block is taken for the entry
    rw [hE4] at hr
    obtain ⟨hq, hlen0⟩ := div_last_of_dvd (epb s0) (live s0) _ (by omega)
      (by have := f.n2; omega) f.lo f.hi hr
    have hfp1 : path (add_dir_size s0 s0.current_dir 1)
        (add_dir_size s0 s0.current_dir 1).sb.free_block (free_blocks s0) := by
      rw [hsb1]
      exact path_congr s0 _ (by rw [hsb1]) _ _ (fun x _ => by rw [hfat1]) f.fpath
    have hflen1 : ((free_blocks s0).length : Int)
        = (add_dir_size s0 s0.current_dir 1).sb.n_free_blocks := by rw [hsb1]; exact f.flen
    rcases alloc_pop _ t4 _ k hfp1 f.fnd hflen1 ha t' T hg with ⟨_, e, _⟩ | ⟨hk, hT, _, ha'⟩
    · exfalso; unfold valid_block at hvT; omega
    rcases get_free_block_spec t4 t' T hg with ⟨_, e⟩ | ⟨_, _, g3, g4, g5, g6, g7⟩
    · exfalso; unfold valid_block at hvT; omega
    have hcur : (dir_chain s0).getD ((dir_chain s0).length - 1) (-1) ∈ dir_chain s0 :=
      getD_mem (by omega)
    have hTfl : T ∈ free_blocks s0 := by rw [hT]; exact getD_mem hk
    have hTdl : T ∉ dir_chain s0 := fun h => f.disj T h hTfl
    have hTk : T ∉ (free_blocks s0).take k := by
      rw [hT]; exact getD_not_mem_take _ f.fnd k k hk (le_refl _)
    have hTcur : T ≠ (dir_chain s0).getD ((dir_chain s0).length - 1) (-1) :=
      fun he => hTdl (he ▸ hcur)
    have hslot : slot s0 (dir_chain s0 ++ [T]) (live s0) = BLOCK s0 T := by
      unfold slot entry_addr
      rw [hq, getD_append_last, hr]
      simp
    have haddr : entry_addr t' T 0 = slot s0 (dir_chain s0 ++ [T]) (live s0) := by
      rw [hslot]
      unfold entry_addr
      rw [BLOCK_congr s0 t' (by rw [g6, hbs4])]
      simp
    rw [haddr] at hi
    obtain ⟨e1, e2, e3, e4, e5, e6, e7, e8⟩ := init_dir_entry_spec _ s1 now _ _ b _ _ hb.2 hi
    have e1' : s1.sb = t'.sb := e1
    have e2' : s1.fat = store t'.fat ((dir_chain s0).getD ((dir_chain s0).length - 1) (-1)) T :=
      e2
    have e3' : s1.current_dir = t'.current_dir := e3
    have e4' : ∀ x, x < BLOCK s0 T ∨ BLOCK s0 T + 32 ≤ x → s1.blocks x = t4.blocks x := by
      intro x hx
      rw [← hslot] at hx
      rw [e4 x hx]
      show t'.blocks x = t4.blocks x
      rw [g4]
    have hfatT : ∀ y, y ≠ T → y ≠ (dir_chain s0).getD ((dir_chain s0).length - 1) (-1) →
        s1.fat y = t4.fat y := by
      intro y h1 h2
      rw [e2', store_other _ _ _ _ h2, g3, store_other _ _ _ _ h1]
    have hold : ∀ i, i < live s0 → ∀ x, slot s0 (dir_chain s0) i ≤ x →
        x < slot s0 (dir_chain s0) i + 32 →
        s1.blocks x = (add_dir_size s0 s0.current_dir 1).blocks x := by
      intro i hi x h1 h2
      have hout := slot_outside s0 f.legal _ hvd i (facts_idx s0 f i hi) T hTdl x h1 h2
      rw [e4' x (by omega)]
      apply hmem4
      intro y hy
      exact slot_outside s0 f.legal _ hvd i (facts_idx s0 f i hi) y
        (fun hm => f.disj y hm (mem_take_mem _ _ _ hy)) x h1 h2
    have hvT1 : valid_block s1 T := by
      unfold valid_block at hvT ⊢; rw [e1']; exact hvT
    refine ⟨k + 1, dir_chain s0 ++ [T], ?_⟩
    exact
      { bs := by rw [e1', g6, hbs4]
        ft := by rw [e1', g7, hft4]
        cd := by rw [e3', g5, hcd4]
        size := by
          have h0 := facts_slot0 s0 f
          have : e_size s1 (entry_addr s0 s0.current_dir 0)
              = e_size (add_dir_size s0 s0.current_dir 1) (entry_addr s0 s0.current_dir 0) := by
            unfold e_size
            apply load_int_congr
            intro x h1 h2
            exact hold 0 (by have := f.n2; omega) x (by rw [h0]; omega) (by rw [h0]; omega)
          rw [this, hsize1]
          have := facts_small s0 f
          have hle : e_size s0 (entry_addr s0 s0.current_dir 0) = ((live s0 : Nat) : Int) :=
            f.live_eq
          rw [hle, f.live_eq]
          exact toI32_of_range (by omega) (by omega)
        dpath := by
          apply path_snoc t4 s1 (by rw [e1', g7]) T hvT1 _ _ _ hp4 (facts_dl_ne s0 f)
          · intro t ht
            apply hfatT
            · intro he; exact hTdl (he ▸ getD_mem (by omega))
            · intro he
              have := nodup_getD_inj _ f.dnd _ _ (by omega) (by omega) he
              omega
          · rw [e2', store_same]
          · rw [e2', store_other _ _ _ _ hTcur, g3, store_same]
        dgrow := Or.inr ⟨hr, by rw [hT], rfl, hk⟩
        dlast := by simp; omega
        new_type := e5
        new_name := e6
        new_size := e7
        new_fb := by
          rw [e8, toI32_block s0 f.legal fb
            (hfb.imp id (fun h => hvf _ (mem_take_mem _ _ _ h)))]
        new_chain := path_congr t4 s1 (by rw [e1', g7]) _ _
            (fun y hy => hfatT y (fun he => hTk (he ▸ hy))
              (fun he => f.disj _ hcur (he ▸ mem_take_mem _ _ _ hy))) hch
        nfree := by
          rw [e1']
          have := ha'.nfree
          rw [hsb1] at this
          exact this
        mem := fun x hx => by
          rw [hslot] at hx
          exact e4' x hx }

/-- A field with a NUL at distance `z` from its start stores a C string of at most `z`
characters. -/
theorem stored_of_nul (s : FS) : ∀ (z : Nat) (p : Int), s.blocks (p + (z : Int)) = 0 →
    ∃ b, CStr b ∧ b.length ≤ z ∧ stored s p b := by
  intro z
  induction z with
  | zero =>
    intro p hz
    refine ⟨[], by intro c hc; simp at hc, le_refl _, ?_, ?_⟩
    · intro i hi
      simp at hi
    · simpa using hz
  | succ z ih =>
    intro p hz
    by_cases h0 : s.blocks p = 0
    · refine ⟨[], by intro c hc; simp at hc, Nat.zero_le _, ?_, ?_⟩
      · intro i hi
        simp at hi
      · simpa using h0
    · obtain ⟨b, hc, hl, hs1, hs2⟩ := ih (p + 1) (by
        rw [← hz]; congr 1; push_cast; ring)
      refine ⟨s.blocks p :: b, ?_, by simp; omega, ?_, ?_⟩
      · intro c hcm
        rcases List.mem_cons.1 hcm with h | h
        · rw [h]; exact h0
        · exact hc c h
      · intro i hi
        cases i with
        | zero => simp
        | succ j =>
          simp only [List.length_cons] at hi
          have := hs1 j (by omega)
          simp only [List.getD_cons_succ]
          rw [← this]
          congr 1
          push_cast
          ring
      · rw [← hs2]
        congr 1
        simp only [List.length_cons]
        push_cast
        ring

/-- The name of an entry whose name ends inside its field. -/
theorem name_ends_stored (s : FS) (a : Int) (he : name_ends s a) :
    ∃ b, IsName b ∧ stored s (a + 1) b := by
  obtain ⟨z, hz, hz0⟩ := he
  have hz20 : z < 20 := List.mem_range.1 hz
  obtain ⟨b, hc, hl, hs⟩ := stored_of_nul s z (a + 1) hz0
  exact ⟨b, ⟨hc, by omega⟩, hs⟩

/-- The last live entry of the current directory is in the last block of its chain. -/
theorem facts_last_idx (s : FS) (f : InvFacts s) :
    (live s - 1) / epb s = (dir_chain s).length - 1 := by
  obtain ⟨_, hEge, _, _, _, _⟩ := legal_geom s f.legal
  have h1 := f.lo
  have h2 := f.hi
  have hn2 := f.n2
  have hlen0 : 0 < (dir_chain s).length := List.length_pos.2 (facts_dl_ne s f)
  have h3 : (live s - 1) / epb s < (dir_chain s).length := facts_idx s f _ (by omega)
  have h4 : ¬ (live s - 1) / epb s < (dir_chain s).length - 1 := by
    intro h
    have h5 : (live s - 1) / epb s + 1 ≤ (dir_chain s).length - 1 := h
    have h7 : live s - 1 < ((live s - 1) / epb s + 1) * epb s := by
      have h8 := Nat.div_add_mod (live s - 1) (epb s)
      have h9 := Nat.mod_lt (live s - 1) (show 0 < epb s by omega)
      have h10 : ((live s - 1) / epb s + 1) * epb s
          = epb s * ((live s - 1) / epb s) + epb s := by ring
      omega
    have h11 : ((live s - 1) / epb s + 1) * epb s ≤ ((dir_chain s).length - 1) * epb s :=
      Nat.mul_le_mul_right _ h5
    omega
  omega

/-- The value of `(n_entries - 1 + DIR_ENTRIES_PER_BLOCK) % DIR_ENTRIES_PER_BLOCK` in a
state that satisfies the invariants. -/
theorem facts_last_slot (s : FS) (f : InvFacts s) :
    last_slot s (e_size s (entry_addr s s.current_dir 0))
      = some (((live s - 1) % epb s : Nat) : Int) := by
  obtain ⟨hDE, hEge, hEle, _, _, _⟩ := legal_geom s f.legal
  have hsmall := facts_small s f
  have hn2 := f.n2
  have hlive : e_size s (entry_addr s s.current_dir 0) = ((live s : Nat) : Int) := f.live_eq
  unfold last_slot
  rw [hlive, hDE]
  have h1 : toU64 (((live s : Nat) : Int) - 1) = ((live s - 1 : Nat) : Int) := by
    have h : (((live s : Nat) : Int) - 1) = ((live s - 1 : Nat) : Int) := by omega
    rw [h]
    apply toU64_of_range <;> omega
  rw [h1]
  have h2 := umod_legal s f.legal (live s - 1 + epb s) (by push_cast; omega)
  rw [Nat.add_mod_right] at h2
  rw [← h2]
  congr 1

/-- The byte offset of the last live entry: the slot `(n - 1) % E` of the last block. -/
theorem facts_last_addr (s : FS) (f : InvFacts s) :
    entry_addr s ((dir_chain s).getD ((dir_chain s).length - 1) (-1))
        (((live s - 1) % epb s : Nat) : Int) = slot s (dir_chain s) (live s - 1) := by
  unfold slot
  rw [facts_last_idx s f]

/-- The dates that `copy_entry` leaves in the entry written. -/
theorem copy_entry_dates (s s' : FS) (dst : Int) (last_dir : Int → Int)
    (h : copy_entry s dst last_dir = some s') :
    s'.blocks (dst + 21) = last_dir 21 ∧ s'.blocks (dst + 22) = last_dir 22
      ∧ s'.blocks (dst + 23) = last_dir 23 := by
  unfold copy_entry at h
  cases hz : strlen_from last_dir 31 1 with
  | none => rw [hz] at h; simp at h
  | some z =>
    rw [hz] at h
    simp only [Option.some.injEq] at h
    subst h
    simp only
    refine ⟨?_, ?_, ?_⟩
    · rw [store_int_other _ _ _ _ (by omega), store_int_other _ _ _ _ (by omega),
        store_other _ _ _ _ (by omega), store_other _ _ _ _ (by omega), store_same]
    · rw [store_int_other _ _ _ _ (by omega), store_int_other _ _ _ _ (by omega),
        store_other _ _ _ _ (by omega), store_same]
    · rw [store_int_other _ _ _ _ (by omega), store_int_other _ _ _ _ (by omega),
        store_same]

/-- The date of the entry that `vfs_rm` writes over the entry removed is the date of the last
live entry.  The hypotheses are those of `rm_hit_state`. -/
theorem rm_hit_dates (s1 : FS) (a b : List Int) (hb : IsName b) (h : Hit)
    (hv : valid_block s1 s1.current_dir)
    (hscan : scan_current s1 (file_name_is s1 a) (e_size s1 (entry_addr s1 s1.current_dir 0))
      = some (some h))
    (fc : List Int)
    (hfc : path s1 (e_first_block s1 (entry_addr s1 h.cur_block h.block_i)) fc) (hfcne : fc ≠ [])
    (hfclen : fc.length ≤ fat_fuel s1) (T1 : Int) (hT : valid_block s1 T1)
    (hxT : fc.getD (fc.length - 1) (-1) ≠ T1)
    (hlast : last_of_chain
        (splice_free s1 (e_first_block s1 (entry_addr s1 h.cur_block h.block_i))
          (fc.getD (fc.length - 1) (-1)) (1 + (fc.length : Int) - 1))
        (fat_fuel s1) h.cur_block = some T1)
    (sl : Int) (hslot : last_slot s1 (e_size s1 (entry_addr s1 s1.current_dir 0)) = some sl)
    (hname : stored s1 (entry_addr s1 T1 sl + 1) b)
    (hdisj : entry_addr s1 h.cur_block h.block_i + 32 ≤ entry_addr s1 s1.current_dir 0
      ∨ entry_addr s1 s1.current_dir 0 + 32 ≤ entry_addr s1 h.cur_block h.block_i) :
    ∃ s2, vfs_rm s1 a = some (s2, [])
      ∧ e_day s2 (entry_addr s1 h.cur_block h.block_i) = e_day s1 (entry_addr s1 T1 sl)
      ∧ e_month s2 (entry_addr s1 h.cur_block h.block_i) = e_month s1 (entry_addr s1 T1 sl)
      ∧ e_year s2 (entry_addr s1 h.cur_block h.block_i) = e_year s1 (entry_addr s1 T1 sl) := by
  have hcount := count_chain_path s1 fc _ (fat_fuel s1) 1 hfc hfcne hfclen
  obtain ⟨sB, hfreed, hBm, hBbs, hBft, hBcd, hBfat, hBx, hBhead⟩ :=
    rm_free_tail s1 (e_first_block s1 (entry_addr s1 h.cur_block h.block_i))
      (fc.getD (fc.length - 1) (-1)) (1 + (fc.length : Int) - 1) T1 sl hT hxT
  obtain ⟨sC, hcopy, hCsb, hCfat, hCcd, hCm, hCty, hCname, hCsz, hCfb⟩ :=
    copy_entry_spec sB (entry_addr s1 h.cur_block h.block_i)
      (entry_copy s1 (entry_addr s1 T1 sl)) b hb.1 hb.2
      (fun i hi => by
        have := hname.1 i hi
        unfold entry_copy
        rw [← this]
        congr 1
        ring)
      (by
        have := hname.2
        unfold entry_copy
        rw [← this]
        congr 1
        ring)
  have hrm := vfs_rm_hit s1 a h hv hscan _ _ hcount _ rfl T1 sl hlast hslot sB hfreed sC hcopy
  obtain ⟨hDsb, hDfat, hDcd, hDm, hDsz⟩ := add_dir_size_spec sC sC.current_dir (-1)
  have hA0 : entry_addr sC sC.current_dir 0 = entry_addr s1 s1.current_dir 0 := by
    rw [hCcd, hBcd]
    exact entry_addr_congr s1 sC (by rw [hCsb, hBbs]) _ _
  rw [hA0] at hDm hDsz
  obtain ⟨d1, d2, d3⟩ := copy_entry_dates sB sC _ _ hcopy
  refine ⟨_, hrm, ?_, ?_, ?_⟩
  · unfold e_day
    rw [hDm _ (by omega), d1]
    rfl
  · unfold e_month
    rw [hDm _ (by omega), d2]
    rfl
  · unfold e_year
    rw [hDm _ (by omega), d3]
    rfl

/-- In a state that satisfies the invariants `find_dir_entry` returns `NULL` for a name that
no live entry of the current directory stores. -/
theorem find_dir_entry_absent (s : FS) (f : InvFacts s) (x : List Int)
    (hfalse : ∀ g, g < live s → strcmp_eq s (slot s (dir_chain s) g + 1) x = some false) :
    find_dir_entry s (entry_addr s s.current_dir 0) x = some none := by
  obtain ⟨_, hE4, hE32, _, hN1, hN2⟩ := legal_geom s f.legal
  have hvd := path_valid s _ _ f.dpath
  have hbr := block_range s f.legal _ f.cdv
  unfold find_dir_entry
  have hbase : 0 ≤ entry_addr s s.current_dir 0
      ∧ entry_addr s s.current_dir 0 + sizeof_dir_entry ≤ data_size s := by
    have := entry_range s f.legal s.current_dir 0 (by omega)
    unfold sizeof_dir_entry
    simp only [Nat.cast_zero] at this
    omega
  rw [if_pos hbase, f.fb0]
  have hlive : e_size s (entry_addr s s.current_dir 0) = ((live s : Nat) : Int) := f.live_eq
  rw [hlive]
  have hhead := path_head s _ _ f.dpath
  have hd0 : (dir_chain s).getD 0 (-1) = s.current_dir := by
    rw [← hhead]; cases dir_chain s <;> simp
  have hspec := find_while_spec s f.legal x (live s) f.lt (dir_chain s) hvd
    (path_next s _ _ f.dpath) f.lo f.hi (dir_chain s).length 0 (fat_fuel s) 0 (by omega) f.dlen
    (fun _ => by simp)
    (fun g _ hg => ⟨_, hfalse g hg⟩)
  rw [hd0] at hspec
  simp only [Nat.zero_mul, Nat.cast_zero] at hspec
  rcases hspec with ⟨h1, _⟩ | ⟨p, _, hp, _, h4, _⟩
  · exact h1
  · rw [hfalse p hp] at h4
    simp at h4

/-- The function `init_dir_block` on a block of the image: it returns, writes into the first
64 bytes of the block only, and leaves there the entries `.` and `..`. -/
theorem init_dir_block_spec (s : FS) (now : tm) (hl : legal s) (b parent : Int)
    (hv : valid_block s b) (hpar : valid_block s parent) :
    ∃ s2, init_dir_block s now b parent = some s2 ∧ s2.sb = s.sb ∧ s2.fat = s.fat
      ∧ s2.current_dir = s.current_dir
      ∧ (∀ x, x < BLOCK s b ∨ BLOCK s b + 64 ≤ x → s2.blocks x = s.blocks x)
      ∧ e_type s2 (entry_addr s b 0) = TYPE_DIR ∧ stored s2 (entry_addr s b 0 + 1) [46]
      ∧ e_size s2 (entry_addr s b 0) = 2 ∧ e_first_block s2 (entry_addr s b 0) = b
      ∧ e_type s2 (entry_addr s b 1) = TYPE_DIR ∧ stored s2 (entry_addr s b 1 + 1) [46, 46]
      ∧ e_size s2 (entry_addr s b 1) = 0 ∧ e_first_block s2 (entry_addr s b 1) = parent := by
  obtain ⟨_, hE4, hE32, hbsE, hN1, hN2⟩ := legal_geom s hl
  have hbr := block_range s hl b hv
  have e0 : entry_addr s b 0 = BLOCK s b := by
    unfold entry_addr; simp
  have e1 : entry_addr s b 1 = BLOCK s b + 32 := by
    unfold entry_addr sizeof_dir_entry; simp
  obtain ⟨s1, h1⟩ := init_dir_entry_some s now (BLOCK s b) TYPE_DIR [46] 2 b (by simp)
    (by omega) (by omega)
  obtain ⟨a1, a2, a3, a4, a5, a6, a7, a8⟩ := init_dir_entry_spec _ s1 now _ _ _ _ _ (by simp) h1
  have hds : data_size s1 = data_size s := by
    unfold data_size; rw [a1]
  obtain ⟨s2, h2⟩ := init_dir_entry_some s1 now (BLOCK s b + 32) TYPE_DIR [46, 46] 0 parent
    (by simp) (by omega) (by rw [hds]; omega)
  obtain ⟨b1, b2, b3, b4, b5, b6, b7, b8⟩ := init_dir_entry_spec _ s2 now _ _ _ _ _ (by simp) h2
  have hblk : init_dir_block s now b parent = some s2 := by
    unfold init_dir_block
    rw [if_pos hv, e0, e1, h1]
    simp only
    rw [h2]
  rw [e0, e1]
  refine ⟨s2, hblk, by rw [b1, a1], by rw [b2, a2], by rw [b3, a3], ?_, ?_, ?_, ?_, ?_, b5, b6,
    ?_, ?_⟩
  · intro x hx
    rw [b4 x (by omega), a4 x (by omega)]
  · unfold e_type at a5 ⊢
    rw [b4 _ (by omega), a5]
  · refine ⟨fun i hi => ?_, ?_⟩
    · have := a6.1 i hi
      simp only [List.length_singleton] at hi
      rw [b4 _ (by omega)]
      exact this
    · have := a6.2
      rw [b4 _ (by simp only [List.length_singleton, Nat.cast_one]; omega)]
      exact this
  · unfold e_size at a7 ⊢
    rw [load_int_congr _ _ _ (fun x h3 h4 => b4 x (by omega)), a7]
    rfl
  · unfold e_first_block at a8 ⊢
    rw [load_int_congr _ _ _ (fun x h3 h4 => b4 x (by omega)), a8]
    exact toI32_block s hl b (Or.inr hv)
  · rw [b7]
    rfl
  · rw [b8]
    exact toI32_block s hl parent (Or.inr hpar)

/-- The call of `get_free_block` does not look at the data blocks. -/
theorem get_free_block_blocks (t : FS) (m : Int → Int) (t' : FS) (r : Int)
    (h : get_free_block t = some (t', r)) :
    get_free_block { t with blocks := m } = some ({ t' with blocks := m }, r) := by
  unfold get_free_block at h ⊢
  by_cases h0 : t.sb.n_free_blocks = 0
  · rw [if_pos h0] at h
    rw [if_pos h0]
    simp only [Option.some.injEq, Prod.mk.injEq] at h
    obtain ⟨h1, h2⟩ := h
    subst h1
    rw [h2]
  · rw [if_neg h0] at h
    rw [if_neg h0]
    simp only at h ⊢
    by_cases hv : valid_block t t.sb.free_block
    · rw [if_pos hv] at h
      have hv' : valid_block { t with blocks := m } t.sb.free_block := hv
      rw [if_pos hv']
      simp only [Option.some.injEq, Prod.mk.injEq] at h
      obtain ⟨h1, h2⟩ := h
      subst h1
      rw [h2]
    · rw [if_neg hv] at h
      simp at h

theorem get_free_block_of_blocks (t : FS) (m : Int → Int) (t0 : FS) (r : Int)
    (h : get_free_block { t with blocks := m } = some (t0, r)) :
    ∃ t', get_free_block t = some (t', r) ∧ t0 = { t' with blocks := m } := by
  cases hg : get_free_block t with
  | none =>
    exfalso
    unfold get_free_block at h hg
    by_cases h0 : t.sb.n_free_blocks = 0
    · rw [if_pos h0] at hg
      simp at hg
    · rw [if_neg h0] at hg
      have h0' : ¬ ({ t with blocks := m } : FS).sb.n_free_blocks = 0 := h0
      rw [if_neg h0'] at h
      simp only at h hg
      by_cases hv : valid_block t t.sb.free_block
      · rw [if_pos hv] at hg
        simp at hg
      · have hv' : ¬ valid_block { t with blocks := m } t.sb.free_block := hv
        rw [if_neg hv'] at h
        simp at h
  | some q =>
    obtain ⟨t', r'⟩ := q
    have := get_free_block_blocks t m t' r' hg
    rw [this] at h
    simp only [Option.some.injEq, Prod.mk.injEq] at h
    exact ⟨t', by rw [h.2], h.1.symm⟩

/-- The tail of the commands that add an entry returns whatever the data blocks hold, when
the superblock and the FAT are those of a state in which `k` blocks of the free list are
taken, the name fits its field and, the live count being a multiple of
`DIR_ENTRIES_PER_BLOCK`, a free block is left. -/
theorem append_entry_some_fat (s0 t4 : FS) (now : tm) (ty : Int) (b : List Int) (f : InvFacts s0)
    (hb : IsName b) (k : Nat)
    (ha : Alloc (add_dir_size s0 s0.current_dir 1)
      { t4 with blocks := (add_dir_size s0 s0.current_dir 1).blocks } (free_blocks s0) k)
    (sz fb : Int) (hroom : live s0 % epb s0 = 0 → k < (free_blocks s0).length) :
    ∃ s1, append_entry t4 now s0.current_dir (live_count s0) ty b sz fb = some s1 := by
  obtain ⟨hsb1, hfat1, hcd1, hmem1, hsize1⟩ := add_dir_size_spec s0 s0.current_dir 1
  have hbs4 : t4.sb.block_size = s0.sb.block_size := by
    have := ha.bs
    rw [hsb1] at this
    exact this
  have hft4 : t4.sb.fat_type = s0.sb.fat_type := by
    have := ha.ft
    rw [hsb1] at this
    exact this
  have hl4 : legal t4 := legal_congr s0 t4 hbs4 hft4 f.legal
  have hE4 : epb t4 = epb s0 := epb_congr s0 t4 hbs4
  obtain ⟨_, hEge, hEle, hbsE, hN1, hN2⟩ := legal_geom s0 f.legal
  have hvd := path_valid s0 _ _ f.dpath
  have hfat4 : ∀ y, y ∉ free_blocks s0 → t4.fat y = s0.fat y := fun y hy => by
    have := ha.fat_out y (fun h => hy (mem_take_mem _ _ _ h))
    rw [hfat1] at this
    exact this
  have hp4 : path t4 s0.current_dir (dir_chain s0) :=
    path_congr s0 t4 hft4 _ _ (fun x hx => hfat4 x (f.disj x hx)) f.dpath
  have hdne := facts_dl_ne s0 f
  have hlen0 : 0 < (dir_chain s0).length := List.length_pos.2 hdne
  have hlast := last_of_chain_path t4 _ _ (fat_fuel t4) hp4 hdne
    (by rw [fat_fuel_congr s0 t4 hft4]; exact le_of_lt f.dlen)
  have hT : (dir_chain s0).getD ((dir_chain s0).length - 1) (-1) ∈ dir_chain s0 :=
    getD_mem (by omega)
  unfold append_entry
  rw [hlast, f.live_eq, umod_legal t4 hl4 (live s0) (by have := f.lt; omega), hE4]
  simp only
  by_cases hr : ((live s0 % epb s0 : Nat) : Int) = 0
  · rw [if_pos hr]
    have hr' : live s0 % epb s0 = 0 := by exact_mod_cast hr
    have hfp1 : path (add_dir_size s0 s0.current_dir 1)
        (add_dir_size s0 s0.current_dir 1).sb.free_block (free_blocks s0) := by
      rw [hsb1]
      exact path_congr s0 _ (by rw [hsb1]) _ _ (fun x _ => by rw [hfat1]) f.fpath
    have hflen1 : ((free_blocks s0).length : Int)
        = (add_dir_size s0 s0.current_dir 1).sb.n_free_blocks := by rw [hsb1]; exact f.flen
    obtain ⟨t0, hg0⟩ := alloc_pop_some _ _ _ k hfp1 hflen1 ha (hroom hr')
    obtain ⟨t', hg, _⟩ := get_free_block_of_blocks t4 _ t0 _ hg0
    rw [hg]
    simp only
    rcases get_free_block_spec t4 t' _ hg with ⟨_, e⟩ | ⟨gv, _, g3, g4, g5, g6, g7⟩
    · exfalso
      have := path_valid s0 _ _ f.fpath _ (getD_mem (hroom hr'))
      unfold valid_block at this
      omega
    have hvT : valid_block t' ((free_blocks s0).getD k (-1)) :=
      (valid_block_congr t4 t' g7 _).2 gv
    rw [if_pos hvT]
    have hl' : legal t' := legal_congr t4 t' g6 g7 hl4
    have hE' : epb t' = epb s0 := by rw [epb_congr t4 t' g6, hE4]
    have hrng := entry_range t' hl' ((free_blocks s0).getD k (-1)) 0 (by omega)
    have hbr := block_range t' hl' _ hvT
    simp only [Nat.cast_zero] at hrng
    rw [hr]
    exact init_dir_entry_some _ now _ ty b sz fb hb.2 (by omega) (by
      show _ ≤ data_size t'
      omega)
  · rw [if_neg hr]
    have hv4 := (valid_block_congr s0 t4 hft4 _).2 (hvd _ hT)
    have hrng := entry_range t4 hl4 ((dir_chain s0).getD ((dir_chain s0).length - 1) (-1))
      (live s0 % epb s0) (by rw [hE4]; exact Nat.mod_lt _ (by omega))
    have hbr := block_range t4 hl4 _ hv4
    exact init_dir_entry_some _ now _ ty b sz fb hb.2 (by omega) (by omega)

/-- The state that the tail of the commands that add an entry leaves, whatever the data
blocks hold before it. -/
theorem append_add_fat (s0 t4 s1 : FS) (now : tm) (ty : Int) (b : List Int) (f : InvFacts s0)
    (hb : IsName b) (k : Nat)
    (ha : Alloc (add_dir_size s0 s0.current_dir 1)
      { t4 with blocks := (add_dir_size s0 s0.current_dir 1).blocks } (free_blocks s0) k)
    (sz fb : Int) (hfb : fb = -1 ∨ fb ∈ (free_blocks s0).take k)
    (hch : path t4 fb ((free_blocks s0).take k))
    (h : append_entry t4 now s0.current_dir (live_count s0) ty b sz fb = some s1) :
    ∃ dl1, AfterAddF s0 s1 ty b sz fb k dl1 := by
  obtain ⟨hsb1, hfat1, hcd1, hmem1, hsize1⟩ := add_dir_size_spec s0 s0.current_dir 1
  have hbs4 : t4.sb.block_size = s0.sb.block_size := by
    have := ha.bs
    rw [hsb1] at this
    exact this
  have hft4 : t4.sb.fat_type = s0.sb.fat_type := by
    have := ha.ft
    rw [hsb1] at this
    exact this
  have hcd4 : t4.current_dir = s0.current_dir := by
    have := ha.cd
    rw [hcd1] at this
    exact this
  have hl4 : legal t4 := legal_congr s0 t4 hbs4 hft4 f.legal
  have hE4 : epb t4 = epb s0 := epb_congr s0 t4 hbs4
  obtain ⟨_, hEge, hEle, hbsE, hN1, hN2⟩ := legal_geom s0 f.legal
  have hvd := path_valid s0 _ _ f.dpath
  have hvf := path_valid s0 _ _ f.fpath
  have hfat4 : ∀ y, y ∉ free_blocks s0 → t4.fat y = s0.fat y := fun y hy => by
    have := ha.fat_out y (fun h => hy (mem_take_mem _ _ _ h))
    rw [hfat1] at this
    exact this
  have hp4 : path t4 s0.current_dir (dir_chain s0) :=
    path_congr s0 t4 hft4 _ _ (fun x hx => hfat4 x (f.disj x hx)) f.dpath
  rw [f.live_eq] at h
  rcases append_entry_cases t4 s1 now hl4 _ _ hp4 (facts_dl_ne s0 f)
      (by rw [fat_fuel_congr s0 t4 hft4]; exact le_of_lt f.dlen) (live s0) f.lt _ _ _ _ h
    with ⟨hr, hi⟩ | ⟨hr, t', T, hg, hvT, hi⟩
  · -- the entry goes into the last block
    rw [hE4] at hr hi
    obtain ⟨hq, hlen0⟩ := div_last_of_not_dvd (epb s0) (live s0) _ (by omega) f.lo f.hi hr
    have haddr : entry_addr t4 ((dir_chain s0).getD ((dir_chain s0).length - 1) (-1))
        ((live s0 % epb s0 : Nat) : Int) = slot s0 (dir_chain s0) (live s0) := by
      unfold slot; rw [hq, entry_addr_congr s0 t4 hbs4]
    rw [haddr] at hi
    obtain ⟨e1, e2, e3, e4, e5, e6, e7, e8⟩ := init_dir_entry_spec t4 s1 now _ _ b _ _ hb.2 hi
    have hidxn : live s0 / epb s0 < (dir_chain s0).length := by omega
    refine ⟨dir_chain s0, ?_⟩
    exact
      { bs := by rw [e1, hbs4]
        ft := by rw [e1, hft4]
        cd := by rw [e3, hcd4]
        dpath := path_congr t4 s1 (by rw [e1]) _ _ (fun x _ => by rw [e2]) hp4
        dlast := by omega
        new_type := e5
        new_name := e6
        new_size := e7
        new_fb := by
          rw [e8, toI32_block s0 f.legal fb
            (hfb.imp id (fun h => hvf _ (mem_take_mem _ _ _ h)))]
        new_chain := path_congr t4 s1 (by rw [e1]) _ _ (fun x _ => by rw [e2]) hch
        }
  · -- a block is taken for the entry
    rw [hE4] at hr
    obtain ⟨hq, hlen0⟩ := div_last_of_dvd (epb s0) (live s0) _ (by omega)
      (by have := f.n2; omega) f.lo f.hi hr
    have hfp1 : path (add_dir_size s0 s0.current_dir 1)
        (add_dir_size s0 s0.current_dir 1).sb.free_block (free_blocks s0) := by
      rw [hsb1]
      exact path_congr s0 _ (by rw [hsb1]) _ _ (fun x _ => by rw [hfat1]) f.fpath
    have hflen1 : ((free_blocks s0).length : Int)
        = (add_dir_size s0 s0.current_dir 1).sb.n_free_blocks := by rw [hsb1]; exact f.flen
    have hg0 := get_free_block_blocks t4 (add_dir_size s0 s0.current_dir 1).blocks t' T hg
    rcases alloc_pop _ _ _ k hfp1 f.fnd hflen1 ha _ T hg0 with ⟨_, e, _⟩ | ⟨hk, hT, _, ha'⟩
    · exfalso; unfold valid_block at hvT; omega
    rcases get_free_block_spec t4 t' T hg with ⟨_, e⟩ | ⟨_, _, g3, g4, g5, g6, g7⟩
    · exfalso; unfold valid_block at hvT; omega
    have hcur : (dir_chain s0).getD ((dir_chain s0).length - 1) (-1) ∈ dir_chain s0 :=
      getD_mem (by omega)
    have hTfl : T ∈ free_blocks s0 := by rw [hT]; exact getD_mem hk
    have hTdl : T ∉ dir_chain s0 := fun h => f.disj T h hTfl
    have hTk : T ∉ (free_blocks s0).take k := by
      rw [hT]; exact getD_not_mem_take _ f.fnd k k hk (le_refl _)
    have hTcur : T ≠ (dir_chain s0).getD ((dir_chain s0).length - 1) (-1) :=
      fun he => hTdl (he ▸ hcur)
    have hslot : slot s0 (dir_chain s0 ++ [T]) (live s0) = BLOCK s0 T := by
      unfold slot entry_addr
      rw [hq, getD_append_last, hr]
      simp
    have haddr : entry_addr t' T 0 = slot s0 (dir_chain s0 ++ [T]) (live s0) := by
      rw [hslot]
      unfold entry_addr
      rw [BLOCK_congr s0 t' (by rw [g6, hbs4])]
      simp
    rw [haddr] at hi
    obtain ⟨e1, e2, e3, e4, e5, e6, e7, e8⟩ := init_dir_entry_spec _ s1 now _ _ b _ _ hb.2 hi
    have e1' : s1.sb = t'.sb := e1
    have e2' : s1.fat = store t'.fat ((dir_chain s0).getD ((dir_chain s0).length - 1) (-1)) T :=
      e2
    have e3' : s1.current_dir = t'.current_dir := e3
    have e4' : ∀ x, x < BLOCK s0 T ∨ BLOCK s0 T + 32 ≤ x → s1.blocks x = t4.blocks x := by
      intro x hx
      rw [← hslot] at hx
      rw [e4 x hx]
      show t'.blocks x = t4.blocks x
      rw [g4]
    have hfatT : ∀ y, y ≠ T → y ≠ (dir_chain s0).getD ((dir_chain s0).length - 1) (-1) →
        s1.fat y = t4.fat y := by
      intro y h1 h2
      rw [e2', store_other _ _ _ _ h2, g3, store_other _ _ _ _ h1]
    have hvT1 : valid_block s1 T := by
      unfold valid_block at hvT ⊢; rw [e1']; exact hvT
    refine ⟨dir_chain s0 ++ [T], ?_⟩
    exact
      { bs := by rw [e1', g6, hbs4]
        ft := by rw [e1', g7, hft4]
        cd := by rw [e3', g5, hcd4]
        dpath := by
          apply path_snoc t4 s1 (by rw [e1', g7]) T hvT1 _ _ _ hp4 (facts_dl_ne s0 f)
          · intro t ht
            apply hfatT
            · intro he; exact hTdl (he ▸ getD_mem (by omega))
            · intro he
              have := nodup_getD_inj _ f.dnd _ _ (by omega) (by omega) he
              omega
          · rw [e2', store_same]
          · rw [e2', store_other _ _ _ _ hTcur, g3, store_same]
        dlast := by simp; omega
        new_type := e5
        new_name := e6
        new_size := e7
        new_fb := by
          rw [e8, toI32_block s0 f.legal fb
            (hfb.imp id (fun h => hvf _ (mem_take_mem _ _ _ h)))]
        new_chain := path_congr t4 s1 (by rw [e1', g7]) _ _
            (fun y hy => hfatT y (fun he => hTk (he ▸ hy))
              (fun he => f.disj _ hcur (he ▸ mem_take_mem _ _ _ hy))) hch
        }

/-- The number of blocks the rest of a file needs after one block of it has been read. -/
theorem ceil_drop (len B : Nat) (hB : 0 < B) (hl : 0 < len) :
    (len - min len B + B - 1) / B = (len + B - 1) / B - 1 := by
  by_cases h : len ≤ B
  · rw [Nat.min_eq_left h]
    have h1 : len - len + B - 1 = B - 1 := by omega
    rw [h1, Nat.div_eq_of_lt (by omega)]
    have h2 : len + B - 1 = (len - 1) + B := by omega
    rw [h2, Nat.add_div_right _ hB, Nat.div_eq_of_lt (by omega)]
  · rw [Nat.min_eq_right (by omega)]
    have h1 : len - B + B - 1 = len - 1 := by omega
    have h2 : len + B - 1 = (len - 1) + B := by omega
    rw [h1, h2, Nat.add_div_right _ hB]
    rfl

theorem ceil_pos (len B : Nat) (hB : 0 < B) (hl : 0 < len) : 1 ≤ (len + B - 1) / B := by
  have h2 : len + B - 1 = (len - 1) + B := by omega
  rw [h2, Nat.add_div_right _ hB]
  exact Nat.le_add_left 1 _

/-- The statement `if(count_block != req_blocks) { ... }` of `vfs_get` when `k` blocks of the
free list are taken and linked, `next_block` being the last of them: nothing changes when
`count_block` has reached `req_blocks`, and otherwise the next free block is taken and
linked after `next_block`. -/
theorem link_new_block_step (s0 s : FS) (fl : List Int) (k : Nat)
    (hp : path s0 s0.sb.free_block fl) (hnd : fl.Nodup)
    (hlen : (fl.length : Int) = s0.sb.n_free_blocks) (ha : Alloc s0 s fl k)
    (hlk : linked s fl k) (hk : 0 < k) (req : Nat) (new : Option Int) :
    (k = req → link_new_block s (req : Int) (k : Int) new (some (fl.getD (k - 1) (-1)))
        = some (s, (k : Int), new))
      ∧ (k ≠ req → k < fl.length →
          ∃ s1, link_new_block s (req : Int) (k : Int) new (some (fl.getD (k - 1) (-1)))
              = some (s1, ((k + 1 : Nat) : Int), some (fl.getD k (-1)))
            ∧ Alloc s0 s1 fl (k + 1) ∧ linked s1 fl (k + 1)) := by
  constructor
  · intro h
    unfold link_new_block
    rw [if_neg (by rw [h]; simp)]
  · intro hne hkl
    obtain ⟨t, hg⟩ := alloc_pop_some s0 s fl k hp hlen ha hkl
    have hvk := path_valid s0 fl _ hp _ (getD_mem hkl)
    rcases alloc_pop s0 s fl k hp hnd hlen ha t _ hg with ⟨_, e, _⟩ | ⟨_, _, _, ha1⟩
    · exfalso
      unfold valid_block at hvk
      omega
    rcases get_free_block_spec s t _ hg with ⟨_, e⟩ | ⟨_, _, g3, g4, g5, g6, g7⟩
    · exfalso
      unfold valid_block at hvk
      omega
    have hk1 : k - 1 < fl.length := by omega
    have hvn : valid_block t (fl.getD (k - 1) (-1)) :=
      (valid_block_congr s0 t ha1.ft _).2 (path_valid s0 fl _ hp _ (getD_mem hk1))
    have hne' : fl.getD k (-1) ≠ fl.getD (k - 1) (-1) := by
      intro he
      have := nodup_getD_inj _ hnd _ _ hkl hk1 he
      omega
    refine ⟨{ t with fat := store t.fat (fl.getD (k - 1) (-1)) (fl.getD k (-1)) }, ?_, ?_, ?_⟩
    · unfold link_new_block
      rw [if_pos (by
        intro h
        apply hne
        exact_mod_cast h), hg]
      simp only
      rw [if_pos hvn]
      push_cast
      rfl
    · exact alloc_link s0 t fl (k + 1) ha1 _ _ (getD_mem_take _ _ _ hk1 (by omega))
        (Or.inr (getD_mem_take _ _ _ hkl (by omega)))
    · intro j hj
      show store t.fat _ _ _ = _
      by_cases hj1 : j = k - 1
      · subst hj1
        rw [store_same, if_pos (by omega)]
        congr 1
        omega
      · have hjl : j < fl.length := by omega
        have hnej : fl.getD j (-1) ≠ fl.getD (k - 1) (-1) := by
          intro he
          exact hj1 (nodup_getD_inj _ hnd _ _ hjl hk1 he)
        rw [store_other _ _ _ _ hnej, g3]
        by_cases hjk : j = k
        · subst hjk
          rw [store_same, if_neg (by omega)]
        · have hnek : fl.getD j (-1) ≠ fl.getD k (-1) := by
            intro he
            exact hjk (nodup_getD_inj _ hnd _ _ hjl hkl he)
          rw [store_other _ _ _ _ hnek, hlk j (by omega), if_pos (by omega), if_pos (by omega)]

/-- The statement `if(count_block != req_blocks) { ... }` does not look at the data blocks. -/
theorem link_new_block_of_blocks (t : FS) (m : Int → Int) (req count : Int) (new : Option Int)
    (nx : Int) (t0 : FS) (c1 : Int) (n1 : Option Int) (hne : count ≠ req)
    (h : link_new_block { t with blocks := m } req count new (some nx) = some (t0, c1, n1)) :
    ∃ t1, link_new_block t req count new (some nx) = some (t1, c1, n1)
      ∧ t0 = { t1 with blocks := m } := by
  unfold link_new_block at h ⊢
  rw [if_pos hne] at h
  rw [if_pos hne]
  cases hg0 : get_free_block { t with blocks := m } with
  | none => rw [hg0] at h; simp at h
  | some q =>
    obtain ⟨u0, r⟩ := q
    obtain ⟨u, hg, hu⟩ := get_free_block_of_blocks t m u0 r hg0
    rw [hg0] at h
    rw [hg]
    simp only at h ⊢
    subst hu
    by_cases hv : valid_block u nx
    · have hv' : valid_block { u with blocks := m } nx := hv
      rw [if_pos hv'] at h
      rw [if_pos hv]
      simp only [Option.some.injEq, Prod.mk.injEq] at h
      obtain ⟨h1, h2, h3⟩ := h
      refine ⟨_, by rw [h2, h3], ?_⟩
      rw [← h1]
    · have hv' : ¬ valid_block { u with blocks := m } nx := hv
      rw [if_neg hv'] at h
      simp at h

/-- With nothing left to read there is no copy. -/
theorem copies_defined_nil (s : FS) (hbs : 0 ≤ s.sb.block_size) (hbs2 : s.sb.block_size ≤ 1024)
    (fuel j : Nat) (msg : Int → Int) : copies_defined s fuel j [] msg = true := by
  cases fuel with
  | zero => rfl
  | succ g =>
    unfold copies_defined
    have h0 : read_count s [] ≤ 0 := by
      unfold read_count
      rw [toU64_of_range hbs (by omega)]
      simp only [List.length_nil, Nat.cast_zero]
      omega
    simp only []
    rw [if_pos h0]

/-- The loop of `vfs_get` when every copy has defined behaviour: it returns; if the file has
bytes left it takes blocks of the free list until `req` are taken, each linked after the one
before, and otherwise it takes none.  What the copies write does not matter for the
superblock and the FAT, of which `Alloc` speaks here. -/
theorem vfs_get_loop_fat (s : FS) (f : InvFacts s) (B : Nat) (hB : (B : Int) = s.sb.block_size)
    (req : Nat) (hreq : req ≤ (free_blocks s).length) :
    ∀ (fuel : Nat) (t : FS) (k : Nat) (rest : List Int) (msg : Int → Int)
      (new next : Option Int),
      Alloc (add_dir_size s s.current_dir 1)
        { t with blocks := (add_dir_size s s.current_dir 1).blocks } (free_blocks s) k →
      linked t (free_blocks s) k → 0 < k → rest.length < fuel →
      copies_defined s fuel (k - 1) rest msg = true →
      (rest ≠ [] → next = some ((free_blocks s).getD (k - 1) (-1))
        ∧ k + (rest.length + B - 1) / B = req + 1) →
      ∃ t' k', vfs_get_loop t (req : Int) fuel rest msg (k : Int) new next = some t'
        ∧ Alloc (add_dir_size s s.current_dir 1)
            { t' with blocks := (add_dir_size s s.current_dir 1).blocks } (free_blocks s) k'
        ∧ linked t' (free_blocks s) k'
        ∧ k' = (if rest = [] then k else req) := by
  obtain ⟨_, hEge, hEle, hbsE, hN1, hN2⟩ := legal_geom s f.legal
  obtain ⟨hsb1, hfat1, hcd1, hmem1, hsize1⟩ := add_dir_size_spec s s.current_dir 1
  have hfp1 : path (add_dir_size s s.current_dir 1)
      (add_dir_size s s.current_dir 1).sb.free_block (free_blocks s) := by
    rw [hsb1]
    exact path_congr s _ (by rw [hsb1]) _ _ (fun x _ => by rw [hfat1]) f.fpath
  have hflen1 : ((free_blocks s).length : Int)
      = (add_dir_size s s.current_dir 1).sb.n_free_blocks := by rw [hsb1]; exact f.flen
  have hB1 : 128 ≤ B ∧ B ≤ 1024 := by omega
  have hBpos : 0 < B := by omega
  intro fuel
  induction fuel with
  | zero =>
    intro t k rest msg new next _ _ _ hf
    omega
  | succ fuel ih =>
    intro t k rest msg new next ha hlk hk hf hdef hinv
    have hbs : t.sb.block_size = s.sb.block_size := by
      have := ha.bs
      rw [hsb1] at this
      exact this
    have hft : t.sb.fat_type = s.sb.fat_type := by
      have := ha.ft
      rw [hsb1] at this
      exact this
    have hrc : read_count t rest = min (rest.length : Int) (B : Int) := by
      unfold read_count
      rw [hbs, ← hB, toU64_of_range (by omega) (by omega)]
    have hrcs : read_count s rest = min (rest.length : Int) (B : Int) := by
      unfold read_count
      rw [← hB, toU64_of_range (by omega) (by omega)]
    unfold vfs_get_loop
    simp only []
    rw [hrc]
    by_cases hr : rest = []
    · subst hr
      have h0 : min (((([] : List Int).length : Nat)) : Int) (B : Int) = 0 := by
        simp only [List.length_nil, Nat.cast_zero]
        omega
      rw [h0, if_neg (by omega), if_pos (le_refl _)]
      exact ⟨t, k, rfl, ha, hlk, by rw [if_pos rfl]⟩
    · have hlen1 : 0 < rest.length := List.length_pos.2 hr
      obtain ⟨hnext, hcount⟩ := hinv hr
      subst hnext
      have hm1 := ceil_pos rest.length B hBpos hlen1
      have hnmin : min (rest.length : Int) (B : Int) = ((min rest.length B : Nat) : Int) := by
        omega
      have hn1 : 0 < min rest.length B := by omega
      have hn2 : min rest.length B ≤ 1024 := by omega
      unfold copies_defined at hdef
      simp only [] at hdef
      rw [hrcs, hnmin] at hdef
      rw [hnmin]
      rw [if_neg (by omega)] at hdef
      rw [if_neg (by omega), if_neg (by omega)]
      simp only [Int.toNat_ofNat] at hdef ⊢
      cases hz : strlen_from (store_bytes msg 0 ((min rest.length B : Nat) : Int)
          (fun i => rest.getD i.toNat 0)) 4096 0 with
      | none =>
        rw [hz] at hdef
        simp at hdef
      | some z =>
        rw [hz] at hdef
        simp only [Bool.and_eq_true, decide_eq_true_eq] at hdef
        obtain ⟨hzB, hdef'⟩ := hdef
        have hk1 : k - 1 < (free_blocks s).length := by have := ha.k_le; omega
        have hnxv0 : valid_block s ((free_blocks s).getD (k - 1) (-1)) :=
          path_valid s _ _ f.fpath _ (getD_mem hk1)
        have hdroplen : (rest.drop (min rest.length B)).length < fuel := by
          simp only [List.length_drop]
          omega
        by_cases hkr : k = req
        · have hlnk : link_new_block t (req : Int) (k : Int) new
              (some ((free_blocks s).getD (k - 1) (-1))) = some (t, (k : Int), new) := by
            unfold link_new_block
            rw [if_neg (by rw [hkr]; simp)]
          rw [hlnk]
          simp only []
          have hv : valid_block t ((free_blocks s).getD (k - 1) (-1))
              ∧ BLOCK t ((free_blocks s).getD (k - 1) (-1)) + z < data_size t := by
            refine ⟨(valid_block_congr s t hft _).2 hnxv0, ?_⟩
            rw [BLOCK_congr s t hbs, data_size_congr s t hbs hft]
            exact hzB
          rw [if_pos hv]
          have hm : (rest.length + B - 1) / B = 1 := by omega
          have hle : rest.length ≤ B := by
            by_contra hcon
            have : 2 ≤ (rest.length + B - 1) / B :=
              (Nat.le_div_iff_mul_le hBpos).2 (by omega)
            omega
          have hdrop : rest.drop (min rest.length B) = [] := by
            apply List.drop_eq_nil_of_le
            omega
          obtain ⟨t', k', h1, h2, h3, h4⟩ := ih
            { t with blocks := (store_bytes t.blocks
                (BLOCK t ((free_blocks s).getD (k - 1) (-1))) (z + 1)
                (store_bytes msg 0 ((min rest.length B : Nat) : Int)
                  (fun i => rest.getD i.toNat 0))) }
            k (rest.drop (min rest.length B))
            (store_bytes msg 0 ((min rest.length B : Nat) : Int) (fun i => rest.getD i.toNat 0))
            new new ha (fun j hj => hlk j hj) hk hdroplen
            (by
              rw [hdrop]
              exact copies_defined_nil s (by omega) (by omega) _ _ _)
            (fun hne => absurd hdrop hne)
          refine ⟨t', k', h1, h2, h3, ?_⟩
          rw [h4, if_pos hdrop, if_neg hr, hkr]
        · have hkl : k < (free_blocks s).length := by omega
          obtain ⟨_, hstep2⟩ := link_new_block_step (add_dir_size s s.current_dir 1)
            { t with blocks := (add_dir_size s s.current_dir 1).blocks } (free_blocks s) k hfp1
            f.fnd hflen1 ha (fun j hj => hlk j hj) hk req new
          obtain ⟨t0, hlnk0, ha0, hlk0⟩ := hstep2 hkr hkl
          obtain ⟨t1, hlnk, ht0⟩ := link_new_block_of_blocks t _ _ _ _ _ _ _ _
            (by
              intro h
              apply hkr
              exact_mod_cast h) hlnk0
          subst ht0
          rw [hlnk]
          simp only []
          have hbs1 : t1.sb.block_size = s.sb.block_size := by
            have := ha0.bs
            rw [hsb1] at this
            exact this
          have hft1 : t1.sb.fat_type = s.sb.fat_type := by
            have := ha0.ft
            rw [hsb1] at this
            exact this
          have hv : valid_block t1 ((free_blocks s).getD (k - 1) (-1))
              ∧ BLOCK t1 ((free_blocks s).getD (k - 1) (-1)) + z < data_size t1 := by
            refine ⟨(valid_block_congr s t1 hft1 _).2 hnxv0, ?_⟩
            rw [BLOCK_congr s t1 hbs1, data_size_congr s t1 hbs1 hft1]
            exact hzB
          rw [if_pos hv]
          have hcd := ceil_drop rest.length B hBpos hlen1
          have hrest' : rest.drop (min rest.length B) ≠ [] := by
            intro hnil
            have h0 := congrArg List.length hnil
            simp only [List.length_drop, List.length_nil] at h0
            rw [h0] at hcd
            have : (0 + B - 1) / B = 0 := Nat.div_eq_of_lt (by omega)
            omega
          have hkk : k - 1 + 1 = k + 1 - 1 := by omega
          obtain ⟨t', k', h1, h2, h3, h4⟩ := ih
            { t1 with blocks := (store_bytes t1.blocks
                (BLOCK t1 ((free_blocks s).getD (k - 1) (-1))) (z + 1)
                (store_bytes msg 0 ((min rest.length B : Nat) : Int)
                  (fun i => rest.getD i.toNat 0))) }
            (k + 1) (rest.drop (min rest.length B))
            (store_bytes msg 0 ((min rest.length B : Nat) : Int) (fun i => rest.getD i.toNat 0))
            (some ((free_blocks s).getD k (-1))) (some ((free_blocks s).getD k (-1))) ha0
            (fun j hj => hlk0 j hj) (by omega) hdroplen
            (by rw [← hkk]; exact hdef')
            (fun _ => ⟨by simp, by
              simp only [List.length_drop]
              rw [hcd]
              omega⟩)
          refine ⟨t', k', h1, h2, h3, ?_⟩
          rw [h4, if_neg hrest', if_neg hr]

/-- The removal of the last entry of a directory of three blocks, the case in which
`vfs_rmdir` cuts the chain at the right block: after `mkdir d0`, ..., `mkdir d6`, `rmdir d6`
leaves the chain 0, 4 with `fat[4] = -1`. -/
theorem rmdir_last_entry_three_blocks :
    printed (andThen session_seven_dirs (fun s => vfs_rmdir s (cstr "d6"))) = some []
      ∧ observe (andThen session_seven_dirs (fun s => vfs_rmdir s (cstr "d6")))
          (fun s => (live_count s, chain s 0, s.fat 0, s.fat 4)) = some (8, some [0, 4], 4, -1) := by
  unfold session_seven_dirs
  rw [start_closed]
  decide!

/-! ## The nested image -/

theorem entry_bytes_first_block (ty : Int) (nm : List Int) (sz fb : Int) :
    load_int (entry_bytes ty nm sz fb) 28 = toI32 fb := by
  unfold entry_bytes
  exact load_int_store_int _ _ _

theorem entry_bytes_size (ty : Int) (nm : List Int) (sz fb : Int) :
    load_int (entry_bytes ty nm sz fb) 24 = toI32 sz := by
  unfold entry_bytes
  rw [load_int_store_int_other _ _ _ _ (by omega)]
  exact load_int_store_int _ _ _

theorem entry_bytes_name (ty : Int) (nm : List Int) (sz fb : Int) (hlen : nm.length ≤ 19)
    (i : Nat) (hi : i ≤ nm.length) :
    entry_bytes ty nm sz fb (1 + (i : Int)) = (nm ++ [0]).getD i 0 := by
  unfold entry_bytes
  rw [store_int_other _ _ _ _ (by omega), store_int_other _ _ _ _ (by omega),
    store_other _ _ _ _ (by omega), store_other _ _ _ _ (by omega),
    store_other _ _ _ _ (by omega), store_bytes_inside _ _ _ _ _ (by omega) (by omega)]
  have : (1 + (i : Int) - 1).toNat = i := by omega
  simp only [this]

/-- The bytes of the entries of `nested_image k`. -/
theorem nested_blocks (k : Nat) (c : Int) (b e f : Int) (hb : 0 ≤ b) (hbk : b ≤ (k : Int))
    (he : 0 ≤ e) (he4 : e < 4) (hf : 0 ≤ f) (hf32 : f < 32) :
    (nested_cd k c).blocks (b * 128 + 32 * e + f)
      = if e = 0 then entry_bytes TYPE_DIR [46] (if b < (k : Int) then 3 else 2) b f
        else if e = 1 then entry_bytes TYPE_DIR [46, 46] 0 (if b = 0 then 0 else b - 1) f
        else if e = 2 ∧ b < (k : Int) then entry_bytes TYPE_DIR name19 0 (b + 1) f
        else 0 := by
  have h1 : (b * 128 + 32 * e + f) / 128 = b := by omega
  have h2 : (b * 128 + 32 * e + f) % 128 / 32 = e := by omega
  have h3 : (b * 128 + 32 * e + f) % 32 = f := by omega
  show (nested_image k).blocks _ = _
  unfold nested_image
  simp only [h1, h2, h3]
  rw [if_pos ⟨hb, hbk⟩]

theorem nested_load (k : Nat) (c : Int) (b e off : Int) (g : Int → Int) (hoff : 0 ≤ off)
    (hoff4 : off + 4 ≤ 32)
    (hg : ∀ f, 0 ≤ f → f < 32 → (nested_cd k c).blocks (b * 128 + 32 * e + f) = g f) :
    load_int (nested_cd k c).blocks (b * 128 + 32 * e + off) = load_int g off := by
  unfold load_int
  have e1 : b * 128 + 32 * e + off + 1 = b * 128 + 32 * e + (off + 1) := by ring
  have e2 : b * 128 + 32 * e + off + 2 = b * 128 + 32 * e + (off + 2) := by ring
  have e3 : b * 128 + 32 * e + off + 3 = b * 128 + 32 * e + (off + 3) := by ring
  rw [e1, e2, e3, hg off hoff (by omega), hg (off + 1) (by omega) (by omega),
    hg (off + 2) (by omega) (by omega), hg (off + 3) (by omega) (by omega)]

theorem nested_entry_addr (k : Nat) (c : Int) (b e : Int) :
    entry_addr (nested_cd k c) b e = b * 128 + 32 * e := rfl

theorem nested_valid (k : Nat) (c : Int) (b : Int) (hb : 0 ≤ b) (hb' : b < 128) :
    valid_block (nested_cd k c) b := ⟨hb, hb'⟩

theorem nested_data_size (k : Nat) (c : Int) : data_size (nested_cd k c) = 16384 := rfl

/-- The `..` entry of the directory at depth `b` points to the directory above. -/
theorem nested_parent (k : Nat) (c : Int) (hk : k ≤ 127) (b : Int) (hb : 0 ≤ b) (hbk : b ≤ (k : Int)) :
    e_first_block (nested_cd k c) (entry_addr (nested_cd k c) b 1)
      = if b = 0 then 0 else b - 1 := by
  unfold e_first_block
  rw [nested_entry_addr k c, nested_load k c b 1 28
    (entry_bytes TYPE_DIR [46, 46] 0 (if b = 0 then 0 else b - 1)) (by omega) (by omega)
    (fun f h0 h1 => by
      rw [nested_blocks k c b 1 f hb hbk (by omega) (by omega) h0 h1, if_neg (by omega),
        if_pos rfl]),
    entry_bytes_first_block]
  apply toI32_of_range <;> split_ifs <;> omega

/-- The `.` entry of the directory at depth `b`. -/
theorem nested_self (k : Nat) (c : Int) (hk : k ≤ 127) (b : Int) (hb : 0 ≤ b) (hbk : b ≤ (k : Int)) :
    e_first_block (nested_cd k c) (entry_addr (nested_cd k c) b 0) = b
      ∧ e_size (nested_cd k c) (entry_addr (nested_cd k c) b 0) = if b < (k : Int) then 3 else 2 := by
  have hg : ∀ f, 0 ≤ f → f < 32 → (nested_cd k c).blocks (b * 128 + 32 * 0 + f)
      = entry_bytes TYPE_DIR [46] (if b < (k : Int) then 3 else 2) b f := by
    intro f h0 h1
    rw [nested_blocks k c b 0 f hb hbk (by omega) (by omega) h0 h1, if_pos rfl]
  constructor
  · unfold e_first_block
    rw [nested_entry_addr k c, nested_load k c b 0 28 _ (by omega) (by omega) hg,
      entry_bytes_first_block]
    apply toI32_of_range <;> omega
  · unfold e_size
    rw [nested_entry_addr k c, nested_load k c b 0 24 _ (by omega) (by omega) hg,
      entry_bytes_size]
    apply toI32_of_range <;> split_ifs <;> omega

/-- The third entry of the directory at depth `b < k`: the directory below, named
`name19`. -/
theorem nested_child (k : Nat) (c : Int) (hk : k ≤ 127) (b : Int) (hb : 0 ≤ b) (hbk : b < (k : Int)) :
    e_first_block (nested_cd k c) (entry_addr (nested_cd k c) b 2) = b + 1
      ∧ stored (nested_cd k c) (entry_addr (nested_cd k c) b 2 + 1) name19 := by
  have hg : ∀ f, 0 ≤ f → f < 32 → (nested_cd k c).blocks (b * 128 + 32 * 2 + f)
      = entry_bytes TYPE_DIR name19 0 (b + 1) f := by
    intro f h0 h1
    rw [nested_blocks k c b 2 f hb (by omega) (by omega) (by omega) h0 h1, if_neg (by omega),
      if_neg (by omega), if_pos ⟨rfl, hbk⟩]
  have hlen : name19.length = 19 := rfl
  refine ⟨?_, ?_, ?_⟩
  · unfold e_first_block
    rw [nested_entry_addr k c, nested_load k c b 2 28 _ (by omega) (by omega) hg,
      entry_bytes_first_block]
    apply toI32_of_range <;> omega
  · intro i hi
    rw [nested_entry_addr k c]
    have e1 : b * 128 + 32 * 2 + 1 + (i : Int) = b * 128 + 32 * 2 + (1 + (i : Int)) := by ring
    rw [e1, hg _ (by omega) (by omega), entry_bytes_name _ _ _ _ (by omega) i (by omega),
      List.getD_append _ _ _ _ hi]
  · rw [nested_entry_addr k c]
    have e1 : b * 128 + 32 * 2 + 1 + ((name19.length : Nat) : Int)
        = b * 128 + 32 * 2 + (1 + ((19 : Nat) : Int)) := by rw [hlen]; ring
    rw [e1, hg _ (by omega) (by omega), entry_bytes_name _ _ _ _ (by omega) 19 (by omega)]
    rfl

/-- A stored string is read whole. -/
theorem read_string_stored (s : FS) : ∀ (x : List Int) (fuel : Nat) (p : Int),
    x.length < fuel → 0 ≤ p → p + (x.length : Int) < data_size s → CStr x → stored s p x →
    read_string s fuel p = some x := by
  intro x
  induction x with
  | nil =>
    intro fuel p hf h0 h1 _ hs
    obtain ⟨g, rfl⟩ : ∃ g, fuel = g + 1 := ⟨fuel - 1, by simp at hf; omega⟩
    unfold read_string
    have hz := hs.2
    simp only [List.length_nil, Nat.cast_zero, add_zero] at hz h1
    rw [if_pos ⟨h0, h1⟩, if_pos hz]
  | cons c cs ih =>
    intro fuel p hf h0 h1 hc hs
    simp only [List.length_cons] at hf h1
    obtain ⟨g, rfl⟩ : ∃ g, fuel = g + 1 := ⟨fuel - 1, by omega⟩
    unfold read_string
    have hp : s.blocks p = c := by
      have := hs.1 0 (by simp)
      simpa using this
    have hc0 : c ≠ 0 := hc c (by simp)
    rw [if_pos ⟨h0, by push_cast at h1; omega⟩, hp, if_neg hc0]
    have hs' : stored s (p + 1) cs := by
      refine ⟨fun i hi => ?_, ?_⟩
      · have := hs.1 (i + 1) (by simp; omega)
        simp only [List.getD_cons_succ] at this
        rw [← this]
        push_cast
        ring_nf
      · have := hs.2
        simp only [List.length_cons] at this
        rw [← this]
        push_cast
        ring_nf
    rw [ih g (p + 1) (by omega) (by omega) (by push_cast at h1; omega)
      (fun y hy => hc y (by simp [hy])) hs']
    rfl

/-- The loop of `vfs_pwd` over the entries of the directory at depth `d` finds the entry of
the directory below in slot 2. -/
theorem nested_scan (k : Nat) (c : Int) (hk : k ≤ 127) (d : Int) (hd : 0 ≤ d) (hdk : d < (k : Int)) :
    scan_dir (nested_cd k c) (fun a => some (decide (e_first_block (nested_cd k c) a = d + 1))) 3 0
        d d = some (some ⟨2, d, d, 2⟩) := by
  have hu0 : umod (nested_cd k c) 0 = some 0 := rfl
  have hu1 : umod (nested_cd k c) (0 + 1) = some 1 := rfl
  have hu2 : umod (nested_cd k c) (0 + 1 + 1) = some 2 := rfl
  have hv : valid_block (nested_cd k c) d := nested_valid k c d hd (by omega)
  have t0 : decide (e_first_block (nested_cd k c) (entry_addr (nested_cd k c) d 0) = d + 1)
      = false := by
    rw [(nested_self k c hk d hd (by omega)).1]
    exact decide_eq_false (by omega)
  have t1 : decide (e_first_block (nested_cd k c) (entry_addr (nested_cd k c) d 1) = d + 1)
      = false := by
    rw [nested_parent k c hk d hd (by omega)]
    exact decide_eq_false (by split_ifs <;> omega)
  have t2 : decide (e_first_block (nested_cd k c) (entry_addr (nested_cd k c) d 2) = d + 1)
      = true := by
    rw [(nested_child k c hk d hd hdk).1]
    exact decide_eq_true rfl
  unfold scan_dir
  rw [hu0]
  simp only []
  rw [if_neg (by simp)]
  simp only []
  rw [if_pos hv, t0]
  simp only []
  unfold scan_dir
  rw [hu1]
  simp only []
  rw [if_neg (by simp)]
  simp only []
  rw [if_pos hv, t1]
  simp only []
  unfold scan_dir
  rw [hu2]
  simp only []
  rw [if_neg (by simp)]
  simp only []
  rw [if_pos hv, t2]
  simp only []
  rfl

/-- The loop of `vfs_pwd` in the nested image: from depth `d` it goes up `d` directories. -/
theorem pwd_nested_loop (k : Nat) (c : Int) (hk : k ≤ 127) : ∀ (d fuel : Nat) (name : List Int),
    d ≤ k → d < fuel → vfs_pwd_loop (nested_cd k c) fuel (d : Int) name = pwd_iter d name := by
  intro d
  induction d with
  | zero =>
    intro fuel name _ hf
    obtain ⟨g, rfl⟩ : ∃ g, fuel = g + 1 := ⟨fuel - 1, by omega⟩
    unfold vfs_pwd_loop pwd_iter
    rw [if_pos (by simp)]
  | succ d ih =>
    intro fuel name hdk hf
    obtain ⟨g, rfl⟩ : ∃ g, fuel = g + 1 := ⟨fuel - 1, by omega⟩
    have hd1 : (((d + 1 : Nat)) : Int) = (d : Int) + 1 := by push_cast; rfl
    obtain ⟨F, hF⟩ : ∃ F : Nat, F = 1024 := ⟨_, rfl⟩
    unfold vfs_pwd_loop pwd_iter
    rw [← hF, hd1, if_neg (by omega),
      if_pos ⟨nested_valid k c _ (by omega) (by omega), by
        rw [nested_entry_addr k c, nested_data_size k c]
        unfold sizeof_dir_entry
        omega⟩]
    simp only []
    have hne : ¬ ((d : Int) + 1 = 0) := by omega
    have e1 : (d : Int) + 1 - 1 = (d : Int) := by omega
    have hlt : (d : Int) < (k : Int) := by omega
    rw [nested_parent k c hk _ (by omega) (by omega), if_neg hne, e1,
      if_pos (nested_valid k c (d : Int) (by omega) (by omega)),
      (nested_self k c hk (d : Int) (by omega) (by omega)).2, if_pos hlt]
    have e3 : (3 : Int).toNat = 3 := rfl
    rw [e3, nested_scan k c hk (d : Int) (by omega) (by omega)]
    simp only []
    have hl19 : name19.length < F := by
      have : name19.length = 19 := rfl
      omega
    rw [read_string_stored (nested_cd k c) name19 F _ hl19
      (by rw [nested_entry_addr k c]; omega)
      (by
        rw [nested_entry_addr k c, nested_data_size k c]
        have : ((name19.length : Nat) : Int) = 19 := rfl
        rw [this]
        omega)
      (by decide) (nested_child k c hk (d : Int) (by omega) (by omega)).2]
    simp only []
    cases hp : pwd_prepend name19 name with
    | none => rfl
    | some name1 =>
      simp only [Option.bind_some]
      exact ih g name1 (by omega) (by omega)

/-- In the nested image `vfs_pwd` goes up from the innermost directory to the root. -/
theorem pwd_nested (k : Nat) (hk : k ≤ 127) (c : Nat) (hc : c ≤ k) :
    vfs_pwd (nested_cd k (c : Int)) = pwd_iter c [47] := by
  unfold vfs_pwd
  exact pwd_nested_loop k (c : Int) hk c _ [47] hc (by
    have : fat_fuel (nested_cd k (c : Int)) = 129 := rfl
    rw [this]
    omega)

theorem strcmp_eq_first_ne (s : FS) (p c v : Int) (cs : List Int) (h0 : 0 ≤ p)
    (h1 : p < data_size s) (hv : s.blocks p = v) (hne : v ≠ c) :
    strcmp_eq s p (c :: cs) = some false := by
  unfold strcmp_eq
  rw [if_pos ⟨h0, h1⟩, hv, if_neg hne]

/-- In the nested image the name of the directory below resolves to it. -/
theorem nested_find (k : Nat) (c : Int) (hk : k ≤ 127) (d : Int) (hd : 0 ≤ d)
    (hdk : d < (k : Int)) :
    find_dir_entry (nested_cd k c) (entry_addr (nested_cd k c) d 0) name19
      = some (some (entry_addr (nested_cd k c) d 2)) := by
  have hv : valid_block (nested_cd k c) d := nested_valid k c d hd (by omega)
  have hn : name19 = 100 :: List.replicate 18 100 := rfl
  have hb0 : (nested_cd k c).blocks (d * 128 + 1) = 46 := by
    have h := nested_blocks k c d 0 1 hd (by omega) (by omega) (by omega) (by omega) (by omega)
    rw [if_pos rfl] at h
    have e : d * 128 + 1 = d * 128 + 32 * 0 + 1 := by omega
    rw [e, h]
    exact entry_bytes_name TYPE_DIR [46] _ _ (by simp) 0 (by simp)
  have hb1 : (nested_cd k c).blocks (d * 128 + 32 + 1) = 46 := by
    have h := nested_blocks k c d 1 1 hd (by omega) (by omega) (by omega) (by omega) (by omega)
    rw [if_neg (by omega), if_pos rfl] at h
    have e : d * 128 + 32 + 1 = d * 128 + 32 * 1 + 1 := by omega
    rw [e, h]
    exact entry_bytes_name TYPE_DIR [46, 46] _ _ (by simp) 0 (by simp)
  have hs0 : strcmp_eq (nested_cd k c) (d * 128 + 1) name19 = some false := by
    rw [hn]
    exact strcmp_eq_first_ne _ _ _ _ _ (by omega) (by rw [nested_data_size]; omega) hb0
      (by decide)
  have hs1 : strcmp_eq (nested_cd k c) (d * 128 + 32 + 1) name19 = some false := by
    rw [hn]
    exact strcmp_eq_first_ne _ _ _ _ _ (by omega) (by rw [nested_data_size]; omega) hb1
      (by decide)
  have hlen : ((name19.length : Nat) : Int) = 19 := rfl
  have hs2 : strcmp_eq (nested_cd k c) (d * 128 + 32 + 32 + 1) name19 = some true := by
    have h := (nested_child k c hk d hd hdk).2
    rw [nested_entry_addr] at h
    have e : d * 128 + 32 + 32 + 1 = d * 128 + 32 * 2 + 1 := by omega
    rw [e]
    exact strcmp_eq_stored _ _ _ h (by omega) (by rw [nested_data_size, hlen]; omega)
  unfold find_dir_entry
  rw [if_pos ⟨by rw [nested_entry_addr]; omega, by
      rw [nested_entry_addr, nested_data_size]
      unfold sizeof_dir_entry
      omega⟩,
    (nested_self k c hk d hd (by omega)).2, if_pos hdk, (nested_self k c hk d hd (by omega)).1]
  have hfuel : fat_fuel (nested_cd k c) = 128 + 1 := rfl
  have hE : (toU32 (DIR_ENTRIES_PER_BLOCK (nested_cd k c))).toNat = 3 + 1 := rfl
  have hB : BLOCK (nested_cd k c) d = d * 128 := rfl
  have hS : sizeof_dir_entry = 32 := rfl
  have h3 : toU32 3 = 3 := rfl
  rw [hfuel]
  unfold find_dir_entry_while
  rw [if_neg (by omega), if_pos hv, hE, hB]
  unfold find_dir_entry_for
  rw [h3, if_pos (by omega), hs0]
  simp only []
  unfold find_dir_entry_for
  rw [if_pos (by omega), hS, hs1]
  simp only []
  unfold find_dir_entry_for
  rw [if_pos (by omega), hs2]
  simp only []
  rw [nested_entry_addr]
  have e : d * 128 + 32 + 32 = d * 128 + 32 * 2 := by omega
  rw [e]

/-- In the nested image `cd N` enters the directory below. -/
theorem nested_cd_step (k : Nat) (hk : k ≤ 127) (d : Int) (hd : 0 ≤ d) (hdk : d < (k : Int)) :
    vfs_cd (nested_cd k d) name19 = some (nested_cd k (d + 1), []) := by
  unfold vfs_cd
  have hc : (nested_cd k d).current_dir = d := rfl
  rw [hc, nested_find k d hk d hd hdk]
  simp only []
  rw [(nested_child k d hk d hd hdk).1]
  rfl

/-- A command that returns, run in a session. -/
theorem andThen_some (s : FS) (msgs : List Msg) (f : FS → Option (FS × List Msg)) (s1 : FS)
    (out : List Msg) (h : f s = some (s1, out)) :
    andThen (some (s, msgs)) f = some (s1, msgs ++ out) := by
  unfold andThen
  show Option.map (fun q => (q.1, msgs ++ q.2)) (f s) = _
  rw [h]
  rfl

/-- In the nested image `cd N` repeated `j` times from the root leads to depth `j`. -/
theorem cd_nested_spec (k : Nat) (hk : k ≤ 127) : ∀ j : Nat, j ≤ k →
    cd_nested (some (nested_image k, [])) j = some (nested_cd k (j : Int), []) := by
  intro j
  induction j with
  | zero =>
    intro _
    rfl
  | succ j ih =>
    intro hj
    have hstep : cd_nested (some (nested_image k, [])) (j + 1)
        = andThen (cd_nested (some (nested_image k, [])) j) (fun s => vfs_cd s name19) := by
      unfold cd_nested
      rw [List.range_succ, List.foldl_append]
      rfl
    rw [hstep, ih (by omega)]
    have hj1 : ((j + 1 : Nat) : Int) = (j : Int) + 1 := by push_cast; rfl
    rw [hj1]
    exact andThen_some _ _ _ _ _ (nested_cd_step k hk (j : Int) (by omega) (by omega))

/-! ## The claims -/

/-- C1 (the code departs from the claim): on a new image, `get F a` for the 3-byte host file
`41 00 42` followed by `put a G` writes 128 bytes to `G`, namely `41` and 127 NUL bytes:
neither the length nor the third byte of `F`. -/
theorem C1_get_put_not_identity :
    session_get_nul.bind (fun r => vfs_put r.1 (cstr "a"))
        = some ([], some (65 :: List.replicate 127 0))
      ∧ (65 :: List.replicate 127 0 : List Int) ≠ [65, 0, 66] := by
  unfold session_get_nul
  rw [start_closed]
  decide!

/-- C2 (the code departs from the claim): with the files `a` (size 2, first block 1) and `c`
(size 4, first block 2) in the root, `a` not being the last entry, `mv a b` leaves an entry
`b` with the size of `a` and the first block of `c`; no entry points to block 1 any more. -/
theorem C2_mv_takes_chain_of_last_entry :
    observe session_two_files (fun s => lookup s (cstr "a")) = some (some (some ⟨TYPE_FILE, 2, 1⟩))
      ∧ observe session_two_files (fun s => lookup s (cstr "c"))
          = some (some (some ⟨TYPE_FILE, 4, 2⟩))
      ∧ printed (andThen session_two_files (fun s => vfs_mv s today (cstr "a") (cstr "b")))
          = some []
      ∧ observe (andThen session_two_files (fun s => vfs_mv s today (cstr "a") (cstr "b")))
          (fun s => lookup s (cstr "b")) = some (some (some ⟨TYPE_FILE, 2, 2⟩))
      ∧ observe (andThen session_two_files (fun s => vfs_mv s today (cstr "a") (cstr "b")))
          (fun s => lookup s (cstr "c")) = some (some (some ⟨TYPE_FILE, 4, 2⟩))
      ∧ observe (andThen session_two_files (fun s => vfs_mv s today (cstr "a") (cstr "b")))
          (fun s => lookup s (cstr "a")) = some (some none) := by
  unfold session_two_files
  rw [start_closed]
  decide!

/-- C3 (the code departs from the claim): a file `a` of size 4 stored in block 1 with the
bytes `44 00 43 00` is copied by `cp a b` to a file `b` of size 4 in block 2 whose bytes are
`44 00 00 00`: the byte after the first NUL is not copied. -/
theorem C3_cp_stops_at_nul :
    printed (andThen session_reused_block (fun s => vfs_cp s today (cstr "a") (cstr "b")))
        = some []
      ∧ observe (andThen session_reused_block (fun s => vfs_cp s today (cstr "a") (cstr "b")))
          (fun s => (lookup s (cstr "a"), write_block s 1 4))
        = some (some (some ⟨TYPE_FILE, 4, 1⟩), some [68, 0, 67, 0])
      ∧ observe (andThen session_reused_block (fun s => vfs_cp s today (cstr "a") (cstr "b")))
          (fun s => (lookup s (cstr "b"), write_block s 2 4))
        = some (some (some ⟨TYPE_FILE, 4, 2⟩), some [68, 0, 0, 0]) := by
  unfold session_reused_block
  rw [start_closed]
  decide!

/-- C4 (the code departs from the claim): in the image that holds the one file `a` (which
satisfies the invariants) the name of 20 characters is absent; `cp a <name>` prints nothing,
and so does the `rm a` that follows.  The entry the copy writes in slot 3 of block 0 is a
file entry whose byte `day`, where the NUL of the name was written, holds 30; the name
resolves neither after the copy nor after `rm a`, which leaves 3 live entries. -/
theorem C4_cp_name20_then_rm :
    Inv image_one_file
      ∧ lookup image_one_file name20 = some none
      ∧ printed (vfs_cp image_one_file today (cstr "a") name20) = some []
      ∧ observe (vfs_cp image_one_file today (cstr "a") name20)
          (fun s => (e_type s (entry_addr s 0 3), e_day s (entry_addr s 0 3)))
        = some (TYPE_FILE, 30)
      ∧ observe (vfs_cp image_one_file today (cstr "a") name20) (fun s => lookup s name20)
          = some (some none)
      ∧ printed (andThen (vfs_cp image_one_file today (cstr "a") name20)
          (fun s => vfs_rm s (cstr "a"))) = some []
      ∧ observe (andThen (vfs_cp image_one_file today (cstr "a") name20)
          (fun s => vfs_rm s (cstr "a"))) (fun s => (live_count s, lookup s name20))
          = some (3, some none) := by
  refine ⟨inv_image_one_file, ?_⟩
  unfold image_one_file
  rw [new_image_closed]
  decide!

/-- C5 (the code departs from the claim): `vfs_mkdir` accepts a name of 20 characters, and
the `vfs_rmdir` of that name that follows reports that the entry does not exist; the live
count of the root stays at 3 and `n_free_blocks` at 126, against 2 and 127 before. -/
theorem C5_mkdir_rmdir_name20 :
    observe start (fun s => (live_count s, s.sb.n_free_blocks)) = some (2, 127)
      ∧ printed (andThen start (fun s => vfs_mkdir s today name20)) = some []
      ∧ observe (andThen start (fun s => vfs_mkdir s today name20))
          (fun s => (live_count s, s.sb.n_free_blocks)) = some (3, 126)
      ∧ printed (andThen (andThen start (fun s => vfs_mkdir s today name20))
          (fun s => vfs_rmdir s name20)) = some [Msg.rmdir_no_entry]
      ∧ observe (andThen (andThen start (fun s => vfs_mkdir s today name20))
          (fun s => vfs_rmdir s name20))
          (fun s => (live_count s, s.sb.n_free_blocks)) = some (3, 126) := by
  rw [start_closed]
  decide!

/-- C6 (the code departs from the claim): after `mkdir d0`, `mkdir d1`, `get F a`, `mv a b`
on a new image the free list has 124 blocks and `n_free_blocks` is 123; block 4, the last
block of the root directory, ends the free list. -/
theorem C6_free_list_longer_than_count :
    printed (andThen session_five_entries (fun s => vfs_mv s today (cstr "a") (cstr "b")))
        = some []
      ∧ observe (andThen session_five_entries (fun s => vfs_mv s today (cstr "a") (cstr "b")))
          (fun s => (s.sb.n_free_blocks, (free_list s).map List.length)) = some (123, some 124)
      ∧ observe (andThen session_five_entries (fun s => vfs_mv s today (cstr "a") (cstr "b")))
          (fun s => ((free_list s).map List.getLast?, chain s 0))
        = some (some (some 4), some [0, 4]) := by
  unfold session_five_entries
  rw [start_closed]
  decide!

/-- C7 (the code departs from the claim): after `mkdir d0`, `mkdir d1`, `get F a`, `rm a` the
free list starts `4, 3` and the chain of the root directory starts `0, 4, 3`: block 4 is in
both.  After the `mkdir e` that follows, the chain of the root is `0, 4, 3`, the entry
written for `e` (slot 0 of block 3) is a directory with first block 4, and the chain of that
directory is `4, 3`. -/
theorem C7_block_in_two_chains :
    printed (andThen session_five_entries (fun s => vfs_rm s (cstr "a"))) = some []
      ∧ observe (andThen session_five_entries (fun s => vfs_rm s (cstr "a")))
          (fun s => ((free_list s).map (fun l => l.take 2), (chain s 0).map (fun l => l.take 3)))
        = some (some [4, 3], some [0, 4, 3])
      ∧ printed (andThen (andThen session_five_entries (fun s => vfs_rm s (cstr "a")))
          (fun s => vfs_mkdir s today (cstr "e"))) = some []
      ∧ observe (andThen (andThen session_five_entries (fun s => vfs_rm s (cstr "a")))
          (fun s => vfs_mkdir s today (cstr "e")))
          (fun s => (chain s 0, chain s 4)) = some (some [0, 4, 3], some [4, 3])
      ∧ observe (andThen (andThen session_five_entries (fun s => vfs_rm s (cstr "a")))
          (fun s => vfs_mkdir s today (cstr "e")))
          (fun s => (name_is s (cstr "e") (entry_addr s 3 0), e_type s (entry_addr s 3 0),
                     e_first_block s (entry_addr s 3 0)))
        = some (some true, TYPE_DIR, 4) := by
  unfold session_five_entries
  rw [start_closed]
  decide!

/-- C8 (the code departs from the claim): on a new image `rmdir .` prints no error, puts block
0 at the head of the free list and leaves in slot 0 of block 0 a copy of the `..` entry with
size -1; `rmdir ..` puts block 0 at the head of the free list as well and leaves the `.`
entry with size 1. -/
theorem C8_rmdir_dot_frees_root :
    printed (andThen start (fun s => vfs_rmdir s (cstr "."))) = some []
      ∧ observe (andThen start (fun s => vfs_rmdir s (cstr ".")))
          (fun s => (s.sb.free_block, (free_list s).map (fun l => l.take 2))) = some (0, some [0, 1])
      ∧ observe (andThen start (fun s => vfs_rmdir s (cstr ".")))
          (fun s => (strcmp_eq s 1 (cstr ".."), e_size s 0)) = some (some true, -1)
      ∧ printed (andThen start (fun s => vfs_rmdir s (cstr ".."))) = some []
      ∧ observe (andThen start (fun s => vfs_rmdir s (cstr "..")))
          (fun s => (s.sb.free_block, (free_list s).map (fun l => l.take 2))) = some (0, some [0, 1])
      ∧ observe (andThen start (fun s => vfs_rmdir s (cstr "..")))
          (fun s => (strcmp_eq s 1 (cstr "."), e_size s 0)) = some (some true, 1) := by
  rw [start_closed]
  decide!

/-- C9: when `vfs_get` prints the line "disk space is full" (and nothing else), the state it
returns is the state it was called on (superblock, FAT, data blocks and `current_dir`), and
the line is printed because `n_free_blocks` is smaller than the number of content blocks
`(req_size + block_size - 1) / block_size` plus one when the live count of the current
directory is a multiple of `DIR_ENTRIES_PER_BLOCK`. -/
theorem C9_get_disk_full_atomic (s : FS) (now : tm) (msg : Int → Int) (host : HostFile)
    (nome_dest : List Int)
    (h : (vfs_get s now msg host nome_dest).map Prod.snd = some [Msg.get_disk_full]) :
    (vfs_get s now msg host nome_dest).map Prod.fst = some s
      ∧ ∃ bytes r, host = HostFile.regular bytes ∧ umod s (live_count s) = some r
          ∧ s.sb.n_free_blocks
              < (if r = 0 then 1 else 0)
                + (toI32 bytes.length + s.sb.block_size - 1).tdiv s.sb.block_size := by
  unfold vfs_get at h ⊢
  unfold live_count
  by_cases hv : valid_block s s.current_dir
  · simp only [hv, if_true] at h ⊢
    cases hf : find_dir_entry s (entry_addr s s.current_dir 0) nome_dest with
    | none => simp [hf] at h
    | some o =>
      cases o with
      | some p => simp [hf] at h
      | none =>
        simp only [hf] at h ⊢
        cases host with
        | missing => simp at h
        | not_regular => simp at h
        | regular bytes =>
          simp only at h ⊢
          cases hu : umod s (e_size s (entry_addr s s.current_dir 0)) with
          | none => simp [hu] at h
          | some r =>
            simp only [hu] at h ⊢
            by_cases hb : s.sb.block_size = 0
            · simp [hb] at h
            · simp only [hb, if_false] at h ⊢
              by_cases hfull : s.sb.n_free_blocks
                  < (if r = 0 then 1 else 0)
                    + (toI32 bytes.length + s.sb.block_size - 1).tdiv s.sb.block_size
              · rw [if_pos hfull]
                exact ⟨rfl, bytes, r, rfl, rfl, hfull⟩
              · rw [if_neg hfull] at h
                exfalso
                split at h
                · simp at h
                · split at h
                  · simp at h
                  · split at h <;> simp at h
  · simp [hv] at h

/-- C9, an instance: on the new image of 128 blocks, `get` of a host file of 128 blocks. -/
theorem C9_get_disk_full_atomic_witness :
    (vfs_get new_image today stack_bytes (HostFile.regular (List.replicate 16384 0))
        (cstr "a")).map Prod.snd = some [Msg.get_disk_full]
      ∧ (vfs_get new_image today stack_bytes (HostFile.regular (List.replicate 16384 0))
          (cstr "a")).map Prod.fst = some new_image := by
  have h : (vfs_get new_image today stack_bytes (HostFile.regular (List.replicate 16384 0))
      (cstr "a")).map Prod.snd = some [Msg.get_disk_full] := by
    rw [new_image_closed]
    decide!
  exact ⟨h, (C9_get_disk_full_atomic new_image today stack_bytes
    (HostFile.regular (List.replicate 16384 0)) (cstr "a") h).1⟩

/-- C10 (the code departs from the claim): the image being full (`n_free_blocks = 0`, 3 live
entries in the root), `get F e` for an empty host file passes the capacity check, prints
nothing, and adds an entry `e` of size 0 whose first block is -1, the value `get_free_block`
returns when no block is free. -/
theorem C10_get_empty_file_on_full_image :
    printed session_full = some []
      ∧ observe session_full (fun s => (s.sb.n_free_blocks, live_count s)) = some (0, 3)
      ∧ printed (andThen session_full
          (fun s => vfs_get s today stack_bytes (HostFile.regular []) (cstr "e"))) = some []
      ∧ observe (andThen session_full
          (fun s => vfs_get s today stack_bytes (HostFile.regular []) (cstr "e")))
          (fun s => (s.sb.n_free_blocks, lookup s (cstr "e")))
        = some (0, some (some ⟨TYPE_FILE, 0, -1⟩)) := by
  unfold session_full
  rw [start_closed]
  decide!

/-- C11 (the code departs from the claim): the image holding a file `a` of 64 blocks and a
file `b` of one block, 62 blocks being free, `cp a b` prints the overwriting line and then
the disk-full line; afterwards the entry `b` is gone, the live count of the root is 3
instead of 4, and the superblock has `n_free_blocks = 63` and `free_block = 65` instead of 62
and 66: the block of `b` is on the free list. -/
theorem C11_cp_disk_full_removes_target :
    printed session_big_and_small = some []
      ∧ observe session_big_and_small (fun s => lookup s (cstr "b"))
          = some (some (some ⟨TYPE_FILE, 2, 65⟩))
      ∧ observe session_big_and_small (fun s => (s.sb.n_free_blocks, s.sb.free_block, live_count s))
          = some (62, 66, 4)
      ∧ printed (andThen session_big_and_small (fun s => vfs_cp s today (cstr "a") (cstr "b")))
          = some [Msg.cp_overwriting, Msg.cp_disk_full]
      ∧ observe (andThen session_big_and_small (fun s => vfs_cp s today (cstr "a") (cstr "b")))
          (fun s => lookup s (cstr "b")) = some (some none)
      ∧ observe (andThen session_big_and_small (fun s => vfs_cp s today (cstr "a") (cstr "b")))
          (fun s => (s.sb.n_free_blocks, s.sb.free_block, live_count s)) = some (63, 65, 3) := by
  unfold session_big_and_small
  rw [start_closed]
  decide!

/-- C12 (the code departs from the claim): on a new image `vfs_mkdir` of a name of exactly 20
characters prints no error and changes the image: the live count of the root goes from 2 to
3, `n_free_blocks` from 127 to 126 and `free_block` from 1 to 2; the name field of the new
entry, entry 2 of block 0, holds 20 characters and no NUL. -/
theorem C12_mkdir_accepts_name20 :
    name20.length = 20
      ∧ printed (andThen start (fun s => vfs_mkdir s today name20)) = some []
      ∧ observe start (fun s => (live_count s, s.sb.n_free_blocks, s.sb.free_block))
          = some (2, 127, 1)
      ∧ observe (andThen start (fun s => vfs_mkdir s today name20))
          (fun s => (live_count s, s.sb.n_free_blocks, s.sb.free_block)) = some (3, 126, 2)
      ∧ observe (andThen start (fun s => vfs_mkdir s today name20))
          (fun s => (e_type s (entry_addr s 0 2),
            (List.range 20).map (fun i => s.blocks (entry_addr s 0 2 + 1 + (i : Int)))))
          = some (TYPE_DIR, name20)
      ∧ observe (andThen start (fun s => vfs_mkdir s today name20))
          (fun s => decide (name_ends s (entry_addr s 0 2))) = some false := by
  rw [start_closed]
  decide!

/-- C14: for a block size among 128, 256, 512, 1024 and a FAT type `ft` among 7, 8, 9, 10,
with `N = FAT_ENTRIES ft = 2 ^ ft`, formatting returns an image whose superblock holds 9999,
the block size, the FAT type, root block 0, free block 1 and `N - 1` free blocks; whose FAT
has `fat[0] = -1`, `fat[i] = i + 1` for `1 ≤ i < N - 1` and `fat[N - 1] = -1`; whose block 0
starts with the entry `.` (type `D`, size 2, first block 0) followed by the entry `..` (type
`D`, size 0, first block 0); whose current directory is block 0; and whose free list is the
list `1, 2, ..., N - 1`, of length `n_free_blocks`. -/
theorem C14_format_postcondition (now : tm) (bs ft : Int)
    (hbs : bs = 128 ∨ bs = 256 ∨ bs = 512 ∨ bs = 1024)
    (hft : ft = 7 ∨ ft = 8 ∨ ft = 9 ∨ ft = 10) :
    ∃ s, format now bs ft = some s
      ∧ FAT_ENTRIES ft = 2 ^ ft.toNat
      ∧ s.sb = ⟨9999, bs, ft, 0, 1, FAT_ENTRIES ft - 1⟩
      ∧ s.fat 0 = -1 ∧ (∀ i, 1 ≤ i → i < FAT_ENTRIES ft - 1 → s.fat i = i + 1)
      ∧ s.fat (FAT_ENTRIES ft - 1) = -1
      ∧ s.current_dir = 0
      ∧ e_type s (entry_addr s 0 0) = TYPE_DIR ∧ stored s (entry_addr s 0 0 + 1) [46]
      ∧ e_size s (entry_addr s 0 0) = 2 ∧ e_first_block s (entry_addr s 0 0) = 0
      ∧ e_type s (entry_addr s 0 1) = TYPE_DIR ∧ stored s (entry_addr s 0 1 + 1) [46, 46]
      ∧ e_size s (entry_addr s 0 1) = 0 ∧ e_first_block s (entry_addr s 0 1) = 0
      ∧ free_list s = some (block_numbers 1 (FAT_ENTRIES ft - 1).toNat)
      ∧ ((block_numbers 1 (FAT_ENTRIES ft - 1).toNat).length : Int) = s.sb.n_free_blocks := by
  obtain ⟨s, hf, hsb, hfat, hcd, c3, c4, c5, c6, c7, c8, c9, c10⟩ :=
    format_spec now bs ft (by omega)
  have hN : FAT_ENTRIES ft = 128 ∨ FAT_ENTRIES ft = 256 ∨ FAT_ENTRIES ft = 512
      ∨ FAT_ENTRIES ft = 1024 := by
    unfold FAT_ENTRIES
    split_ifs <;> simp
  have hN1 : 128 ≤ FAT_ENTRIES ft := by omega
  have hN2 : FAT_ENTRIES ft ≤ 1024 := by omega
  have hpow : FAT_ENTRIES ft = 2 ^ ft.toNat := by
    unfold FAT_ENTRIES
    rcases hft with h | h | h | h <;> subst h <;> decide
  have hnf : s.sb.n_free_blocks = FAT_ENTRIES ft - 1 := by rw [hsb]; rfl
  have hfb : s.sb.free_block = 1 := by rw [hsb]; rfl
  have hfty : s.sb.fat_type = ft := by rw [hsb]; rfl
  have hfatv : ∀ j, s.fat j
      = if j = FAT_ENTRIES ft - 1 then -1
        else if 1 ≤ j ∧ j < FAT_ENTRIES ft - 1 then j + 1
        else if j = 0 then -1 else 0 := by
    intro j
    rw [hfat]
    unfold init_fat
    show store (init_fat_loop (store (fun _ => 0) 0 (-1)) (FAT_ENTRIES ft - 1 - 1).toNat 1)
      (FAT_ENTRIES ft - 1) (-1) j = _
    by_cases h1 : j = FAT_ENTRIES ft - 1
    · rw [h1, store_same, if_pos rfl]
    · rw [store_other _ _ _ _ h1, if_neg h1, init_fat_loop_spec]
      have hk : (((FAT_ENTRIES ft - 1 - 1).toNat : Nat) : Int) = FAT_ENTRIES ft - 2 := by omega
      rw [hk]
      by_cases h2 : 1 ≤ j ∧ j < FAT_ENTRIES ft - 1
      · rw [if_pos (by omega), if_pos h2]
      · rw [if_neg (by omega), if_neg h2]
        by_cases h3 : j = 0
        · rw [h3, store_same, if_pos rfl]
        · rw [store_other _ _ _ _ h3, if_neg h3]
  have e0 : entry_addr s 0 0 = 0 := by
    unfold entry_addr BLOCK
    simp
  have e1 : entry_addr s 0 1 = 32 := by
    unfold entry_addr BLOCK sizeof_dir_entry
    simp
  have hlen := block_numbers_length 1 (FAT_ENTRIES ft - 1).toNat
  have hlk : linked s (block_numbers 1 (FAT_ENTRIES ft - 1).toNat)
      (FAT_ENTRIES ft - 1).toNat := by
    intro j hj
    rw [block_numbers_getD 1 _ j hj, hfatv]
    by_cases h1 : j + 1 < (FAT_ENTRIES ft - 1).toNat
    · rw [if_pos h1, block_numbers_getD 1 _ (j + 1) h1, if_neg (by push_cast; omega),
        if_pos (by push_cast; omega)]
      push_cast
      ring
    · rw [if_neg h1, if_pos (by push_cast; omega)]
  have hval : ∀ x ∈ block_numbers 1 (FAT_ENTRIES ft - 1).toNat, valid_block s x := by
    intro x hx
    obtain ⟨i, hi, hxi⟩ := List.mem_iff_getElem.1 hx
    rw [hlen] at hi
    have := block_numbers_getD 1 _ i hi
    rw [List.getD_eq_getElem _ _ (by omega), hxi] at this
    unfold valid_block
    rw [hfty, this]
    push_cast
    omega
  have hpath := linked_chain s _ _ (le_of_eq hlen.symm) hval hlk
  rw [if_neg (by omega), block_numbers_getD 1 _ 0 (by omega)] at hpath
  have htake : (block_numbers 1 (FAT_ENTRIES ft - 1).toNat).take (FAT_ENTRIES ft - 1).toNat
      = block_numbers 1 (FAT_ENTRIES ft - 1).toNat := by
    apply List.take_of_length_le
    omega
  rw [htake] at hpath
  refine ⟨s, hf, hpow, ?_, ?_, ?_, ?_, hcd, ?_, ?_, ?_, ?_, ?_, ?_, ?_, ?_, ?_, ?_⟩
  · rw [hsb]
    rfl
  · rw [hfatv, if_neg (by omega), if_neg (by omega), if_pos rfl]
  · intro i h1 h2
    rw [hfatv, if_neg (by omega), if_pos ⟨h1, h2⟩]
  · rw [hfatv, if_pos rfl]
  · rw [e0]; exact c3
  · rw [e0]; exact c4
  · rw [e0]; exact c5
  · rw [e0]; exact c6
  · rw [e1]; exact c7
  · rw [e1]; exact c8
  · rw [e1]; exact c9
  · rw [e1]; exact c10
  · unfold free_list
    rw [hfb]
    apply path_chain_some
    simpa using hpath
  · rw [hlen, hnf]
    omega

/-- C14, an instance: the default geometry, blocks of 256 bytes and a FAT of 256 entries. -/
theorem C14_format_postcondition_witness :
    ((256 : Int) = 128 ∨ (256 : Int) = 256 ∨ (256 : Int) = 512 ∨ (256 : Int) = 1024)
      ∧ ((8 : Int) = 7 ∨ (8 : Int) = 8 ∨ (8 : Int) = 9 ∨ (8 : Int) = 10)
      ∧ ∃ s, format today 256 8 = some s ∧ s.sb = ⟨9999, 256, 8, 0, 1, 255⟩
          ∧ free_list s = some (block_numbers 1 255) := by
  obtain ⟨s, h1, _, h3, _, _, _, _, _, _, _, _, _, _, _, _, h16, _⟩ :=
    C14_format_postcondition today 256 8 (by decide) (by decide)
  exact ⟨by decide, by decide, s, h1, h3, h16⟩

/-- C17 (the code departs from the claim): in the image with 52 directories named by 19
characters nested in one another, `cd` into each of them in turn prints no error; at depth
51 `vfs_pwd` prints a path of 1021 characters, and at depth 52, where the path has 1041
characters, the copies into the buffers `name[1024]` and `tmp[1024]` run past their end. -/
theorem C17_pwd_overflows_at_depth_52 :
    printed (cd_nested (some (nested_image 52, [])) 52) = some []
      ∧ observe (cd_nested (some (nested_image 52, [])) 51) (fun s => s.current_dir) = some 51
      ∧ observe (cd_nested (some (nested_image 52, [])) 51) (fun s => (vfs_pwd s).map List.length)
          = some (some 1021)
      ∧ observe (cd_nested (some (nested_image 52, [])) 52) (fun s => s.current_dir) = some 52
      ∧ observe (cd_nested (some (nested_image 52, [])) 52) (fun s => decide (Inv s)) = some true
      ∧ observe (cd_nested (some (nested_image 52, [])) 52) vfs_pwd = some none := by
  have h51 := cd_nested_spec 52 (by decide) 51 (by decide)
  have h52 := cd_nested_spec 52 (by decide) 52 (by decide)
  have p51 := pwd_nested 52 (by decide) 51 (by decide)
  have p52 := pwd_nested 52 (by decide) 52 (by decide)
  rw [h51, h52]
  refine ⟨rfl, rfl, ?_, rfl, ?_, ?_⟩
  · show some ((vfs_pwd (nested_cd 52 ((51 : Nat) : Int))).map List.length) = _
    rw [p51]
    decide!
  · show some (decide (Inv (nested_cd 52 ((52 : Nat) : Int)))) = _
    rw [decide_eq_true (inv_of_range _ 53 75 (by decide!))]
  · show some (vfs_pwd (nested_cd 52 ((52 : Nat) : Int))) = _
    rw [p52]
    decide!

/-- C18 (the code departs from the claim): for the file `a` of 2 bytes, one block, `vfs_cat`
writes 128 bytes, the whole block; for the file `c` of 256 bytes, two blocks of 128,
`vfs_cat` writes 128 bytes, the first block and `256 % 128 = 0` bytes of the last one. -/
theorem C18_cat_writes_whole_first_block :
    observe (some (image_one_file, [])) (fun s => lookup s (cstr "a"))
        = some (some (some ⟨TYPE_FILE, 2, 1⟩))
      ∧ (chain image_one_file 1).map List.length = some 1
      ∧ (vfs_cat image_one_file (cstr "a")).map (fun r => (r.1, r.2.length)) = some ([], 128)
      ∧ observe session_two_blocks (fun s => lookup s (cstr "c"))
          = some (some (some ⟨TYPE_FILE, 256, 1⟩))
      ∧ observe session_two_blocks (fun s => (chain s 1).map List.length) = some (some 2)
      ∧ session_two_blocks.bind (fun r => (vfs_cat r.1 (cstr "c")).map (fun q => (q.1, q.2.length)))
          = some ([], 128) := by
  unfold image_one_file session_two_blocks
  rw [start_closed, new_image_closed]
  decide!

/-- C19 (the claim as stated fails): on a new image made with `-b256 -f8`, after `mkdir d0`,
..., `mkdir d8` the superblock has `n_free_blocks = 245`, and after `rmdir d8` it has 246,
which is not 245 + 2. -/
theorem C19_rmdir_d8_restores_one_block :
    observe session_nine_dirs (fun s => s.sb.n_free_blocks) = some 245
      ∧ observe (andThen session_nine_dirs (fun s => vfs_rmdir s (cstr "d8")))
          (fun s => s.sb.n_free_blocks) = some 246
      ∧ (246 : Int) ≠ 245 + 2 := by
  unfold session_nine_dirs
  rw [start_default_closed]
  decide!

/-- C19 (amended): on a new image made with `-b256 -f8`, which has 255 free blocks, `mkdir
d0`, ..., `mkdir d8` print no error and leave `n_free_blocks = 255 - 10`, the root having 11
live entries in the two blocks 0 and 8; `rmdir d8` then prints no error and leaves
`n_free_blocks = 245 + 1`: the root keeps its second block, which holds 2 of the 10 live
entries that remain, 8 entries filling a block. -/
theorem C19_nine_dirs_then_rmdir :
    observe start_default (fun s => (s.sb.n_free_blocks, DIR_ENTRIES_PER_BLOCK s)) = some (255, 8)
      ∧ printed session_nine_dirs = some []
      ∧ observe session_nine_dirs (fun s => (s.sb.n_free_blocks, live_count s, chain s 0))
          = some (255 - 10, 11, some [0, 8])
      ∧ printed (andThen session_nine_dirs (fun s => vfs_rmdir s (cstr "d8"))) = some []
      ∧ observe (andThen session_nine_dirs (fun s => vfs_rmdir s (cstr "d8")))
          (fun s => (s.sb.n_free_blocks, live_count s, chain s 0))
          = some (245 + 1, 10, some [0, 8]) := by
  unfold session_nine_dirs
  rw [start_default_closed]
  decide!

/-- C20: `get_free_block` returns -1 and the state it was given when `n_free_blocks` is 0.
Otherwise, `free_block` being an index `b` of the FAT, it returns `b` and a state in which
`free_block` is the old `fat[b]`, `fat[b]` is -1, `n_free_blocks` is one less, and every
other FAT entry, the other superblock fields, the data blocks and `current_dir` are as
before.  When the free list of the state has `n_free_blocks` blocks and is not empty, it
starts with `b`, and the free list of the result is the rest of it: its length is the new
`n_free_blocks` and `b` is not on it. -/
theorem C20_get_free_block (s : FS) :
    (s.sb.n_free_blocks = 0 → get_free_block s = some (s, -1))
      ∧ (s.sb.n_free_blocks ≠ 0 → valid_block s s.sb.free_block →
          ∃ s', get_free_block s = some (s', s.sb.free_block)
            ∧ s'.sb.free_block = s.fat s.sb.free_block
            ∧ s'.fat s.sb.free_block = -1
            ∧ s'.sb.n_free_blocks = s.sb.n_free_blocks - 1
            ∧ (∀ j, j ≠ s.sb.free_block → s'.fat j = s.fat j)
            ∧ s'.sb.check_number = s.sb.check_number ∧ s'.sb.block_size = s.sb.block_size
            ∧ s'.sb.fat_type = s.sb.fat_type ∧ s'.sb.root_block = s.sb.root_block
            ∧ s'.blocks = s.blocks ∧ s'.current_dir = s.current_dir)
      ∧ (∀ fl, free_list s = some fl → (fl.length : Int) = s.sb.n_free_blocks →
          s.sb.n_free_blocks ≠ 0 →
          ∃ s' fl', get_free_block s = some (s', s.sb.free_block)
            ∧ fl = s.sb.free_block :: fl' ∧ free_list s' = some fl'
            ∧ (fl'.length : Int) = s'.sb.n_free_blocks ∧ s.sb.free_block ∉ fl') := by
  refine ⟨?_, ?_, ?_⟩
  · intro h0
    unfold get_free_block
    rw [if_pos h0]
  · intro h0 hv
    unfold get_free_block
    rw [if_neg h0]
    simp only [hv, if_true]
    refine ⟨_, rfl, rfl, ?_, rfl, ?_, rfl, rfl, rfl, rfl, rfl, rfl⟩
    · simp only [store_same]
    · intro j hj
      simp only [store_other _ _ _ _ hj]
  · intro fl hfl hlen h0
    have hp := (chain_from_path s _ _ _ hfl).1
    cases fl with
    | nil =>
      simp at hlen
      exact absurd hlen.symm h0
    | cons b rest =>
      obtain ⟨hb, hv, hrest⟩ := hp
      have hnd := path_nodup s (b :: rest) _ ⟨hb, hv, hrest⟩
      rw [List.nodup_cons] at hnd
      rw [← hb] at hv hrest hnd
      unfold get_free_block
      rw [if_neg h0]
      simp only [hv, if_true]
      refine ⟨_, rest, rfl, by rw [hb], ?_, ?_, hnd.1⟩
      · unfold free_list
        apply path_chain_some
        refine path_congr s { s with
            sb := { s.sb with free_block := s.fat s.sb.free_block,
                              n_free_blocks := s.sb.n_free_blocks - 1 },
            fat := store s.fat s.sb.free_block (-1) } rfl _ _ ?_ hrest
        intro x hx
        show store s.fat s.sb.free_block (-1) x = s.fat x
        apply store_other
        intro he
        rw [he] at hx
        exact hnd.1 hx
      · simp only
        simp only [List.length_cons] at hlen
        push_cast at hlen
        omega

/-- C20, an instance: the first block taken from a new image is block 1; the free list
then starts at block 2 and has 126 blocks. -/
theorem C20_get_free_block_witness :
    new_image.sb.n_free_blocks ≠ 0 ∧ valid_block new_image new_image.sb.free_block
      ∧ ∃ s', get_free_block new_image = some (s', 1) ∧ s'.sb.free_block = 2
          ∧ s'.fat 1 = -1 ∧ s'.sb.n_free_blocks = 126 := by
  have h := (C20_get_free_block new_image).2.1 (by decide!) (by decide!)
  obtain ⟨s', h1, h2, h3, h4, _⟩ := h
  refine ⟨by decide!, by decide!, s', ?_, ?_, ?_, ?_⟩
  · rw [h1]
    have : new_image.sb.free_block = 1 := by decide!
    rw [this]
  · rw [h2]
    decide!
  · have : new_image.sb.free_block = 1 := by decide!
    rw [this] at h3
    exact h3
  · rw [h4]
    decide!

/-- C21 (the code departs from the claim): after `mkdir d0`, `mkdir d1`, `get F a` on a new
image the state satisfies the invariants, the root has `n = 5` live entries in the blocks 0
and 4, and `(n - 1) mod E = 0` with `E = 4`.  `rm a` prints no error and puts block 4, the
former tail block, at the head of the free list, but the FAT entry of block 0, its
predecessor in the chain of the directory, stays 4 instead of -1: the chain that starts at
block 0 then runs through block 4 into the free list and has 126 blocks instead of 1. -/
theorem C21_rm_keeps_link_to_freed_tail :
    observe session_five_entries (fun s => decide (Inv s)) = some true
      ∧ observe session_five_entries (fun s => (live_count s, DIR_ENTRIES_PER_BLOCK s, chain s 0))
          = some (5, 4, some [0, 4])
      ∧ printed (andThen session_five_entries (fun s => vfs_rm s (cstr "a"))) = some []
      ∧ observe (andThen session_five_entries (fun s => vfs_rm s (cstr "a")))
          (fun s => (live_count s, s.sb.free_block, s.fat 0, s.fat 4)) = some (4, 4, 4, 3)
      ∧ observe (andThen session_five_entries (fun s => vfs_rm s (cstr "a")))
          (fun s => (chain s 0).map (fun l => (l.length, l.take 3)))
          = some (some (126, [0, 4, 3]))
      ∧ observe (andThen session_five_entries (fun s => vfs_rm s (cstr "a")))
          (fun s => (free_list s).map (fun l => (l.length, l.take 2)))
          = some (some (125, [4, 3])) := by
  refine ⟨observe_inv _ 5 123 ?_, ?_⟩
  · unfold session_five_entries
    rw [start_closed]
    decide!
  · unfold session_five_entries
    rw [start_closed]
    decide!

/-- C22 (the code departs from the claim): after `mkdir d0`, ..., `mkdir d6` on a new image
the state satisfies the invariants and the root has `n = 9` live entries in the three blocks
0, 4, 9, with `(n - 1) mod E = 0` for `E = 4`.  `rmdir d0` (entry 2, in the first block) and
`rmdir d4` (entry 6, in the second block) each print no error and leave 8 live entries, but
set the FAT entry of block 0 to -1 and leave the FAT entry of block 4, the block before the
former tail block, at 9: the chain of the directory is block 0 alone instead of the two
blocks 8 entries need, and the entry `d3` of block 4 is no longer found. -/
theorem C22_rmdir_cuts_chain_at_wrong_block :
    observe session_seven_dirs (fun s => (decide (Inv s), decide (DirsValid s)))
        = some (true, true)
      ∧ observe session_seven_dirs (fun s => (live_count s, DIR_ENTRIES_PER_BLOCK s, chain s 0))
          = some (9, 4, some [0, 4, 9])
      ∧ observe session_seven_dirs (fun s => (s.fat 0, s.fat 4, s.fat 9)) = some (4, 9, -1)
      ∧ observe session_seven_dirs (fun s => (lookup s (cstr "d3")).map Option.isSome)
          = some (some true)
      ∧ printed (andThen session_seven_dirs (fun s => vfs_rmdir s (cstr "d0"))) = some []
      ∧ observe (andThen session_seven_dirs (fun s => vfs_rmdir s (cstr "d0")))
          (fun s => (live_count s, chain s 0, s.fat 0, s.fat 4)) = some (8, some [0], -1, 9)
      ∧ observe (andThen session_seven_dirs (fun s => vfs_rmdir s (cstr "d0")))
          (fun s => (lookup s (cstr "d3")).map Option.isSome) = some (some false)
      ∧ printed (andThen session_seven_dirs (fun s => vfs_rmdir s (cstr "d4"))) = some []
      ∧ observe (andThen session_seven_dirs (fun s => vfs_rmdir s (cstr "d4")))
          (fun s => (live_count s, chain s 0, s.fat 0, s.fat 4)) = some (8, some [0], -1, 9)
      ∧ observe (andThen session_seven_dirs (fun s => vfs_rmdir s (cstr "d4")))
          (fun s => (lookup s (cstr "d3")).map Option.isSome) = some (some false) := by
  refine ⟨observe_inv_dirs _ 10 118 ?_, ?_⟩
  · unfold session_seven_dirs
    rw [start_closed]
    decide!
  · unfold session_seven_dirs
    rw [start_closed]
    decide!

/-- C23: in a state that satisfies the invariants, let entry `p` of the current directory be
the first live entry of type `F` named `x`, the directory having `n` live entries.  Then
`vfs_rm x` returns without an error and leaves a state with the same geometry and current
directory in which: the live count is `n - 1`; the links between the blocks of the chain of
the directory are as before, so that every position is at the byte offset it had; the entry
at position `p` is a copy of the entry that was at position `n - 1` (type, name, date, size,
first block); and every other entry has the bytes it had, but for the size field of entry 0,
which holds the live count. -/
theorem C23_rm_swap_with_last (s : FS) (x : List Int) (p : Nat) (hinv : Inv s) (hx : CStr x)
    (hp : p < live s) (hty : e_type s (slot s (dir_chain s) p) = TYPE_FILE)
    (hnm : named s p x)
    (hfirst : ∀ j, j < p →
      ¬ (e_type s (slot s (dir_chain s) j) = TYPE_FILE ∧ named s j x)) :
    ∃ s', vfs_rm s x = some (s', [])
      ∧ s'.sb.block_size = s.sb.block_size ∧ s'.sb.fat_type = s.sb.fat_type
      ∧ s'.current_dir = s.current_dir
      ∧ live_count s' = live_count s - 1
      ∧ (∀ t, t + 1 < (dir_chain s).length →
          s'.fat ((dir_chain s).getD t (-1)) = (dir_chain s).getD (t + 1) (-1))
      ∧ same_entry s (slot s (dir_chain s) (live s - 1)) s' (slot s (dir_chain s) p)
      ∧ (∀ j, j < live s → j ≠ p → ∀ i : Int, 0 ≤ i → i < 32 → (j = 0 → i < 24 ∨ 28 ≤ i) →
          s'.blocks (slot s (dir_chain s) j + i) = s.blocks (slot s (dir_chain s) j + i)) := by
  have f := inv_facts s hinv
  obtain ⟨hDE, hEge, hEle, hbsE, hN1, hN2⟩ := legal_geom s f.legal
  have hn2 := f.n2
  have hsmall := facts_small s f
  have hdne := facts_dl_ne s f
  have hlen0 : 0 < (dir_chain s).length := List.length_pos.2 hdne
  have hvd := path_valid s _ _ f.dpath
  have hlive : e_size s (entry_addr s s.current_dir 0) = ((live s : Nat) : Int) := f.live_eq
  have hn := fun i hi => named_iff s f x hx i hi
  -- the test of the loop on each entry
  have htest : ∀ j, j < live s →
      ∃ r, file_name_is s x (slot s (dir_chain s) j) = some r := by
    intro j hj
    unfold file_name_is
    by_cases h : e_type s (slot s (dir_chain s) j) = TYPE_FILE
    · rw [if_pos h]
      exact (hn j hj).1
    · rw [if_neg h]
      exact ⟨_, rfl⟩
  have htrue : ∀ j, j < live s → (file_name_is s x (slot s (dir_chain s) j) = some true
      ↔ (e_type s (slot s (dir_chain s) j) = TYPE_FILE ∧ named s j x)) := by
    intro j hj
    unfold file_name_is
    by_cases h : e_type s (slot s (dir_chain s) j) = TYPE_FILE
    · rw [if_pos h]
      constructor
      · intro h1
        exact ⟨h, (hn j hj).2.2 h1⟩
      · intro h1
        exact (hn j hj).2.1 h1.2
    · rw [if_neg h]
      constructor
      · intro h1
        simp at h1
      · intro h1
        exact absurd h1.1 h
  -- the loop stops at entry p
  have hscan : ∃ bef, scan_current s (file_name_is s x) (e_size s (entry_addr s s.current_dir 0))
      = some (some ⟨(p : Int), (dir_chain s).getD (p / epb s) (-1), bef,
          ((p % epb s : Nat) : Int)⟩) := by
    rcases scan_current_spec s f (file_name_is s x) htest with ⟨_, h2⟩ | ⟨q, bef, hq, h3, h4, h5⟩
    · have := h2 p hp
      rw [(htrue p hp).2 ⟨hty, hnm⟩] at this
      simp at this
    · have hqp : q = p := by
        rcases Nat.lt_trichotomy q p with h | h | h
        · exact absurd ((htrue q hq).1 h4) (hfirst q h)
        · exact h
        · have := h5 p h
          rw [(htrue p hp).2 ⟨hty, hnm⟩] at this
          simp at this
      subst hqp
      exact ⟨bef, h3⟩
  obtain ⟨bef, hscan⟩ := hscan
  -- entry p is not entry 0
  have hp0 : p ≠ 0 := by
    intro h0
    subst h0
    rw [facts_slot0 s f, f.type0] at hty
    exact absurd hty (by decide)
  have hpidx := facts_idx s f p hp
  -- the chain of the file
  obtain ⟨fc, hfc, hfcne, hfclen, hfcd⟩ := f.files p hp hty
  have hfclast : fc.getD (fc.length - 1) (-1) ∈ fc :=
    getD_mem (by have : 0 < fc.length := List.length_pos.2 hfcne; omega)
  have hTmem : (dir_chain s).getD ((dir_chain s).length - 1) (-1) ∈ dir_chain s :=
    getD_mem (by omega)
  have hxT : fc.getD (fc.length - 1) (-1) ≠ (dir_chain s).getD ((dir_chain s).length - 1) (-1) :=
    fun he => (hfcd _ hfclast).2 (he ▸ hTmem)
  have hxd : ∀ y ∈ dir_chain s, y ≠ fc.getD (fc.length - 1) (-1) :=
    fun y hy he => (hfcd _ hfclast).2 (he ▸ hy)
  -- the last block of the directory, found after the splice
  have hlast : last_of_chain
      (splice_free s (e_first_block s (slot s (dir_chain s) p))
        (fc.getD (fc.length - 1) (-1)) (1 + (fc.length : Int) - 1))
      (fat_fuel s) ((dir_chain s).getD (p / epb s) (-1))
      = some ((dir_chain s).getD ((dir_chain s).length - 1) (-1)) := by
    have hpath : path
        (splice_free s (e_first_block s (slot s (dir_chain s) p))
          (fc.getD (fc.length - 1) (-1)) (1 + (fc.length : Int) - 1))
        s.current_dir (dir_chain s) :=
      path_congr s
        (splice_free s (e_first_block s (slot s (dir_chain s) p))
          (fc.getD (fc.length - 1) (-1)) (1 + (fc.length : Int) - 1)) rfl _ _
        (fun y hy => store_other _ _ _ _ (hxd y hy)) f.dpath
    have := last_of_chain_path _ _ _ (fat_fuel s)
      (path_drop _ _ _ hpath (p / epb s) hpidx)
      (by
        intro h
        have := congrArg List.length h
        simp only [List.length_drop, List.length_nil] at this
        generalize p / epb s = q at this hpidx
        omega)
      (by
        simp only [List.length_drop]
        have := f.dlen
        generalize p / epb s = q
        omega)
    rw [getD_drop_last _ _ hpidx] at this
    exact this
  obtain ⟨b, hb, hbst⟩ := name_ends_stored s _ (f.names (live s - 1) (by omega))
  have hslot := facts_last_slot s f
  have haddr := facts_last_addr s f
  have h0idx : 0 / epb s < (dir_chain s).length := by rw [Nat.zero_div]; exact hlen0
  have hdisj := slot_disjoint s f.legal _ f.dnd p 0 hpidx h0idx hp0
  rw [facts_slot0 s f] at hdisj
  have he : entry_addr s ((dir_chain s).getD (p / epb s) (-1)) ((p % epb s : Nat) : Int)
      = slot s (dir_chain s) p := rfl
  obtain ⟨s2, hrm, hA⟩ := rm_hit_state s x b hb _ f.cdv hscan fc hfc hfcne (le_of_lt hfclen)
    _ (hvd _ hTmem) hxT hlast _ hslot (by rw [haddr]; exact hbst) hdisj
  obtain ⟨s2', hrm', hd1, hd2, hd3⟩ := rm_hit_dates s x b hb _ f.cdv hscan fc hfc hfcne
    (le_of_lt hfclen) _ (hvd _ hTmem) hxT hlast _ hslot (by rw [haddr]; exact hbst) hdisj
  have hs2 : s2' = s2 := by
    rw [hrm] at hrm'
    simp only [Option.some.injEq, Prod.mk.injEq, and_true] at hrm'
    exact hrm'.symm
  subst hs2
  simp only [he, haddr] at hA hd1 hd2 hd3
  refine ⟨s2', hrm, hA.bs, hA.ft, hA.cd, ?_, ?_, ?_, ?_⟩
  · unfold live_count
    rw [hA.cd, entry_addr_congr s s2' hA.bs, hA.count, hlive]
    have h1 := f.live_eq
    rw [toI32_of_range (by omega) (by omega)]
  · intro t ht
    have htm : (dir_chain s).getD t (-1) ∈ dir_chain s := getD_mem (by omega)
    rw [hA.fat_other _ (hxd _ htm) (fun heq => by
      have := nodup_getD_inj _ f.dnd _ _ (by omega) (by omega) heq
      omega)]
    exact path_next s _ _ f.dpath t (by omega)
  · exact ⟨hA.type, ⟨b, hb, hbst, hA.name⟩, hd1, hd2, hd3, hA.size, hA.fb⟩
  · intro j hj hjp i hi0 hi32 hj0
    have hjidx := facts_idx s f j hj
    have hdj := slot_disjoint s f.legal _ f.dnd j p hjidx hpidx hjp
    apply hA.mem
    · omega
    · by_cases h0 : j = 0
      · subst h0
        rw [facts_slot0 s f]
        have := hj0 rfl
        omega
      · have := slot_disjoint s f.legal _ f.dnd j 0 hjidx h0idx h0
        rw [facts_slot0 s f] at this
        omega

/-- C23, an instance: `rm a` in the root that holds `.`, `..`, `a`, `c`; entry 2 then is a
copy of the entry `c`. -/
theorem C23_rm_swap_with_last_witness :
    Inv image_two_files ∧ CStr (cstr "a") ∧ 2 < live image_two_files
      ∧ e_type image_two_files (slot image_two_files (dir_chain image_two_files) 2) = TYPE_FILE
      ∧ named image_two_files 2 (cstr "a")
      ∧ (∀ j, j < 2 →
          ¬ (e_type image_two_files (slot image_two_files (dir_chain image_two_files) j)
              = TYPE_FILE ∧ named image_two_files j (cstr "a")))
      ∧ ∃ s', vfs_rm image_two_files (cstr "a") = some (s', [])
          ∧ live_count s' = live_count image_two_files - 1
          ∧ same_entry image_two_files
              (slot image_two_files (dir_chain image_two_files) (live image_two_files - 1)) s'
              (slot image_two_files (dir_chain image_two_files) 2) := by
  have hinv : Inv image_two_files := by
    apply inv_of_range _ 3 125
    unfold image_two_files session_two_files
    rw [start_closed, new_image_closed]
    decide!
  have hp : 2 < live image_two_files := by
    unfold image_two_files session_two_files
    rw [start_closed, new_image_closed]
    decide!
  have hty : e_type image_two_files (slot image_two_files (dir_chain image_two_files) 2)
      = TYPE_FILE := by
    unfold image_two_files session_two_files
    rw [start_closed, new_image_closed]
    decide!
  have hnm : named image_two_files 2 (cstr "a") := by
    unfold image_two_files session_two_files
    rw [start_closed, new_image_closed]
    decide!
  have hfirst : ∀ j, j < 2 →
      ¬ (e_type image_two_files (slot image_two_files (dir_chain image_two_files) j)
          = TYPE_FILE ∧ named image_two_files j (cstr "a")) := by
    unfold image_two_files session_two_files
    rw [start_closed, new_image_closed]
    decide!
  obtain ⟨s', h1, _, _, _, h5, _, h7, _⟩ :=
    C23_rm_swap_with_last image_two_files (cstr "a") 2 hinv (by decide) hp hty hnm hfirst
  exact ⟨hinv, by decide, hp, hty, hnm, hfirst, s', h1, h5, h7⟩

/-- C24: in a state that satisfies the invariants, the current directory having `n` live
entries, let `x` be a name of at most 19 bytes that no live entry stores, and let
`n_free_blocks` be at least 1, and at least 2 when `n mod E = 0`.  Then `vfs_mkdir x` returns
without an error and leaves a state with the same geometry and current directory in which:
the chain of the directory ends and has `ceil((n + 1) / E)` blocks; entry `n` is of type
`D`, is named `x` and has as first block the block `b` that headed the free list; block `b`
starts with the entries `.` (type `D`, size 2, first block `b`) and `..` (type `D`, first
block the current directory); the live count is `n + 1`; and `n_free_blocks` is 1 less, or 2
less when `n mod E = 0`. -/
theorem C24_mkdir_effect (s : FS) (now : tm) (x : List Int) (hinv : Inv s) (hx : IsName x)
    (habs : ∀ i, i < live s → ¬ named s i x)
    (hfree : (1 : Int) + (if live s % epb s = 0 then 1 else 0) ≤ s.sb.n_free_blocks) :
    ∃ s' dl', vfs_mkdir s now x = some (s', [])
      ∧ s'.sb.block_size = s.sb.block_size ∧ s'.sb.fat_type = s.sb.fat_type
      ∧ s'.current_dir = s.current_dir
      ∧ chain s' s'.current_dir = some dl'
      ∧ dl'.length = (live s + 1 + (epb s - 1)) / epb s
      ∧ e_type s' (slot s' dl' (live s)) = TYPE_DIR
      ∧ stored s' (slot s' dl' (live s) + 1) x
      ∧ e_first_block s' (slot s' dl' (live s)) = s.sb.free_block
      ∧ e_type s' (entry_addr s' s.sb.free_block 0) = TYPE_DIR
      ∧ stored s' (entry_addr s' s.sb.free_block 0 + 1) [46]
      ∧ e_size s' (entry_addr s' s.sb.free_block 0) = 2
      ∧ e_first_block s' (entry_addr s' s.sb.free_block 0) = s.sb.free_block
      ∧ e_type s' (entry_addr s' s.sb.free_block 1) = TYPE_DIR
      ∧ stored s' (entry_addr s' s.sb.free_block 1 + 1) [46, 46]
      ∧ e_first_block s' (entry_addr s' s.sb.free_block 1) = s.current_dir
      ∧ live_count s' = live_count s + 1
      ∧ s'.sb.n_free_blocks
          = s.sb.n_free_blocks - (if live s % epb s = 0 then 2 else 1) := by
  have f := inv_facts s hinv
  obtain ⟨hDE, hEge, hEle, hbsE, hN1, hN2⟩ := legal_geom s f.legal
  have hsmall := facts_small s f
  have hn2 := f.n2
  have hlive : e_size s (entry_addr s s.current_dir 0) = ((live s : Nat) : Int) := f.live_eq
  have hvf := path_valid s _ _ f.fpath
  have hvd := path_valid s _ _ f.dpath
  -- no entry is named x
  have hfalse : ∀ g, g < live s → strcmp_eq s (slot s (dir_chain s) g + 1) x = some false := by
    intro g hg
    obtain ⟨⟨r, hr⟩, hiff⟩ := named_iff s f x hx.1 g hg
    unfold name_is at hr hiff
    cases r with
    | true => exact absurd (hiff.2 hr) (habs g hg)
    | false => exact hr
  have hfind := find_dir_entry_absent s f x hfalse
  -- the free blocks
  have hflen := f.flen
  have hk0 : 0 < (free_blocks s).length := by
    split_ifs at hfree <;> omega
  have hroom : live s % epb s = 0 → 1 < (free_blocks s).length := by
    intro h
    rw [if_pos h] at hfree
    omega
  have hb0 : (free_blocks s).getD 0 (-1) = s.sb.free_block := by
    have := path_head s _ _ f.fpath
    rw [← this]
    cases free_blocks s <;> simp
  have hbfl : s.sb.free_block ∈ free_blocks s := by
    rw [← hb0]; exact getD_mem hk0
  have hbv : valid_block s s.sb.free_block := hvf _ hbfl
  have hbtake : s.sb.free_block ∈ (free_blocks s).take 1 := by
    rw [← hb0]; exact getD_mem_take _ 1 0 hk0 (by omega)
  have htake1 : (free_blocks s).take 1 = [s.sb.free_block] := by
    rw [← hb0]
    cases hfl : free_blocks s with
    | nil => rw [hfl] at hk0; simp at hk0
    | cons y r => simp
  -- the statement `dir[0].size++`
  obtain ⟨hsb1, hfat1, hcd1, hmem1, hsize1⟩ := add_dir_size_spec s s.current_dir 1
  have hfp1 : path (add_dir_size s s.current_dir 1)
      (add_dir_size s s.current_dir 1).sb.free_block (free_blocks s) := by
    rw [hsb1]
    exact path_congr s _ (by rw [hsb1]) _ _ (fun x _ => by rw [hfat1]) f.fpath
  have hflen1 : ((free_blocks s).length : Int)
      = (add_dir_size s s.current_dir 1).sb.n_free_blocks := by rw [hsb1]; exact f.flen
  have ha0 := alloc_refl (add_dir_size s s.current_dir 1) _ hfp1
  -- the block of the new directory
  obtain ⟨s2, hg⟩ := alloc_pop_some _ _ _ 0 hfp1 hflen1 ha0 hk0
  rw [hb0] at hg
  rcases alloc_pop _ _ _ 0 hfp1 f.fnd hflen1 ha0 s2 _ hg with ⟨_, e, _⟩ | ⟨_, _, _, ha1⟩
  · exfalso
    unfold valid_block at hbv
    omega
  rcases get_free_block_spec _ s2 _ hg with ⟨_, e⟩ | ⟨_, _, g3, g4, g5, g6, g7⟩
  · exfalso
    unfold valid_block at hbv
    omega
  have hl2 : legal s2 := legal_congr s s2 (by rw [g6, hsb1]) (by rw [g7, hsb1]) f.legal
  have hbv2 : valid_block s2 s.sb.free_block :=
    (valid_block_congr s s2 (by rw [g7, hsb1]) _).2 hbv
  have hcd2 : s2.current_dir = s.current_dir := by rw [g5, hcd1]
  obtain ⟨s3, hblk, c1, c2, c3, c4, c5, c6, c7, c8, c9, c10, _, c12⟩ :=
    init_dir_block_spec s2 now hl2 s.sb.free_block s2.current_dir hbv2
      (by rw [hcd2]; exact (valid_block_congr s s2 (by rw [g7, hsb1]) _).2 f.cdv)
  have hbs2 : s2.sb.block_size = s.sb.block_size := by rw [g6, hsb1]
  have hB2 : BLOCK s2 s.sb.free_block = BLOCK s s.sb.free_block := BLOCK_congr s s2 hbs2 _
  have hea0 : entry_addr s2 s.sb.free_block 0 = entry_addr s s.sb.free_block 0 :=
    entry_addr_congr s s2 hbs2 _ _
  have hea1 : entry_addr s2 s.sb.free_block 1 = entry_addr s s.sb.free_block 1 :=
    entry_addr_congr s s2 hbs2 _ _
  rw [hea0] at c5 c6 c7 c8
  rw [hea1] at c9 c10 c12
  rw [hcd2] at c12
  rw [hB2] at c4
  have ha3 : Alloc (add_dir_size s s.current_dir 1) s3 (free_blocks s) 1 :=
    { bs := by rw [c1]; exact ha1.bs
      ft := by rw [c1]; exact ha1.ft
      cd := by rw [c3]; exact ha1.cd
      k_le := ha1.k_le
      nfree := by rw [c1]; exact ha1.nfree
      head := by rw [c1]; exact ha1.head
      fat_out := fun y hy => by rw [c2]; exact ha1.fat_out y hy
      fat_in := fun y hy => by rw [c2]; exact ha1.fat_in y hy
      mem := fun z hz => by
        have h1 := hz _ hbtake
        rw [BLOCK_congr s _ (by rw [hsb1]) _, hsb1] at h1
        rw [c4 z (by omega)]
        exact ha1.mem z hz }
  have hch3 : path s3 s.sb.free_block ((free_blocks s).take 1) := by
    rw [htake1]
    refine ⟨rfl, (valid_block_congr s2 s3 (by rw [c1]) _).2 hbv2, ?_⟩
    show s3.fat s.sb.free_block = -1
    rw [c2, g3, store_same]
  -- the entry of the new directory
  obtain ⟨s4, happ⟩ := append_entry_some s s3 now TYPE_DIR x f hx 1 ha3 0 s.sb.free_block hroom
  obtain ⟨k', dl1, hA⟩ := append_add s s3 s4 now TYPE_DIR x f hx 1 ha3 0 s.sb.free_block
    (Or.inr hbtake) hch3 happ
  have hrun : vfs_mkdir s now x = some (s4, []) := by
    unfold vfs_mkdir
    have hlen : ¬ ((x.length : Int) > MAX_NAME_LENGHT) := by
      have := hx.2
      unfold MAX_NAME_LENGHT
      omega
    rw [if_neg hlen, if_pos f.cdv]
    simp only []
    rw [hlive, umod_legal s f.legal (live s) (by omega)]
    simp only []
    have hcap : ¬ ((if ((live s % epb s : Nat) : Int) = 0 then (1 : Int) else 0) + 1
        > s.sb.n_free_blocks) := by
      by_cases h : live s % epb s = 0
      · rw [if_pos h] at hfree
        rw [if_pos (by exact_mod_cast h)]
        omega
      · rw [if_neg h] at hfree
        rw [if_neg (by exact_mod_cast h)]
        omega
    rw [if_neg hcap, hfind]
    simp only []
    rw [hg]
    simp only []
    rw [hblk]
    simp only []
    rw [c3, hcd2]
    have happ' : append_entry s3 now s.current_dir ((live s : Nat) : Int) TYPE_DIR x 0
        s.sb.free_block = some s4 := by
      rw [← f.live_eq]
      exact happ
    rw [happ']
  have hslot : slot s4 dl1 (live s) = slot s dl1 (live s) := slot_congr s s4 hA.bs _ _
  have hidx : live s / epb s < dl1.length := by
    have := hA.dlast
    omega
  have hv1 : ∀ y ∈ dl1, valid_block s y := fun y hy =>
    (valid_block_congr s s4 hA.ft _).1 (path_valid s4 _ _ hA.dpath y hy)
  have hbdl1 : s.sb.free_block ∉ dl1 := by
    rcases hA.dgrow with ⟨_, h2, _⟩ | ⟨_, h2, _, h4⟩
    · rw [h2]
      exact fun h => f.disj _ h hbfl
    · rw [h2]
      intro h
      rcases List.mem_append.1 h with h | h
      · exact f.disj _ h hbfl
      · rw [List.mem_singleton, ← hb0] at h
        have := nodup_getD_inj _ f.fnd _ _ hk0 h4 h
        omega
  -- bytes of the new block are not bytes of the new entry
  have hout : ∀ z, BLOCK s s.sb.free_block ≤ z → z < BLOCK s s.sb.free_block + 64 →
      s4.blocks z = s3.blocks z := by
    intro z h1 h2
    apply hA.mem
    by_contra hcon
    push_neg at hcon
    have := slot_outside s f.legal dl1 hv1 (live s) hidx _ hbdl1 z hcon.1 hcon.2
    omega
  have hea0' : entry_addr s4 s.sb.free_block 0 = entry_addr s s.sb.free_block 0 :=
    entry_addr_congr s s4 hA.bs _ _
  have hea1' : entry_addr s4 s.sb.free_block 1 = entry_addr s s.sb.free_block 1 :=
    entry_addr_congr s s4 hA.bs _ _
  have e0 : entry_addr s s.sb.free_block 0 = BLOCK s s.sb.free_block := by
    unfold entry_addr; simp
  have e1 : entry_addr s s.sb.free_block 1 = BLOCK s s.sb.free_block + 32 := by
    unfold entry_addr sizeof_dir_entry; simp
  rw [e0] at c5 c6 c7 c8
  rw [e1] at c9 c10 c12
  refine ⟨s4, dl1, hrun, hA.bs, hA.ft, hA.cd, ?_, ?_, ?_, ?_, ?_, ?_, ?_, ?_, ?_, ?_, ?_, ?_, ?_,
    ?_⟩
  · rw [hA.cd]
    exact path_chain_some s4 _ _ hA.dpath
  · rw [← hA.dlast]
    have h1 : live s + 1 + (epb s - 1) = live s + epb s := by omega
    rw [h1, Nat.add_div_right _ (by omega)]
  · rw [hslot]; exact hA.new_type
  · rw [hslot]; exact hA.new_name
  · rw [hslot]; exact hA.new_fb
  · rw [hea0', e0]
    unfold e_type at c5 ⊢
    rw [hout _ (by omega) (by omega), c5]
  · rw [hea0', e0]
    refine ⟨fun i hi => ?_, ?_⟩
    · have := c6.1 i hi
      simp only [List.length_singleton] at hi
      rw [hout _ (by omega) (by omega)]
      exact this
    · have := c6.2
      simp only [List.length_singleton, Nat.cast_one] at this ⊢
      rw [hout _ (by omega) (by omega)]
      exact this
  · rw [hea0', e0]
    unfold e_size at c7 ⊢
    rw [load_int_congr _ _ _ (fun z h3 h4 => hout z (by omega) (by omega)), c7]
  · rw [hea0', e0]
    unfold e_first_block at c8 ⊢
    rw [load_int_congr _ _ _ (fun z h3 h4 => hout z (by omega) (by omega)), c8]
  · rw [hea1', e1]
    unfold e_type at c9 ⊢
    rw [hout _ (by omega) (by omega), c9]
  · rw [hea1', e1]
    refine ⟨fun i hi => ?_, ?_⟩
    · have := c10.1 i hi
      have hi2 : i < 2 := hi
      rw [hout _ (by omega) (by omega)]
      exact this
    · have := c10.2
      have hlen : ((([46, 46] : List Int).length : Nat) : Int) = 2 := rfl
      rw [hlen] at this ⊢
      rw [hout _ (by omega) (by omega)]
      exact this
  · rw [hea1', e1]
    unfold e_first_block at c12 ⊢
    rw [load_int_congr _ _ _ (fun z h3 h4 => hout z (by omega) (by omega)), c12]
  · unfold live_count
    rw [hA.cd, entry_addr_congr s s4 hA.bs, hA.size]
    rfl
  · rw [hA.nfree]
    rcases hA.dgrow with ⟨h1, _, h3⟩ | ⟨h1, _, h3, _⟩
    · rw [if_neg h1, h3]
      rfl
    · rw [if_pos h1, h3]
      rfl

/-- C24, an instance: `mkdir d2` in the root that holds `.`, `..`, `d0`, `d1`, which fill
its block; the directory gets a second block and two free blocks are taken. -/
theorem C24_mkdir_effect_witness :
    Inv image_two_dirs ∧ IsName (cstr "d2")
      ∧ (∀ i, i < live image_two_dirs → ¬ named image_two_dirs i (cstr "d2"))
      ∧ ((1 : Int) + (if live image_two_dirs % epb image_two_dirs = 0 then 1 else 0)
          ≤ image_two_dirs.sb.n_free_blocks)
      ∧ ∃ s' dl', vfs_mkdir image_two_dirs today (cstr "d2") = some (s', [])
          ∧ chain s' s'.current_dir = some dl' ∧ dl'.length = 2
          ∧ live_count s' = 5 ∧ s'.sb.n_free_blocks = 123 := by
  have hinv : Inv image_two_dirs := by
    apply inv_of_range _ 3 125
    unfold image_two_dirs
    rw [start_closed, new_image_closed]
    decide!
  have habs : ∀ i, i < live image_two_dirs → ¬ named image_two_dirs i (cstr "d2") := by
    unfold image_two_dirs
    rw [start_closed, new_image_closed]
    decide!
  have hfree : (1 : Int) + (if live image_two_dirs % epb image_two_dirs = 0 then 1 else 0)
      ≤ image_two_dirs.sb.n_free_blocks := by
    unfold image_two_dirs
    rw [start_closed, new_image_closed]
    decide!
  have hlive : live image_two_dirs = 4 := by
    unfold image_two_dirs
    rw [start_closed, new_image_closed]
    decide!
  have hepb : epb image_two_dirs = 4 := by
    unfold image_two_dirs
    rw [start_closed, new_image_closed]
    decide!
  have hlc : live_count image_two_dirs = 4 := by
    unfold image_two_dirs
    rw [start_closed, new_image_closed]
    decide!
  have hnf : image_two_dirs.sb.n_free_blocks = 125 := by
    unfold image_two_dirs
    rw [start_closed, new_image_closed]
    decide!
  obtain ⟨s', dl', h1, _, _, _, h5, h6, _, _, _, _, _, _, _, _, _, _, h17, h18⟩ :=
    C24_mkdir_effect image_two_dirs today (cstr "d2") hinv (by decide) habs hfree
  refine ⟨hinv, by decide, habs, hfree, s', dl', h1, h5, ?_, ?_, ?_⟩
  · rw [h6, hlive, hepb]
  · rw [h17, hlc]
    rfl
  · rw [h18, hnf, hlive, hepb]
    rfl

/-- C26 (the code departs from the claim): after `get F a`, `mkdir d`, `cp a d` on a new
image the directory `d` has the entries `.`, `..`, `a`.  A second `cp a d` prints nothing and
adds a second entry `a` to `d`; so does `mv a d` instead of it; and in a root that holds `a`,
`cp a .` adds a second entry `a` to the root itself. -/
theorem C26_cp_into_directory_repeats_name :
    printed session_copy_in_dir = some []
      ∧ observe (andThen session_copy_in_dir (fun s => vfs_cd s (cstr "d"))) live_names
          = some [some (cstr "."), some (cstr ".."), some (cstr "a")]
      ∧ printed (andThen session_copy_in_dir (fun s => vfs_cp s today (cstr "a") (cstr "d")))
          = some []
      ∧ observe (andThen (andThen session_copy_in_dir
            (fun s => vfs_cp s today (cstr "a") (cstr "d"))) (fun s => vfs_cd s (cstr "d")))
          live_names = some [some (cstr "."), some (cstr ".."), some (cstr "a"), some (cstr "a")]
      ∧ printed (andThen session_copy_in_dir (fun s => vfs_mv s today (cstr "a") (cstr "d")))
          = some []
      ∧ observe (andThen (andThen session_copy_in_dir
            (fun s => vfs_mv s today (cstr "a") (cstr "d"))) (fun s => vfs_cd s (cstr "d")))
          live_names = some [some (cstr "."), some (cstr ".."), some (cstr "a"), some (cstr "a")]
      ∧ live_names image_one_file = [some (cstr "."), some (cstr ".."), some (cstr "a")]
      ∧ printed (vfs_cp image_one_file today (cstr "a") (cstr ".")) = some []
      ∧ observe (vfs_cp image_one_file today (cstr "a") (cstr ".")) live_names
          = some [some (cstr "."), some (cstr ".."), some (cstr "a"), some (cstr "a")] := by
  unfold image_one_file session_copy_in_dir
  rw [start_closed, new_image_closed]
  decide!

end VFS
